import Mathlib

/-!
# netbuf: queue, pool and sender

A shallow embedding of `net::buffer`, `net::buffer::allocator`, `net::buffers`,
`net::sender` and the address parsing of `net::socket::address` (files
`src/net/buffer.{h,cpp}`, `src/net/buffers.{h,cpp}`, `src/net/sender.{h,cpp}`,
`src/net/socket.cpp`).

Buffer objects live in a memory `Mem`: a pointer is `nullptr`, the address of
the queue's sentinel `_M_header`, or the address of a heap buffer.  Every
member function is translated statement by statement into a function on
`Mem`; mutexes and condition variables are not modelled, a call that holds
the mutex is one atomic step.
-/

namespace net

/-! ## Memory -/

/-- Pointer to a `buffer` object: `nullptr`, `&_M_header`, or the address of
the heap buffer number `id`. -/
inductive Ptr
  | null
  | header
  | buf (id : Nat)
deriving DecidableEq, Repr

/-- One more than the largest `size_t` (64-bit platform). -/
def SIZE_MOD : Nat := 2 ^ 64

/-- Memory of the program: the `_M_next`, `_M_prev` and `_M_data` (with
`_M_length` = its length) members of every buffer object, the queue's
`_M_count` and the allocator's `_M_first`. -/
structure Mem where
  next : Ptr → Ptr
  prev : Ptr → Ptr
  data : Ptr → List Nat
  count : Nat
  first : Ptr

/-- Setter `buffer::next(buffer* buf)` applied to the object at `p`. -/
def Mem.setNext (m : Mem) (p v : Ptr) : Mem :=
  { m with next := fun q => if q = p then v else m.next q }

/-- Setter `buffer::prev(buffer* buf)` applied to the object at `p`. -/
def Mem.setPrev (m : Mem) (p v : Ptr) : Mem :=
  { m with prev := fun q => if q = p then v else m.prev q }

/-- Faults of an execution: the model ran out of fuel (the loop did not end
within the given number of rounds), or the code dereferenced `nullptr`. -/
inductive Fault
  | out_of_fuel
  | null_deref
deriving DecidableEq, Repr

/-! ## `net::buffers` (buffers.h, buffers.cpp) -/

namespace buffers

/-- Constructor `buffers::buffers()`: the header is linked to itself,
`_M_count = 0`. -/
def init (m : Mem) : Mem :=
  let m := m.setPrev .header .header
  let m := m.setNext .header .header
  { m with count := 0 }

/-- The loop of `buffers::distance(first, last)`; `count` starts at 1 and
wraps like a `size_t`. One unit of fuel per test of the loop condition. -/
def distance_loop (m : Mem) : Nat → Ptr → Ptr → Nat → Except Fault Nat
  | 0, _, _, _ => .error .out_of_fuel
  | fuel + 1, first, last, count =>
    if first = last then .ok count
    else distance_loop m fuel (m.next first) last ((count + 1) % SIZE_MOD)

/-- `buffers::distance(first, last)`. -/
def distance (m : Mem) (fuel : Nat) (first last : Ptr) : Except Fault Nat :=
  distance_loop m fuel first last 1

/-- `buffers::push_front(buffer* buf)`. -/
def push_front (m : Mem) (buf : Ptr) : Mem × Nat :=
  let m := m.setPrev buf .header
  let m := m.setNext buf (m.next .header)
  let m := m.setPrev (m.next .header) buf
  let m := m.setNext .header buf
  let m := { m with count := (m.count + 1) % SIZE_MOD }
  (m, m.count)

/-- `buffers::push_front(buffer* first, buffer* last)`. -/
def push_front_range (m : Mem) (fuel : Nat) (first last : Ptr) : Except Fault (Mem × Nat) := do
  let count ← distance m fuel first last
  let m := m.setPrev first .header
  let m := m.setNext last (m.next .header)
  let m := m.setPrev (m.next .header) last
  let m := m.setNext .header first
  let m := { m with count := (m.count + count) % SIZE_MOD }
  pure (m, m.count)

/-- `buffers::push_back(buffer* buf)`. -/
def push_back (m : Mem) (buf : Ptr) : Mem × Nat :=
  let m := m.setPrev buf (m.prev .header)
  let m := m.setNext buf .header
  let m := m.setNext (m.prev .header) buf
  let m := m.setPrev .header buf
  let m := { m with count := (m.count + 1) % SIZE_MOD }
  (m, m.count)

/-- `buffers::push_back(buffer* first, buffer* last)`. -/
def push_back_range (m : Mem) (fuel : Nat) (first last : Ptr) : Except Fault (Mem × Nat) := do
  let count ← distance m fuel first last
  let m := m.setPrev first (m.prev .header)
  let m := m.setNext last .header
  let m := m.setNext (m.prev .header) first
  let m := m.setPrev .header last
  let m := { m with count := (m.count + count) % SIZE_MOD }
  pure (m, m.count)

/-- `buffers::pop_front()`: the returned pointer is `nullptr` when the queue
is empty. -/
def pop_front (m : Mem) : Mem × Ptr :=
  let buf := m.next .header
  if buf ≠ .header then
    let m := m.setPrev (m.next buf) .header
    let m := m.setNext .header (m.next buf)
    let m := { m with count := (m.count + SIZE_MOD - 1) % SIZE_MOD }
    (m, buf)
  else
    (m, .null)

/-- `buffers::pop(buffer*& first, buffer*& last)`: returns the memory, `first`,
`last` and the count. -/
def pop (m : Mem) : Mem × Ptr × Ptr × Nat :=
  if m.next .header ≠ .header then
    let first := m.next .header
    let last := m.prev .header
    let count := m.count
    let m := m.setPrev .header .header
    let m := m.setNext .header .header
    let m := { m with count := 0 }
    (m, first, last, count)
  else
    (m, .null, .null, 0)

end buffers

/-! ## Representation predicates -/

/-- The pointers of the heap buffers `xs`. -/
def bufs (xs : List Nat) : List Ptr := xs.map Ptr.buf

/-- Consecutive objects of `ps` are doubly linked: `a->next() == b` and
`b->prev() == a` for every adjacent pair `a, b`. -/
def Dlinked (m : Mem) (ps : List Ptr) : Prop :=
  List.Chain' (fun a b => m.next a = b ∧ m.prev b = a) ps

/-- Consecutive objects of `ps` are linked through `next` only. -/
def Slinked (m : Mem) (ps : List Ptr) : Prop :=
  List.Chain' (fun a b => m.next a = b) ps

/-- The queue holds exactly the buffers `xs`, front first: starting at the
header, the cycle header, `xs`, header is doubly linked, and no buffer occurs
twice. -/
structure QueueRep (m : Mem) (xs : List Nat) : Prop where
  nodup : xs.Nodup
  links : Dlinked m (Ptr.header :: bufs xs ++ [Ptr.header])

/-- The pool's free list holds exactly the buffers `ps`, top first:
`_M_first` starts a `next` chain through `ps` that ends in `nullptr`. -/
structure PoolRep (m : Mem) (ps : List Nat) : Prop where
  nodup : ps.Nodup
  head : (bufs ps ++ [Ptr.null]).head? = some m.first
  links : Slinked m (bufs ps ++ [Ptr.null])

/-- A detached chain `first..last` made of the buffers `c :: cs`: doubly
linked, without repetition, `first` its first and `last` its last buffer. -/
structure ChainRep (m : Mem) (first last : Ptr) (chain : List Nat) : Prop where
  nonempty : chain ≠ []
  nodup : chain.Nodup
  links : Dlinked m (bufs chain)
  first_eq : (bufs chain).head? = some first
  last_eq : (bufs chain).getLast? = some last

/-- Memory after `push_back(first, last)` when `distance` returned `count`. -/
def push_back_range_mem (m : Mem) (first last : Ptr) (count : Nat) : Mem :=
  let m := m.setPrev first (m.prev .header)
  let m := m.setNext last .header
  let m := m.setNext (m.prev .header) first
  let m := m.setPrev .header last
  { m with count := (m.count + count) % SIZE_MOD }

/-! ## Sequences of queue calls -/

/-- One call of `push_back`: `one b` is `push_back(buf)` on the buffer `b`;
`range c cs` is `push_back(first, last)` on the chain `c :: cs`, with `first`
the address of `c` and `last` the address of the chain's last buffer. -/
inductive Push
  | one (b : Nat)
  | range (c : Nat) (cs : List Nat)

/-- The buffers handed over by a call, in chain order. -/
def Push.ids : Push → List Nat
  | .one b => [b]
  | .range c cs => c :: cs

/-- The `last` argument of a batch call. -/
def Push.last (c : Nat) (cs : List Nat) : Nat := (c :: cs).getLast (List.cons_ne_nil c cs)

/-- Run one `push_back` call; the result is the memory and the returned count. -/
def push_back_call (fuel : Nat) (m : Mem) : Push → Except Fault (Mem × Nat)
  | .one b => .ok (buffers.push_back m (.buf b))
  | .range c cs => buffers.push_back_range m fuel (.buf c) (.buf (Push.last c cs))

/-- Run a sequence of `push_back` calls from left to right. -/
def push_back_calls (fuel : Nat) : Mem → List Push → Except Fault Mem
  | m, [] => .ok m
  | m, op :: ops =>
    match push_back_call fuel m op with
    | .ok (m1, _) => push_back_calls fuel m1 ops
    | .error e => .error e

/-- The pointers returned by `n` successive calls of `pop_front()`, and the
memory after them. -/
def pop_fronts : Nat → Mem → Mem × List Ptr
  | 0, m => (m, [])
  | n + 1, m =>
    let r := buffers.pop_front m
    let rs := pop_fronts n r.1
    (rs.1, r.2 :: rs.2)

/-- Boolean test that consecutive elements of a list are related by `r`. -/
def chainB {α : Type} (r : α → α → Bool) : List α → Bool
  | [] => true
  | [_] => true
  | a :: b :: l => r a b && chainB r (b :: l)

instance (m : Mem) (ps : List Ptr) : Decidable (Dlinked m ps) :=
  decidable_of_iff (chainB (fun a b => decide (m.next a = b ∧ m.prev b = a)) ps = true) (by
    unfold Dlinked
    induction ps with
    | nil => simp [chainB]
    | cons a l ih =>
      cases l with
      | nil => simp [chainB]
      | cons b l => rw [List.chain'_cons, ← ih]; simp [chainB])

instance (m : Mem) (ps : List Ptr) : Decidable (Slinked m ps) :=
  decidable_of_iff (chainB (fun a b => decide (m.next a = b)) ps = true) (by
    unfold Slinked
    induction ps with
    | nil => simp [chainB]
    | cons a l ih =>
      cases l with
      | nil => simp [chainB]
      | cons b l => rw [List.chain'_cons, ← ih]; simp [chainB])

instance (m : Mem) (xs : List Nat) : Decidable (QueueRep m xs) :=
  decidable_of_iff (xs.Nodup ∧ Dlinked m (Ptr.header :: bufs xs ++ [Ptr.header]))
    ⟨fun h => ⟨h.1, h.2⟩, fun h => ⟨h.1, h.2⟩⟩

/-! ## Sample memories -/

/-- A memory in which every link is `nullptr`, except that the buffers 2 and 3
form the chain 2, 3; the queue is not yet constructed. -/
def sample_raw : Mem where
  next := fun p => if p = .buf 2 then .buf 3 else .null
  prev := fun p => if p = .buf 3 then .buf 2 else .null
  data := fun p => match p with
    | .buf n => [n]
    | _ => []
  count := 0
  first := .null

/-- The sample memory with a freshly constructed (empty) queue. -/
def sample_mem : Mem := buffers.init sample_raw

/-! ## `net::buffer::allocator` (buffer.h, buffer.cpp) -/

namespace allocator

/-- `buffer::allocator::allocation`. -/
def allocation : Nat := 10000

/-- `allocator::put(buffer* buf)`. -/
def put (m : Mem) (buf : Ptr) : Mem :=
  let m := m.setNext buf m.first
  { m with first := buf }

/-- The loop of `allocator::allocate()`: `i` counts down from `allocation`;
`alloc j` is the outcome of the `j`-th `new (std::nothrow) buffer()` of this
call, the address of a fresh buffer or `none` when the allocation fails. A
fresh buffer has `_M_data == nullptr`; its links are not initialised. -/
def allocate_loop (alloc : Nat → Option Nat) : Nat → Nat → Mem → Mem
  | 0, _, m => m
  | i + 1, j, m =>
    match alloc j with
    | some id =>
      let m := { m with data := fun q => if q = Ptr.buf id then [] else m.data q }
      let m := m.setNext (.buf id) m.first
      let m := { m with first := .buf id }
      allocate_loop alloc i (j + 1) m
    | none => m

/-- `allocator::allocate()`. -/
def allocate (alloc : Nat → Option Nat) (m : Mem) : Mem × Bool :=
  let m := allocate_loop alloc allocation 0 m
  (m, decide (m.first ≠ Ptr.null))

/-- `allocator::get()`; the right operand of `||` runs only when `_M_first`
is null. -/
def get (alloc : Nat → Option Nat) (m : Mem) : Mem × Ptr :=
  let r := if m.first ≠ .null then (m, true) else allocate alloc m
  if r.2 then
    let m := r.1
    let buf := m.first
    let m := { m with first := m.next m.first }
    (m, buf)
  else
    (r.1, .null)

end allocator

instance (m : Mem) (ps : List Nat) : Decidable (PoolRep m ps) :=
  decidable_of_iff (ps.Nodup ∧ (bufs ps ++ [Ptr.null]).head? = some m.first ∧
      Slinked m (bufs ps ++ [Ptr.null]))
    ⟨fun h => ⟨h.1, h.2.1, h.2.2⟩, fun h => ⟨h.1, h.2, h.3⟩⟩

/-- A memory whose pool holds the buffers 5 and 6 (5 on top) and whose queue
is empty. -/
def sample_pool : Mem where
  next := fun p => if p = .buf 5 then .buf 6 else if p = .header then .header else .null
  prev := fun p => if p = .header then .header else .null
  data := fun _ => []
  count := 0
  first := .buf 5

/-- Allocation outcomes: the buffers 100, 101, 102, then failure. -/
def sample_alloc : Nat → Option Nat := fun j => if j < 3 then some (100 + j) else none

/-! ## The spill directory and `buffer::save` (buffer.cpp) -/

/-- An entry of the spill directory as `readdir` reports it: its `d_name`,
whether `stat` says it is a regular file, and its bytes. -/
structure File where
  name : String
  regular : Bool
  content : List Nat
deriving DecidableEq, Repr

/-- `PATH_MAX` of `<limits.h>` (Linux). -/
def PATH_MAX : Nat := 4096

/-- One more than the largest `unsigned`. -/
def UINT_MOD : Nat := 2 ^ 32

/-- Conversion of an `int` argument read by `%u`. -/
def to_unsigned (x : Int) : Nat := (x % (UINT_MOD : Int)).toNat

/-- The fields of `struct tm` that `save_buffer` prints. -/
structure Tm where
  tm_year : Int
  tm_mon : Int
  tm_mday : Int
  tm_hour : Int
  tm_min : Int
  tm_sec : Int

/-- The characters printed by the conversion `%0wu` for the value `n`. -/
def fmt_u (w : Nat) (n : Nat) : List Char :=
  let ds := Nat.toDigits 10 n
  List.replicate (w - ds.length) '0' ++ ds

/-- The text printed by the format `%04u%02u%02u-%02u%02u%02u_%06u` of
`save_buffer`, after the directory and the slash. -/
def spill_name (tm : Tm) (cnt : Nat) : List Char :=
  fmt_u 4 (to_unsigned (1900 + tm.tm_year)) ++ fmt_u 2 (to_unsigned (1 + tm.tm_mon)) ++
  fmt_u 2 (to_unsigned tm.tm_mday) ++ ['-'] ++ fmt_u 2 (to_unsigned tm.tm_hour) ++
  fmt_u 2 (to_unsigned tm.tm_min) ++ fmt_u 2 (to_unsigned tm.tm_sec) ++ ['_'] ++ fmt_u 6 cnt

/-- The file name composed by `save_buffer`: `snprintf` into a buffer of
`PATH_MAX + 23` bytes keeps at most `PATH_MAX + 22` characters. -/
def spill_path (dir : String) (tm : Tm) (cnt : Nat) : String :=
  String.mk ((dir.data ++ ['/'] ++ spill_name tm cnt).take (PATH_MAX + 22))

/-- The file name composed by `send_files` for the entry `d_name` (a `d_name`
has at most 255 characters, the buffer has `PATH_MAX + 256` bytes). -/
def entry_path (dir : String) (d_name : String) : String :=
  String.mk ((dir.data ++ ['/'] ++ d_name.data).take (PATH_MAX + 255))

/-- `stat(filename, &sbuf) == 0`: some entry of the directory has this path. -/
def fs_exists (dir : String) (fs : List File) (path : String) : Bool :=
  fs.any (fun f => entry_path dir f.name == path)

/-- `unlink(filename)`. -/
def fs_unlink (dir : String) (fs : List File) (path : String) : List File :=
  fs.filter (fun f => entry_path dir f.name != path)

/-- The directory after a regular file `path` with the given bytes has been
created (or truncated and rewritten). -/
def fs_write (dir : String) (fs : List File) (path : String) (bytes : List Nat) : List File :=
  fs_unlink dir fs path ++ [{ name := String.mk (path.data.drop (dir.data.length + 1)),
                              regular := true, content := bytes }]

/-- Result of one `write` call: the returned value, and whether `errno` is
`EINTR` when the value is negative. -/
structure WriteRes where
  ret : Int
  eintr : Bool

/-- Outcomes of the system calls of one `buffer::save`: whether `open`
succeeds, and the results of the successive `write` calls. -/
structure SaveOracle where
  open_ok : Bool
  writes : List WriteRes

namespace buffer

/-- The `while (written < _M_length)` loop of `buffer::save`. The result is
the bytes written when the loop ends normally and `none` when a `write` fails
with an error other than `EINTR`; the loop is out of fuel when the given
`write` results are used up. -/
def save_loop (data : List Nat) : List WriteRes → Nat → List Nat → Except Fault (Option (List Nat))
  | [], written, out =>
    if written < data.length then .error .out_of_fuel else .ok (some out)
  | w :: ws, written, out =>
    if written < data.length then
      if w.ret > 0 then
        save_loop data ws (written + w.ret.toNat)
          (out ++ ((data.drop written).take w.ret.toNat))
      else if w.ret < 0 then
        if !w.eintr then .ok none else save_loop data ws written out
      else save_loop data ws written out
    else .ok (some out)

/-- `buffer::save(filename)` on the buffer at `p`: the directory afterwards
and the returned flag. Calling it through `nullptr` is a fault. -/
def save (m : Mem) (p : Ptr) (dir : String) (fs : List File) (path : String)
    (o : SaveOracle) : Except Fault (List File × Bool) :=
  if p = .null then .error .null_deref
  else if o.open_ok then
    match save_loop (m.data p) o.writes 0 [] with
    | .ok (some out) => .ok (fs_write dir fs path out, true)
    | .ok none => .ok (fs_unlink dir fs path, false)
    | .error e => .error e
  else .ok (fs, false)

end buffer

/-! ## `net::sender` (sender.h, sender.cpp) -/

/-- `sender::state`. -/
inductive State
  | sending_files
  | sending_queued_buffers
deriving DecidableEq, Repr

/-- What a transport send carries: the payload of a queued buffer or the
contents of a spill file. -/
inductive Src
  | buffer (p : Ptr)
  | file (path : String)
deriving DecidableEq, Repr

/-- Observable events of the sender, recorded in the order they happen. -/
inductive Event
  | connect (ok : Bool)
  | disconnect
  | peer_check (closed : Bool)
  | transport_send (src : Src) (payload : List Nat) (ok : Bool)
  | put (p : Ptr)
  | save (p : Ptr) (path : String) (ok : Bool)
  | unlink (path : String)
deriving DecidableEq, Repr

/-- Program point of the worker thread inside `sender::run()`: at the head of
the outer loop body; inside the inner loop, about to send `first`; after a
failed lazy connect, about to push `first..last` back; after the outer loop,
about to call `save_buffers()`; returned. -/
inductive Pc
  | top
  | sending (first last : Ptr)
  | requeue (first last : Ptr)
  | exiting
  | done
deriving DecidableEq, Repr

/-- The sender together with the objects it works on: the memory (queue, pool,
buffers), the spill directory and its entries, the members of `sender`, the
local `error_sending` and program point of the worker, and the event trace. -/
structure Sender where
  mem : Mem
  directory : String
  files : List File
  state : State
  current_time : Int
  last_socket_operation : Int
  connected : Bool
  running : Bool
  error_sending : Bool
  pc : Pc
  trace : List Event

/-- Outcomes of the calls made for one directory entry in `send_files`. -/
structure FileOracle where
  stat_ok : Bool
  open_ok : Bool
  mmap_ok : Bool
  peer_closed : Bool
  send_ok : Bool

/-- Outcomes of the external calls of one worker step. -/
structure Oracle where
  now : Int
  connect_ok : Bool
  peer_closed : Bool
  send_ok : Bool
  opendir_ok : Bool
  file : Nat → FileOracle
  localtime : Int → Tm
  saves : List SaveOracle

namespace sender

/-- `sender::idle_timeout`. -/
def idle_timeout : Int := 60

/-- `sender::reconnection_time`. -/
def reconnection_time : Int := 30

/-- `sender::max_queued_buffers`. -/
def max_queued_buffers : Nat := 10000

/-- `sender::connected()`: the socket descriptor is not -1. -/
def connected (s : Sender) : Bool := s.connected

/-- `sender::disconnect()`. -/
def disconnect (s : Sender) : Sender :=
  { s with connected := false, trace := s.trace ++ [Event.disconnect] }

/-- `sender::connect()`; `connect_ok` is the outcome of the variant's connect,
which leaves the descriptor open exactly when it succeeds. -/
def connect (connect_ok : Bool) (s : Sender) : Sender × Bool :=
  if connected s then (s, true)
  else
    let s := { s with last_socket_operation := s.current_time }
    ({ s with connected := connect_ok, trace := s.trace ++ [Event.connect connect_ok] },
      connect_ok)

/-- `sender::send(const void* buf, size_t len)`; `src` names what the bytes
belong to. The transport send runs only when the peer has not closed. -/
def send_bytes (peer_closed send_ok : Bool) (src : Src) (payload : List Nat) (s : Sender) :
    Sender × Bool :=
  let s := { s with last_socket_operation := s.current_time }
  let s := { s with trace := s.trace ++ [Event.peer_check peer_closed] }
  if !peer_closed then
    let s := { s with trace := s.trace ++ [Event.transport_send src payload send_ok] }
    if send_ok then (s, true) else (disconnect s, false)
  else (disconnect s, false)

/-- The call `_M_allocator.put(buf)`. -/
def put (s : Sender) (buf : Ptr) : Sender :=
  { s with mem := allocator.put s.mem buf, trace := s.trace ++ [Event.put buf] }

/-- The call `unlink(filename)` of `send_files`. -/
def unlink (s : Sender) (path : String) : Sender :=
  { s with files := fs_unlink s.directory s.files path, trace := s.trace ++ [Event.unlink path] }

/-- `sender::send_file(filename, filesize)`; `content` is the bytes of the
file. `mmap` of a zero length fails. -/
def send_file (o : FileOracle) (s : Sender) (path : String) (filesize : Nat)
    (content : List Nat) : Sender × Bool :=
  if o.open_ok then
    if o.mmap_ok && decide (filesize ≠ 0) then
      send_bytes o.peer_closed o.send_ok (Src.file path) (content.take filesize) s
    else (s, true)
  else (s, true)

/-- The `readdir` loop of `send_files` over the remaining entries; `k` is the
position of the entry in the listing. -/
def send_files_loop (fo : Nat → FileOracle) : List File → Nat → Sender → Sender × Bool
  | [], _, s => (s, true)
  | e :: es, k, s =>
    if e.name ≠ "." ∧ e.name ≠ ".." then
      let path := entry_path s.directory e.name
      if (fo k).stat_ok && e.regular then
        let r := send_file (fo k) s path e.content.length e.content
        if r.2 then send_files_loop fo es (k + 1) (unlink r.1 path)
        else (r.1, false)
      else send_files_loop fo es (k + 1) s
    else send_files_loop fo es (k + 1) s

/-- `sender::send_files()`; the listing is the directory's entries in the
order `readdir` returns them. -/
def send_files (o : Oracle) (s : Sender) : Sender × Bool :=
  let r := connect o.connect_ok s
  if r.2 then
    if o.opendir_ok then
      let r := send_files_loop o.file r.1.files 0 r.1
      if r.2 then ({ r.1 with state := State.sending_queued_buffers }, true)
      else (r.1, false)
    else (r.1, false)
  else (r.1, false)

/-- The filename search of `save_buffer`: `cnt` is the `unsigned` counter;
one unit of fuel per round. -/
def probe (dir : String) (fs : List File) (tm : Tm) : Nat → Nat → Except Fault (String × Nat)
  | 0, _ => .error .out_of_fuel
  | fuel + 1, cnt =>
    let path := spill_path dir tm cnt
    let cnt := (cnt + 1) % UINT_MOD
    if fs_exists dir fs path then probe dir fs tm fuel cnt else .ok (path, cnt)

/-- `sender::save_buffer(buf, count)`: the sender, the new `count` and the
returned flag. The search gets `UINT_MOD` rounds: after that many the counter
is back at its first value, so a search that has not ended by then never
ends. -/
def save_buffer (localtime : Int → Tm) (o : SaveOracle) (s : Sender) (buf : Ptr) (count : Nat) :
    Except Fault (Sender × Nat × Bool) := do
  let tm := localtime s.current_time
  let (path, cnt) ← probe s.directory s.files tm UINT_MOD count
  let (fs, ok) ← buffer.save s.mem buf s.directory s.files path o
  pure ({ s with files := fs, trace := s.trace ++ [Event.save buf path ok] }, cnt, ok)

/-- The `do ... while (true)` loop of `save_buffers`; every round uses the
next element of the list of save outcomes, and the loop is out of fuel when
the list is used up. -/
def save_loop (localtime : Int → Tm) :
    List SaveOracle → Sender → Ptr → Ptr → Nat → Bool → Except Fault (Sender × Bool)
  | [], _, _, _, _, _ => .error .out_of_fuel
  | o :: os, s, first, last, count, ret =>
    match save_buffer localtime o s first count with
    | .error e => .error e
    | .ok (s, count, ok) =>
      if ok then
        if first ≠ last then
          let next := s.mem.next first
          let s := put s first
          save_loop localtime os s next last count ret
        else
          let s := put s first
          .ok (s, ret)
      else
        let s := put s first
        save_loop localtime os s first last count false

/-- `sender::save_buffers()`. -/
def save_buffers (localtime : Int → Tm) (os : List SaveOracle) (s : Sender) :
    Except Fault (Sender × Bool) :=
  let r := buffers.pop s.mem
  let s := { s with mem := r.1 }
  if r.2.2.2 > 0 then save_loop localtime os s r.2.1 r.2.2.1 0 true
  else .ok (s, true)

/-- `sender::send(buffer* buf)`. -/
def send (localtime : Int → Tm) (os : List SaveOracle) (s : Sender) (buf : Ptr) :
    Except Fault Sender :=
  let r := buffers.push_back s.mem buf
  let s := { s with mem := r.1 }
  if r.2 > max_queued_buffers then
    match save_buffers localtime os s with
    | .ok (s, _) => .ok { s with state := State.sending_files }
    | .error e => .error e
  else .ok s

/-- `sender::send(buffer* first, buffer* last)`. -/
def send_range (localtime : Int → Tm) (os : List SaveOracle) (fuel : Nat) (s : Sender)
    (first last : Ptr) : Except Fault Sender :=
  match buffers.push_back_range s.mem fuel first last with
  | .error e => .error e
  | .ok (m, k) =>
    let s := { s with mem := m }
    if k > max_queued_buffers then
      match save_buffers localtime os s with
      | .ok (s, _) => .ok { s with state := State.sending_files }
      | .error e => .error e
    else .ok s

end sender

namespace buffers

/-- `buffers::pop(buffer*& first, buffer*& last, unsigned timeout)` as one
atomic step of the calling thread: a non-empty queue is drained at once; on an
empty queue the thread waits, no other thread runs inside the step, so every
wake-up finds the queue empty and the call leaves at the timeout with 0. -/
def pop_timed (m : Mem) : Mem × Ptr × Ptr × Nat :=
  if m.next .header ≠ .header then
    let first := m.next .header
    let last := m.prev .header
    let count := m.count
    let m := m.setPrev .header .header
    let m := m.setNext .header .header
    let m := { m with count := 0 }
    (m, first, last, count)
  else
    (m, .null, .null, 0)

end buffers

namespace sender

/-- The test `while (_M_running)` that ends every round of the outer loop of
`run()`, also after `continue`. -/
def end_iteration (s : Sender) : Sender :=
  if s.running then { s with pc := Pc.top } else { s with pc := Pc.exiting }

/-- The calls `_M_buffers.push_front(first, last); error_sending = true;` that
`run()` makes after a failed send or a failed lazy connect, up to the end of
the round. -/
def requeue (fuel : Nat) (s : Sender) (first last : Ptr) : Except Fault Sender :=
  match buffers.push_front_range s.mem fuel first last with
  | .error e => .error e
  | .ok (m, _) => .ok (end_iteration { s with mem := m, error_sending := true })

/-- The part of a round of `run()` from `if (_M_state == ...)` to the timed
pop and the lazy connect, or through `send_files`. -/
def run_body (o : Oracle) (s : Sender) : Sender :=
  if s.state = State.sending_queued_buffers then
    let r := buffers.pop_timed s.mem
    let s := { s with mem := r.1 }
    if r.2.2.2 > 0 then
      let c := connect o.connect_ok s
      if c.2 then { c.1 with pc := Pc.sending r.2.1 r.2.2.1 }
      else { c.1 with pc := Pc.requeue r.2.1 r.2.2.1 }
    else
      if connected s && decide (s.current_time - s.last_socket_operation ≥ idle_timeout) then
        end_iteration (disconnect s)
      else end_iteration s
  else
    let r := send_files o s
    end_iteration { r.1 with error_sending := !r.2 }

/-- One atomic step of the worker thread in `sender::run()`. Each step makes
at most one call that takes the mutex of the queue or of the pool; the calls
of other threads happen between steps. -/
def run_step (fuel : Nat) (o : Oracle) (s : Sender) : Except Fault Sender :=
  match s.pc with
  | Pc.top =>
    let s := { s with current_time := o.now }
    if s.error_sending then
      if s.current_time - s.last_socket_operation ≥ reconnection_time then
        let r := connect o.connect_ok s
        let s := { r.1 with error_sending := !r.2 }
        if s.error_sending then .ok (end_iteration s)
        else .ok (run_body o s)
      else .ok (end_iteration s)
    else .ok (run_body o s)
  | Pc.sending first last =>
    let r := send_bytes o.peer_closed o.send_ok (Src.buffer first) (s.mem.data first) s
    if r.2 then
      if first ≠ last then
        let next := r.1.mem.next first
        let s := put r.1 first
        .ok { s with pc := Pc.sending next last }
      else
        let s := put r.1 first
        .ok (end_iteration s)
    else requeue fuel r.1 first last
  | Pc.requeue first last => requeue fuel s first last
  | Pc.exiting =>
    match save_buffers o.localtime o.saves s with
    | .ok (s, _) => .ok { s with pc := Pc.done }
    | .error e => .error e
  | Pc.done => .ok s

end sender

/-! ## Interleavings of the worker with producers -/

/-- A step of the system: a step of the worker thread with the outcomes of its
external calls, or one `push_back` call of a producer thread. -/
inductive Action
  | worker (o : Oracle)
  | push (p : Push)

/-- Run one step. -/
def step (fuel : Nat) (s : Sender) : Action → Except Fault Sender
  | .worker o => sender.run_step fuel o s
  | .push p =>
    match push_back_call fuel s.mem p with
    | .ok (m, _) => .ok { s with mem := m }
    | .error e => .error e

/-- Run an interleaving from left to right. -/
def exec (fuel : Nat) : Sender → List Action → Except Fault Sender
  | s, [] => .ok s
  | s, a :: as =>
    match step fuel s a with
    | .ok s1 => exec fuel s1 as
    | .error e => .error e

/-- The buffers pushed by the producer steps of an interleaving, in order. -/
def pushed : List Action → List Nat
  | [] => []
  | .worker _ :: as => pushed as
  | .push p :: as => p.ids ++ pushed as

/-- The buffers whose transport send succeeded, in the order of the sends. -/
def sent_buffers : List Event → List Ptr
  | [] => []
  | .transport_send (.buffer p) _ true :: es => p :: sent_buffers es
  | _ :: es => sent_buffers es

/-- The payloads whose transport send succeeded, in the order of the sends. -/
def sent_payloads : List Event → List (List Nat)
  | [] => []
  | .transport_send _ payload true :: es => payload :: sent_payloads es
  | _ :: es => sent_payloads es

/-- The buffers passed to `allocator::put`, in order. -/
def put_buffers : List Event → List Ptr
  | [] => []
  | .put p :: es => p :: put_buffers es
  | _ :: es => put_buffers es

/-- The number of transport sends attempted. -/
def send_attempts : List Event → Nat
  | [] => 0
  | .transport_send _ _ _ :: es => send_attempts es + 1
  | _ :: es => send_attempts es

/-- One round of the outer loop of `run()` interleaved with producers: before
each worker step the listed `push_back` calls run; the round is over when the
worker is back at the head of the loop or has left it. -/
def iteration (fuel : Nat) : List (List Push × Oracle) → Sender → Except Fault Sender
  | [], _ => .error .out_of_fuel
  | (ps, o) :: rest, s =>
    match exec fuel s (ps.map Action.push) with
    | .error e => .error e
    | .ok s1 =>
      match sender.run_step fuel o s1 with
      | .error e => .error e
      | .ok s2 =>
        match s2.pc with
        | Pc.sending _ _ => iteration fuel rest s2
        | Pc.requeue _ _ => iteration fuel rest s2
        | _ => .ok s2

/-- Memory after `push_front(first, last)` when `distance` returned `count`. -/
def push_front_range_mem (m : Mem) (first last : Ptr) (count : Nat) : Mem :=
  let m := m.setPrev first .header
  let m := m.setNext last (m.next .header)
  let m := m.setPrev (m.next .header) last
  let m := m.setNext .header first
  { m with count := (m.count + count) % SIZE_MOD }


/-! ## Ownership invariant -/

/-- Every buffer is in exactly one place: the queue holds `q`, the worker's
detached chain holds `c` (empty unless the worker is between the pop and the
end of its round), the pool's free list holds `p`; `_M_count` is the length of
the queue and the number of buffers fits a `size_t`. -/
structure Inv (s : Sender) (q c p : List Nat) : Prop where
  queue : QueueRep s.mem q
  count : s.mem.count = q.length
  pool : PoolRep s.mem p
  nodup : (p ++ c ++ q).Nodup
  bound : (p ++ c ++ q).length < SIZE_MOD
  chain : match s.pc with
    | Pc.sending f l => ChainRep s.mem f l c
    | Pc.requeue f l => ChainRep s.mem f l c
    | _ => c = []

/-- The worker's program point after a successful send when `c` is the rest
of its chain: back at the head of the loop when nothing is left, otherwise
about to send the next buffer. -/
def pc_after_send (c : List Nat) (last : Ptr) : Pc :=
  match c with
  | [] => Pc.top
  | x :: _ => Pc.sending (.buf x) last

/-- The trace `t2` extends `t1` without a successful or attempted transport
send and without a `put`. -/
def Quiet (t1 t2 : List Event) : Prop :=
  sent_buffers t2 = sent_buffers t1 ∧ sent_payloads t2 = sent_payloads t1 ∧
  put_buffers t2 = put_buffers t1 ∧ send_attempts t2 = send_attempts t1

/-- The worker is inside its loop: at the head of a round or in the middle of
one. -/
def InLoop (pc : Pc) : Prop :=
  match pc with
  | Pc.top => True
  | Pc.sending _ _ => True
  | Pc.requeue _ _ => True
  | _ => False

/-- Outcomes in which every external call succeeds and the peer is open. -/
def sample_oracle : Oracle where
  now := 0
  connect_ok := true
  peer_closed := false
  send_ok := true
  opendir_ok := true
  file := fun _ => { stat_ok := true, open_ok := true, mmap_ok := true,
                     peer_closed := false, send_ok := true }
  localtime := fun _ => { tm_year := 126, tm_mon := 9, tm_mday := 31,
                          tm_hour := 12, tm_min := 0, tm_sec := 0 }
  saves := []

/-- Outcomes as in `sample_oracle`, except that the transport send fails. -/
def failing_oracle : Oracle := { sample_oracle with send_ok := false }

/-- A sender over `sample_mem` (empty queue, empty pool, the buffers 2 and 3
chained), in state `sending_queued_buffers`, not connected, worker at the head
of its loop. -/
def sample_sender : Sender where
  mem := sample_mem
  directory := "spool"
  files := []
  state := State.sending_queued_buffers
  current_time := 0
  last_socket_operation := 0
  connected := false
  running := true
  error_sending := false
  pc := Pc.top
  trace := []

/-- The buffers handed over by a list of `push_back` calls, in order. -/
def push_ids (ps : List Push) : List Nat := ps.flatMap Push.ids

/-- The buffers pushed by the producers during the listed steps of a round,
in order. -/
def sched_pushed (sched : List (List Push × Oracle)) : List Nat :=
  sched.flatMap (fun x => push_ids x.1)

/-- The peer is open and the transport send succeeds. -/
def Oracle.sends (o : Oracle) : Prop := o.peer_closed = false ∧ o.send_ok = true

/-- A memory whose queue holds the buffers 1, 2, 3 (1 at the front) and whose
pool is empty; the payload of buffer `n` is the single byte `n`. -/
def sample_queue3 : Mem where
  next := fun p => match p with
    | .header => .buf 1
    | .buf 1 => .buf 2
    | .buf 2 => .buf 3
    | .buf 3 => .header
    | _ => .null
  prev := fun p => match p with
    | .header => .buf 3
    | .buf 3 => .buf 2
    | .buf 2 => .buf 1
    | .buf 1 => .header
    | _ => .null
  data := fun p => match p with
    | .buf n => [n]
    | _ => []
  count := 3
  first := .null

/-- The sample sender with the queue 1, 2, 3. -/
def sample_sender3 : Sender := { sample_sender with mem := sample_queue3 }

/-- A memory whose queue holds the single buffer 1 (payload: the byte 1) and
whose pool is empty. -/
def sample_queue1 : Mem where
  next := fun p => match p with
    | .header => .buf 1
    | .buf 1 => .header
    | _ => .null
  prev := fun p => match p with
    | .header => .buf 1
    | .buf 1 => .header
    | _ => .null
  data := fun p => match p with
    | .buf n => [n]
    | _ => []
  count := 1
  first := .null

/-- The sample sender with the queue holding the single buffer 1 and an
empty spill directory. -/
def sample_sender1 : Sender := { sample_sender with mem := sample_queue1 }

/-- A save whose `open` fails. -/
def save_fails : SaveOracle := { open_ok := false, writes := [] }

/-- A save whose `open` succeeds and whose first `write` takes 64 bytes. -/
def save_works : SaveOracle := { open_ok := true, writes := [{ ret := 64, eintr := false }] }

/-- The number of `buffer::save` calls recorded in a trace. -/
def save_attempts : List Event → Nat
  | [] => 0
  | .save _ _ _ :: es => save_attempts es + 1
  | _ :: es => save_attempts es

/-- The buffers whose payload was delivered or stored: sent with a successful
transport send, or written by a successful `buffer::save`. -/
def delivered : List Event → List Ptr
  | [] => []
  | .transport_send (.buffer p) _ true :: es => p :: delivered es
  | .save p _ true :: es => p :: delivered es
  | _ :: es => delivered es

/-- The buffers that were sent with a successful transport send or passed to
`buffer::save`, whatever the outcome of the save. -/
def attempted : List Event → List Ptr
  | [] => []
  | .transport_send (.buffer p) _ true :: es => p :: attempted es
  | .save p _ _ :: es => p :: attempted es
  | _ :: es => attempted es

/-- Every `put` of the trace comes after an event that puts its buffer into
the list `f` of the earlier events. -/
def PutOnlyAfter (f : List Event → List Ptr) (t : List Event) : Prop :=
  ∀ t1 t2 b, t = t1 ++ Event.put b :: t2 → b ∈ f t1

/-- The trace of `s2` is the trace of `s1` followed by events without a
`put`. -/
def NoPutExt (s1 s2 : Sender) : Prop :=
  ∃ ev, s2.trace = s1.trace ++ ev ∧ put_buffers ev = []

/-- The trace of `s2` is the trace of `s1` followed by events in which every
`put` comes after an event that puts its buffer into `f`. -/
def TraceExt (f : List Event → List Ptr) (s1 s2 : Sender) : Prop :=
  ∃ ev, s2.trace = s1.trace ++ ev ∧ PutOnlyAfter f ev

/-- The trace at the end of a call that returned, the empty trace after a
fault. -/
def final_trace (r : Except Fault (Sender × Bool)) : List Event :=
  match r with
  | .ok (s, _) => s.trace
  | .error _ => []

/-- The sample sender in state `sending_files` whose spill directory holds one
regular file of length zero, named `a`. -/
def sample_sender_empty_file : Sender :=
  { sample_sender with state := State.sending_files,
                       files := [{ name := "a", regular := true, content := [] }] }

/-- The sample sender in state `sending_files` whose spill directory holds one
regular file `b` with the two bytes 1, 2. -/
def sample_sender_file : Sender :=
  { sample_sender with state := State.sending_files,
                       files := [{ name := "b", regular := true, content := [1, 2] }] }

/-- Outcomes as in `sample_oracle`, except that `open` fails for every file of
the directory. -/
def open_fails_oracle : Oracle :=
  { sample_oracle with file := fun _ => { stat_ok := true, open_ok := false, mmap_ok := true,
                                          peer_closed := false, send_ok := true } }

/-- The paths unlinked by `send_files`, in order. -/
def unlinked : List Event → List String
  | [] => []
  | .unlink path :: es => path :: unlinked es
  | _ :: es => unlinked es

/-- The memory obtained from a fresh queue by `push_back` of the buffers
`0, 1, ..., n - 1` in this order. -/
def queue_of (n : Nat) : Mem :=
  (List.range n).foldl (fun m i => (buffers.push_back m (.buf i)).1) (buffers.init sample_raw)

/-- The sample sender whose queue holds `max_queued_buffers` buffers, the
buffers 0 to 9999, with an empty spill directory. -/
def full_sender : Sender := { sample_sender with mem := queue_of 10000 }

/-- The objects visited from `p` by following `next()`, `n` objects in all,
`p` first. -/
def follow_next (m : Mem) : Nat → Ptr → List Ptr
  | 0, _ => []
  | n + 1, p => p :: follow_next m n (m.next p)

/-- The sample sender after a failed send: `error_sending` is set, the last
socket operation was at time 0. -/
def sample_sender_error : Sender := { sample_sender with error_sending := true }

namespace sender

/-- Constructor `sender::sender(allocator)` with the default member
initialisers of `sender.h`: `_M_state = state::sending_files`,
`_M_last_socket_operation = 0`, `_M_running = false`; the sockets are closed
and the queue is constructed empty. `_M_current_time` is not initialised, `t`
is the value it happens to have. The worker's local `error_sending` starts as
false at the head of the loop. -/
def init (m : Mem) (t : Int) : Sender where
  mem := buffers.init m
  directory := ""
  files := []
  state := State.sending_files
  current_time := t
  last_socket_operation := 0
  connected := false
  running := false
  error_sending := false
  pc := Pc.top
  trace := []

/-- `sender::start(enc, directory)`: `is_dir` is the outcome of
`stat(directory)` together with `S_ISDIR`, `fs` the entries of the directory,
`thread_ok` the outcome of `pthread_create`. A character of `directory` is one
`char` of the program. -/
def start (s : Sender) (directory : String) (fs : List File) (is_dir thread_ok : Bool) :
    Sender × Bool :=
  if directory.data.length < PATH_MAX then
    if is_dir then
      let s := { s with directory := directory, files := fs }
      let s := { s with running := true }
      if thread_ok then (s, true)
      else ({ s with running := false }, false)
    else (s, false)
  else (s, false)

end sender

/-- What the file replay leaves alone: the memory (queue and pool), the
state, the directory name, the worker's program point and the `running` flag;
and it sends no queued buffer. -/
def FileOnly (s s' : Sender) : Prop :=
  s'.mem = s.mem ∧ s'.state = s.state ∧ s'.directory = s.directory ∧ s'.pc = s.pc ∧
  s'.running = s.running ∧ sent_buffers s'.trace = sent_buffers s.trace ∧
  put_buffers s'.trace = put_buffers s.trace

/-- The sample sender in state `sending_files` whose spill directory holds the
regular files `a`, `b` and `c`, listed in this order. -/
def sample_sender_three_files : Sender :=
  { sample_sender with state := State.sending_files,
                       files := [{ name := "a", regular := true, content := [1] },
                                 { name := "b", regular := true, content := [2] },
                                 { name := "c", regular := true, content := [3] }] }

/-- Outcomes as in `sample_oracle`, except that the transport send succeeds
for the first entry of the listing only. -/
def second_send_fails_oracle : Oracle :=
  { sample_oracle with file := fun k => { stat_ok := true, open_ok := true, mmap_ok := true,
                                          peer_closed := false, send_ok := decide (k = 0) } }

/-- The paths of the files passed to the transport send, in the order of the
sends. -/
def sent_files : List Event → List String
  | [] => []
  | .transport_send (.file path) _ _ :: es => path :: sent_files es
  | _ :: es => sent_files es

/-- The sample sender in state `sending_files` whose spill directory holds the
regular files `b` and `a`, which the listing returns in this order. -/
def sample_sender_b_a : Sender :=
  { sample_sender with state := State.sending_files,
                       files := [{ name := "b", regular := true, content := [2] },
                                 { name := "a", regular := true, content := [1] }] }

/-- The entries of a listing that `send_files` passes to the transport when
every call succeeds: the regular files other than `.` and `..` that are not
empty. -/
def sendable (f : File) : Bool :=
  decide (f.name ≠ "." ∧ f.name ≠ "..") && f.regular && decide (f.content.length ≠ 0)

/-- Every call made for a directory entry succeeds and the peer is open. -/
def FileOracle.all_ok (o : FileOracle) : Prop :=
  o.stat_ok = true ∧ o.open_ok = true ∧ o.mmap_ok = true ∧ o.peer_closed = false ∧
  o.send_ok = true

/-- The number written by a list of decimal digits, most significant digit
first. -/
def read_dec (cs : List Char) : Nat := cs.foldl (fun a c => 10 * a + (c.toNat - 48)) 0

/-- The fields of a `struct tm` are those of a calendar time of a year from 0
to 9999: the ranges of `<time.h>`, with `tm_sec` up to 60. -/
def Tm.in_range (tm : Tm) : Prop :=
  0 ≤ 1900 + tm.tm_year ∧ 1900 + tm.tm_year ≤ 9999 ∧ 0 ≤ tm.tm_mon ∧ tm.tm_mon ≤ 11 ∧
  1 ≤ tm.tm_mday ∧ tm.tm_mday ≤ 31 ∧ 0 ≤ tm.tm_hour ∧ tm.tm_hour ≤ 23 ∧
  0 ≤ tm.tm_min ∧ tm.tm_min ≤ 59 ∧ 0 ≤ tm.tm_sec ∧ tm.tm_sec ≤ 60

instance (tm : Tm) : Decidable tm.in_range := by
  unfold Tm.in_range
  exact inferInstance

/-- The path that `save_buffer` composes for the counter `c` is written
without truncation. -/
def Fits (dir : String) (tm : Tm) (c : Nat) : Prop :=
  dir.data.length + 1 + (spill_name tm c).length ≤ PATH_MAX + 22

instance (dir : String) (tm : Tm) (c : Nat) : Decidable (Fits dir tm c) := by
  unfold Fits
  exact inferInstance

/-- The directory entry created by a successful `buffer::save` of `bytes` to
the spill name with counter `c`. -/
def spill_file (tm : Tm) (c : Nat) (bytes : List Nat) : File :=
  { name := String.mk (spill_name tm c), regular := true, content := bytes }

/-- The save of the buffer `b` succeeds with the outcomes `o`: `open` succeeds
and the write loop ends normally. -/
def SaveOk (data : Ptr → List Nat) (b : Nat) (o : SaveOracle) : Prop :=
  o.open_ok = true ∧ ∃ out, buffer.save_loop (data (.buf b)) o.writes 0 [] = .ok (some out)

/-- The directory entries created when the buffers `bs` are saved under the
counters `cs`, buffer by buffer. -/
def spill_files (data : Ptr → List Nat) (tm : Tm) : List Nat → List Nat → List File
  | b :: bs, c :: cs => spill_file tm c (data (.buf b)) :: spill_files data tm bs cs
  | _, _ => []

/-- The events of `save_buffers` when the buffers `bs` are saved under the
counters `cs` and every save succeeds: each buffer is saved, then put into the
pool. -/
def spill_events (dir : String) (tm : Tm) : List Nat → List Nat → List Event
  | b :: bs, c :: cs =>
    Event.save (.buf b) (spill_path dir tm c) true :: Event.put (.buf b) ::
      spill_events dir tm bs cs
  | _, _ => []

/-- The counters below `n` whose spill path does not exist in the directory
`fs`, in increasing order. -/
def free_counters (dir : String) (fs : List File) (tm : Tm) (n : Nat) : List Nat :=
  (List.range n).filter (fun c => !fs_exists dir fs (spill_path dir tm c))

/-- The sample sender with the queue 1, 2, 3 after `stop()`: the worker has
left its loop and is about to call `save_buffers`. -/
def sample_sender_exiting : Sender :=
  { sample_sender3 with running := false, pc := Pc.exiting }

/-- Outcomes as in `sample_oracle`, with three saves that succeed. -/
def saving_oracle : Oracle := { sample_oracle with saves := [save_works, save_works, save_works] }

/-- The sample sender with the queue holding the buffer 1, whose spill
directory already holds the file of the counter 0 for the sample time. -/
def sample_sender_spilled : Sender :=
  { sample_sender1 with files := [spill_file (sample_oracle.localtime 0) 0 [9]] }

/-! ## Address parsing (socket.cpp)

A C string is the list of its characters before the terminating zero byte. -/

namespace socket

/-- `INET6_ADDRSTRLEN` of `<netinet/in.h>`. -/
def INET6_ADDRSTRLEN : Nat := 46

/-- `sizeof(sun_path)` of `struct sockaddr_un` (Linux, `<sys/un.h>`). -/
def SUN_PATH_SIZE : Nat := 108

/-- The `while (*s)` loop of `parse_port`: `n` is the `unsigned` accumulator.
The result is the accumulator at the end of the string, `none` when the loop
returns false. -/
def parse_port_loop : List Char → Nat → Option Nat
  | [], n => some n
  | c :: cs, n =>
    if '0' ≤ c ∧ c ≤ '9' then
      let n := (n * 10 + (c.toNat - '0'.toNat)) % UINT_MOD
      if n ≤ 65535 then parse_port_loop cs n else none
    else none

/-- `parse_port(s, port)`: the port written on success, `none` when the
function returns false (`port` is then not written). -/
def parse_port (s : List Char) : Option Nat :=
  match parse_port_loop s 0 with
  | some n => if n > 0 then some (n % 65536) else none
  | none => none

/-- The loop of `extract_ip_port` that searches the last colon: `i` is the
position of `p`, `colon` the position of the last colon seen so far. -/
def last_colon_loop : List Char → Nat → Option Nat → Option Nat
  | [], _, colon => colon
  | c :: cs, i, colon => last_colon_loop cs (i + 1) (if c = ':' then some i else colon)

/-- `extract_ip_port(address, ip, port)`: the text written to `ip` (before
its terminating zero) and the port on success, `none` when the function
returns false (`ip` and `port` are then not written). -/
def extract_ip_port (address : List Char) : Option (List Char × Nat) :=
  match last_colon_loop address 0 none with
  | none => none
  | some colon =>
    let len := colon
    if len > 0 then
      let r : Option (List Char × Nat) :=
        if address.head? = some '[' then
          if len > 2 ∧ address.get? (colon - 1) = some ']' then some (address.drop 1, len - 2)
          else none
        else some (address, len)
      match r with
      | none => none
      | some (start, len) =>
        if len < INET6_ADDRSTRLEN then
          match parse_port (address.drop (colon + 1)) with
          | some port => some (start.take len, port)
          | none => none
        else none
    else none

/-- The address stored by a successful `build`: the family with the text
that `inet_pton` converted and the port, or the 108 bytes of `sun_path`. -/
inductive Addr
  | inet (ip : List Char) (port : Nat)
  | inet6 (ip : List Char) (port : Nat)
  | unix (sun_path : List Char)
deriving DecidableEq, Repr

namespace address

/-- `socket::address::build(address, port)`; `pton4 s` and `pton6 s` tell
whether `inet_pton(AF_INET, s, ...)` and `inet_pton(AF_INET6, s, ...)` return
1. -/
def build_ip_port (pton4 pton6 : List Char → Bool) (address : List Char) (port : Nat) :
    Option Addr :=
  if pton4 address then some (Addr.inet address port)
  else if pton6 address then some (Addr.inet6 address port)
  else none

/-- `socket::address::build(const char* address)`. -/
def build (pton4 pton6 : List Char → Bool) (address : List Char) : Option Addr :=
  match extract_ip_port address with
  | some (ip, port) => build_ip_port pton4 pton6 ip port
  | none =>
    let len := address.length
    if len > 0 ∧ len < SUN_PATH_SIZE then
      some (Addr.unix (address ++ List.replicate (SUN_PATH_SIZE - len) (Char.ofNat 0)))
    else none

/-- `socket::address::ipv4::build(const char* address)`. -/
def ipv4_build (pton4 : List Char → Bool) (address : List Char) : Option Addr :=
  match extract_ip_port address with
  | some (ip, port) => if pton4 ip then some (Addr.inet ip port) else none
  | none => none

/-- `socket::address::ipv6::build(const char* address)`. -/
def ipv6_build (pton6 : List Char → Bool) (address : List Char) : Option Addr :=
  match extract_ip_port address with
  | some (ip, port) => if pton6 ip then some (Addr.inet6 ip port) else none
  | none => none

end address

/-- An `inet_pton(AF_INET, ...)` that knows the literal `127.0.0.1` only; it
agrees with the library function on the sample inputs. -/
def sample_pton4 (s : List Char) : Bool := s == "127.0.0.1".data

/-- An `inet_pton(AF_INET6, ...)` that knows the literal `::1` only; it agrees
with the library function on the sample inputs. -/
def sample_pton6 (s : List Char) : Bool := s == "::1".data

end socket

/-! ## The deadline of the timed pops (buffers.cpp) -/

/-- The value of a 64-bit signed integer (`long`, `time_t`, `suseconds_t`)
after an operation whose mathematical result is `x`: two's complement
wrap-around. -/
def to_long (x : Int) : Int :=
  (x + 9223372036854775808) % 18446744073709551616 - 9223372036854775808

/-- `struct timeval`. -/
structure Timeval where
  tv_sec : Int
  tv_usec : Int

/-- `struct timespec`. -/
structure Timespec where
  tv_sec : Int
  tv_nsec : Int
deriving DecidableEq, Repr

namespace buffers

/-- The value of `ts.tv_nsec` before the test `ts.tv_nsec >= 1000000000l`:
`(now.tv_usec * 1000) + ((timeout % 1000) * 1000000)`, the right summand
computed in `unsigned`. -/
def deadline_nsec (now : Timeval) (timeout : Nat) : Int :=
  to_long (to_long (now.tv_usec * 1000) + (((timeout % 1000) * 1000000 % UINT_MOD : Nat) : Int))

/-- The absolute time `ts` computed by `buffers::pop_front(unsigned timeout)`
from the time `now` of `gettimeofday`. -/
def pop_front_deadline (now : Timeval) (timeout : Nat) : Timespec :=
  let tv_sec := to_long (now.tv_sec + ((timeout / 1000 : Nat) : Int))
  let tv_nsec := deadline_nsec now timeout
  if tv_nsec ≥ 1000000000 then
    { tv_sec := to_long (tv_sec + 1), tv_nsec := to_long (tv_nsec - 1000000000) }
  else { tv_sec := tv_sec, tv_nsec := tv_nsec }

/-- The absolute time `ts` computed by
`buffers::pop(buffer*& first, buffer*& last, unsigned timeout)`. -/
def pop_deadline (now : Timeval) (timeout : Nat) : Timespec :=
  let tv_sec := to_long (now.tv_sec + ((timeout / 1000 : Nat) : Int))
  let tv_nsec := deadline_nsec now timeout
  if tv_nsec ≥ 1000000000 then
    { tv_sec := to_long (tv_sec + 1), tv_nsec := to_long (tv_nsec - 1000000000) }
  else { tv_sec := tv_sec, tv_nsec := tv_nsec }

end buffers

namespace buffer

/-- `buffer::init(data, len)` on the buffer at `p`: `realloc_ok` tells
whether `realloc` returns a block; `memcpy` copies the first `len` bytes of
`src`, which holds at least `len` bytes. `_M_length` is the length of the
data. -/
def init (m : Mem) (p : Ptr) (src : List Nat) (len : Nat) (realloc_ok : Bool) : Mem × Bool :=
  if realloc_ok then
    ({ m with data := fun q => if q = p then src.take len else m.data q }, true)
  else (m, false)

end buffer

/-- The `write` call failed with an error other than `EINTR`. -/
def WriteRes.fails (w : WriteRes) : Prop := w.ret < 0 ∧ w.eintr = false

instance (w : WriteRes) : Decidable w.fails := by
  unfold WriteRes.fails
  exact inferInstance

/-- The number of bytes written by the calls `ws`: the sum of their positive
results. -/
def bytes_written (ws : List WriteRes) : Nat :=
  (ws.map (fun w => if w.ret > 0 then w.ret.toNat else 0)).sum

/-- The structural invariant of the queue: the count is a `size_t`;
following `next()` from the header visits exactly `count` buffers `xs` and
then the header again; `prev()` is the inverse of `next()` along that cycle;
and the header is linked to itself exactly when the count is 0. -/
def queue_inv (m : Mem) : Prop :=
  m.count < SIZE_MOD ∧
  ∃ xs : List Nat, m.count = xs.length ∧
    follow_next m (m.count + 1) (m.next .header) = bufs xs ++ [Ptr.header] ∧
    (∀ a ∈ Ptr.header :: bufs xs, m.prev (m.next a) = a) ∧
    ((m.next .header = .header ∧ m.prev .header = .header) ↔ m.count = 0)

/-- The buffers of the queue, front first: the objects visited from the
header by following `next()`, `count` of them. -/
def queue_buffers (m : Mem) : List Ptr := follow_next m m.count (m.next .header)

/-! # Theorems -/

@[simp] theorem Mem.setNext_next (m : Mem) (p v q : Ptr) :
    (m.setNext p v).next q = if q = p then v else m.next q := rfl
@[simp] theorem Mem.setNext_prev (m : Mem) (p v : Ptr) : (m.setNext p v).prev = m.prev := rfl
@[simp] theorem Mem.setNext_count (m : Mem) (p v : Ptr) : (m.setNext p v).count = m.count := rfl
@[simp] theorem Mem.setNext_first (m : Mem) (p v : Ptr) : (m.setNext p v).first = m.first := rfl
@[simp] theorem Mem.setNext_data (m : Mem) (p v : Ptr) : (m.setNext p v).data = m.data := rfl
@[simp] theorem Mem.setPrev_prev (m : Mem) (p v q : Ptr) :
    (m.setPrev p v).prev q = if q = p then v else m.prev q := rfl
@[simp] theorem Mem.setPrev_next (m : Mem) (p v : Ptr) : (m.setPrev p v).next = m.next := rfl
@[simp] theorem Mem.setPrev_count (m : Mem) (p v : Ptr) : (m.setPrev p v).count = m.count := rfl
@[simp] theorem Mem.setPrev_first (m : Mem) (p v : Ptr) : (m.setPrev p v).first = m.first := rfl
@[simp] theorem Mem.setPrev_data (m : Mem) (p v : Ptr) : (m.setPrev p v).data = m.data := rfl

theorem chain'_frame {α : Type} {R S : α → α → Prop} :
    ∀ {l : List α}, List.Chain' R l →
      (∀ a ∈ l.dropLast, ∀ b ∈ l.tail, R a b → S a b) → List.Chain' S l
  | [], _, _ => List.chain'_nil
  | [_], _, _ => List.chain'_singleton _
  | a :: b :: l, h, hf => by
    rw [List.chain'_cons] at h ⊢
    refine ⟨hf a (by simp) b (by simp) h.1, chain'_frame h.2 ?_⟩
    intro a' ha' b' hb' hr
    refine hf a' ?_ b' ?_ hr
    · simp only [List.dropLast_cons₂, List.mem_cons]; right
      simpa using ha'
    · simp only [List.tail_cons, List.mem_cons]; right
      cases l <;> simp_all

theorem bufs_nodup {xs : List Nat} (h : xs.Nodup) : (bufs xs).Nodup :=
  List.Nodup.map (fun _ _ h => by injection h) h

@[simp] theorem mem_bufs {p : Ptr} {xs : List Nat} : p ∈ bufs xs ↔ ∃ x ∈ xs, Ptr.buf x = p := by
  simp [bufs]

@[simp] theorem buf_mem_bufs {x : Nat} {xs : List Nat} : Ptr.buf x ∈ bufs xs ↔ x ∈ xs := by
  simp [bufs]

@[simp] theorem header_not_mem_bufs {xs : List Nat} : Ptr.header ∉ bufs xs := by
  simp [bufs]
@[simp] theorem null_not_mem_bufs {xs : List Nat} : Ptr.null ∉ bufs xs := by
  simp [bufs]
@[simp] theorem bufs_nil : bufs [] = [] := rfl
@[simp] theorem bufs_cons (x : Nat) (xs : List Nat) : bufs (x :: xs) = Ptr.buf x :: bufs xs := rfl
@[simp] theorem bufs_append (xs ys : List Nat) : bufs (xs ++ ys) = bufs xs ++ bufs ys := by
  simp [bufs]
@[simp] theorem bufs_length (xs : List Nat) : (bufs xs).length = xs.length := by simp [bufs]

theorem QueueRep.tail_facts {m : Mem} {xs : List Nat} (h : QueueRep m xs) :
    ∃ t, (Ptr.header :: bufs xs).getLast? = some t ∧ m.prev .header = t ∧
      m.next t = .header ∧ Dlinked m (Ptr.header :: bufs xs) := by
  have hl := h.links
  unfold Dlinked at hl
  rw [List.chain'_append] at hl
  obtain ⟨h1, -, h3⟩ := hl
  have hne : (Ptr.header :: bufs xs) ≠ [] := by simp
  refine ⟨(Ptr.header :: bufs xs).getLast hne, List.getLast?_eq_getLast _ hne, ?_, ?_, h1⟩
  · exact (h3 _ (by simp [List.getLast?_eq_getLast _ hne]) .header (by simp)).2
  · exact (h3 _ (by simp [List.getLast?_eq_getLast _ hne]) .header (by simp)).1

theorem QueueRep.head_facts {m : Mem} {xs : List Nat} (h : QueueRep m xs) :
    ∃ n, (bufs xs ++ [Ptr.header]).head? = some n ∧ m.next .header = n ∧
      m.prev n = .header ∧ Dlinked m (bufs xs ++ [Ptr.header]) := by
  have hl := h.links
  unfold Dlinked at hl
  rw [List.cons_append] at hl
  cases hxs : bufs xs ++ [Ptr.header] with
  | nil => simp at hxs
  | cons n l =>
    rw [hxs, List.chain'_cons] at hl
    exact ⟨n, rfl, hl.1.1, hl.1.2, by unfold Dlinked; exact hl.2⟩

theorem queueRep_init (m : Mem) : QueueRep (buffers.init m) [] := by
  refine ⟨List.nodup_nil, ?_⟩
  simp [Dlinked, buffers.init]

theorem not_mem_dropLast_of_getLast? {α : Type} {l : List α} {t a : α} (hnd : l.Nodup)
    (ht : l.getLast? = some t) (ha : a ∈ l.dropLast) : a ≠ t := by
  have e : l.dropLast ++ [t] = l := List.dropLast_append_getLast? t (by rw [ht]; rfl)
  rw [← e] at hnd
  intro hat; subst hat
  exact (List.disjoint_of_nodup_append hnd) ha (by simp)

theorem QueueRep.push_back {m : Mem} {xs : List Nat} (h : QueueRep m xs) {b : Nat}
    (hb : b ∉ xs) : QueueRep (buffers.push_back m (.buf b)).1 (xs ++ [b]) := by
  obtain ⟨t, ht, hpt, hnt, hL⟩ := h.tail_facts
  have htmem : t ∈ Ptr.header :: bufs xs := List.mem_of_getLast?_eq_some ht
  have htb : t ≠ .buf b := by
    intro e; subst e; simp at htmem; exact hb htmem
  refine ⟨?_, ?_⟩
  · exact List.Nodup.append h.nodup (List.nodup_singleton b) (by simpa using hb)
  · unfold Dlinked
    have e : Ptr.header :: bufs (xs ++ [b]) ++ [Ptr.header]
        = (Ptr.header :: bufs xs) ++ [Ptr.buf b, Ptr.header] := by simp
    rw [e, List.chain'_append]
    refine ⟨?_, ?_, ?_⟩
    · refine chain'_frame hL ?_
      intro a ha c hc hr
      have hnd : (Ptr.header :: bufs xs).Nodup := by
        simp [bufs_nodup h.nodup]
      have hat : a ≠ t := not_mem_dropLast_of_getLast? hnd ht ha
      have hab : a ≠ .buf b := by
        intro e; subst e
        have := List.mem_of_mem_dropLast ha
        simp at this; exact hb this
      have hcb : c ≠ .buf b := by
        intro e; subst e; simp at hc; exact hb hc
      have hch : c ≠ .header := by
        intro e; subst e; simp at hc
      simp [buffers.push_back, hpt, hat, hab, hcb, hch, hr.1, hr.2]
    · simp [buffers.push_back, hpt, Ne.symm htb]
    · intro x hx y hy
      rw [ht] at hx
      simp at hx hy
      subst hx hy
      simp [buffers.push_back, hpt]

theorem Dlinked.dframe {m m' : Mem} {ps : List Ptr} (h : Dlinked m ps)
    (hn : ∀ a ∈ ps.dropLast, m'.next a = m.next a)
    (hp : ∀ c ∈ ps.tail, m'.prev c = m.prev c) : Dlinked m' ps := by
  refine chain'_frame h ?_
  intro a ha c hc hr
  rw [hn a ha, hp c hc]; exact hr

theorem Slinked.sframe {m m' : Mem} {ps : List Ptr} (h : Slinked m ps)
    (hn : ∀ a ∈ ps.dropLast, m'.next a = m.next a) : Slinked m' ps := by
  refine chain'_frame h ?_
  intro a ha c _ hr
  rw [hn a ha]; exact hr

theorem not_mem_tail_of_head? {α : Type} {l : List α} {f c : α} (hnd : l.Nodup)
    (hf : l.head? = some f) (hc : c ∈ l.tail) : c ≠ f := by
  cases l with
  | nil => simp at hf
  | cons a l =>
    simp at hf hc; subst hf
    intro e; subst e
    exact (List.nodup_cons.1 hnd).1 hc

theorem cycle_nodup {xs : List Nat} (h : xs.Nodup) : (Ptr.header :: bufs xs).Nodup := by
  simp [bufs_nodup h]

theorem cycle_nodup' {xs : List Nat} (h : xs.Nodup) : (bufs xs ++ [Ptr.header]).Nodup := by
  rw [List.nodup_append]
  refine ⟨bufs_nodup h, List.nodup_singleton _, ?_⟩
  intro a ha hb
  simp at hb; subst hb; simp at ha

theorem mem_of_mem_tail' {α : Type} {l : List α} {a : α} (h : a ∈ l.tail) : a ∈ l :=
  List.mem_of_mem_tail h

theorem QueueRep.push_front {m : Mem} {xs : List Nat} (h : QueueRep m xs) {b : Nat}
    (hb : b ∉ xs) : QueueRep (buffers.push_front m (.buf b)).1 (b :: xs) := by
  obtain ⟨n, hn, hnn, hpn, hL⟩ := h.head_facts
  have hnmem : n ∈ bufs xs ++ [Ptr.header] := List.mem_of_mem_head? hn
  have hnb : n ≠ .buf b := by
    intro e; subst e; simp at hnmem; exact hb hnmem
  refine ⟨List.nodup_cons.2 ⟨hb, h.nodup⟩, ?_⟩
  unfold Dlinked
  have e : Ptr.header :: bufs (b :: xs) ++ [Ptr.header]
      = Ptr.header :: Ptr.buf b :: (bufs xs ++ [Ptr.header]) := by simp
  rw [e]
  cases hl : bufs xs ++ [Ptr.header] with
  | nil => simp at hl
  | cons n' l =>
    rw [hl] at hn hL; simp at hn; subst hn
    rw [List.chain'_cons, List.chain'_cons]
    refine ⟨?_, ?_, ?_⟩
    · simp [buffers.push_front, hnn, Ne.symm hnb]
    · simp [buffers.push_front, hnn]
    · rw [← hl]; rw [← hl] at hL
      refine Dlinked.dframe hL ?_ ?_
      · intro a ha
        have : a ∈ bufs xs := by simpa using ha
        have h1 : a ≠ .header := by intro e; subst e; simp at this
        have h2 : a ≠ .buf b := by intro e; subst e; simp at this; exact hb this
        simp [buffers.push_front, h1, h2]
      · intro c hc
        have h1 : c ≠ n' := not_mem_tail_of_head? (cycle_nodup' h.nodup) (by rw [hl]; rfl) hc
        have h2 : c ≠ .buf b := by
          intro e; subst e
          have := List.mem_of_mem_tail hc
          simp at this; exact hb this
        simp [buffers.push_front, hnn, h1, h2]

theorem QueueRep.pop_front_cons {m : Mem} {x : Nat} {xs : List Nat} (h : QueueRep m (x :: xs)) :
    (buffers.pop_front m).2 = .buf x ∧ QueueRep (buffers.pop_front m).1 xs := by
  have hl := h.links
  unfold Dlinked at hl
  simp only [bufs_cons, List.cons_append, List.chain'_cons] at hl
  obtain ⟨⟨h1, h2⟩, hL⟩ := hl
  have hx : m.next .header ≠ .header := by rw [h1]; simp
  have hnd := (List.nodup_cons.1 h.nodup)
  refine ⟨by simp [buffers.pop_front, hx, h1], hnd.2, ?_⟩
  unfold Dlinked
  cases hl : bufs xs ++ [Ptr.header] with
  | nil => simp at hl
  | cons n l =>
    rw [List.cons_append, hl]
    rw [hl, List.chain'_cons] at hL
    obtain ⟨⟨h3, h4⟩, hL⟩ := hL
    rw [List.chain'_cons]
    refine ⟨?_, ?_⟩
    · simp [buffers.pop_front, hx, h1, h3]
    · have hL' : Dlinked m (bufs xs ++ [Ptr.header]) := by rw [hl]; exact hL
      rw [← hl]
      refine Dlinked.dframe hL' ?_ ?_
      · intro a ha
        have : a ∈ bufs xs := by simpa using ha
        have h1' : a ≠ .header := by intro e; subst e; simp at this
        simp [buffers.pop_front, hx, h1']
      · intro c hc
        have h1' : c ≠ n := not_mem_tail_of_head? (cycle_nodup' hnd.2) (by rw [hl]; rfl) hc
        simp [buffers.pop_front, hx, h1, h3, h1']

theorem QueueRep.pop_front_nil {m : Mem} (h : QueueRep m []) :
    buffers.pop_front m = (m, .null) := by
  have hl := h.links
  simp [Dlinked] at hl
  simp [buffers.pop_front, hl.1]

theorem Dlinked.slinked {m : Mem} {ps : List Ptr} (h : Dlinked m ps) : Slinked m ps :=
  List.Chain'.imp (fun _ _ h => h.1) h

theorem distance_loop_eq {m : Mem} : ∀ (ps : List Ptr) (first last : Ptr) (c fuel : Nat),
    ps.head? = some first → ps.getLast? = some last → ps.Nodup → Slinked m ps →
    ps.length ≤ fuel → c < SIZE_MOD →
    buffers.distance_loop m fuel first last c = .ok ((c + (ps.length - 1)) % SIZE_MOD)
  | [], _, _, _, _, h, _, _, _, _, _ => by simp at h
  | [p], first, last, c, fuel, hf, hl, _, _, hfu, hc => by
    simp at hf hl; subst hf hl
    cases fuel with
    | zero => simp at hfu
    | succ fuel => simp [buffers.distance_loop, Nat.mod_eq_of_lt hc]
  | p :: q :: rest, first, last, c, fuel, hf, hl, hnd, hs, hfu, hc => by
    simp at hf; subst hf
    cases fuel with
    | zero => simp at hfu
    | succ fuel =>
      have hne : p ≠ last := by
        intro e; subst e
        have : p ∈ q :: rest := by
          apply List.mem_of_getLast?_eq_some
          rw [← hl]; simp [List.getLast?_cons_cons]
        exact (List.nodup_cons.1 hnd).1 this
      unfold Slinked at hs
      rw [List.chain'_cons] at hs
      have ih := distance_loop_eq (q :: rest) q last ((c + 1) % SIZE_MOD) fuel rfl
        (by rw [← hl]; simp [List.getLast?_cons_cons]) (List.nodup_cons.1 hnd).2 hs.2
        (by simpa using hfu) (Nat.mod_lt _ (by simp [SIZE_MOD]))
      simp only [buffers.distance_loop, hne, if_false, hs.1, ih]
      congr 1
      simp only [List.length_cons, Nat.add_sub_cancel]
      rw [Nat.mod_add_mod]
      congr 1; omega

theorem ChainRep.distance {m : Mem} {first last : Ptr} {chain : List Nat}
    (h : ChainRep m first last chain) {fuel : Nat} (hf : chain.length ≤ fuel) :
    buffers.distance m fuel first last = .ok (chain.length % SIZE_MOD) := by
  have := distance_loop_eq (m := m) (bufs chain) first last 1 fuel h.first_eq h.last_eq
    (bufs_nodup h.nodup) h.links.slinked (by simpa using hf) (by simp [SIZE_MOD])
  unfold buffers.distance
  rw [this]
  have hpos : 0 < chain.length := List.length_pos.2 h.nonempty
  simp only [bufs_length]
  congr 2; omega

theorem ChainRep.first_mem {m : Mem} {first last : Ptr} {chain : List Nat}
    (h : ChainRep m first last chain) : first ∈ bufs chain :=
  List.mem_of_mem_head? h.first_eq

theorem ChainRep.last_mem {m : Mem} {first last : Ptr} {chain : List Nat}
    (h : ChainRep m first last chain) : last ∈ bufs chain :=
  List.mem_of_getLast?_eq_some h.last_eq

theorem not_mem_bufs_of_disjoint {xs chain : List Nat} (hd : xs.Disjoint chain) {a : Ptr}
    (ha : a ∈ bufs chain) : a ∉ bufs xs := by
  intro hx
  simp at ha hx
  obtain ⟨x, hx, rfl⟩ := hx
  obtain ⟨y, hy, e⟩ := ha
  injection e with e; subst e
  exact hd hx hy

theorem push_back_range_ok {m : Mem} {fuel : Nat} {first last : Ptr} {c : Nat}
    (h : buffers.distance m fuel first last = .ok c) :
    buffers.push_back_range m fuel first last
      = .ok (push_back_range_mem m first last c, (m.count + c) % SIZE_MOD) := by
  simp only [buffers.push_back_range, h, bind, Except.bind, pure, Except.pure]
  rfl

theorem QueueRep.push_back_range {m : Mem} {xs chain : List Nat} {first last : Ptr}
    (h : QueueRep m xs) (hc : ChainRep m first last chain) (hd : xs.Disjoint chain)
    {fuel : Nat} (hf : chain.length ≤ fuel) :
    ∃ m', buffers.push_back_range m fuel first last
        = .ok (m', (m.count + chain.length) % SIZE_MOD) ∧
      QueueRep m' (xs ++ chain) ∧ m'.count = (m.count + chain.length) % SIZE_MOD ∧
      m'.first = m.first ∧ m'.data = m.data ∧
      ∀ a, a ≠ .header → a ∉ bufs xs → a ∉ bufs chain →
        m'.next a = m.next a ∧ m'.prev a = m.prev a := by
  obtain ⟨t, ht, hpt, hnt, hL⟩ := h.tail_facts
  have htmem : t ∈ Ptr.header :: bufs xs := List.mem_of_getLast?_eq_some ht
  have hfm := hc.first_mem
  have hlm := hc.last_mem
  have hfx := not_mem_bufs_of_disjoint hd hfm
  have hlx := not_mem_bufs_of_disjoint hd hlm
  have hfh : first ≠ .header := by intro e; subst e; simp at hfm
  have hlh : last ≠ .header := by intro e; subst e; simp at hlm
  have htc : t ∉ bufs chain := by
    intro htc
    rcases List.mem_cons.1 htmem with e | e
    · subst e; simp at htc
    · exact not_mem_bufs_of_disjoint hd htc e
  have htl : t ≠ last := by intro e; subst e; exact htc hlm
  have htf : t ≠ first := by intro e; subst e; exact htc hfm
  refine ⟨push_back_range_mem m first last (chain.length % SIZE_MOD), ?_, ?_, ?_, ?_, ?_, ?_⟩
  · rw [push_back_range_ok (hc.distance hf), Nat.add_mod_mod]
  · refine ⟨?_, ?_⟩
    · exact List.Nodup.append h.nodup hc.nodup hd
    · unfold Dlinked
      have e : Ptr.header :: bufs (xs ++ chain) ++ [Ptr.header]
          = (Ptr.header :: bufs xs) ++ (bufs chain ++ [Ptr.header]) := by simp
      rw [e, List.chain'_append]
      refine ⟨?_, ?_, ?_⟩
      · refine Dlinked.dframe hL ?_ ?_
        · intro a ha
          have hat : a ≠ t := not_mem_dropLast_of_getLast? (cycle_nodup h.nodup) ht ha
          have hal : a ≠ last := by
            intro e; subst e
            rcases List.mem_cons.1 (List.mem_of_mem_dropLast ha) with e | e
            · exact hlh e
            · exact hlx e
          simp [push_back_range_mem, hpt, hfh, hat, hal]
        · intro c hc'
          have hcx : c ∈ bufs xs := by simpa using hc'
          have h1 : c ≠ .header := by intro e; subst e; simp at hcx
          have h2 : c ≠ first := by intro e; subst e; exact hfx hcx
          simp [push_back_range_mem, h1, h2]
      · rw [List.chain'_append]
        refine ⟨?_, List.chain'_singleton _, ?_⟩
        · refine Dlinked.dframe hc.links ?_ ?_
          · intro a ha
            have hal : a ≠ last := not_mem_dropLast_of_getLast? (bufs_nodup hc.nodup) hc.last_eq ha
            have hat : a ≠ t := by
              intro e; subst e; exact htc (List.mem_of_mem_dropLast ha)
            simp [push_back_range_mem, hpt, hfh, hat, hal]
          · intro c hc'
            have h1 : c ≠ first := not_mem_tail_of_head? (bufs_nodup hc.nodup) hc.first_eq hc'
            have h2 : c ≠ .header := by
              intro e; subst e
              have := List.mem_of_mem_tail hc'
              simp at this
            simp [push_back_range_mem, h1, h2]
        · intro x hx y hy
          rw [hc.last_eq] at hx
          simp at hx hy; subst hx hy
          simp [push_back_range_mem, hpt, hfh, Ne.symm htl]
      · intro x hx y hy
        rw [ht] at hx
        have hy' : (bufs chain).head? = some y := by
          cases hb : bufs chain with
          | nil =>
            have := hc.first_eq
            rw [hb] at this; simp at this
          | cons z l => rw [hb] at hy; simpa using hy
        rw [hc.first_eq] at hy'
        simp at hx hy'; subst hx hy'
        simp [push_back_range_mem, hpt, hfh]
  · simp [push_back_range_mem]
  · simp [push_back_range_mem]
  · simp [push_back_range_mem]
  · intro a h1 h2 h3
    have hat : a ≠ t := by
      intro e; subst e
      rcases List.mem_cons.1 htmem with e | e
      · exact h1 e
      · exact h2 e
    have hal : a ≠ last := by intro e; subst e; exact h3 hlm
    have haf : a ≠ first := by intro e; subst e; exact h3 hfm
    simp [push_back_range_mem, hpt, hfh, h1, hat, hal, haf]

theorem QueueRep.push_back_frame {m : Mem} {xs : List Nat} (h : QueueRep m xs) (b : Nat) :
    ∀ a, a ≠ .header → a ∉ bufs xs → a ≠ .buf b →
      (buffers.push_back m (.buf b)).1.next a = m.next a ∧
      (buffers.push_back m (.buf b)).1.prev a = m.prev a := by
  obtain ⟨t, ht, hpt, -, -⟩ := h.tail_facts
  have htmem : t ∈ Ptr.header :: bufs xs := List.mem_of_getLast?_eq_some ht
  intro a h1 h2 h3
  have hat : a ≠ t := by
    intro e; subst e
    rcases List.mem_cons.1 htmem with e | e
    · exact h1 e
    · exact h2 e
  simp [buffers.push_back, hpt, h1, hat, h3]

theorem bufs_getLast? (l : List Nat) : (bufs l).getLast? = l.getLast?.map Ptr.buf := by
  simp [bufs]

theorem chainRep_of_dlinked {m : Mem} {c : Nat} {cs : List Nat}
    (hl : Dlinked m (bufs (c :: cs))) (hnd : (c :: cs).Nodup) :
    ChainRep m (.buf c) (.buf (Push.last c cs)) (c :: cs) := by
  refine ⟨by simp, hnd, hl, by simp, ?_⟩
  rw [bufs_getLast?, List.getLast?_eq_getLast _ (List.cons_ne_nil c cs)]
  rfl

theorem push_back_call_rep {m : Mem} {xs : List Nat} (h : QueueRep m xs) {op : Push}
    (hl : Dlinked m (bufs op.ids)) (hnd : op.ids.Nodup) (hd : xs.Disjoint op.ids)
    {fuel : Nat} (hf : op.ids.length ≤ fuel) :
    ∃ m', push_back_call fuel m op = .ok (m', (m.count + op.ids.length) % SIZE_MOD) ∧
      QueueRep m' (xs ++ op.ids) ∧
      m'.count = (m.count + op.ids.length) % SIZE_MOD ∧
      m'.first = m.first ∧ m'.data = m.data ∧
      ∀ a, a ≠ .header → a ∉ bufs xs → a ∉ bufs op.ids →
        m'.next a = m.next a ∧ m'.prev a = m.prev a := by
  cases op with
  | one b =>
    have hb : b ∉ xs := fun hx => hd hx (by simp [Push.ids])
    refine ⟨(buffers.push_back m (.buf b)).1, ?_, h.push_back hb, ?_, ?_, ?_, ?_⟩
    · simp [push_back_call, buffers.push_back, Push.ids]
    · simp [buffers.push_back, Push.ids]
    · simp [buffers.push_back]
    · simp [buffers.push_back]
    · intro a h1 h2 h3
      exact h.push_back_frame b a h1 h2 (by simpa [Push.ids] using h3)
  | range c cs =>
    exact h.push_back_range (chainRep_of_dlinked hl hnd) hd hf

theorem push_back_calls_rep (fuel : Nat) : ∀ (ops : List Push) (m : Mem) (xs : List Nat),
    QueueRep m xs → (xs ++ ops.flatMap Push.ids).Nodup →
    (∀ op ∈ ops, Dlinked m (bufs op.ids)) → (∀ op ∈ ops, op.ids.length ≤ fuel) →
    ∃ m', push_back_calls fuel m ops = .ok m' ∧ QueueRep m' (xs ++ ops.flatMap Push.ids) ∧
      m'.first = m.first ∧ m'.data = m.data ∧
      ∀ a, a ≠ .header → a ∉ bufs (xs ++ ops.flatMap Push.ids) →
        m'.next a = m.next a ∧ m'.prev a = m.prev a
  | [], m, xs, h, _, _, _ => ⟨m, rfl, by simpa using h, rfl, rfl, fun _ _ _ => ⟨rfl, rfl⟩⟩
  | op :: ops, m, xs, h, hnd, hl, hf => by
    simp only [List.flatMap_cons] at hnd ⊢
    rw [← List.append_assoc] at hnd
    have hnd1 : (xs ++ op.ids).Nodup := (List.nodup_append.1 hnd).1
    have hd1 : xs.Disjoint op.ids := List.disjoint_of_nodup_append hnd1
    obtain ⟨m1, e1, hq1, -, hfirst1, hdata1, hfr1⟩ :=
      push_back_call_rep h (hl op (by simp)) (List.nodup_append.1 hnd1).2.1 hd1
        (hf op (by simp))
    have hl1 : ∀ op' ∈ ops, Dlinked m1 (bufs op'.ids) := by
      intro op' hop'
      have hdis : ∀ a ∈ bufs op'.ids, a ≠ .header ∧ a ∉ bufs xs ∧ a ∉ bufs op.ids := by
        intro a ha
        simp only [mem_bufs] at ha
        obtain ⟨x, hx, rfl⟩ := ha
        have hx' : x ∈ ops.flatMap Push.ids := List.mem_flatMap.2 ⟨op', hop', hx⟩
        have hnot : x ∉ xs ++ op.ids := fun hin =>
          (List.disjoint_of_nodup_append hnd) hin hx'
        simp only [List.mem_append, not_or] at hnot
        exact ⟨by simp, by simpa using hnot.1, by simpa using hnot.2⟩
      refine Dlinked.dframe (hl op' (by simp [hop'])) ?_ ?_
      · intro a ha
        obtain ⟨h1, h2, h3⟩ := hdis a (List.mem_of_mem_dropLast ha)
        exact (hfr1 a h1 h2 h3).1
      · intro a ha
        obtain ⟨h1, h2, h3⟩ := hdis a (List.mem_of_mem_tail ha)
        exact (hfr1 a h1 h2 h3).2
    obtain ⟨m', e', hq', hfirst', hdata', hfr'⟩ :=
      push_back_calls_rep fuel ops m1 (xs ++ op.ids) hq1 hnd hl1
        (fun op' hop' => hf op' (by simp [hop']))
    refine ⟨m', ?_, by simpa using hq', hfirst'.trans hfirst1, hdata'.trans hdata1, ?_⟩
    · simp [push_back_calls, e1, e']
    · intro a h1 h2
      have h2' : a ∉ bufs (xs ++ op.ids ++ ops.flatMap Push.ids) := by simpa using h2
      have h3 : a ∉ bufs xs ∧ a ∉ bufs op.ids := by
        simp only [bufs_append, List.mem_append, not_or] at h2
        exact ⟨h2.1, h2.2.1⟩
      obtain ⟨e1, e2⟩ := hfr' a h1 h2'
      obtain ⟨e3, e4⟩ := hfr1 a h1 h3.1 h3.2
      exact ⟨e1.trans e3, e2.trans e4⟩

theorem pop_fronts_rep : ∀ (xs : List Nat) (m : Mem), QueueRep m xs →
    (pop_fronts xs.length m).2 = bufs xs ∧ QueueRep (pop_fronts xs.length m).1 []
  | [], _, h => ⟨rfl, h⟩
  | x :: xs, m, h => by
    obtain ⟨h1, h2⟩ := h.pop_front_cons
    obtain ⟨h3, h4⟩ := pop_fronts_rep xs _ h2
    exact ⟨by simp [pop_fronts, h1, h3], by simpa [pop_fronts] using h4⟩

/-- C1 (queue FIFO). Starting from an empty queue, any sequence of `push_back`
calls (single buffers and well-formed batches `first..last`) of pairwise
distinct buffers succeeds and leaves the queue holding the concatenation of
the pushed buffers in push order: `n` successive `pop_front()` calls return
`b1, ..., bn` in that order, the next `pop_front()` returns `nullptr`, and the
queue is then empty. In particular `push_back(b); pop_front()` on an empty
queue returns `b` and leaves the queue empty. -/
theorem C1_queue_fifo (m : Mem) (ops : List Push) (fuel : Nat)
    (hempty : QueueRep m [])
    (hdistinct : (ops.flatMap Push.ids).Nodup)
    (hchains : ∀ op ∈ ops, Dlinked m (bufs op.ids))
    (hfuel : ∀ op ∈ ops, op.ids.length ≤ fuel) :
    (∃ m', push_back_calls fuel m ops = .ok m' ∧
      QueueRep m' (ops.flatMap Push.ids) ∧
      (pop_fronts (ops.flatMap Push.ids).length m').2 = bufs (ops.flatMap Push.ids) ∧
      (buffers.pop_front (pop_fronts (ops.flatMap Push.ids).length m').1).2 = .null ∧
      QueueRep (pop_fronts (ops.flatMap Push.ids).length m').1 []) ∧
    (∀ b : Nat, (buffers.pop_front (buffers.push_back m (.buf b)).1).2 = .buf b ∧
      QueueRep (buffers.pop_front (buffers.push_back m (.buf b)).1).1 []) := by
  constructor
  · obtain ⟨m', e, hq, -, -, -⟩ :=
      push_back_calls_rep fuel ops m [] hempty (by simpa using hdistinct) hchains hfuel
    simp only [List.nil_append] at hq
    obtain ⟨h1, h2⟩ := pop_fronts_rep _ m' hq
    exact ⟨m', e, hq, h1, by rw [h2.pop_front_nil], h2⟩
  · intro b
    have := (hempty.push_back (b := b) (by simp)).pop_front_cons
    simpa using this

theorem C1_queue_fifo_witness :
    QueueRep sample_mem [] ∧
    (∃ m', push_back_calls 2 sample_mem [Push.one 1, Push.range 2 [3]] = .ok m' ∧
      (pop_fronts 3 m').2 = [Ptr.buf 1, Ptr.buf 2, Ptr.buf 3] ∧
      (buffers.pop_front (pop_fronts 3 m').1).2 = .null) := by
  have h0 : QueueRep sample_mem [] := by decide
  refine ⟨h0, ?_⟩
  obtain ⟨⟨m', e, -, h1, h2, -⟩, -⟩ :=
    C1_queue_fifo sample_mem [Push.one 1, Push.range 2 [3]] 2 h0 (by decide) (by decide)
      (by decide)
  exact ⟨m', e, h1, h2⟩

theorem PoolRep.first_nil {m : Mem} (h : PoolRep m []) : m.first = .null := by
  have := h.head
  simp at this; exact this.symm

theorem PoolRep.first_cons {m : Mem} {p : Nat} {ps : List Nat} (h : PoolRep m (p :: ps)) :
    m.first = .buf p := by
  have := h.head
  simp at this; exact this.symm

theorem poolRep_nil_of_first {m : Mem} (h : m.first = .null) : PoolRep m [] :=
  ⟨List.nodup_nil, by simp [h], by simp [Slinked]⟩

theorem PoolRep.put_rep {m : Mem} {ps : List Nat} (h : PoolRep m ps) {b : Nat} (hb : b ∉ ps) :
    PoolRep (allocator.put m (.buf b)) (b :: ps) := by
  refine ⟨List.nodup_cons.2 ⟨hb, h.nodup⟩, by simp [allocator.put], ?_⟩
  unfold Slinked
  simp only [bufs_cons, List.cons_append]
  cases hl : bufs ps ++ [Ptr.null] with
  | nil => simp at hl
  | cons n l =>
    rw [List.chain'_cons]
    have hh := h.head
    simp only [hl, List.head?_cons, Option.some.injEq] at hh
    refine ⟨by simp [allocator.put, hh], ?_⟩
    rw [← hl]
    refine Slinked.sframe h.links ?_
    intro a ha
    have : a ∈ bufs ps := by simpa using ha
    have h2 : a ≠ .buf b := by intro e; subst e; simp at this; exact hb this
    simp [allocator.put, h2]

theorem PoolRep.tail_rep {m : Mem} {p : Nat} {ps : List Nat} (h : PoolRep m (p :: ps)) :
    PoolRep { m with first := m.next m.first } ps := by
  have hl := h.links
  unfold Slinked at hl
  simp only [bufs_cons, List.cons_append] at hl
  refine ⟨(List.nodup_cons.1 h.nodup).2, ?_, ?_⟩
  · cases hb : bufs ps ++ [Ptr.null] with
    | nil => simp at hb
    | cons n l =>
      rw [hb, List.chain'_cons] at hl
      simp [hb, h.first_cons, hl.1]
  · cases hb : bufs ps ++ [Ptr.null] with
    | nil => simp at hb
    | cons n l =>
      rw [hb, List.chain'_cons] at hl
      exact hl.2

theorem get_of_first_ne {m : Mem} (h : m.first ≠ .null) (alloc : Nat → Option Nat) :
    allocator.get alloc m = ({ m with first := m.next m.first }, m.first) := by
  simp [allocator.get, h]

theorem setNext_self (m : Mem) (p : Ptr) : m.setNext p (m.next p) = m := by
  cases m
  simp only [Mem.setNext, Mem.mk.injEq, and_true, true_and]
  funext q
  by_cases h : q = p <;> simp [h]

/-- C9 (pool LIFO round trip). For every memory and every heap buffer `b`,
`put(b)` followed by `get()` returns `b`, allocates nothing, restores
`_M_first`, and every free list that did not contain `b` is exactly as before;
and on a non-empty pool `b = get()` followed by `put(b)` gives back the very
same memory, so the free list holds the same buffers in the same order. -/
theorem C9_pool_lifo_round_trip (m : Mem) (alloc : Nat → Option Nat) :
    (∀ b : Nat,
      (allocator.get alloc (allocator.put m (.buf b))).2 = .buf b ∧
      (allocator.get alloc (allocator.put m (.buf b))).1.first = m.first ∧
      (∀ ps, PoolRep m ps → b ∉ ps →
        PoolRep (allocator.get alloc (allocator.put m (.buf b))).1 ps)) ∧
    (∀ p ps, PoolRep m (p :: ps) →
      (allocator.get alloc m).2 = .buf p ∧
      PoolRep (allocator.get alloc m).1 ps ∧
      allocator.put (allocator.get alloc m).1 (allocator.get alloc m).2 = m) := by
  constructor
  · intro b
    have hne : (allocator.put m (.buf b)).first ≠ .null := by simp [allocator.put]
    rw [get_of_first_ne hne]
    refine ⟨by simp [allocator.put], by simp [allocator.put], ?_⟩
    intro ps hps hb
    exact (hps.put_rep hb).tail_rep
  · intro p ps hps
    have hne : m.first ≠ .null := by rw [hps.first_cons]; simp
    rw [get_of_first_ne hne]
    refine ⟨hps.first_cons, hps.tail_rep, ?_⟩
    show ({ (Mem.setNext _ _ _) with first := _ } : Mem) = m
    have := setNext_self m m.first
    cases m
    simp only [Mem.setNext, Mem.mk.injEq, and_true, true_and] at this ⊢
    exact this

theorem C9_pool_lifo_round_trip_witness :
    PoolRep sample_pool [5, 6] ∧ 7 ∉ [5, 6] ∧
    (allocator.get (fun _ => none) (allocator.put sample_pool (.buf 7))).2 = .buf 7 ∧
    PoolRep (allocator.get (fun _ => none) (allocator.put sample_pool (.buf 7))).1 [5, 6] ∧
    (allocator.get (fun _ => none) sample_pool).2 = .buf 5 ∧
    allocator.put (allocator.get (fun _ => none) sample_pool).1
      (allocator.get (fun _ => none) sample_pool).2 = sample_pool := by
  have h0 : PoolRep sample_pool [5, 6] := by decide
  have h := C9_pool_lifo_round_trip sample_pool (fun _ => none)
  exact ⟨h0, by decide, (h.1 7).1, (h.1 7).2.2 _ h0 (by decide), (h.2 5 [6] h0).1,
    (h.2 5 [6] h0).2.2⟩

theorem allocate_loop_rep (alloc : Nat → Option Nat) :
    ∀ (ids : List Nat) (i j : Nat) (m : Mem) (ps : List Nat),
      PoolRep m ps → (ids.reverse ++ ps).Nodup →
      (∀ n, (hn : n < ids.length) → alloc (j + n) = some (ids.get ⟨n, hn⟩)) →
      (ids.length = i ∨ (ids.length < i ∧ alloc (j + ids.length) = none)) →
      PoolRep (allocator.allocate_loop alloc i j m) (ids.reverse ++ ps)
  | [], i, j, m, ps, h, _, _, hend => by
    cases i with
    | zero => simpa [allocator.allocate_loop] using h
    | succ i =>
      rcases hend with e | ⟨-, e⟩
      · simp at e
      · simp only [List.length_nil, Nat.add_zero] at e
        simpa [allocator.allocate_loop, e] using h
  | id :: ids, i, j, m, ps, h, hnd, hal, hend => by
    cases i with
    | zero =>
      rcases hend with e | ⟨e, -⟩ <;> simp at e
    | succ i =>
      have h0 : alloc j = some id := by simpa using hal 0 (by simp)
      have hnd' : (ids.reverse ++ (id :: ps)).Nodup := by
        simpa [List.reverse_cons, List.append_assoc] using hnd
      have hid : id ∉ ps := by
        have := (List.nodup_append.1 hnd').2.1
        exact (List.nodup_cons.1 this).1
      have hp : PoolRep ({ ({ m with data := fun q => if q = Ptr.buf id then [] else m.data q } :
          Mem).setNext (.buf id) m.first with first := .buf id }) (id :: ps) := by
        have := h.put_rep hid
        refine ⟨this.nodup, ?_, ?_⟩
        · simp [allocator.put]
        · exact Slinked.sframe this.links (fun a _ => by simp [allocator.put])
      have := allocate_loop_rep alloc ids i (j + 1) _ (id :: ps) hp hnd'
        (by
          intro n hn
          have := hal (n + 1) (by simpa using hn)
          simpa [Nat.add_assoc, Nat.add_comm 1 n] using this)
        (by
          rcases hend with e | ⟨e1, e2⟩
          · left; simpa using e
          · right
            refine ⟨by simpa using e1, ?_⟩
            simpa [Nat.add_assoc, Nat.add_comm 1] using e2)
      simp only [allocator.allocate_loop, h0]
      simpa [List.reverse_cons, List.append_assoc] using this

theorem allocate_loop_first_ne (alloc : Nat → Option Nat) :
    ∀ (i j : Nat) (m : Mem), m.first ≠ .null → (allocator.allocate_loop alloc i j m).first ≠ .null
  | 0, _, _, h => by simpa [allocator.allocate_loop] using h
  | i + 1, j, m, h => by
    cases ha : alloc j with
    | none => simpa [allocator.allocate_loop, ha] using h
    | some id =>
      simp only [allocator.allocate_loop, ha]
      exact allocate_loop_first_ne alloc i (j + 1) _ (by simp)

theorem allocate_loop_succ_none {alloc : Nat → Option Nat} {j : Nat} (h : alloc j = none)
    (i : Nat) (m : Mem) : allocator.allocate_loop alloc (i + 1) j m = m := by
  simp [allocator.allocate_loop, h]

theorem allocate_loop_succ_some {alloc : Nat → Option Nat} {j id : Nat} (h : alloc j = some id)
    (i : Nat) (m : Mem) : allocator.allocate_loop alloc (i + 1) j m =
      allocator.allocate_loop alloc i (j + 1)
        { ({ m with data := fun q => if q = Ptr.buf id then [] else m.data q } :
          Mem).setNext (.buf id) m.first with first := .buf id } := by
  simp [allocator.allocate_loop, h]

theorem allocation_succ : allocator.allocation = 9999 + 1 := rfl

theorem allocate_first_fail {alloc : Nat → Option Nat} (h : alloc 0 = none) (m : Mem) :
    allocator.allocate alloc m = (m, decide (m.first ≠ Ptr.null)) := by
  unfold allocator.allocate
  rw [allocation_succ, allocate_loop_succ_none h]

theorem allocate_first_ok {alloc : Nat → Option Nat} {id : Nat} (h : alloc 0 = some id)
    (m : Mem) : (allocator.allocate alloc m).2 = true ∧
      (allocator.allocate alloc m).1.first ≠ .null := by
  have : (allocator.allocate_loop alloc allocator.allocation 0 m).first ≠ .null := by
    rw [allocation_succ, allocate_loop_succ_some h]
    exact allocate_loop_first_ne alloc _ _ _ (by simp)
  exact ⟨by simpa [allocator.allocate] using this, this⟩

/-- C10 (pool get and partial allocation). `get()` returns `nullptr` exactly
when the free list is empty and the first allocation of the refill batch
fails. When the free list is empty and the allocations `0 .. k-1` of the batch
succeed with pairwise distinct fresh buffers `ids`, `k >= 1`, and either
`k = 10000` or allocation `k` fails, `get()` returns the buffer allocated last
and leaves the other `k - 1` buffers in the free list. On a non-empty free
list `get()` only advances `_M_first`: it allocates nothing and removes
exactly the top buffer. -/
theorem C10_pool_get_partial_allocation (m : Mem) (alloc : Nat → Option Nat) :
    ((allocator.get alloc m).2 = .null ↔ m.first = .null ∧ alloc 0 = none) ∧
    (∀ (ids : List Nat) (hne : ids ≠ []), m.first = .null → ids.Nodup →
      (∀ n, (hn : n < ids.length) → alloc n = some (ids.get ⟨n, hn⟩)) →
      (ids.length = 10000 ∨ (ids.length < 10000 ∧ alloc ids.length = none)) →
      (allocator.get alloc m).2 = .buf (ids.getLast hne) ∧
      PoolRep (allocator.get alloc m).1 ids.dropLast.reverse ∧
      ids.dropLast.reverse.length = ids.length - 1) ∧
    (∀ p ps, PoolRep m (p :: ps) →
      allocator.get alloc m = ({ m with first := m.next m.first }, .buf p) ∧
      PoolRep (allocator.get alloc m).1 ps) := by
  refine ⟨?_, ?_, ?_⟩
  · constructor
    · intro h
      by_cases hf : m.first = .null
      · refine ⟨hf, ?_⟩
        cases ha : alloc 0 with
        | none => rfl
        | some id =>
          exfalso
          obtain ⟨h1, h2⟩ := allocate_first_ok ha m
          simp only [allocator.get, hf, ne_eq, not_true_eq_false, if_false, h1, if_true] at h
          exact h2 h
      · rw [get_of_first_ne hf] at h
        exact absurd h hf
    · rintro ⟨hf, ha⟩
      simp [allocator.get, hf, allocate_first_fail ha]
  · intro ids hne hf hnd hal hend
    have hrep : PoolRep (allocator.allocate_loop alloc allocator.allocation 0 m)
        (ids.reverse ++ []) :=
      allocate_loop_rep alloc ids allocator.allocation 0 m [] (poolRep_nil_of_first hf)
        (by simpa using hnd) (by simpa using hal) (by simpa [allocator.allocation] using hend)
    rw [List.append_nil] at hrep
    obtain ⟨l, a, rfl⟩ : ∃ l a, ids = l ++ [a] := by
      rcases List.eq_nil_or_concat ids with e | ⟨l, a, e⟩
      · exact absurd e hne
      · exact ⟨l, a, by simpa using e⟩
    simp only [List.reverse_append, List.reverse_singleton, List.singleton_append] at hrep
    have hfirst := hrep.first_cons
    have hne' : (allocator.allocate_loop alloc allocator.allocation 0 m).first ≠ .null := by
      rw [hfirst]; simp
    have hget : allocator.get alloc m =
        ({ (allocator.allocate_loop alloc allocator.allocation 0 m) with
            first := (allocator.allocate_loop alloc allocator.allocation 0 m).next
              (allocator.allocate_loop alloc allocator.allocation 0 m).first },
          (allocator.allocate_loop alloc allocator.allocation 0 m).first) := by
      simp [allocator.get, hf, allocator.allocate, hne']
    rw [hget]
    refine ⟨by simp [hfirst], ?_, by simp⟩
    simpa using hrep.tail_rep
  · intro p ps hps
    have hne : m.first ≠ .null := by rw [hps.first_cons]; simp
    rw [get_of_first_ne hne]
    exact ⟨by rw [hps.first_cons], hps.tail_rep⟩

theorem C10_pool_get_partial_allocation_witness :
    sample_raw.first = .null ∧
    (allocator.get sample_alloc sample_raw).2 = .buf 102 ∧
    PoolRep (allocator.get sample_alloc sample_raw).1 [101, 100] ∧
    PoolRep sample_pool [5, 6] ∧
    (allocator.get sample_alloc sample_pool).2 = .buf 5 ∧
    PoolRep (allocator.get sample_alloc sample_pool).1 [6] := by
  have h := C10_pool_get_partial_allocation sample_raw sample_alloc
  have h1 := h.2.1 [100, 101, 102] (by simp) rfl (by decide)
    (by intro n hn
        have : n = 0 ∨ n = 1 ∨ n = 2 := by simp at hn; omega
        rcases this with e | e | e <;> subst e <;> rfl)
    (Or.inr ⟨by decide, rfl⟩)
  have h0 : PoolRep sample_pool [5, 6] := by decide
  have h2 := (C10_pool_get_partial_allocation sample_pool sample_alloc).2.2 5 [6] h0
  refine ⟨rfl, h1.1, h1.2.1, h0, ?_, h2.2⟩
  rw [h2.1]

theorem QueueRep.qframe {m m' : Mem} {xs : List Nat} (h : QueueRep m xs)
    (hf : ∀ a, a = .header ∨ a ∈ bufs xs → m'.next a = m.next a ∧ m'.prev a = m.prev a) :
    QueueRep m' xs := by
  refine ⟨h.nodup, Dlinked.dframe h.links ?_ ?_⟩
  · intro a ha
    have := List.mem_of_mem_dropLast ha
    refine (hf a ?_).1
    simp only [List.cons_append, List.mem_cons, List.mem_append, List.mem_singleton] at this
    tauto
  · intro a ha
    have := List.mem_of_mem_tail ha
    refine (hf a ?_).2
    simp only [List.cons_append, List.mem_cons, List.mem_append, List.mem_singleton] at this
    tauto

theorem PoolRep.pframe {m m' : Mem} {ps : List Nat} (h : PoolRep m ps)
    (hfirst : m'.first = m.first) (hf : ∀ a ∈ bufs ps, m'.next a = m.next a) :
    PoolRep m' ps := by
  refine ⟨h.nodup, by rw [hfirst]; exact h.head, Slinked.sframe h.links ?_⟩
  intro a ha
  have := List.mem_of_mem_dropLast ha
  refine hf a ?_
  simp only [List.mem_append, List.mem_singleton] at this
  rcases this with h1 | h1
  · exact h1
  · subst h1
    exfalso
    have hnd : (bufs ps ++ [Ptr.null]).Nodup := by
      rw [List.nodup_append]
      refine ⟨bufs_nodup h.nodup, List.nodup_singleton _, ?_⟩
      intro a ha hb
      simp at hb; subst hb; simp at ha
    exact not_mem_dropLast_of_getLast? hnd (by simp) ha rfl

theorem ChainRep.cframe {m m' : Mem} {first last : Ptr} {c : List Nat}
    (h : ChainRep m first last c)
    (hf : ∀ a ∈ bufs c, m'.next a = m.next a ∧ m'.prev a = m.prev a) :
    ChainRep m' first last c :=
  ⟨h.nonempty, h.nodup,
    Dlinked.dframe h.links (fun a ha => (hf a (List.mem_of_mem_dropLast ha)).1)
      (fun a ha => (hf a (List.mem_of_mem_tail ha)).2),
    h.first_eq, h.last_eq⟩

theorem push_front_range_ok {m : Mem} {fuel : Nat} {first last : Ptr} {c : Nat}
    (h : buffers.distance m fuel first last = .ok c) :
    buffers.push_front_range m fuel first last
      = .ok (push_front_range_mem m first last c, (m.count + c) % SIZE_MOD) := by
  simp only [buffers.push_front_range, h, bind, Except.bind, pure, Except.pure]
  rfl

theorem QueueRep.push_front_range {m : Mem} {xs chain : List Nat} {first last : Ptr}
    (h : QueueRep m xs) (hc : ChainRep m first last chain) (hd : xs.Disjoint chain)
    {fuel : Nat} (hf : chain.length ≤ fuel) :
    ∃ m', buffers.push_front_range m fuel first last
        = .ok (m', (m.count + chain.length) % SIZE_MOD) ∧
      QueueRep m' (chain ++ xs) ∧ m'.count = (m.count + chain.length) % SIZE_MOD ∧
      m'.first = m.first ∧ m'.data = m.data ∧
      ∀ a, a ≠ .header → a ∉ bufs xs → a ∉ bufs chain →
        m'.next a = m.next a ∧ m'.prev a = m.prev a := by
  obtain ⟨n, hn, hnn, hpn, hL⟩ := h.head_facts
  have hnmem : n ∈ bufs xs ++ [Ptr.header] := List.mem_of_mem_head? hn
  have hfm := hc.first_mem
  have hlm := hc.last_mem
  have hfx := not_mem_bufs_of_disjoint hd hfm
  have hlx := not_mem_bufs_of_disjoint hd hlm
  have hfh : first ≠ .header := by intro e; subst e; simp at hfm
  have hlh : last ≠ .header := by intro e; subst e; simp at hlm
  have hnc : n ∉ bufs chain := by
    intro hnc
    rcases List.mem_append.1 hnmem with e | e
    · exact not_mem_bufs_of_disjoint hd hnc e
    · simp at e; subst e; simp at hnc
  have hnl : n ≠ last := by intro e; subst e; exact hnc hlm
  have hnf : n ≠ first := by intro e; subst e; exact hnc hfm
  refine ⟨push_front_range_mem m first last (chain.length % SIZE_MOD), ?_, ?_, ?_, ?_, ?_, ?_⟩
  · rw [push_front_range_ok (hc.distance hf), Nat.add_mod_mod]
  · refine ⟨List.Nodup.append hc.nodup h.nodup hd.symm, ?_⟩
    unfold Dlinked
    have e : Ptr.header :: bufs (chain ++ xs) ++ [Ptr.header]
        = [Ptr.header] ++ (bufs chain ++ (bufs xs ++ [Ptr.header])) := by simp
    rw [e, List.chain'_append]
    refine ⟨List.chain'_singleton _, ?_, ?_⟩
    · rw [List.chain'_append]
      refine ⟨?_, ?_, ?_⟩
      · refine Dlinked.dframe hc.links ?_ ?_
        · intro a ha
          have hal : a ≠ last :=
            not_mem_dropLast_of_getLast? (bufs_nodup hc.nodup) hc.last_eq ha
          have hah : a ≠ .header := by
            intro e; subst e
            have := List.mem_of_mem_dropLast ha
            simp at this
          simp [push_front_range_mem, hal, hah]
        · intro c hc'
          have h1 : c ≠ first := not_mem_tail_of_head? (bufs_nodup hc.nodup) hc.first_eq hc'
          have h2 : c ≠ n := by
            intro e; subst e; exact hnc (List.mem_of_mem_tail hc')
          simp [push_front_range_mem, hnn, h1, h2]
      · refine Dlinked.dframe hL ?_ ?_
        · intro a ha
          have hax : a ∈ bufs xs := by simpa using ha
          have h1 : a ≠ .header := by intro e; subst e; simp at hax
          have h2 : a ≠ last := by intro e; subst e; exact hlx hax
          simp [push_front_range_mem, h1, h2]
        · intro c hc'
          have h1 : c ≠ n := not_mem_tail_of_head? (cycle_nodup' h.nodup) hn hc'
          have h2 : c ≠ first := by
            intro e; subst e
            have := List.mem_of_mem_tail hc'
            simp only [List.mem_append, List.mem_singleton] at this
            rcases this with e | e
            · exact hfx e
            · exact hfh e
          simp [push_front_range_mem, hnn, h1, h2]
      · intro x hx y hy
        rw [hc.last_eq] at hx
        rw [hn] at hy
        simp at hx hy; subst hx hy
        simp [push_front_range_mem, hnn, hlh, Ne.symm hnf]
    · intro x hx y hy
      have hy' : (bufs chain).head? = some y := by
        cases hb : bufs chain with
        | nil =>
          have := hc.first_eq
          rw [hb] at this; simp at this
        | cons z l => rw [hb] at hy; simpa using hy
      rw [hc.first_eq] at hy'
      simp at hx hy'; subst hx hy'
      simp [push_front_range_mem, hnn, Ne.symm hnf]
  · simp [push_front_range_mem]
  · simp [push_front_range_mem]
  · simp [push_front_range_mem]
  · intro a h1 h2 h3
    have han : a ≠ n := by
      intro e; subst e
      rcases List.mem_append.1 hnmem with e | e
      · exact h2 e
      · simp at e; exact h1 e
    have hal : a ≠ last := by intro e; subst e; exact h3 hlm
    have haf : a ≠ first := by intro e; subst e; exact h3 hfm
    simp [push_front_range_mem, hnn, h1, han, hal, haf]

theorem pop_timed_eq (m : Mem) : buffers.pop_timed m = buffers.pop m := rfl

theorem QueueRep.pop_nil {m : Mem} (h : QueueRep m []) : buffers.pop m = (m, .null, .null, 0) := by
  have hl := h.links
  simp [Dlinked] at hl
  simp [buffers.pop, hl.1]

theorem QueueRep.pop_cons {m : Mem} {x : Nat} {xs : List Nat} (h : QueueRep m (x :: xs)) :
    ∃ m' first last, buffers.pop m = (m', first, last, m.count) ∧
      QueueRep m' [] ∧ ChainRep m' first last (x :: xs) ∧ m'.count = 0 ∧
      m'.first = m.first ∧ m'.data = m.data ∧
      ∀ a, a ≠ .header → m'.next a = m.next a ∧ m'.prev a = m.prev a := by
  obtain ⟨t, ht, hpt, hnt, hL⟩ := h.tail_facts
  obtain ⟨n, hn, hnn, hpn, hL'⟩ := h.head_facts
  simp only [bufs_cons, List.cons_append, List.head?_cons, Option.some.injEq] at hn
  subst hn
  have hx : m.next .header ≠ .header := by rw [hnn]; simp
  have hfr : ∀ a, a ≠ .header →
      (buffers.pop m).1.next a = m.next a ∧ (buffers.pop m).1.prev a = m.prev a := by
    intro a ha
    simp [buffers.pop, hx, ha]
  refine ⟨(buffers.pop m).1, .buf x, t, ?_, ?_, ?_, ?_, ?_, ?_, hfr⟩
  · simp [buffers.pop, hx, hnn, hpt]
  · refine ⟨List.nodup_nil, ?_⟩
    simp [Dlinked, buffers.pop, hx]
  · refine ⟨by simp, h.nodup, ?_, by simp, ?_⟩
    · have h1 : Dlinked m (bufs (x :: xs)) := by
        have := hL
        unfold Dlinked at this ⊢
        rw [List.chain'_cons'] at this
        exact this.2
      refine Dlinked.dframe h1 ?_ ?_
      · intro a ha
        have := List.mem_of_mem_dropLast ha
        exact (hfr a (by intro e; subst e; simp at this)).1
      · intro a ha
        have := List.mem_of_mem_tail ha
        exact (hfr a (by intro e; subst e; simp at this)).2
    · simpa [List.getLast?_cons_cons] using ht
  · simp [buffers.pop, hx]
  · simp [buffers.pop, hx]
  · simp [buffers.pop, hx]

theorem sent_buffers_append (t1 t2 : List Event) :
    sent_buffers (t1 ++ t2) = sent_buffers t1 ++ sent_buffers t2 := by
  induction t1 with
  | nil => rfl
  | cons e t ih =>
    cases e with
    | transport_send src pl ok =>
      cases src <;> cases ok <;> simp [sent_buffers, ih]
    | _ => simp [sent_buffers, ih]

theorem sent_payloads_append (t1 t2 : List Event) :
    sent_payloads (t1 ++ t2) = sent_payloads t1 ++ sent_payloads t2 := by
  induction t1 with
  | nil => rfl
  | cons e t ih =>
    cases e with
    | transport_send src pl ok => cases ok <;> simp [sent_payloads, ih]
    | _ => simp [sent_payloads, ih]

theorem put_buffers_append (t1 t2 : List Event) :
    put_buffers (t1 ++ t2) = put_buffers t1 ++ put_buffers t2 := by
  induction t1 with
  | nil => rfl
  | cons e t ih => cases e <;> simp [put_buffers, ih]

theorem send_attempts_append (t1 t2 : List Event) :
    send_attempts (t1 ++ t2) = send_attempts t1 + send_attempts t2 := by
  induction t1 with
  | nil => simp [send_attempts]
  | cons e t ih => cases e <;> simp [send_attempts, ih] <;> omega

theorem Inv.of_mem_pc {s s' : Sender} {q c p : List Nat} (h : Inv s q c p)
    (hm : s'.mem = s.mem) (hpc : s'.pc = s.pc) : Inv s' q c p := by
  refine ⟨hm ▸ h.queue, hm ▸ h.count, hm ▸ h.pool, h.nodup, h.bound, ?_⟩
  have := h.chain
  rw [hpc, hm]; exact this

theorem Inv.chain_nil_of_top {s : Sender} {q c p : List Nat} (h : Inv s q c p)
    (hpc : s.pc = Pc.top) : c = [] := by
  have := h.chain
  rw [hpc] at this; exact this

theorem Inv.chain_of_sending {s : Sender} {q c p : List Nat} {f l : Ptr} (h : Inv s q c p)
    (hpc : s.pc = Pc.sending f l) : ChainRep s.mem f l c := by
  have := h.chain
  rw [hpc] at this; exact this

theorem Inv.chain_of_requeue {s : Sender} {q c p : List Nat} {f l : Ptr} (h : Inv s q c p)
    (hpc : s.pc = Pc.requeue f l) : ChainRep s.mem f l c := by
  have := h.chain
  rw [hpc] at this; exact this

theorem disjoint_of_nodup3 {p c q : List Nat} (h : (p ++ c ++ q).Nodup) :
    p.Disjoint c ∧ p.Disjoint q ∧ c.Disjoint q ∧ p.Nodup ∧ c.Nodup ∧ q.Nodup := by
  rw [List.nodup_append, List.nodup_append] at h
  obtain ⟨⟨hp, hc, hpc⟩, hq, hpcq⟩ := h
  refine ⟨hpc, ?_, ?_, hp, hc, hq⟩
  · intro a ha hb; exact hpcq (List.mem_append_left _ ha) hb
  · intro a ha hb; exact hpcq (List.mem_append_right _ ha) hb

/-- A producer `push_back` call keeps the ownership invariant. -/
theorem Inv.push_step {s : Sender} {q c p : List Nat} (h : Inv s q c p) (op : Push)
    (fuel : Nat) (hl : Dlinked s.mem (bufs op.ids)) (hnd : (p ++ c ++ q ++ op.ids).Nodup)
    (hb : (p ++ c ++ q ++ op.ids).length < SIZE_MOD) (hf : op.ids.length ≤ fuel) :
    ∃ m' k, push_back_call fuel s.mem op = .ok (m', k) ∧
      step fuel s (.push op) = .ok { s with mem := m' } ∧
      Inv { s with mem := m' } (q ++ op.ids) c p ∧ m'.data = s.mem.data ∧
      ∀ a, a ≠ .header → a ∉ bufs q → a ∉ bufs op.ids →
        m'.next a = s.mem.next a ∧ m'.prev a = s.mem.prev a := by
  have hd := List.disjoint_of_nodup_append hnd
  have hnd0 := (List.nodup_append.1 hnd).1
  obtain ⟨hpc, hpq, hcq, -, -, -⟩ := disjoint_of_nodup3 hnd0
  have hqi : q.Disjoint op.ids := fun a ha hb => hd (List.mem_append_right _ ha) hb
  have hci : c.Disjoint op.ids := fun a ha hb =>
    hd (List.mem_append_left _ (List.mem_append_right _ ha)) hb
  have hpi : p.Disjoint op.ids := fun a ha hb =>
    hd (List.mem_append_left _ (List.mem_append_left _ ha)) hb
  obtain ⟨m', e, hq', hcnt, hfirst, hdata, hfr⟩ :=
    push_back_call_rep h.queue hl (List.nodup_append.1 hnd).2.1 hqi hf
  have hfr' : ∀ xs : List Nat, xs.Disjoint q → xs.Disjoint op.ids → ∀ a ∈ bufs xs,
      m'.next a = s.mem.next a ∧ m'.prev a = s.mem.prev a := by
    intro xs h1 h2 a ha
    refine hfr a ?_ (not_mem_bufs_of_disjoint h1.symm ha) (not_mem_bufs_of_disjoint h2.symm ha)
    intro e; subst e; simp at ha
  refine ⟨m', _, e, by simp [step, e], ?_, hdata, hfr⟩
  refine ⟨hq', ?_, ?_, ?_, ?_, ?_⟩
  · show m'.count = _
    rw [hcnt, h.count, List.length_append]
    apply Nat.mod_eq_of_lt
    simp only [List.length_append] at hb ⊢
    omega
  · exact h.pool.pframe hfirst (fun a ha => (hfr' p hpq hpi a ha).1)
  · have : (p ++ c ++ (q ++ op.ids)) = p ++ c ++ q ++ op.ids := by simp
    rw [this]; exact hnd
  · simpa [List.append_assoc] using hb
  · have := h.chain
    show match s.pc with
      | Pc.sending f l => ChainRep m' f l c
      | Pc.requeue f l => ChainRep m' f l c
      | _ => c = []
    cases hpc' : s.pc with
    | sending f l =>
      rw [hpc'] at this
      exact this.cframe (hfr' c hcq hci)
    | requeue f l =>
      rw [hpc'] at this
      exact this.cframe (hfr' c hcq hci)
    | top => rw [hpc'] at this; exact this
    | exiting => rw [hpc'] at this; exact this
    | done => rw [hpc'] at this; exact this

@[simp] theorem end_iteration_mem (s : Sender) : (sender.end_iteration s).mem = s.mem := by
  unfold sender.end_iteration; split <;> rfl

@[simp] theorem disconnect_mem (s : Sender) : (sender.disconnect s).mem = s.mem := by
  rfl

@[simp] theorem connect_mem (ok : Bool) (s : Sender) : (sender.connect ok s).1.mem = s.mem := by
  unfold sender.connect; split <;> rfl

@[simp] theorem send_bytes_mem (pc so : Bool) (src : Src) (pl : List Nat) (s : Sender) : (sender.send_bytes pc so src pl s).1.mem = s.mem := by
  unfold sender.send_bytes; split <;> [split; skip] <;> rfl

@[simp] theorem unlink_mem (s : Sender) (path : String) : (sender.unlink s path).mem = s.mem := by
  rfl

@[simp] theorem end_iteration_directory (s : Sender) : (sender.end_iteration s).directory = s.directory := by
  unfold sender.end_iteration; split <;> rfl

@[simp] theorem put_directory (s : Sender) (b : Ptr) : (sender.put s b).directory = s.directory := by
  rfl

@[simp] theorem disconnect_directory (s : Sender) : (sender.disconnect s).directory = s.directory := by
  rfl

@[simp] theorem connect_directory (ok : Bool) (s : Sender) : (sender.connect ok s).1.directory = s.directory := by
  unfold sender.connect; split <;> rfl

@[simp] theorem send_bytes_directory (pc so : Bool) (src : Src) (pl : List Nat) (s : Sender) : (sender.send_bytes pc so src pl s).1.directory = s.directory := by
  unfold sender.send_bytes; split <;> [split; skip] <;> rfl

@[simp] theorem unlink_directory (s : Sender) (path : String) : (sender.unlink s path).directory = s.directory := by
  rfl

@[simp] theorem end_iteration_files (s : Sender) : (sender.end_iteration s).files = s.files := by
  unfold sender.end_iteration; split <;> rfl

@[simp] theorem put_files (s : Sender) (b : Ptr) : (sender.put s b).files = s.files := by
  rfl

@[simp] theorem disconnect_files (s : Sender) : (sender.disconnect s).files = s.files := by
  rfl

@[simp] theorem connect_files (ok : Bool) (s : Sender) : (sender.connect ok s).1.files = s.files := by
  unfold sender.connect; split <;> rfl

@[simp] theorem send_bytes_files (pc so : Bool) (src : Src) (pl : List Nat) (s : Sender) : (sender.send_bytes pc so src pl s).1.files = s.files := by
  unfold sender.send_bytes; split <;> [split; skip] <;> rfl

@[simp] theorem end_iteration_state (s : Sender) : (sender.end_iteration s).state = s.state := by
  unfold sender.end_iteration; split <;> rfl

@[simp] theorem put_state (s : Sender) (b : Ptr) : (sender.put s b).state = s.state := by
  rfl

@[simp] theorem disconnect_state (s : Sender) : (sender.disconnect s).state = s.state := by
  rfl

@[simp] theorem connect_state (ok : Bool) (s : Sender) : (sender.connect ok s).1.state = s.state := by
  unfold sender.connect; split <;> rfl

@[simp] theorem send_bytes_state (pc so : Bool) (src : Src) (pl : List Nat) (s : Sender) : (sender.send_bytes pc so src pl s).1.state = s.state := by
  unfold sender.send_bytes; split <;> [split; skip] <;> rfl

@[simp] theorem unlink_state (s : Sender) (path : String) : (sender.unlink s path).state = s.state := by
  rfl

@[simp] theorem end_iteration_current_time (s : Sender) : (sender.end_iteration s).current_time = s.current_time := by
  unfold sender.end_iteration; split <;> rfl

@[simp] theorem put_current_time (s : Sender) (b : Ptr) : (sender.put s b).current_time = s.current_time := by
  rfl

@[simp] theorem disconnect_current_time (s : Sender) : (sender.disconnect s).current_time = s.current_time := by
  rfl

@[simp] theorem connect_current_time (ok : Bool) (s : Sender) : (sender.connect ok s).1.current_time = s.current_time := by
  unfold sender.connect; split <;> rfl

@[simp] theorem send_bytes_current_time (pc so : Bool) (src : Src) (pl : List Nat) (s : Sender) : (sender.send_bytes pc so src pl s).1.current_time = s.current_time := by
  unfold sender.send_bytes; split <;> [split; skip] <;> rfl

@[simp] theorem unlink_current_time (s : Sender) (path : String) : (sender.unlink s path).current_time = s.current_time := by
  rfl

@[simp] theorem end_iteration_last_socket_operation (s : Sender) : (sender.end_iteration s).last_socket_operation = s.last_socket_operation := by
  unfold sender.end_iteration; split <;> rfl

@[simp] theorem put_last_socket_operation (s : Sender) (b : Ptr) : (sender.put s b).last_socket_operation = s.last_socket_operation := by
  rfl

@[simp] theorem disconnect_last_socket_operation (s : Sender) : (sender.disconnect s).last_socket_operation = s.last_socket_operation := by
  rfl

@[simp] theorem unlink_last_socket_operation (s : Sender) (path : String) : (sender.unlink s path).last_socket_operation = s.last_socket_operation := by
  rfl

@[simp] theorem end_iteration_connected (s : Sender) : (sender.end_iteration s).connected = s.connected := by
  unfold sender.end_iteration; split <;> rfl

@[simp] theorem put_connected (s : Sender) (b : Ptr) : (sender.put s b).connected = s.connected := by
  rfl

@[simp] theorem unlink_connected (s : Sender) (path : String) : (sender.unlink s path).connected = s.connected := by
  rfl

@[simp] theorem end_iteration_running (s : Sender) : (sender.end_iteration s).running = s.running := by
  unfold sender.end_iteration; split <;> rfl

@[simp] theorem put_running (s : Sender) (b : Ptr) : (sender.put s b).running = s.running := by
  rfl

@[simp] theorem disconnect_running (s : Sender) : (sender.disconnect s).running = s.running := by
  rfl

@[simp] theorem connect_running (ok : Bool) (s : Sender) : (sender.connect ok s).1.running = s.running := by
  unfold sender.connect; split <;> rfl

@[simp] theorem send_bytes_running (pc so : Bool) (src : Src) (pl : List Nat) (s : Sender) : (sender.send_bytes pc so src pl s).1.running = s.running := by
  unfold sender.send_bytes; split <;> [split; skip] <;> rfl

@[simp] theorem unlink_running (s : Sender) (path : String) : (sender.unlink s path).running = s.running := by
  rfl

@[simp] theorem end_iteration_error_sending (s : Sender) : (sender.end_iteration s).error_sending = s.error_sending := by
  unfold sender.end_iteration; split <;> rfl

@[simp] theorem put_error_sending (s : Sender) (b : Ptr) : (sender.put s b).error_sending = s.error_sending := by
  rfl

@[simp] theorem disconnect_error_sending (s : Sender) : (sender.disconnect s).error_sending = s.error_sending := by
  rfl

@[simp] theorem connect_error_sending (ok : Bool) (s : Sender) : (sender.connect ok s).1.error_sending = s.error_sending := by
  unfold sender.connect; split <;> rfl

@[simp] theorem send_bytes_error_sending (pc so : Bool) (src : Src) (pl : List Nat) (s : Sender) : (sender.send_bytes pc so src pl s).1.error_sending = s.error_sending := by
  unfold sender.send_bytes; split <;> [split; skip] <;> rfl

@[simp] theorem unlink_error_sending (s : Sender) (path : String) : (sender.unlink s path).error_sending = s.error_sending := by
  rfl

@[simp] theorem put_pc (s : Sender) (b : Ptr) : (sender.put s b).pc = s.pc := by
  rfl

@[simp] theorem disconnect_pc (s : Sender) : (sender.disconnect s).pc = s.pc := by
  rfl

@[simp] theorem connect_pc (ok : Bool) (s : Sender) : (sender.connect ok s).1.pc = s.pc := by
  unfold sender.connect; split <;> rfl

@[simp] theorem send_bytes_pc (pc so : Bool) (src : Src) (pl : List Nat) (s : Sender) : (sender.send_bytes pc so src pl s).1.pc = s.pc := by
  unfold sender.send_bytes; split <;> [split; skip] <;> rfl

@[simp] theorem unlink_pc (s : Sender) (path : String) : (sender.unlink s path).pc = s.pc := by
  rfl

@[simp] theorem end_iteration_trace (s : Sender) : (sender.end_iteration s).trace = s.trace := by
  unfold sender.end_iteration; split <;> rfl

@[simp] theorem put_mem (s : Sender) (b : Ptr) : (sender.put s b).mem = allocator.put s.mem b := rfl
@[simp] theorem put_trace (s : Sender) (b : Ptr) :
    (sender.put s b).trace = s.trace ++ [Event.put b] := rfl
@[simp] theorem disconnect_connected (s : Sender) : (sender.disconnect s).connected = false := rfl
@[simp] theorem disconnect_trace (s : Sender) :
    (sender.disconnect s).trace = s.trace ++ [Event.disconnect] := rfl
theorem end_iteration_pc_running {s : Sender} (h : s.running = true) :
    (sender.end_iteration s).pc = Pc.top := by
  simp [sender.end_iteration, h]
@[simp] theorem allocator_put_count (m : Mem) (b : Ptr) : (allocator.put m b).count = m.count := rfl
@[simp] theorem allocator_put_data (m : Mem) (b : Ptr) : (allocator.put m b).data = m.data := rfl
@[simp] theorem allocator_put_prev (m : Mem) (b : Ptr) : (allocator.put m b).prev = m.prev := rfl
@[simp] theorem allocator_put_first (m : Mem) (b : Ptr) : (allocator.put m b).first = b := rfl
@[simp] theorem allocator_put_next (m : Mem) (b a : Ptr) :
    (allocator.put m b).next a = if a = b then m.first else m.next a := rfl

theorem ChainRep.head_eq {m : Mem} {f l : Ptr} {b : Nat} {c : List Nat}
    (h : ChainRep m f l (b :: c)) : f = .buf b := by
  have := h.first_eq
  simp at this; exact this.symm

theorem ChainRep.single_last {m : Mem} {f l : Ptr} {b : Nat}
    (h : ChainRep m f l [b]) : l = .buf b := by
  have := h.last_eq
  simp at this; exact this.symm

theorem ChainRep.tail_chain {m : Mem} {f l : Ptr} {b x : Nat} {c : List Nat}
    (h : ChainRep m f l (b :: x :: c)) :
    m.next (.buf b) = .buf x ∧ ChainRep m (.buf x) l (x :: c) ∧ f ≠ l := by
  have hl := h.links
  unfold Dlinked at hl
  simp only [bufs_cons, List.chain'_cons] at hl
  have hlast : (bufs (x :: c)).getLast? = some l := by
    have := h.last_eq
    simpa [List.getLast?_cons_cons] using this
  refine ⟨hl.1.1, ⟨by simp, (List.nodup_cons.1 h.nodup).2, hl.2, by simp, hlast⟩, ?_⟩
  rw [h.head_eq]
  intro e
  have : l ∈ bufs (x :: c) := List.mem_of_getLast?_eq_some hlast
  rw [← e] at this
  exact (List.nodup_cons.1 h.nodup).1 (buf_mem_bufs.1 this)

/-- A successful send of the first buffer of the worker's chain: the buffer
moves to the top of the pool, the rest of the chain stays with the worker. -/
theorem Inv.sending_ok {s : Sender} {q c p : List Nat} {b : Nat} {f l : Ptr}
    (h : Inv s q (b :: c) p) (hpc : s.pc = Pc.sending f l) (hrun : s.running = true)
    {o : Oracle} (hp : o.peer_closed = false) (hs : o.send_ok = true) (fuel : Nat) :
    ∃ s', sender.run_step fuel o s = .ok s' ∧ Inv s' q c (b :: p) ∧ f = .buf b ∧
      s'.pc = pc_after_send c l ∧
      s'.trace = s.trace ++ [Event.peer_check false,
        Event.transport_send (Src.buffer (.buf b)) (s.mem.data (.buf b)) true,
        Event.put (.buf b)] ∧
      s'.mem.data = s.mem.data ∧ s'.mem.count = s.mem.count ∧ s'.running = s.running ∧
      s'.state = s.state ∧ s'.error_sending = s.error_sending ∧ s'.files = s.files ∧
      s'.connected = s.connected ∧
      (∀ a, a ≠ .buf b → s'.mem.next a = s.mem.next a ∧ s'.mem.prev a = s.mem.prev a) := by
  have hch := h.chain_of_sending hpc
  have hf := hch.head_eq
  subst hf
  obtain ⟨hdpc, hdpq, hdcq, hndp, hndc, hndq⟩ := disjoint_of_nodup3 h.nodup
  have hbp : b ∉ p := fun hb => hdpc hb (by simp)
  have hbq : b ∉ q := fun hb => hdcq (by simp) hb
  have hbc : b ∉ c := (List.nodup_cons.1 hndc).1
  have hpool := h.pool.put_rep hbp
  have hfr : ∀ a, a ≠ Ptr.buf b → (allocator.put s.mem (.buf b)).next a = s.mem.next a ∧
      (allocator.put s.mem (.buf b)).prev a = s.mem.prev a := by
    intro a ha; simp [allocator.put, ha]
  have hqueue : QueueRep (allocator.put s.mem (.buf b)) q := by
    refine h.queue.qframe ?_
    intro a ha
    refine hfr a ?_
    rcases ha with e | e
    · subst e; simp
    · intro e'; subst e'; exact hbq (buf_mem_bufs.1 e)
  have hnd' : (b :: p ++ c ++ q).Nodup := by
    have := h.nodup
    simp only [List.cons_append, List.nodup_cons, List.nodup_append, List.mem_append,
      List.mem_cons] at this ⊢
    simp only [List.Disjoint, List.mem_append, List.mem_cons] at this ⊢
    refine ⟨by tauto, ⟨⟨hndp, (List.nodup_cons.1 hndc).2, ?_⟩, hndq, ?_⟩⟩
    · intro a ha hc'; exact hdpc ha (List.mem_cons_of_mem _ hc')
    · intro a ha hq'
      rcases ha with ha | ha
      · exact hdpq ha hq'
      · exact hdcq (List.mem_cons_of_mem _ ha) hq'
  have hbound : (b :: p ++ c ++ q).length < SIZE_MOD := by
    have := h.bound
    simp only [List.length_append, List.length_cons] at this ⊢
    omega
  cases c with
  | nil =>
    have hl := hch.single_last
    subst hl
    apply Exists.intro
    refine ⟨?_, ?_, rfl, ?_, ?_, ?_, ?_, ?_, ?_, ?_, ?_, ?_, ?_⟩
    · simp only [sender.run_step, hpc, sender.send_bytes, hp, hs, ne_eq, not_true_eq_false,
        if_false, if_true, Bool.not_false]
      rfl
    · refine ⟨by simpa using hqueue, by simpa using h.count, by simpa using hpool, hnd',
        hbound, ?_⟩
      rw [end_iteration_pc_running (by simpa using hrun)]
    · rw [end_iteration_pc_running (by simpa using hrun)]; rfl
    · simp
    · simp
    · simp
    · simp
    · simp
    · simp
    · simp
    · simp
    · intro a ha
      simpa using hfr a ha
  | cons x c =>
    obtain ⟨hnx, htail, hne⟩ := hch.tail_chain
    apply Exists.intro
    refine ⟨?_, ?_, rfl, ?_, ?_, ?_, ?_, ?_, ?_, ?_, ?_, ?_, ?_⟩
    · simp only [sender.run_step, hpc, sender.send_bytes, hp, hs, ne_eq, hne,
        not_false_eq_true, if_true, Bool.not_false]
      rfl
    · refine ⟨by simpa using hqueue, by simpa using h.count, by simpa using hpool, hnd',
        hbound, ?_⟩
      show ChainRep _ _ _ _
      simp only [put_mem, hnx]
      refine htail.cframe ?_
      intro a ha
      refine hfr a ?_
      intro e; subst e; exact hbc (buf_mem_bufs.1 ha)
    · simp [hnx, pc_after_send]
    · simp
    · simp
    · simp
    · simp
    · simp
    · simp
    · simp
    · simp
    · intro a ha
      simpa using hfr a ha

/-- Pushing the worker's chain back to the front of the queue. -/
theorem requeue_rep {s : Sender} {q c p : List Nat} {f l : Ptr}
    (hq : QueueRep s.mem q) (hcount : s.mem.count = q.length) (hpool : PoolRep s.mem p)
    (hch : ChainRep s.mem f l c) (hnd : (p ++ c ++ q).Nodup)
    (hb : (p ++ c ++ q).length < SIZE_MOD) (hrun : s.running = true)
    {fuel : Nat} (hf : c.length ≤ fuel) :
    ∃ s', sender.requeue fuel s f l = .ok s' ∧ Inv s' (c ++ q) [] p ∧ s'.pc = Pc.top ∧
      s'.error_sending = true ∧ s'.mem.count = q.length + c.length ∧ s'.trace = s.trace ∧
      s'.mem.data = s.mem.data ∧ s'.running = s.running ∧ s'.state = s.state ∧
      s'.files = s.files ∧ s'.connected = s.connected ∧
      (∀ a, a ≠ .header → a ∉ bufs q → a ∉ bufs c →
        s'.mem.next a = s.mem.next a ∧ s'.mem.prev a = s.mem.prev a) := by
  obtain ⟨hdpc, hdpq, hdcq, hndp, hndc, hndq⟩ := disjoint_of_nodup3 hnd
  obtain ⟨m', e, hq', hcnt, hfirst, hdata, hfr⟩ := hq.push_front_range hch hdcq.symm hf
  have hcnt' : m'.count = q.length + c.length := by
    rw [hcnt, hcount]
    apply Nat.mod_eq_of_lt
    simp only [List.length_append] at hb
    omega
  refine ⟨sender.end_iteration { s with mem := m', error_sending := true }, ?_, ?_, ?_, ?_, ?_,
    ?_, ?_, ?_, ?_, ?_, ?_, ?_⟩
  · simp [sender.requeue, e]
  · refine ⟨by simpa using hq', ?_, ?_, ?_, ?_, ?_⟩
    · simp [hcnt', Nat.add_comm]
    · simp only [end_iteration_mem]
      refine hpool.pframe hfirst ?_
      intro a ha
      refine (hfr a ?_ (not_mem_bufs_of_disjoint hdpq.symm ha)
        (not_mem_bufs_of_disjoint hdpc.symm ha)).1
      intro e; subst e; simp at ha
    · have : p ++ [] ++ (c ++ q) = p ++ c ++ q := by simp
      rw [this]; exact hnd
    · simpa using hb
    · rw [end_iteration_pc_running (by simpa using hrun)]
  · exact end_iteration_pc_running (by simpa using hrun)
  · simp
  · simpa using hcnt'
  · simp
  · simpa using hdata
  · simp
  · simp
  · simp
  · simp
  · intro a h1 h2 h3
    simpa using hfr a h1 h2 h3

theorem Inv.requeue_step {s : Sender} {q c p : List Nat} {f l : Ptr}
    (h : Inv s q c p) (hpc : s.pc = Pc.requeue f l) (hrun : s.running = true)
    (o : Oracle) {fuel : Nat} (hf : c.length ≤ fuel) :
    ∃ s', sender.run_step fuel o s = .ok s' ∧ Inv s' (c ++ q) [] p ∧ s'.pc = Pc.top ∧
      s'.error_sending = true ∧ s'.mem.count = q.length + c.length ∧ s'.trace = s.trace ∧
      s'.mem.data = s.mem.data ∧ s'.running = s.running ∧ s'.state = s.state ∧
      s'.files = s.files ∧ s'.connected = s.connected ∧
      (∀ a, a ≠ .header → a ∉ bufs q → a ∉ bufs c →
        s'.mem.next a = s.mem.next a ∧ s'.mem.prev a = s.mem.prev a) := by
  have := requeue_rep h.queue h.count h.pool (h.chain_of_requeue hpc) h.nodup h.bound hrun hf
  simpa [sender.run_step, hpc] using this

theorem send_bytes_fail {pc so : Bool} (h : pc = true ∨ so = false) (src : Src)
    (pl : List Nat) (s : Sender) :
    (sender.send_bytes pc so src pl s).2 = false ∧
    (sender.send_bytes pc so src pl s).1.connected = false ∧
    (sender.send_bytes pc so src pl s).1.last_socket_operation = s.current_time ∧
    (sender.send_bytes pc so src pl s).1.trace =
      s.trace ++ [Event.peer_check pc] ++
        (if pc then [] else [Event.transport_send src pl false]) ++ [Event.disconnect] := by
  cases pc <;> cases so <;> simp [sender.send_bytes, sender.disconnect] at h ⊢

/-- A failed send (peer closed, or transport failure): the whole remaining
chain goes back to the front of the queue and nothing reaches the pool. -/
theorem Inv.sending_fail {s : Sender} {q c p : List Nat} {f l : Ptr}
    (h : Inv s q c p) (hpc : s.pc = Pc.sending f l) (hrun : s.running = true)
    {o : Oracle} (ho : o.peer_closed = true ∨ o.send_ok = false)
    {fuel : Nat} (hf : c.length ≤ fuel) :
    ∃ s', sender.run_step fuel o s = .ok s' ∧ Inv s' (c ++ q) [] p ∧ s'.pc = Pc.top ∧
      s'.error_sending = true ∧ s'.mem.count = q.length + c.length ∧
      s'.trace = s.trace ++ [Event.peer_check o.peer_closed] ++
        (if o.peer_closed then [] else
          [Event.transport_send (Src.buffer f) (s.mem.data f) false]) ++ [Event.disconnect] ∧
      s'.mem.data = s.mem.data ∧ s'.running = s.running ∧ s'.state = s.state ∧
      s'.files = s.files ∧ s'.connected = false ∧
      (∀ a, a ≠ .header → a ∉ bufs q → a ∉ bufs c →
        s'.mem.next a = s.mem.next a ∧ s'.mem.prev a = s.mem.prev a) := by
  obtain ⟨h1, h2, h3, h4⟩ := send_bytes_fail ho (Src.buffer f) (s.mem.data f) s
  have hch := h.chain_of_sending hpc
  obtain ⟨s', e, hinv, r1, r2, r3, r4, r5, r6, r7, r8, r9, r10⟩ :=
    requeue_rep (s := (sender.send_bytes o.peer_closed o.send_ok (Src.buffer f)
        (s.mem.data f) s).1) (q := q) (c := c) (p := p) (f := f) (l := l)
      (by simpa using h.queue) (by simpa using h.count) (by simpa using h.pool)
      (by simpa using hch) h.nodup h.bound (by simpa using hrun) hf
  refine ⟨s', ?_, hinv, r1, r2, r3, by rw [r4, h4], by simpa using r5, by simpa using r6,
    by simpa using r7, by simpa using r8, by rw [r9, h2], by simpa using r10⟩
  simp only [sender.run_step, hpc, h1]
  exact e

theorem Quiet.refl (t : List Event) : Quiet t t := ⟨rfl, rfl, rfl, rfl⟩

theorem quiet_connect (t : List Event) (ok : Bool) : Quiet t (t ++ [Event.connect ok]) := by
  simp [Quiet, sent_buffers_append, sent_payloads_append, put_buffers_append,
    send_attempts_append, sent_buffers, sent_payloads, put_buffers, send_attempts]

theorem quiet_disconnect (t : List Event) : Quiet t (t ++ [Event.disconnect]) := by
  simp [Quiet, sent_buffers_append, sent_payloads_append, put_buffers_append,
    send_attempts_append, sent_buffers, sent_payloads, put_buffers, send_attempts]

theorem Quiet.trans {t1 t2 t3 : List Event} (h1 : Quiet t1 t2) (h2 : Quiet t2 t3) :
    Quiet t1 t3 :=
  ⟨h2.1.trans h1.1, h2.2.1.trans h1.2.1, h2.2.2.1.trans h1.2.2.1, h2.2.2.2.trans h1.2.2.2⟩

theorem connect_quiet (ok : Bool) (s : Sender) :
    Quiet s.trace (sender.connect ok s).1.trace := by
  unfold sender.connect
  split
  · exact Quiet.refl _
  · exact quiet_connect _ _

theorem connect_result (ok : Bool) (s : Sender) :
    (sender.connect ok s).2 = (s.connected || ok) ∧
    (sender.connect ok s).1.connected = (s.connected || ok) := by
  unfold sender.connect sender.connected
  cases h : s.connected <;> simp [h]

/-- The part of a round from the state test to the lazy connect, in state
`sending_queued_buffers`: an empty queue leaves everything in place; a
non-empty queue is drained into the worker's chain. -/
theorem Inv.run_body_rep {s : Sender} {q c p : List Nat} (h : Inv s q c p)
    (hpc : s.pc = Pc.top) (hrun : s.running = true)
    (hst : s.state = State.sending_queued_buffers) (o : Oracle) :
    Quiet s.trace (sender.run_body o s).trace ∧
    (sender.run_body o s).running = s.running ∧ (sender.run_body o s).state = s.state ∧
    (sender.run_body o s).files = s.files ∧
    (sender.run_body o s).error_sending = s.error_sending ∧
    (sender.run_body o s).mem.data = s.mem.data ∧
    (∀ a, a ≠ .header → (sender.run_body o s).mem.next a = s.mem.next a ∧
      (sender.run_body o s).mem.prev a = s.mem.prev a) ∧
    ((q = [] ∧ (sender.run_body o s).pc = Pc.top ∧ Inv (sender.run_body o s) q [] p) ∨
     (q ≠ [] ∧ Inv (sender.run_body o s) [] q p ∧ ∃ f l,
        (sender.run_body o s).pc =
          if s.connected || o.connect_ok then Pc.sending f l else Pc.requeue f l)) := by
  have hc := h.chain_nil_of_top hpc
  subst hc
  cases q with
  | nil =>
    have hpop : buffers.pop_timed s.mem = (s.mem, .null, .null, 0) := h.queue.pop_nil
    have e : sender.run_body o s =
        if sender.connected s &&
            decide (s.current_time - s.last_socket_operation ≥ sender.idle_timeout)
        then sender.end_iteration (sender.disconnect s) else sender.end_iteration s := by
      unfold sender.run_body
      rw [if_pos hst]
      simp only [hpop]
      rw [if_neg (by simp)]
    have hmem : (sender.run_body o s).mem = s.mem := by
      rw [e]; split <;> simp
    have hpc' : (sender.run_body o s).pc = Pc.top := by
      rw [e]; split <;> simp [end_iteration_pc_running, hrun]
    refine ⟨?_, ?_, ?_, ?_, ?_, by rw [hmem], fun a _ => by rw [hmem]; exact ⟨rfl, rfl⟩,
      Or.inl ⟨rfl, hpc', h.of_mem_pc hmem (hpc'.trans hpc.symm)⟩⟩
    · rw [e]; split
      · simpa using quiet_disconnect _
      · simpa using Quiet.refl _
    all_goals
      rw [e]; split <;> simp
  | cons x xs =>
    obtain ⟨m', f, l, hpop, hq', hch, hcnt', hfirst, hdata, hfr⟩ := h.queue.pop_cons
    have hpos : s.mem.count > 0 := by rw [h.count]; simp
    have hpop' : buffers.pop_timed s.mem = (m', f, l, s.mem.count) := hpop
    have hcr := connect_result o.connect_ok { s with mem := m' }
    have e : sender.run_body o s =
        if (sender.connect o.connect_ok { s with mem := m' }).2
        then { (sender.connect o.connect_ok { s with mem := m' }).1 with pc := Pc.sending f l }
        else { (sender.connect o.connect_ok { s with mem := m' }).1 with pc := Pc.requeue f l }
        := by
      unfold sender.run_body
      rw [if_pos hst]
      simp only [hpop']
      rw [if_pos hpos]
    have hmem : (sender.run_body o s).mem = m' := by
      rw [e]; split <;> simp
    have hpc' : (sender.run_body o s).pc =
        if s.connected || o.connect_ok then Pc.sending f l else Pc.requeue f l := by
      rw [e, hcr.1]; split <;> simp
    refine ⟨?_, ?_, ?_, ?_, ?_, by rw [hmem, hdata], fun a ha => by rw [hmem]; exact hfr a ha,
      Or.inr ⟨by simp, ?_, f, l, hpc'⟩⟩
    · rw [e]
      split <;> simpa using connect_quiet o.connect_ok { s with mem := m' }
    · rw [e]; split <;> simp
    · rw [e]; split <;> simp
    · rw [e]; split <;> simp
    · rw [e]; split <;> simp
    · refine ⟨by rw [hmem]; exact hq', by rw [hmem, hcnt']; rfl, ?_, ?_, ?_, ?_⟩
      · rw [hmem]
        refine h.pool.pframe hfirst (fun a ha => (hfr a ?_).1)
        intro e; subst e; simp at ha
      · simpa using h.nodup
      · simpa using h.bound
      · rw [hpc', hmem]
        by_cases hco : (s.connected || o.connect_ok) = true
        · rw [if_pos hco]; exact hch
        · rw [if_neg hco]; exact hch

theorem run_step_top {s : Sender} (hpc : s.pc = Pc.top) (fuel : Nat) (o : Oracle) :
    sender.run_step fuel o s =
      if s.error_sending = true then
        if o.now - s.last_socket_operation ≥ sender.reconnection_time then
          if (!(sender.connect o.connect_ok { s with current_time := o.now }).2) = true then
            .ok (sender.end_iteration
              { (sender.connect o.connect_ok { s with current_time := o.now }).1 with
                error_sending := !(sender.connect o.connect_ok
                  { s with current_time := o.now }).2 })
          else
            .ok (sender.run_body o
              { (sender.connect o.connect_ok { s with current_time := o.now }).1 with
                error_sending := !(sender.connect o.connect_ok
                  { s with current_time := o.now }).2 })
        else .ok (sender.end_iteration { s with current_time := o.now })
      else .ok (sender.run_body o { s with current_time := o.now }) := by
  unfold sender.run_step
  rw [hpc]

/-- A worker step at the head of the loop in state `sending_queued_buffers`:
either the round ends at once with everything in place, or the queue is
drained into the worker's chain. -/
theorem Inv.top_step {s : Sender} {q c p : List Nat} (h : Inv s q c p)
    (hpc : s.pc = Pc.top) (hrun : s.running = true)
    (hst : s.state = State.sending_queued_buffers) (o : Oracle) (fuel : Nat) :
    ∃ s', sender.run_step fuel o s = .ok s' ∧ Quiet s.trace s'.trace ∧
      s'.running = s.running ∧ s'.state = s.state ∧ s'.files = s.files ∧
      s'.mem.data = s.mem.data ∧
      (∀ a, a ≠ .header → s'.mem.next a = s.mem.next a ∧ s'.mem.prev a = s.mem.prev a) ∧
      ((s'.pc = Pc.top ∧ Inv s' q [] p ∧
          (s.error_sending = false → q = [] ∧ s'.error_sending = false)) ∨
       (q ≠ [] ∧ Inv s' [] q p ∧ s'.error_sending = false ∧ ∃ f l,
          (s'.pc = Pc.sending f l ∧
            (s.error_sending = false → (s.connected || o.connect_ok) = true)) ∨
          (s'.pc = Pc.requeue f l ∧ s.error_sending = false ∧
            (s.connected || o.connect_ok) = false))) := by
  have hc := h.chain_nil_of_top hpc
  subst hc
  rw [run_step_top hpc]
  have key : ∀ s1 : Sender, s1.mem = s.mem → s1.pc = Pc.top → s1.running = true →
      s1.state = State.sending_queued_buffers → Quiet s.trace s1.trace →
      s1.files = s.files → s1.error_sending = false →
      (s.error_sending = false → s1.connected = s.connected) →
      (s.error_sending = true → s1.connected = true) →
      ∃ s', (Except.ok (sender.run_body o s1) : Except Fault Sender) = .ok s' ∧
        Quiet s.trace s'.trace ∧
        s'.running = s.running ∧ s'.state = s.state ∧ s'.files = s.files ∧
        s'.mem.data = s.mem.data ∧
        (∀ a, a ≠ .header → s'.mem.next a = s.mem.next a ∧ s'.mem.prev a = s.mem.prev a) ∧
        ((s'.pc = Pc.top ∧ Inv s' q [] p ∧
            (s.error_sending = false → q = [] ∧ s'.error_sending = false)) ∨
         (q ≠ [] ∧ Inv s' [] q p ∧ s'.error_sending = false ∧ ∃ f l,
            (s'.pc = Pc.sending f l ∧
              (s.error_sending = false → (s.connected || o.connect_ok) = true)) ∨
            (s'.pc = Pc.requeue f l ∧ s.error_sending = false ∧
              (s.connected || o.connect_ok) = false))) := by
    intro s1 hm1 hpc1 hrun1 hst1 hq1 hf1 he1 hcon1 hcon2
    have hinv1 : Inv s1 q [] p := h.of_mem_pc hm1 (hpc1.trans hpc.symm)
    obtain ⟨r1, r2, r3, r4, r5, r6, r7, r8⟩ := hinv1.run_body_rep hpc1 hrun1 hst1 o
    refine ⟨_, rfl, hq1.trans r1, by rw [r2, hrun1, hrun], by rw [r3, hst1, hst],
      by rw [r4, hf1], by rw [r6, hm1], fun a ha => by rw [← hm1]; exact r7 a ha, ?_⟩
    rcases r8 with ⟨e1, e2, e3⟩ | ⟨e1, e2, f, l, e3⟩
    · exact Or.inl ⟨e2, e3, fun _ => ⟨e1, by rw [r5, he1]⟩⟩
    · refine Or.inr ⟨e1, e2, by rw [r5, he1], f, l, ?_⟩
      by_cases hco : (s1.connected || o.connect_ok) = true
      · rw [if_pos hco] at e3
        refine Or.inl ⟨e3, fun he => ?_⟩
        rw [← hcon1 he]; exact hco
      · rw [if_neg hco] at e3
        have hse : s.error_sending = false := by
          by_contra hne
          have := hcon2 (by simpa using hne)
          simp [this] at hco
        refine Or.inr ⟨e3, hse, ?_⟩
        rw [← hcon1 hse]; simpa using hco
  have top_case : ∀ s1 : Sender, s1.mem = s.mem → s1.running = true →
      s1.state = State.sending_queued_buffers → Quiet s.trace s1.trace →
      s1.files = s.files → s.error_sending = true →
      ∃ s', (Except.ok (sender.end_iteration s1) : Except Fault Sender) = .ok s' ∧
        Quiet s.trace s'.trace ∧
        s'.running = s.running ∧ s'.state = s.state ∧ s'.files = s.files ∧
        s'.mem.data = s.mem.data ∧
        (∀ a, a ≠ .header → s'.mem.next a = s.mem.next a ∧ s'.mem.prev a = s.mem.prev a) ∧
        ((s'.pc = Pc.top ∧ Inv s' q [] p ∧
            (s.error_sending = false → q = [] ∧ s'.error_sending = false)) ∨
         (q ≠ [] ∧ Inv s' [] q p ∧ s'.error_sending = false ∧ ∃ f l,
            (s'.pc = Pc.sending f l ∧
              (s.error_sending = false → (s.connected || o.connect_ok) = true)) ∨
            (s'.pc = Pc.requeue f l ∧ s.error_sending = false ∧
              (s.connected || o.connect_ok) = false))) := by
    intro s1 hm1 hrun1 hst1 hq1 hf1 hes
    have hpc1 : (sender.end_iteration s1).pc = Pc.top := end_iteration_pc_running hrun1
    refine ⟨_, rfl, by simpa using hq1, by simp [hrun1, hrun], by simp [hst1, hst],
      by simp [hf1], by simp [hm1], fun a _ => by simp [hm1], Or.inl ⟨hpc1, ?_, ?_⟩⟩
    · exact h.of_mem_pc (by simp [hm1]) (hpc1.trans hpc.symm)
    · intro hne; rw [hes] at hne; cases hne
  by_cases hes : s.error_sending = true
  · rw [if_pos hes]
    by_cases ht : o.now - s.last_socket_operation ≥ sender.reconnection_time
    · rw [if_pos ht]
      have hcq := connect_quiet o.connect_ok { s with current_time := o.now }
      have hcr := connect_result o.connect_ok { s with current_time := o.now }
      by_cases hcf : (!(sender.connect o.connect_ok { s with current_time := o.now }).2) = true
      · rw [if_pos hcf]
        exact top_case _ (by simp) (by simpa using hrun) (by simpa using hst) hcq (by simp) hes
      · rw [if_neg hcf]
        have hok : (sender.connect o.connect_ok { s with current_time := o.now }).2 = true := by
          simpa using hcf
        refine key _ (by simp) (by simpa using hpc) (by simpa using hrun) (by simpa using hst)
          hcq (by simp) (by simp [hok]) (fun he => ?_) (fun _ => ?_)
        · rw [hes] at he; cases he
        · show (sender.connect o.connect_ok { s with current_time := o.now }).1.connected = true
          rw [hcr.2, ← hcr.1, hok]
    · rw [if_neg ht]
      exact top_case _ rfl hrun hst (Quiet.refl _) rfl hes
  · rw [if_neg hes]
    have hes' : s.error_sending = false := by simpa using hes
    exact key _ rfl hpc hrun hst (Quiet.refl _) rfl hes' (fun _ => rfl)
      (fun he => by rw [hes'] at he; cases he)

theorem ChainRep.exists_cons {m : Mem} {f l : Ptr} {c : List Nat} (h : ChainRep m f l c) :
    ∃ b c', c = b :: c' := by
  cases c with
  | nil => exact absurd rfl h.nonempty
  | cons b c' => exact ⟨b, c', rfl⟩

theorem inLoop_pc_after_send (c : List Nat) (l : Ptr) : InLoop (pc_after_send c l) := by
  cases c <;> simp [pc_after_send, InLoop]

/-- Summary of one worker step inside the loop in state
`sending_queued_buffers`: the buffers `sent` whose send succeeded in this
step (none or one) move from the front of chain-then-queue to the top of the
pool, everything else keeps its place and order. -/
theorem worker_step_summary {s : Sender} {q c p : List Nat} (h : Inv s q c p)
    (hloop : InLoop s.pc) (hrun : s.running = true)
    (hst : s.state = State.sending_queued_buffers) (o : Oracle) {fuel : Nat}
    (hf : c.length ≤ fuel) :
    ∃ s' q' c' sent, sender.run_step fuel o s = .ok s' ∧ Inv s' q' c' (sent.reverse ++ p) ∧
      sent_buffers s'.trace = sent_buffers s.trace ++ bufs sent ∧
      sent_payloads s'.trace = sent_payloads s.trace ++ sent.map (fun b => s.mem.data (.buf b)) ∧
      put_buffers s'.trace = put_buffers s.trace ++ bufs sent ∧
      sent ++ c' ++ q' = c ++ q ∧
      InLoop s'.pc ∧ s'.running = true ∧ s'.state = State.sending_queued_buffers ∧
      s'.mem.data = s.mem.data ∧
      (∀ a, a ≠ .header → a ∉ bufs (p ++ c ++ q) →
        s'.mem.next a = s.mem.next a ∧ s'.mem.prev a = s.mem.prev a) := by
  cases hpc : s.pc with
  | top =>
    have hc := h.chain_nil_of_top hpc
    subst hc
    obtain ⟨s', e, hq, r1, r2, r3, r4, r5, r6⟩ := h.top_step hpc hrun hst o fuel
    rcases r6 with ⟨e1, e2, -⟩ | ⟨e1, e2, -, f, l, e3⟩
    · exact ⟨s', q, [], [], e, by simpa using e2, by simp [hq.1], by simp [hq.2.1],
        by simp [hq.2.2.1], by simp, by rw [e1]; trivial, by rw [r1, hrun], by rw [r2, hst], r4,
        fun a ha _ => r5 a ha⟩
    · refine ⟨s', [], q, [], e, by simpa using e2, by simp [hq.1], by simp [hq.2.1],
        by simp [hq.2.2.1], by simp, ?_, by rw [r1, hrun], by rw [r2, hst], r4,
        fun a ha _ => r5 a ha⟩
      rcases e3 with ⟨e3, -⟩ | ⟨e3, -⟩ <;> rw [e3] <;> trivial
  | sending f l =>
    obtain ⟨b, c', hc⟩ := (h.chain_of_sending hpc).exists_cons
    subst hc
    by_cases ho : o.peer_closed = true ∨ o.send_ok = false
    · obtain ⟨s', e, hinv, r1, r2, r3, r4, r5, r6, r7, r8, r9, r10⟩ :=
        h.sending_fail hpc hrun ho hf
      refine ⟨s', (b :: c') ++ q, [], [], e, by simpa using hinv, ?_, ?_, ?_, by simp,
        by rw [r1]; trivial, by rw [r6, hrun], by rw [r7, hst], r5, ?_⟩
      · rw [r4]
        cases o.peer_closed <;>
          simp [sent_buffers_append, sent_buffers]
      · rw [r4]
        cases o.peer_closed <;>
          simp [sent_payloads_append, sent_payloads]
      · rw [r4]
        cases o.peer_closed <;>
          simp [put_buffers_append, put_buffers]
      · intro a h1 h2
        simp only [bufs_append, List.mem_append, not_or] at h2
        exact r10 a h1 h2.2 h2.1.2
    · have hp : o.peer_closed = false := by
        cases hh : o.peer_closed
        · rfl
        · exact absurd (Or.inl hh) ho
      have hs : o.send_ok = true := by
        cases hh : o.send_ok
        · exact absurd (Or.inr hh) ho
        · rfl
      obtain ⟨s', e, hinv, hfb, r1, r2, r3, r4, r5, r6, r7, r8, r9, r10⟩ :=
        h.sending_ok hpc hrun hp hs fuel
      refine ⟨s', q, c', [b], e, by simpa using hinv, ?_, ?_, ?_, by simp,
        by rw [r1]; exact inLoop_pc_after_send _ _, by rw [r5, hrun], by rw [r6, hst], r3, ?_⟩
      · rw [r2]; simp [sent_buffers_append, sent_buffers]
      · rw [r2]; simp [sent_payloads_append, sent_payloads]
      · rw [r2]; simp [put_buffers_append, put_buffers]
      · intro a h1 h2
        refine r10 a ?_
        intro e; subst e
        simp at h2
  | requeue f l =>
    obtain ⟨s', e, hinv, r1, r2, r3, r4, r5, r6, r7, r8, r9, r10⟩ :=
      h.requeue_step hpc hrun o hf
    refine ⟨s', c ++ q, [], [], e, by simpa using hinv, by simp [r4], by simp [r4],
      by simp [r4], by simp, by rw [r1]; trivial, by rw [r6, hrun], by rw [r7, hst], r5, ?_⟩
    intro a h1 h2
    simp only [bufs_append, List.mem_append, not_or] at h2
    exact r10 a h1 h2.2 h2.1.2
  | exiting => rw [hpc] at hloop; exact absurd hloop (by simp [InLoop])
  | done => rw [hpc] at hloop; exact absurd hloop (by simp [InLoop])

/-- Along every interleaving of worker steps and producer `push_back` calls,
the buffers sent so far, the worker's chain and the queue, in this order, are
exactly the buffers that were there at the start followed by the pushed ones;
the sent buffers are in the pool, latest on top. -/
theorem exec_inv (fuel : Nat) : ∀ (acts : List Action) (s : Sender) (q c p : List Nat),
    Inv s q c p → InLoop s.pc → s.running = true →
    s.state = State.sending_queued_buffers →
    (p ++ c ++ q ++ pushed acts).Nodup → (p ++ c ++ q ++ pushed acts).length < SIZE_MOD →
    (∀ op, Action.push op ∈ acts → Dlinked s.mem (bufs op.ids)) →
    (c ++ q ++ pushed acts).length ≤ fuel →
    ∃ s' q' c' sent, exec fuel s acts = .ok s' ∧ Inv s' q' c' (sent.reverse ++ p) ∧
      sent_buffers s'.trace = sent_buffers s.trace ++ bufs sent ∧
      sent_payloads s'.trace =
        sent_payloads s.trace ++ sent.map (fun b => s.mem.data (.buf b)) ∧
      put_buffers s'.trace = put_buffers s.trace ++ bufs sent ∧
      sent ++ c' ++ q' = c ++ q ++ pushed acts ∧
      InLoop s'.pc ∧ s'.running = true ∧ s'.state = State.sending_queued_buffers ∧
      s'.mem.data = s.mem.data
  | [], s, q, c, p, h, hl, hr, hs, _, _, _, _ =>
    ⟨s, q, c, [], rfl, by simpa using h, by simp, by simp, by simp, by simp [pushed], hl, hr, hs,
      rfl⟩
  | Action.worker o :: acts, s, q, c, p, h, hl, hr, hs, hnd, hb, hch, hf => by
    simp only [pushed] at hnd hb hf
    have hfc : c.length ≤ fuel := by
      simp only [List.length_append] at hf; omega
    obtain ⟨s1, q1, c1, sent1, e1, hinv1, t1, t2, t3, hcons1, hl1, hr1, hs1, hd1, hfr1⟩ :=
      worker_step_summary h hl hr hs o hfc
    have hperm : (sent1.reverse ++ p ++ c1 ++ q1).Perm (p ++ c ++ q) := by
      have : (sent1.reverse ++ p ++ c1 ++ q1).Perm (p ++ (sent1 ++ c1 ++ q1)) := by
        simp only [List.append_assoc]
        refine (List.perm_append_comm_assoc _ _ _).trans ?_
        exact List.Perm.append_left p
          (List.Perm.append_right _ (List.reverse_perm sent1))
      rw [hcons1] at this
      simpa [List.append_assoc] using this
    have hnd1 : (sent1.reverse ++ p ++ c1 ++ q1 ++ pushed acts).Nodup :=
      (List.Perm.nodup_iff (List.Perm.append_right _ hperm)).2 hnd
    have hb1 : (sent1.reverse ++ p ++ c1 ++ q1 ++ pushed acts).length < SIZE_MOD := by
      rw [List.length_append, hperm.length_eq, ← List.length_append]; exact hb
    have hch1 : ∀ op, Action.push op ∈ acts → Dlinked s1.mem (bufs op.ids) := by
      intro op hop
      have hdl := hch op (List.mem_cons_of_mem _ hop)
      have hdis : ∀ a ∈ bufs op.ids, a ≠ .header ∧ a ∉ bufs (p ++ c ++ q) := by
        intro a ha
        simp only [mem_bufs] at ha
        obtain ⟨x, hx, rfl⟩ := ha
        refine ⟨by simp, ?_⟩
        rw [buf_mem_bufs]
        intro hin
        have hx' : x ∈ pushed acts := by
          clear hnd1 hb1 hf hb hnd hch
          induction acts with
          | nil => simp at hop
          | cons a as ih =>
            rcases List.mem_cons.1 hop with e | e
            · subst e; simp [pushed, hx]
            · cases a with
              | worker _ => simpa [pushed] using ih e
              | push _ => simp [pushed, ih e]
        exact (List.disjoint_of_nodup_append hnd) hin hx'
      refine Dlinked.dframe hdl ?_ ?_
      · intro a ha
        obtain ⟨k1, k2⟩ := hdis a (List.mem_of_mem_dropLast ha)
        exact (hfr1 a k1 k2).1
      · intro a ha
        obtain ⟨k1, k2⟩ := hdis a (List.mem_of_mem_tail ha)
        exact (hfr1 a k1 k2).2
    have hf1 : (c1 ++ q1 ++ pushed acts).length ≤ fuel := by
      have := congrArg List.length hcons1
      simp only [List.length_append] at this hf ⊢
      omega
    obtain ⟨s2, q2, c2, sent2, e2, hinv2, u1, u2, u3, hcons2, hl2, hr2, hs2, hd2⟩ :=
      exec_inv fuel acts s1 q1 c1 (sent1.reverse ++ p) hinv1 hl1 hr1 hs1 hnd1 hb1 hch1 hf1
    refine ⟨s2, q2, c2, sent1 ++ sent2, ?_, by simpa [List.append_assoc] using hinv2, ?_, ?_, ?_,
      ?_, hl2, hr2, hs2, hd2.trans hd1⟩
    · simp [exec, step, e1, e2]
    · rw [u1, t1]; simp
    · rw [u2, t2, hd1]; simp
    · rw [u3, t3]; simp
    · simp only [pushed]
      rw [← hcons1, List.append_assoc sent1, List.append_assoc sent1, hcons2]
      simp [List.append_assoc]
  | Action.push op :: acts, s, q, c, p, h, hl, hr, hs, hnd, hb, hch, hf => by
    simp only [pushed] at hnd hb hf
    have hnd' : (p ++ c ++ q ++ op.ids ++ pushed acts).Nodup := by
      simpa [List.append_assoc] using hnd
    have hb' : (p ++ c ++ q ++ op.ids ++ pushed acts).length < SIZE_MOD := by
      simpa [List.append_assoc] using hb
    have hfo : op.ids.length ≤ fuel := by
      simp only [List.length_append] at hf; omega
    obtain ⟨m1, k, -, e1, hinv1, hd1, hfr1⟩ :=
      h.push_step op fuel (hch op (List.mem_cons_self _ _))
        (List.nodup_append.1 hnd').1
        (by
          have := hb'
          simp only [List.length_append] at this ⊢
          omega) hfo
    have hch1 : ∀ op', Action.push op' ∈ acts →
        Dlinked ({ s with mem := m1 } : Sender).mem (bufs op'.ids) := by
      intro op' hop
      have hdl := hch op' (List.mem_cons_of_mem _ hop)
      have hdis : ∀ a ∈ bufs op'.ids, a ≠ .header ∧ a ∉ bufs q ∧ a ∉ bufs op.ids := by
        intro a ha
        simp only [mem_bufs] at ha
        obtain ⟨x, hx, rfl⟩ := ha
        have hx' : x ∈ pushed acts := by
          clear hf hb hnd hch hb' hnd'
          induction acts with
          | nil => simp at hop
          | cons a as ih =>
            rcases List.mem_cons.1 hop with e | e
            · subst e; simp [pushed, hx]
            · cases a with
              | worker _ => simpa [pushed] using ih e
              | push _ => simp [pushed, ih e]
        have hdj := List.disjoint_of_nodup_append hnd'
        refine ⟨by simp, ?_, ?_⟩
        · rw [buf_mem_bufs]; intro hin
          exact hdj (by simp [hin]) hx'
        · rw [buf_mem_bufs]; intro hin
          exact hdj (by simp [hin]) hx'
      refine Dlinked.dframe hdl ?_ ?_
      · intro a ha
        obtain ⟨k1, k2, k3⟩ := hdis a (List.mem_of_mem_dropLast ha)
        exact (hfr1 a k1 k2 k3).1
      · intro a ha
        obtain ⟨k1, k2, k3⟩ := hdis a (List.mem_of_mem_tail ha)
        exact (hfr1 a k1 k2 k3).2
    obtain ⟨s2, q2, c2, sent2, e2, hinv2, u1, u2, u3, hcons2, hl2, hr2, hs2, hd2⟩ :=
      exec_inv fuel acts { s with mem := m1 } (q ++ op.ids) c p hinv1 hl hr hs
        (by simpa [List.append_assoc] using hnd') (by simpa [List.append_assoc] using hb')
        hch1 (by simpa [List.append_assoc] using hf)
    refine ⟨s2, q2, c2, sent2, ?_, hinv2, u1, ?_, u3, ?_, hl2, hr2, hs2, hd2.trans hd1⟩
    · simp [exec, e1, e2]
    · rw [u2]
      show _ = _ ++ sent2.map (fun b => s.mem.data (.buf b))
      rw [← hd1]
    · rw [hcons2]; simp [pushed, List.append_assoc]

/-- C2 (wire order across failures). Start in state `sending_queued_buffers`
with the worker at the head of its loop, the queue holding `q0`, and let
producers call `push_back` (single buffers and well-formed batches, each
buffer pushed once) in any interleaving with worker steps, under any outcomes
of connect, peer check and transport send. Then the run succeeds, and the
buffers whose transport send succeeded, in the order of the sends, are an
initial segment `sent` of the buffers in push order (`q0` followed by the
pushed ones), each sent once, and the payloads on the wire are their
payloads in that order. -/
theorem C2_wire_order (fuel : Nat) (acts : List Action) (s0 : Sender) (q0 p0 : List Nat)
    (hinv : Inv s0 q0 [] p0) (hpc : s0.pc = Pc.top) (hrun : s0.running = true)
    (hst : s0.state = State.sending_queued_buffers)
    (hfresh : (p0 ++ q0 ++ pushed acts).Nodup)
    (hbound : (p0 ++ q0 ++ pushed acts).length < SIZE_MOD)
    (hchains : ∀ op, Action.push op ∈ acts → Dlinked s0.mem (bufs op.ids))
    (hfuel : (q0 ++ pushed acts).length ≤ fuel) :
    ∃ s sent rest, exec fuel s0 acts = .ok s ∧
      sent_buffers s.trace = sent_buffers s0.trace ++ bufs sent ∧
      sent_payloads s.trace =
        sent_payloads s0.trace ++ sent.map (fun b => s0.mem.data (.buf b)) ∧
      q0 ++ pushed acts = sent ++ rest ∧ sent.Nodup := by
  obtain ⟨s, q, c, sent, e, hinv', t1, t2, -, hcons, -, -, -, -⟩ :=
    exec_inv fuel acts s0 q0 [] p0 hinv (by rw [hpc]; trivial) hrun hst
      (by simpa using hfresh) (by simpa using hbound) hchains (by simpa using hfuel)
  refine ⟨s, sent, c ++ q, e, t1, t2, ?_, ?_⟩
  · simpa [List.append_assoc] using hcons.symm
  · have := (disjoint_of_nodup3 hinv'.nodup).2.2.2.1
    exact (List.nodup_reverse.1 (List.nodup_append.1 this).1)

theorem sample_sender_inv : Inv sample_sender [] [] [] :=
  ⟨by decide, rfl, by decide, by decide, by decide, rfl⟩

theorem C2_wire_order_witness :
    ∃ s sent rest,
      exec 3 sample_sender
        [Action.push (Push.one 1), Action.worker sample_oracle, Action.push (Push.range 2 [3]),
         Action.worker sample_oracle, Action.worker failing_oracle,
         Action.worker sample_oracle] = .ok s ∧
      sent_buffers s.trace = sent_buffers sample_sender.trace ++ bufs sent ∧
      sent_payloads s.trace =
        sent_payloads sample_sender.trace ++ sent.map (fun b => sample_sender.mem.data (.buf b)) ∧
      [] ++ pushed
        [Action.push (Push.one 1), Action.worker sample_oracle, Action.push (Push.range 2 [3]),
         Action.worker sample_oracle, Action.worker failing_oracle,
         Action.worker sample_oracle] = sent ++ rest ∧ sent.Nodup :=
  C2_wire_order 3 _ sample_sender [] [] sample_sender_inv rfl rfl rfl (by decide) (by decide)
    (by
      intro op hop
      simp only [List.mem_cons, Action.push.injEq, List.mem_singleton, reduceCtorEq,
        false_or, or_false, List.not_mem_nil] at hop
      rcases hop with e | e <;> subst e <;> decide)
    (by decide)

theorem pushed_map_push (ps : List Push) : pushed (ps.map Action.push) = push_ids ps := by
  induction ps with
  | nil => rfl
  | cons p ps ih => simp [pushed, push_ids, ih] at *

/-- Producer calls alone append to the back of the queue and change nothing
else. -/
theorem exec_pushes (fuel : Nat) : ∀ (ps : List Push) (s : Sender) (q c p : List Nat),
    Inv s q c p → (p ++ c ++ q ++ push_ids ps).Nodup →
    (p ++ c ++ q ++ push_ids ps).length < SIZE_MOD →
    (∀ op ∈ ps, Dlinked s.mem (bufs op.ids)) → (∀ op ∈ ps, op.ids.length ≤ fuel) →
    ∃ s', exec fuel s (ps.map Action.push) = .ok s' ∧ Inv s' (q ++ push_ids ps) c p ∧
      s'.trace = s.trace ∧ s'.pc = s.pc ∧ s'.running = s.running ∧ s'.state = s.state ∧
      s'.error_sending = s.error_sending ∧ s'.files = s.files ∧
      s'.connected = s.connected ∧ s'.mem.data = s.mem.data ∧
      (∀ a, a ≠ .header → a ∉ bufs (q ++ push_ids ps) →
        s'.mem.next a = s.mem.next a ∧ s'.mem.prev a = s.mem.prev a)
  | [], s, q, c, p, h, _, _, _, _ =>
    ⟨s, rfl, by simpa [push_ids] using h, rfl, rfl, rfl, rfl, rfl, rfl, rfl, rfl,
      fun _ _ _ => ⟨rfl, rfl⟩⟩
  | op :: ps, s, q, c, p, h, hnd, hb, hch, hf => by
    have hids : push_ids (op :: ps) = op.ids ++ push_ids ps := by simp [push_ids]
    rw [hids] at hnd hb
    have hnd' : (p ++ c ++ q ++ op.ids ++ push_ids ps).Nodup := by
      simpa [List.append_assoc] using hnd
    have hb' : (p ++ c ++ q ++ op.ids ++ push_ids ps).length < SIZE_MOD := by
      simpa [List.append_assoc] using hb
    obtain ⟨m1, k, -, e1, hinv1, hd1, hfr1⟩ :=
      h.push_step op fuel (hch op (by simp)) (List.nodup_append.1 hnd').1
        (by
          have := hb'
          simp only [List.length_append] at this ⊢
          omega) (hf op (by simp))
    have hch1 : ∀ op' ∈ ps, Dlinked ({ s with mem := m1 } : Sender).mem (bufs op'.ids) := by
      intro op' hop
      have hdl := hch op' (List.mem_cons_of_mem _ hop)
      have hdis : ∀ a ∈ bufs op'.ids, a ≠ .header ∧ a ∉ bufs q ∧ a ∉ bufs op.ids := by
        intro a ha
        simp only [mem_bufs] at ha
        obtain ⟨x, hx, rfl⟩ := ha
        have hx' : x ∈ push_ids ps := List.mem_flatMap.2 ⟨op', hop, hx⟩
        have hdj := List.disjoint_of_nodup_append hnd'
        refine ⟨by simp, ?_, ?_⟩
        · rw [buf_mem_bufs]; intro hin
          exact hdj (by simp [hin]) hx'
        · rw [buf_mem_bufs]; intro hin
          exact hdj (by simp [hin]) hx'
      refine Dlinked.dframe hdl ?_ ?_
      · intro a ha
        obtain ⟨k1, k2, k3⟩ := hdis a (List.mem_of_mem_dropLast ha)
        exact (hfr1 a k1 k2 k3).1
      · intro a ha
        obtain ⟨k1, k2, k3⟩ := hdis a (List.mem_of_mem_tail ha)
        exact (hfr1 a k1 k2 k3).2
    obtain ⟨s2, e2, hinv2, r1, r2, r3, r4, r5, r6, r7, r8, r9⟩ :=
      exec_pushes fuel ps { s with mem := m1 } (q ++ op.ids) c p hinv1
        (by simpa [List.append_assoc] using hnd') (by simpa [List.append_assoc] using hb')
        hch1 (fun op' hop => hf op' (List.mem_cons_of_mem _ hop))
    refine ⟨s2, ?_, by rw [hids]; simpa [List.append_assoc] using hinv2, r1, r2, r3, r4, r5,
      r6, r7, r8.trans hd1, ?_⟩
    · simp [exec, e1, e2]
    · intro a h1 h2
      rw [hids] at h2
      simp only [bufs_append, List.mem_append, not_or] at h2
      obtain ⟨k1, k2⟩ := r9 a h1 (by simp [h2.1, h2.2.1, h2.2.2])
      obtain ⟨k3, k4⟩ := hfr1 a h1 h2.1 h2.2.1
      exact ⟨k1.trans k3, k2.trans k4⟩

theorem iteration_cons_top {fuel : Nat} {ps : List Push} {o : Oracle}
    {rest : List (List Push × Oracle)} {s s1 s2 : Sender}
    (e1 : exec fuel s (ps.map Action.push) = .ok s1)
    (e2 : sender.run_step fuel o s1 = .ok s2) (hpc : s2.pc = Pc.top) :
    iteration fuel ((ps, o) :: rest) s = .ok s2 := by
  simp only [iteration, e1, e2, hpc]

theorem iteration_cons_sending {fuel : Nat} {ps : List Push} {o : Oracle}
    {rest : List (List Push × Oracle)} {s s1 s2 : Sender} {f l : Ptr}
    (e1 : exec fuel s (ps.map Action.push) = .ok s1)
    (e2 : sender.run_step fuel o s1 = .ok s2) (hpc : s2.pc = Pc.sending f l) :
    iteration fuel ((ps, o) :: rest) s = iteration fuel rest s2 := by
  simp only [iteration, e1, e2, hpc]

theorem iteration_cons_requeue {fuel : Nat} {ps : List Push} {o : Oracle}
    {rest : List (List Push × Oracle)} {s s1 s2 : Sender} {f l : Ptr}
    (e1 : exec fuel s (ps.map Action.push) = .ok s1)
    (e2 : sender.run_step fuel o s1 = .ok s2) (hpc : s2.pc = Pc.requeue f l) :
    iteration fuel ((ps, o) :: rest) s = iteration fuel rest s2 := by
  simp only [iteration, e1, e2, hpc]

theorem sched_pushed_cons (ps : List Push) (o : Oracle) (rest : List (List Push × Oracle)) :
    sched_pushed ((ps, o) :: rest) = push_ids ps ++ sched_pushed rest := by
  simp [sched_pushed]

theorem sched_pushed_append (a b : List (List Push × Oracle)) :
    sched_pushed (a ++ b) = sched_pushed a ++ sched_pushed b := by
  simp [sched_pushed]

/-- Frame for chains that are still with the producers: a chain whose buffers
are touched by no step stays linked. -/
theorem dlinked_keep {m m' : Mem} {ids : List Nat} (h : Dlinked m (bufs ids))
    (hf : ∀ x ∈ ids, m'.next (.buf x) = m.next (.buf x) ∧ m'.prev (.buf x) = m.prev (.buf x)) :
    Dlinked m' (bufs ids) := by
  refine Dlinked.dframe h ?_ ?_
  · intro a ha
    obtain ⟨x, hx, rfl⟩ := mem_bufs.1 (List.mem_of_mem_dropLast ha)
    exact (hf x hx).1
  · intro a ha
    obtain ⟨x, hx, rfl⟩ := mem_bufs.1 (List.mem_of_mem_tail ha)
    exact (hf x hx).2

/-- One send step of a round with the producer calls before it: the calls go
to the back of the queue, then the first buffer of the chain is sent and put
into the pool. -/
theorem round_send_ok {fuel : Nat} {s : Sender} {q c p : List Nat} {b : Nat} {f l : Ptr}
    {ps : List Push} {o : Oracle} (extra : List Nat)
    (h : Inv s q (b :: c) p) (hpc : s.pc = Pc.sending f l) (hrun : s.running = true)
    (ho : o.sends)
    (hnd : (p ++ (b :: c) ++ q ++ (push_ids ps ++ extra)).Nodup)
    (hb : (p ++ (b :: c) ++ q ++ (push_ids ps ++ extra)).length < SIZE_MOD)
    (hch : ∀ op ∈ ps, Dlinked s.mem (bufs op.ids)) (hf : ∀ op ∈ ps, op.ids.length ≤ fuel) :
    ∃ s1 s2, exec fuel s (ps.map Action.push) = .ok s1 ∧
      sender.run_step fuel o s1 = .ok s2 ∧
      Inv s2 (q ++ push_ids ps) c (b :: p) ∧ s2.pc = pc_after_send c l ∧ f = .buf b ∧
      s2.trace = s.trace ++ [Event.peer_check false,
        Event.transport_send (Src.buffer (.buf b)) (s.mem.data (.buf b)) true,
        Event.put (.buf b)] ∧
      s2.running = s.running ∧ s2.state = s.state ∧ s2.error_sending = s.error_sending ∧
      s2.files = s.files ∧ s2.mem.data = s.mem.data ∧
      (b :: p ++ c ++ (q ++ push_ids ps) ++ extra).Nodup ∧
      (b :: p ++ c ++ (q ++ push_ids ps) ++ extra).length < SIZE_MOD ∧
      (∀ x ∈ extra, s2.mem.next (.buf x) = s.mem.next (.buf x) ∧
        s2.mem.prev (.buf x) = s.mem.prev (.buf x)) := by
  have hnd0 : (p ++ (b :: c) ++ q ++ push_ids ps ++ extra).Nodup := by
    simpa [List.append_assoc] using hnd
  have hb0 : (p ++ (b :: c) ++ q ++ push_ids ps ++ extra).length < SIZE_MOD := by
    simpa [List.append_assoc] using hb
  obtain ⟨s1, e1, hinv1, r1, r2, r3, r4, r5, r6, r7, r8, r9⟩ :=
    exec_pushes fuel ps s q (b :: c) p h (List.nodup_append.1 hnd0).1
      (by
        have := hb0
        simp only [List.length_append] at this ⊢
        omega) hch hf
  obtain ⟨s2, e2, hinv2, hfb, t1, t2, t3, t4, t5, t6, t7, t8, t9, t10⟩ :=
    hinv1.sending_ok (r2.trans hpc) (r3.trans hrun) ho.1 ho.2 fuel
  have hdj := List.disjoint_of_nodup_append hnd0
  have hperm : (b :: p ++ c ++ (q ++ push_ids ps) ++ extra).Perm
      (p ++ (b :: c) ++ q ++ push_ids ps ++ extra) := by
    have : (b :: p ++ c).Perm (p ++ (b :: c)) := by
      simpa using (@List.perm_middle _ b p c).symm
    simpa [List.append_assoc] using
      (List.Perm.append_right (q ++ push_ids ps ++ extra) this)
  refine ⟨s1, s2, e1, e2, hinv2, t1, hfb, ?_, by rw [t5, r3], by rw [t6, r4], by rw [t7, r5],
    by rw [t8, r6], by rw [t3, r8], (List.Perm.nodup_iff hperm).2 hnd0,
    by rw [hperm.length_eq]; exact hb0, ?_⟩
  · rw [t2, r1, r8]
  · intro x hx
    have hx1 : x ∉ q ++ push_ids ps := fun hin =>
      hdj (by
        simp only [List.mem_append] at hin ⊢
        tauto) hx
    have hxb : x ≠ b := by
      intro e; subst e
      exact hdj (by simp) hx
    obtain ⟨k1, k2⟩ := r9 (.buf x) (by simp) (by simpa using hx1)
    obtain ⟨k3, k4⟩ := t10 (.buf x) (by simpa using hxb)
    exact ⟨k3.trans k1, k4.trans k2⟩

/-- The failing send step of a round with the producer calls before it: the
calls go to the back of the queue, then the whole remaining chain is pushed
to its front. -/
theorem round_send_fail {fuel : Nat} {s : Sender} {q c p : List Nat} {f l : Ptr}
    {ps : List Push} {o : Oracle}
    (h : Inv s q c p) (hpc : s.pc = Pc.sending f l) (hrun : s.running = true)
    (ho : o.peer_closed = true ∨ o.send_ok = false)
    (hnd : (p ++ c ++ q ++ push_ids ps).Nodup)
    (hb : (p ++ c ++ q ++ push_ids ps).length < SIZE_MOD)
    (hch : ∀ op ∈ ps, Dlinked s.mem (bufs op.ids)) (hf : ∀ op ∈ ps, op.ids.length ≤ fuel)
    (hfc : c.length ≤ fuel) :
    ∃ s1 s2, exec fuel s (ps.map Action.push) = .ok s1 ∧
      sender.run_step fuel o s1 = .ok s2 ∧
      Inv s2 (c ++ (q ++ push_ids ps)) [] p ∧ s2.pc = Pc.top ∧ s2.error_sending = true ∧
      s2.mem.count = (q ++ push_ids ps).length + c.length ∧
      s2.trace = s.trace ++ [Event.peer_check o.peer_closed] ++
        (if o.peer_closed then [] else
          [Event.transport_send (Src.buffer f) (s.mem.data f) false]) ++ [Event.disconnect] ∧
      s2.running = s.running ∧ s2.state = s.state ∧ s2.files = s.files ∧
      s2.mem.data = s.mem.data := by
  obtain ⟨s1, e1, hinv1, r1, r2, r3, r4, r5, r6, r7, r8, r9⟩ :=
    exec_pushes fuel ps s q c p h hnd hb hch hf
  obtain ⟨s2, e2, hinv2, t1, t2, t3, t4, t5, t6, t7, t8, t9, t10⟩ :=
    hinv1.sending_fail (r2.trans hpc) (r3.trans hrun) ho hfc
  exact ⟨s1, s2, e1, e2, hinv2, t1, t2, t3, by rw [t4, r1, r8], by rw [t6, r3], by rw [t7, r4],
    by rw [t8, r6], by rw [t5, r8]⟩

/-- The requeue step after a failed lazy connect, with the producer calls
before it. -/
theorem round_requeue {fuel : Nat} {s : Sender} {q c p : List Nat} {f l : Ptr}
    {ps : List Push} (o : Oracle)
    (h : Inv s q c p) (hpc : s.pc = Pc.requeue f l) (hrun : s.running = true)
    (hnd : (p ++ c ++ q ++ push_ids ps).Nodup)
    (hb : (p ++ c ++ q ++ push_ids ps).length < SIZE_MOD)
    (hch : ∀ op ∈ ps, Dlinked s.mem (bufs op.ids)) (hf : ∀ op ∈ ps, op.ids.length ≤ fuel)
    (hfc : c.length ≤ fuel) :
    ∃ s1 s2, exec fuel s (ps.map Action.push) = .ok s1 ∧
      sender.run_step fuel o s1 = .ok s2 ∧
      Inv s2 (c ++ (q ++ push_ids ps)) [] p ∧ s2.pc = Pc.top ∧ s2.error_sending = true ∧
      s2.mem.count = (q ++ push_ids ps).length + c.length ∧
      s2.trace = s.trace ∧
      s2.running = s.running ∧ s2.state = s.state ∧ s2.files = s.files ∧
      s2.mem.data = s.mem.data := by
  obtain ⟨s1, e1, hinv1, r1, r2, r3, r4, r5, r6, r7, r8, r9⟩ :=
    exec_pushes fuel ps s q c p h hnd hb hch hf
  obtain ⟨s2, e2, hinv2, t1, t2, t3, t4, t5, t6, t7, t8, t9, t10⟩ :=
    hinv1.requeue_step (r2.trans hpc) (r3.trans hrun) o hfc
  exact ⟨s1, s2, e1, e2, hinv2, t1, t2, t3, by rw [t4, r1], by rw [t6, r3], by rw [t7, r4],
    by rw [t8, r6], by rw [t5, r8]⟩

/-- The first step of a round that starts without `error_sending`, with the
producer calls before it: the queue (with these calls) is drained into the
worker's chain, and the worker goes on to send when it is or gets connected
and to requeue otherwise; an empty queue ends the round at once. -/
theorem round_top (fuel : Nat) {s : Sender} {q p : List Nat}
    (ps : List Push) (o : Oracle) (extra : List Nat)
    (h : Inv s q [] p) (hpc : s.pc = Pc.top) (hrun : s.running = true)
    (hst : s.state = State.sending_queued_buffers) (herr : s.error_sending = false)
    (hnd : (p ++ q ++ (push_ids ps ++ extra)).Nodup)
    (hb : (p ++ q ++ (push_ids ps ++ extra)).length < SIZE_MOD)
    (hch : ∀ op ∈ ps, Dlinked s.mem (bufs op.ids)) (hf : ∀ op ∈ ps, op.ids.length ≤ fuel) :
    ∃ s1 s2, exec fuel s (ps.map Action.push) = .ok s1 ∧
      sender.run_step fuel o s1 = .ok s2 ∧ Quiet s.trace s2.trace ∧
      s2.running = s.running ∧ s2.state = s.state ∧ s2.files = s.files ∧
      s2.mem.data = s.mem.data ∧ s2.error_sending = false ∧
      (∀ x ∈ extra, s2.mem.next (.buf x) = s.mem.next (.buf x) ∧
        s2.mem.prev (.buf x) = s.mem.prev (.buf x)) ∧
      ((q ++ push_ids ps = [] ∧ s2.pc = Pc.top ∧ Inv s2 [] [] p) ∨
       (q ++ push_ids ps ≠ [] ∧ Inv s2 [] (q ++ push_ids ps) p ∧ ∃ f l,
          (s2.pc = Pc.sending f l ∧ (s.connected || o.connect_ok) = true) ∨
          (s2.pc = Pc.requeue f l ∧ (s.connected || o.connect_ok) = false))) := by
  have hnd0 : (p ++ [] ++ q ++ push_ids ps ++ extra).Nodup := by
    simpa [List.append_assoc] using hnd
  have hb0 : (p ++ [] ++ q ++ push_ids ps ++ extra).length < SIZE_MOD := by
    simpa [List.append_assoc] using hb
  obtain ⟨s1, e1, hinv1, r1, r2, r3, r4, r5, r6, r7, r8, r9⟩ :=
    exec_pushes fuel ps s q [] p h (List.nodup_append.1 hnd0).1
      (by
        have := hb0
        simp only [List.length_append] at this ⊢
        omega) hch hf
  obtain ⟨s2, e2, hq, t1, t2, t3, t4, t5, t6⟩ :=
    hinv1.top_step (r2.trans hpc) (r3.trans hrun) (r4.trans hst) o fuel
  have herr1 : s1.error_sending = false := r5.trans herr
  have hdj := List.disjoint_of_nodup_append hnd0
  refine ⟨s1, s2, e1, e2, by rw [← r1]; exact hq, by rw [t1, r3], by rw [t2, r4],
    by rw [t3, r6], by rw [t4, r8], ?_, ?_, ?_⟩
  · rcases t6 with ⟨-, -, k3⟩ | ⟨-, -, k3, -⟩
    · exact (k3 herr1).2
    · exact k3
  · intro x hx
    have hx1 : x ∉ q ++ push_ids ps := fun hin =>
      hdj (by
        simp only [List.mem_append] at hin ⊢
        tauto) hx
    obtain ⟨k1, k2⟩ := r9 (.buf x) (by simp) (by simpa using hx1)
    obtain ⟨k3, k4⟩ := t5 (.buf x) (by simp)
    exact ⟨k3.trans k1, k4.trans k2⟩
  · rcases t6 with ⟨k1, k2, k3⟩ | ⟨k1, k2, k3, f, l, k4⟩
    · have hqe := (k3 herr1).1
      exact Or.inl ⟨hqe, k1, by rw [hqe] at k2; exact k2⟩
    · refine Or.inr ⟨k1, k2, f, l, ?_⟩
      rcases k4 with ⟨k5, k6⟩ | ⟨k5, -, k6⟩
      · exact Or.inl ⟨k5, by rw [← r7]; exact k6 herr1⟩
      · exact Or.inr ⟨k5, by rw [← r7]; exact k6⟩

theorem pc_after_send_cons (b : Nat) (c : List Nat) (l : Ptr) :
    pc_after_send (b :: c) l = Pc.sending (.buf b) l := rfl

theorem pc_after_send_append_cons (pre : List Nat) (b : Nat) (post : List Nat) (l : Ptr) :
    ∃ f, pc_after_send (pre ++ b :: post) l = Pc.sending f l := by
  cases pre with
  | nil => exact ⟨_, rfl⟩
  | cons x pre => exact ⟨_, rfl⟩

/-- The sends of `pre` succeed and the send of `b` fails: `pre` is in the
pool, `b` and the rest of the chain are back at the front of the queue, ahead
of what the producers pushed in the meantime. -/
theorem send_phase_fail (fuel : Nat) : ∀ (pre : List Nat) (oks : List (List Push × Oracle))
    (s : Sender) (q p post : List Nat) (b : Nat) (f l : Ptr) (psf : List Push) (of : Oracle)
    (tail : List (List Push × Oracle)),
    Inv s q (pre ++ b :: post) p → s.pc = Pc.sending f l → s.running = true →
    oks.length = pre.length → (∀ x ∈ oks, x.2.sends) →
    (of.peer_closed = true ∨ of.send_ok = false) →
    (p ++ (pre ++ b :: post) ++ q ++ sched_pushed (oks ++ [(psf, of)])).Nodup →
    (p ++ (pre ++ b :: post) ++ q ++ sched_pushed (oks ++ [(psf, of)])).length < SIZE_MOD →
    (∀ x ∈ oks ++ [(psf, of)], ∀ op ∈ x.1,
      Dlinked s.mem (bufs op.ids) ∧ op.ids.length ≤ fuel) →
    (pre ++ b :: post).length ≤ fuel →
    ∃ s', iteration fuel (oks ++ (psf, of) :: tail) s = .ok s' ∧
      Inv s' (b :: post ++ (q ++ sched_pushed (oks ++ [(psf, of)]))) [] (pre.reverse ++ p) ∧
      s'.pc = Pc.top ∧ s'.error_sending = true ∧
      s'.mem.count = (q ++ sched_pushed (oks ++ [(psf, of)])).length + (post.length + 1) ∧
      put_buffers s'.trace = put_buffers s.trace ++ bufs pre ∧
      sent_buffers s'.trace = sent_buffers s.trace ++ bufs pre ∧
      send_attempts s'.trace =
        send_attempts s.trace + pre.length + (if of.peer_closed then 0 else 1) ∧
      s'.running = s.running ∧ s'.state = s.state
  | [], oks, s, q, p, post, b, f, l, psf, of, tail, h, hpc, hrun, hlen, _, hof, hnd, hb, hch,
      hfc => by
    have hoks : oks = [] := List.length_eq_zero.1 hlen
    subst hoks
    have hsp : sched_pushed [(psf, of)] = push_ids psf := by simp [sched_pushed]
    simp only [List.nil_append, hsp] at h hnd hb hch hfc ⊢
    obtain ⟨s1, s2, e1, e2, hinv, r1, r2, r3, r4, r5, r6, r7, r8⟩ :=
      round_send_fail h hpc hrun hof hnd hb
        (fun op hop => (hch (psf, of) (by simp) op hop).1)
        (fun op hop => (hch (psf, of) (by simp) op hop).2) hfc
    refine ⟨s2, iteration_cons_top e1 e2 r1, by simpa using hinv, r1, r2, by simpa using r3,
      ?_, ?_, ?_, r5, r6⟩
    · rw [r4]
      cases of.peer_closed <;> simp [put_buffers_append, put_buffers]
    · rw [r4]
      cases of.peer_closed <;> simp [sent_buffers_append, sent_buffers]
    · rw [r4]
      cases of.peer_closed <;> simp [send_attempts_append, send_attempts]
  | a :: pre, oks, s, q, p, post, b, f, l, psf, of, tail, h, hpc, hrun, hlen, hoks, hof, hnd,
      hb, hch, hfc => by
    cases oks with
    | nil => simp at hlen
    | cons x oks =>
      obtain ⟨ps, o⟩ := x
      have hsp : sched_pushed ((ps, o) :: oks ++ [(psf, of)])
          = push_ids ps ++ sched_pushed (oks ++ [(psf, of)]) := by
        rw [List.cons_append, sched_pushed_cons]
      rw [hsp] at hnd hb
      obtain ⟨s1, s2, e1, e2, hinv, r1, r2, r3, r4, r5, r6, r7, r8, r9, r10, r11⟩ :=
        round_send_ok (sched_pushed (oks ++ [(psf, of)]))
          (c := pre ++ b :: post) (by simpa using h) hpc hrun (hoks (ps, o) (by simp))
          (by simpa using hnd) (by simpa using hb)
          (fun op hop => (hch (ps, o) (by simp) op hop).1)
          (fun op hop => (hch (ps, o) (by simp) op hop).2)
      obtain ⟨f', hf'⟩ := pc_after_send_append_cons pre b post l
      have hpc2 : s2.pc = Pc.sending f' l := r1.trans hf'
      have hch2 : ∀ x ∈ oks ++ [(psf, of)], ∀ op ∈ x.1,
          Dlinked s2.mem (bufs op.ids) ∧ op.ids.length ≤ fuel := by
        intro x hx op hop
        obtain ⟨k1, k2⟩ := hch x (by simp only [List.cons_append, List.mem_cons]; right; exact hx)
          op hop
        refine ⟨dlinked_keep k1 (fun y hy => r11 y ?_), k2⟩
        exact List.mem_flatMap.2 ⟨x, hx, List.mem_flatMap.2 ⟨op, hop, hy⟩⟩
      obtain ⟨s', e', hinv', t1, t2, t3, t4, t5, t6, t7, t8⟩ :=
        send_phase_fail fuel pre oks s2 (q ++ push_ids ps) (a :: p) post b f' l psf of tail
          hinv hpc2 (r4.trans hrun) (by simpa using hlen)
          (fun x hx => hoks x (List.mem_cons_of_mem _ hx)) hof
          (by simpa [List.append_assoc] using r9) (by simpa [List.append_assoc] using r10)
          hch2 (by simp only [List.cons_append, List.length_cons] at hfc; omega)
      refine ⟨s', ?_, ?_, t1, t2, ?_, ?_, ?_, ?_, by rw [t7, r4], by rw [t8, r5]⟩
      · rw [List.cons_append, iteration_cons_sending e1 e2 hpc2]; exact e'
      · rw [hsp]
        simpa [List.append_assoc] using hinv'
      · rw [t3, hsp]; simp [List.append_assoc]
      · rw [t4, r3]; simp [put_buffers_append, put_buffers]
      · rw [t5, r3]; simp [sent_buffers_append, sent_buffers]
      · rw [t6, r3]
        simp [send_attempts_append, send_attempts]
        omega

/-- C3 (requeue of the unsent suffix). A round starts at the head of the
loop, without `error_sending`, with the queue holding the chain
`pre ++ b :: post`; the worker drains it and is or gets connected; the sends
of `pre` succeed and the send of `b` fails (peer closed, or transport
failure); producers push in the meantime. Then the round ends with `pre` in
the pool, `b :: post` at the front of the queue in their original order ahead
of every buffer pushed in the meantime, `_M_count` equal to the number of
buffers pushed in the meantime plus the length of `b :: post`, no send
attempted after the failing one, and `error_sending` set. -/
theorem C3_requeue_unsent_suffix (fuel : Nat) (s : Sender) (p pre post : List Nat) (b : Nat)
    (o0 : Oracle) (oks : List (List Push × Oracle)) (psf : List Push) (of : Oracle)
    (tail : List (List Push × Oracle))
    (hinv : Inv s (pre ++ b :: post) [] p) (hpc : s.pc = Pc.top) (hrun : s.running = true)
    (hst : s.state = State.sending_queued_buffers) (herr : s.error_sending = false)
    (hconn : (s.connected || o0.connect_ok) = true)
    (hlen : oks.length = pre.length) (hoks : ∀ x ∈ oks, x.2.sends)
    (hof : of.peer_closed = true ∨ of.send_ok = false)
    (hnd : (p ++ (pre ++ b :: post) ++ sched_pushed (oks ++ [(psf, of)])).Nodup)
    (hb : (p ++ (pre ++ b :: post) ++ sched_pushed (oks ++ [(psf, of)])).length < SIZE_MOD)
    (hch : ∀ x ∈ oks ++ [(psf, of)], ∀ op ∈ x.1,
      Dlinked s.mem (bufs op.ids) ∧ op.ids.length ≤ fuel)
    (hfc : (pre ++ b :: post).length ≤ fuel) :
    ∃ s', iteration fuel (([], o0) :: oks ++ (psf, of) :: tail) s = .ok s' ∧
      PoolRep s'.mem (pre.reverse ++ p) ∧
      QueueRep s'.mem (b :: post ++ sched_pushed (oks ++ [(psf, of)])) ∧
      s'.mem.count = (sched_pushed (oks ++ [(psf, of)])).length + (post.length + 1) ∧
      put_buffers s'.trace = put_buffers s.trace ++ bufs pre ∧
      sent_buffers s'.trace = sent_buffers s.trace ++ bufs pre ∧
      send_attempts s'.trace =
        send_attempts s.trace + pre.length + (if of.peer_closed then 0 else 1) ∧
      s'.error_sending = true ∧ s'.pc = Pc.top := by
  obtain ⟨s1, s2, e1, e2, hq, r1, r2, r3, r4, r5, r6, r7⟩ :=
    round_top fuel [] o0 (sched_pushed (oks ++ [(psf, of)])) hinv hpc hrun hst herr
      (by simpa [push_ids] using hnd) (by simpa [push_ids] using hb)
      (by simp) (by simp)
  simp only [push_ids, List.flatMap_nil, List.append_nil] at r7
  rcases r7 with ⟨k1, -, -⟩ | ⟨-, k2, f, l, k3⟩
  · simp at k1
  · rcases k3 with ⟨k3, -⟩ | ⟨-, k4⟩
    · have hch2 : ∀ x ∈ oks ++ [(psf, of)], ∀ op ∈ x.1,
          Dlinked s2.mem (bufs op.ids) ∧ op.ids.length ≤ fuel := by
        intro x hx op hop
        obtain ⟨j1, j2⟩ := hch x hx op hop
        refine ⟨dlinked_keep j1 (fun y hy => r6 y ?_), j2⟩
        exact List.mem_flatMap.2 ⟨x, hx, List.mem_flatMap.2 ⟨op, hop, hy⟩⟩
      obtain ⟨s', e', hinv', t1, t2, t3, t4, t5, t6, t7, t8⟩ :=
        send_phase_fail fuel pre oks s2 [] p post b f l psf of tail k2 k3 (r1.trans hrun) hlen
          hoks hof (by simpa using hnd) (by simpa using hb) hch2 hfc
      refine ⟨s', ?_, hinv'.pool, by simpa using hinv'.queue, by simpa using t3, ?_, ?_, ?_, t2,
        t1⟩
      · rw [List.cons_append, iteration_cons_sending e1 e2 k3]; exact e'
      · rw [t4, hq.2.2.1]
      · rw [t5, hq.1]
      · rw [t6, hq.2.2.2]
    · rw [hconn] at k4; cases k4

theorem sample_sender3_inv : Inv sample_sender3 [1, 2, 3] [] [] :=
  ⟨by decide, rfl, by decide, by decide, by decide, rfl⟩

theorem C3_requeue_unsent_suffix_witness :
    ∃ s', iteration 3 [([], sample_oracle), ([], sample_oracle), ([Push.one 7], failing_oracle)]
        sample_sender3 = .ok s' ∧
      PoolRep s'.mem [1] ∧ QueueRep s'.mem [2, 3, 7] ∧ s'.mem.count = 1 + 2 ∧
      put_buffers s'.trace = [Ptr.buf 1] ∧ sent_buffers s'.trace = [Ptr.buf 1] ∧
      send_attempts s'.trace = 2 ∧ s'.error_sending = true ∧ s'.pc = Pc.top := by
  have h := C3_requeue_unsent_suffix 3 sample_sender3 [] [1] [3] 2 sample_oracle
    [([], sample_oracle)] [Push.one 7] failing_oracle [] sample_sender3_inv rfl rfl rfl rfl rfl
    rfl (by intro x hx; simp at hx; subst hx; exact ⟨rfl, rfl⟩) (Or.inr rfl) (by decide)
    (by decide)
    (by
      intro x hx op hop
      simp only [List.cons_append, List.nil_append, List.mem_cons, List.mem_singleton,
        List.not_mem_nil, or_false] at hx
      rcases hx with e | e
      · subst e; simp at hop
      · subst e
        simp only [List.mem_singleton] at hop
        subst hop
        exact ⟨by decide, by decide⟩)
    (by decide)
  simpa [sample_sender3, sample_sender, sched_pushed, push_ids, Push.ids, put_buffers,
    sent_buffers, send_attempts, failing_oracle, sample_oracle] using h

/-- The send phase of a round under arbitrary outcomes: some initial part of
the chain (`k` buffers) is sent and put into the pool, the rest goes back to
the front of the queue, ahead of what the producers pushed in the meantime. -/
theorem send_phase_any (fuel : Nat) : ∀ (c : List Nat) (sched : List (List Push × Oracle))
    (s : Sender) (q p : List Nat) (f l : Ptr),
    Inv s q c p → s.pc = Pc.sending f l → s.running = true →
    c.length ≤ sched.length →
    (p ++ c ++ q ++ sched_pushed sched).Nodup →
    (p ++ c ++ q ++ sched_pushed sched).length < SIZE_MOD →
    (∀ x ∈ sched, ∀ op ∈ x.1, Dlinked s.mem (bufs op.ids) ∧ op.ids.length ≤ fuel) →
    c.length ≤ fuel →
    ∃ s' k used, iteration fuel sched s = .ok s' ∧ k ≤ c.length ∧
      Inv s' (c.drop k ++ (q ++ sched_pushed (sched.take used))) [] ((c.take k).reverse ++ p) ∧
      s'.pc = Pc.top ∧
      put_buffers s'.trace = put_buffers s.trace ++ bufs (c.take k) ∧
      sent_buffers s'.trace = sent_buffers s.trace ++ bufs (c.take k) ∧
      (k < c.length → s'.error_sending = true) ∧
      s'.running = s.running ∧ s'.state = s.state
  | [], _, _, _, _, _, _, h, hpc, _, _, _, _, _, _ =>
    absurd rfl (h.chain_of_sending hpc).nonempty
  | b :: c, [], _, _, _, _, _, _, _, _, hlen, _, _, _, _ => by simp at hlen
  | b :: c, (ps, o) :: rest, s, q, p, f, l, h, hpc, hrun, hlen, hnd, hb, hch, hfc => by
    rw [sched_pushed_cons] at hnd hb
    by_cases ho : o.peer_closed = true ∨ o.send_ok = false
    · have hnd0 : (p ++ (b :: c) ++ q ++ push_ids ps ++ sched_pushed rest).Nodup := by
        simpa [List.append_assoc] using hnd
      have hb0 : (p ++ (b :: c) ++ q ++ push_ids ps ++ sched_pushed rest).length < SIZE_MOD := by
        simpa [List.append_assoc] using hb
      obtain ⟨s1, s2, e1, e2, hinv, r1, r2, r3, r4, r5, r6, r7, r8⟩ :=
        round_send_fail (o := o) h hpc hrun ho (List.nodup_append.1 hnd0).1
          (by
            have := hb0
            simp only [List.length_append] at this ⊢
            omega)
          (fun op hop => (hch (ps, o) (by simp) op hop).1)
          (fun op hop => (hch (ps, o) (by simp) op hop).2) hfc
      refine ⟨s2, 0, 1, iteration_cons_top e1 e2 r1, by simp, ?_, r1, ?_, ?_, fun _ => r2,
        r5, r6⟩
      · simpa [sched_pushed] using hinv
      · rw [r4]
        cases o.peer_closed <;> simp [put_buffers_append, put_buffers]
      · rw [r4]
        cases o.peer_closed <;> simp [sent_buffers_append, sent_buffers]
    · have hos : o.sends := by
        constructor
        · cases hh : o.peer_closed
          · rfl
          · exact absurd (Or.inl hh) ho
        · cases hh : o.send_ok
          · exact absurd (Or.inr hh) ho
          · rfl
      obtain ⟨s1, s2, e1, e2, hinv, r1, r2, r3, r4, r5, r6, r7, r8, r9, r10, r11⟩ :=
        round_send_ok (sched_pushed rest) h hpc hrun hos hnd hb
          (fun op hop => (hch (ps, o) (by simp) op hop).1)
          (fun op hop => (hch (ps, o) (by simp) op hop).2)
      cases c with
      | nil =>
        have hpc2 : s2.pc = Pc.top := r1
        refine ⟨s2, 1, 1, iteration_cons_top e1 e2 hpc2, by simp, ?_, hpc2, ?_, ?_, ?_, r4, r5⟩
        · simpa [sched_pushed] using hinv
        · rw [r3]; simp [put_buffers_append, put_buffers]
        · rw [r3]; simp [sent_buffers_append, sent_buffers]
        · intro hk; simp at hk
      | cons x c =>
        have hpc2 : s2.pc = Pc.sending (.buf x) l := r1
        have hch2 : ∀ y ∈ rest, ∀ op ∈ y.1,
            Dlinked s2.mem (bufs op.ids) ∧ op.ids.length ≤ fuel := by
          intro y hy op hop
          obtain ⟨k1, k2⟩ := hch y (List.mem_cons_of_mem _ hy) op hop
          refine ⟨dlinked_keep k1 (fun z hz => r11 z ?_), k2⟩
          exact List.mem_flatMap.2 ⟨y, hy, List.mem_flatMap.2 ⟨op, hop, hz⟩⟩
        obtain ⟨s', k, used, e', hk, hinv', t1, t2, t3, t4, t5, t6⟩ :=
          send_phase_any fuel (x :: c) rest s2 (q ++ push_ids ps) (b :: p) (.buf x) l hinv hpc2
            (r4.trans hrun) (by simpa using hlen) r9 r10 hch2
            (by simp only [List.length_cons] at hfc ⊢; omega)
        refine ⟨s', k + 1, used + 1, ?_, by simpa using hk, ?_, t1, ?_, ?_, ?_, by rw [t5, r4],
          by rw [t6, r5]⟩
        · rw [iteration_cons_sending e1 e2 hpc2]; exact e'
        · simpa [sched_pushed_cons, List.append_assoc] using hinv'
        · rw [t2, r3]; simp [put_buffers_append, put_buffers]
        · rw [t3, r3]; simp [sent_buffers_append, sent_buffers]
        · intro hk'
          exact t4 (by simpa using hk')

/-- C4 (buffer conservation in the worker loop). For every round of the
worker that starts at the head of the loop in state `sending_queued_buffers`,
with the queue holding `q` and the pool `p`, under every outcome of connect,
peer check and transport send and any producer pushes in the meantime, the
round ends with some initial part of `q` (`k` buffers, those that were sent)
in the pool and the rest of `q`, in its original order, at the front of the
queue: every buffer of `q` is in exactly one of the two, none twice. When the
lazy connect fails, `k = 0`: the whole chain is back at the front of the
queue, nothing was put into the pool and `error_sending` is set. -/
theorem C4_buffer_conservation (fuel : Nat) (s : Sender) (q p : List Nat) (o0 : Oracle)
    (sched : List (List Push × Oracle))
    (hinv : Inv s q [] p) (hpc : s.pc = Pc.top) (hrun : s.running = true)
    (hst : s.state = State.sending_queued_buffers)
    (hlen : q.length ≤ sched.length)
    (hnd : (p ++ q ++ sched_pushed sched).Nodup)
    (hb : (p ++ q ++ sched_pushed sched).length < SIZE_MOD)
    (hch : ∀ x ∈ sched, ∀ op ∈ x.1, Dlinked s.mem (bufs op.ids) ∧ op.ids.length ≤ fuel)
    (hfc : q.length ≤ fuel) :
    ∃ s' k used, iteration fuel (([], o0) :: sched) s = .ok s' ∧ k ≤ q.length ∧
      PoolRep s'.mem ((q.take k).reverse ++ p) ∧
      QueueRep s'.mem (q.drop k ++ sched_pushed (sched.take used)) ∧
      ((q.take k).reverse ++ p ++ (q.drop k ++ sched_pushed (sched.take used))).Nodup ∧
      (∀ x ∈ q, (x ∈ (q.take k).reverse ++ p ∧ x ∉ q.drop k ++ sched_pushed (sched.take used)) ∨
        (x ∉ (q.take k).reverse ++ p ∧ x ∈ q.drop k ++ sched_pushed (sched.take used))) ∧
      put_buffers s'.trace = put_buffers s.trace ++ bufs (q.take k) ∧
      s'.pc = Pc.top ∧
      (s.error_sending = false → q ≠ [] → (s.connected || o0.connect_ok) = false →
        k = 0 ∧ s'.error_sending = true) := by
  have e1 : exec fuel s (([] : List Push).map Action.push) = .ok s := rfl
  have fin : ∀ (s' : Sender) (k used : Nat),
      Inv s' (q.drop k ++ sched_pushed (sched.take used)) [] ((q.take k).reverse ++ p) →
      PoolRep s'.mem ((q.take k).reverse ++ p) ∧
      QueueRep s'.mem (q.drop k ++ sched_pushed (sched.take used)) ∧
      ((q.take k).reverse ++ p ++ (q.drop k ++ sched_pushed (sched.take used))).Nodup ∧
      (∀ x ∈ q, (x ∈ (q.take k).reverse ++ p ∧ x ∉ q.drop k ++ sched_pushed (sched.take used)) ∨
        (x ∉ (q.take k).reverse ++ p ∧ x ∈ q.drop k ++ sched_pushed (sched.take used))) := by
    intro s' k used hi
    have hn : ((q.take k).reverse ++ p ++ (q.drop k ++ sched_pushed (sched.take used))).Nodup := by
      simpa using hi.nodup
    refine ⟨hi.pool, hi.queue, hn, ?_⟩
    intro x hx
    have hdj := List.disjoint_of_nodup_append hn
    rw [← List.take_append_drop k q] at hx
    rcases List.mem_append.1 hx with h1 | h1
    · have hP : x ∈ (q.take k).reverse ++ p := by simp [h1]
      exact Or.inl ⟨hP, fun hQ => hdj hP hQ⟩
    · have hQ : x ∈ q.drop k ++ sched_pushed (sched.take used) := by simp [h1]
      exact Or.inr ⟨fun hP => hdj hP hQ, hQ⟩
  obtain ⟨s2, e2, hq, r1, r2, r3, r4, r5, r6⟩ := hinv.top_step hpc hrun hst o0 fuel
  have hch2 : ∀ x ∈ sched, ∀ op ∈ x.1,
      Dlinked s2.mem (bufs op.ids) ∧ op.ids.length ≤ fuel := by
    intro x hx op hop
    obtain ⟨k1, k2⟩ := hch x hx op hop
    exact ⟨dlinked_keep k1 (fun y _ => r5 (.buf y) (by simp)), k2⟩
  rcases r6 with ⟨k1, k2, k3⟩ | ⟨k1, k2, k3, f, l, k4⟩
  · refine ⟨s2, 0, 0, iteration_cons_top e1 e2 k1, by simp, ?_⟩
    have hi : Inv s2 (q.drop 0 ++ sched_pushed (sched.take 0)) [] ((q.take 0).reverse ++ p) := by
      simpa [sched_pushed] using k2
    obtain ⟨a1, a2, a3, a4⟩ := fin s2 0 0 hi
    refine ⟨a1, a2, a3, a4, by simp [hq.2.2.1], k1, ?_⟩
    intro he hne _
    exact absurd (k3 he).1 hne
  · rcases k4 with ⟨k5, k6⟩ | ⟨k5, k6, k7⟩
    · obtain ⟨s', k, used, e', hk, hinv', t1, t2, t3, t4, t5, t6⟩ :=
        send_phase_any fuel q sched s2 [] p f l k2 k5 (r1.trans hrun) hlen
          (by simpa using hnd) (by simpa using hb) hch2 hfc
      refine ⟨s', k, used, ?_, hk, ?_⟩
      · rw [iteration_cons_sending e1 e2 k5]; exact e'
      · obtain ⟨a1, a2, a3, a4⟩ := fin s' k used (by simpa using hinv')
        refine ⟨a1, a2, a3, a4, by rw [t2, hq.2.2.1], t1, ?_⟩
        intro he _ hcf
        rw [k6 he] at hcf; cases hcf
    · cases sched with
      | nil =>
        have : q = [] := List.length_eq_zero.1 (Nat.le_zero.1 (by simpa using hlen))
        exact absurd this k1
      | cons x rest =>
        obtain ⟨ps, o⟩ := x
        rw [sched_pushed_cons] at hnd hb
        have hnd0 : (p ++ q ++ [] ++ push_ids ps ++ sched_pushed rest).Nodup := by
          simpa [List.append_assoc] using hnd
        have hb0 : (p ++ q ++ [] ++ push_ids ps ++ sched_pushed rest).length < SIZE_MOD := by
          simpa [List.append_assoc] using hb
        obtain ⟨s3, s4, e3, e4, hinv4, u1, u2, u3, u4, u5, u6, u7, u8⟩ :=
          round_requeue o k2 k5 (r1.trans hrun) (List.nodup_append.1 hnd0).1
            (by
              have := hb0
              simp only [List.length_append] at this ⊢
              omega)
            (fun op hop => (hch2 (ps, o) (by simp) op hop).1)
            (fun op hop => (hch2 (ps, o) (by simp) op hop).2) hfc
        refine ⟨s4, 0, 1, ?_, by simp, ?_⟩
        · rw [iteration_cons_requeue e1 e2 k5]
          exact iteration_cons_top e3 e4 u1
        · have hi : Inv s4 (q.drop 0 ++ sched_pushed (((ps, o) :: rest).take 1)) []
              ((q.take 0).reverse ++ p) := by
            simpa [sched_pushed] using hinv4
          obtain ⟨a1, a2, a3, a4⟩ := fin s4 0 1 hi
          refine ⟨a1, a2, a3, a4, by simp [u4, hq.2.2.1], u1, ?_⟩
          intro _ _ _
          exact ⟨rfl, u2⟩

theorem C4_buffer_conservation_witness :
    ∃ s' k used, iteration 3 (([], failing_oracle) ::
        [([], sample_oracle), ([Push.one 7], failing_oracle), ([], sample_oracle)])
        sample_sender3 = .ok s' ∧ k ≤ 3 ∧
      PoolRep s'.mem ((([1, 2, 3] : List Nat).take k).reverse ++ []) ∧
      QueueRep s'.mem (([1, 2, 3] : List Nat).drop k ++ sched_pushed
        (([([], sample_oracle), ([Push.one 7], failing_oracle), ([], sample_oracle)] :
          List (List Push × Oracle)).take used)) ∧
      s'.pc = Pc.top := by
  obtain ⟨s', k, used, e, hk, h1, h2, -, -, -, h3, -⟩ :=
    C4_buffer_conservation 3 sample_sender3 [1, 2, 3] [] failing_oracle
      [([], sample_oracle), ([Push.one 7], failing_oracle), ([], sample_oracle)]
      sample_sender3_inv rfl rfl rfl (by decide) (by decide) (by decide)
      (by
        intro x hx op hop
        simp only [List.mem_cons, List.mem_singleton, List.not_mem_nil, or_false] at hx
        rcases hx with e | e | e
        · subst e; simp at hop
        · subst e
          simp only [List.mem_singleton] at hop
          subst hop
          exact ⟨by decide, by decide⟩
        · subst e; simp at hop)
      (by decide)
  exact ⟨s', k, used, e, hk, h1, h2, h3⟩

theorem sample_sender1_inv : Inv sample_sender1 [1] [] [] :=
  ⟨by decide, rfl, by decide, by decide, by decide, rfl⟩

theorem not_poolRep_of_self_loop {m : Mem} {b : Nat} (h1 : m.first = .buf b)
    (h2 : m.next (.buf b) = .buf b) : ∀ ps, ¬ PoolRep m ps := by
  intro ps h
  cases ps with
  | nil => rw [h.first_nil] at h1; cases h1
  | cons a ps =>
    have ha : Ptr.buf a = Ptr.buf b := h.first_cons.symm.trans h1
    injection ha with ha
    subst ha
    have ht := h.tail_rep
    cases ps with
    | nil =>
      have := ht.first_nil
      simp only [h1, h2] at this
      cases this
    | cons c ps =>
      have hc := ht.first_cons
      simp only [h1, h2] at hc
      injection hc with hc
      subst hc
      exact (List.nodup_cons.1 h.nodup).1 (by simp)

/-- C5 (save_buffers handles every buffer exactly once), the code at a failing
input. The queue holds the single buffer 1, the pool is empty, the first
save fails and the next one succeeds: `save_buffers` makes two save attempts
on buffer 1 and puts it into the pool twice, which links the buffer to itself,
so the free list is no longer an acyclic list. With the queue 1, 2, 3 and a
failing save of buffer 2, the loop follows the pool link of buffer 2, saves
buffer 1 a second time, never reaches buffer 3 and dereferences `nullptr`. -/
theorem C5_save_buffers_failed_save_retried :
    Inv sample_sender1 [1] [] [] ∧
    (∃ s' r, sender.save_buffers sample_oracle.localtime [save_fails, save_works] sample_sender1
        = .ok (s', r) ∧ r = false ∧ save_attempts s'.trace = 2 ∧
      put_buffers s'.trace = [Ptr.buf 1, Ptr.buf 1] ∧
      s'.mem.first = .buf 1 ∧ s'.mem.next (.buf 1) = .buf 1 ∧ ∀ ps, ¬ PoolRep s'.mem ps) ∧
    Inv sample_sender3 [1, 2, 3] [] [] ∧
    sender.save_buffers sample_oracle.localtime
      [save_works, save_fails, save_works, save_works, save_works] sample_sender3
        = .error Fault.null_deref :=
  ⟨sample_sender1_inv,
    ⟨_, _, rfl, by decide, by decide, by decide, by decide, by decide,
      not_poolRep_of_self_loop (b := 1) (by decide) (by decide)⟩,
    sample_sender3_inv, rfl⟩

theorem delivered_append (a b : List Event) : delivered (a ++ b) = delivered a ++ delivered b := by
  induction a with
  | nil => rfl
  | cons e t ih =>
    cases e with
    | transport_send src pl ok => cases src <;> cases ok <;> simp [delivered, ih]
    | save p path ok => cases ok <;> simp [delivered, ih]
    | _ => simp [delivered, ih]

theorem attempted_append (a b : List Event) : attempted (a ++ b) = attempted a ++ attempted b := by
  induction a with
  | nil => rfl
  | cons e t ih =>
    cases e with
    | transport_send src pl ok => cases src <;> cases ok <;> simp [attempted, ih]
    | save p path ok => simp [attempted, ih]
    | _ => simp [attempted, ih]

theorem putOnlyAfter_append {f : List Event → List Ptr}
    (hadd : ∀ a b, f (a ++ b) = f a ++ f b) {a b : List Event}
    (ha : PutOnlyAfter f a) (hb : PutOnlyAfter f b) : PutOnlyAfter f (a ++ b) := by
  intro t1 t2 x e
  rcases List.append_eq_append_iff.1 e with ⟨a', h1, h2⟩ | ⟨c', h1, h2⟩
  · rw [h1, hadd]
    exact List.mem_append_right _ (hb a' t2 x h2)
  · cases c' with
    | nil =>
      simp only [List.append_nil, List.nil_append] at h1 h2
      have hnil : f [] = [] := by
        have := congrArg List.length (hadd [] [])
        simp only [List.append_nil, List.length_append] at this
        exact List.length_eq_zero.1 (by omega)
      have := hb [] t2 x h2.symm
      rw [hnil] at this
      cases this
    | cons y c' =>
      simp only [List.cons_append, List.cons.injEq] at h2
      obtain ⟨h3, -⟩ := h2
      subst h3
      exact ha t1 c' x h1

theorem putOnlyAfter_of_no_put (f : List Event → List Ptr) {a : List Event}
    (h : put_buffers a = []) : PutOnlyAfter f a := by
  intro t1 t2 x e
  rw [e, put_buffers_append] at h
  simp [put_buffers] at h

theorem putOnlyAfter_nil (f : List Event → List Ptr) : PutOnlyAfter f [] :=
  putOnlyAfter_of_no_put f rfl

theorem NoPutExt.rfl' (s : Sender) : NoPutExt s s := ⟨[], by simp, rfl⟩

theorem NoPutExt.of_eq {s1 s2 : Sender} (h : s2.trace = s1.trace) : NoPutExt s1 s2 :=
  ⟨[], by simp [h], rfl⟩

theorem NoPutExt.trans' {s1 s2 s3 : Sender} (h1 : NoPutExt s1 s2) (h2 : NoPutExt s2 s3) :
    NoPutExt s1 s3 := by
  obtain ⟨e1, a1, b1⟩ := h1
  obtain ⟨e2, a2, b2⟩ := h2
  exact ⟨e1 ++ e2, by rw [a2, a1, List.append_assoc], by rw [put_buffers_append, b1, b2]; rfl⟩

theorem connect_noPut (ok : Bool) (s : Sender) : NoPutExt s (sender.connect ok s).1 := by
  unfold sender.connect
  split
  · exact NoPutExt.rfl' s
  · exact ⟨[Event.connect ok], rfl, rfl⟩

theorem disconnect_noPut (s : Sender) : NoPutExt s (sender.disconnect s) :=
  ⟨[Event.disconnect], rfl, rfl⟩

theorem send_bytes_noPut (pc so : Bool) (src : Src) (pl : List Nat) (s : Sender) :
    NoPutExt s (sender.send_bytes pc so src pl s).1 := by
  cases pc <;> cases so
  · exact ⟨[Event.peer_check false, Event.transport_send src pl false, Event.disconnect],
      by simp [sender.send_bytes, sender.disconnect], rfl⟩
  · exact ⟨[Event.peer_check false, Event.transport_send src pl true],
      by simp [sender.send_bytes], rfl⟩
  · exact ⟨[Event.peer_check true, Event.disconnect],
      by simp [sender.send_bytes, sender.disconnect], rfl⟩
  · exact ⟨[Event.peer_check true, Event.disconnect],
      by simp [sender.send_bytes, sender.disconnect], rfl⟩

theorem end_iteration_noPut (s : Sender) : NoPutExt s (sender.end_iteration s) :=
  NoPutExt.of_eq (by simp)

theorem send_file_noPut (o : FileOracle) (s : Sender) (path : String) (n : Nat)
    (content : List Nat) : NoPutExt s (sender.send_file o s path n content).1 := by
  unfold sender.send_file
  split
  · split
    · exact send_bytes_noPut _ _ _ _ _
    · exact NoPutExt.rfl' s
  · exact NoPutExt.rfl' s

theorem unlink_noPut (s : Sender) (path : String) : NoPutExt s (sender.unlink s path) :=
  ⟨[Event.unlink path], rfl, rfl⟩

theorem send_files_loop_noPut (fo : Nat → FileOracle) :
    ∀ (es : List File) (k : Nat) (s : Sender), NoPutExt s (sender.send_files_loop fo es k s).1
  | [], _, s => NoPutExt.rfl' s
  | e :: es, k, s => by
    unfold sender.send_files_loop
    dsimp only
    split
    · split
      · split
        · exact ((send_file_noPut _ _ _ _ _).trans' (unlink_noPut _ _)).trans'
            (send_files_loop_noPut fo es (k + 1) _)
        · exact send_file_noPut _ _ _ _ _
      · exact send_files_loop_noPut fo es (k + 1) s
    · exact send_files_loop_noPut fo es (k + 1) s

theorem send_files_noPut (o : Oracle) (s : Sender) : NoPutExt s (sender.send_files o s).1 := by
  unfold sender.send_files
  have hc := connect_noPut o.connect_ok s
  dsimp only
  split
  · split
    · have hl := send_files_loop_noPut o.file (sender.connect o.connect_ok s).1.files 0
        (sender.connect o.connect_ok s).1
      split
      · exact hc.trans' (hl.trans' (NoPutExt.of_eq rfl))
      · exact hc.trans' hl
    · exact hc
  · exact hc

theorem NoPutExt.traceExt (f : List Event → List Ptr) {s1 s2 : Sender} (h : NoPutExt s1 s2) :
    TraceExt f s1 s2 := by
  obtain ⟨ev, h1, h2⟩ := h
  exact ⟨ev, h1, putOnlyAfter_of_no_put f h2⟩

theorem TraceExt.comp {f : List Event → List Ptr} (hadd : ∀ a b, f (a ++ b) = f a ++ f b)
    {s1 s2 s3 : Sender} (h1 : TraceExt f s1 s2) (h2 : TraceExt f s2 s3) : TraceExt f s1 s3 := by
  obtain ⟨e1, a1, b1⟩ := h1
  obtain ⟨e2, a2, b2⟩ := h2
  exact ⟨e1 ++ e2, by rw [a2, a1, List.append_assoc], putOnlyAfter_append hadd b1 b2⟩

theorem TraceExt.preserve {f : List Event → List Ptr} (hadd : ∀ a b, f (a ++ b) = f a ++ f b)
    {s1 s2 : Sender} (h : TraceExt f s1 s2) (h1 : PutOnlyAfter f s1.trace) :
    PutOnlyAfter f s2.trace := by
  obtain ⟨ev, a, b⟩ := h
  rw [a]; exact putOnlyAfter_append hadd h1 b

theorem putOnlyAfter_pair {f : List Event → List Ptr} {e : Event} {b : Ptr}
    (h : b ∈ f [e]) (hne : ∀ x, e ≠ Event.put x) : PutOnlyAfter f [e, Event.put b] := by
  intro t1 t2 x heq
  cases t1 with
  | nil =>
    simp only [List.nil_append, List.cons.injEq] at heq
    exact absurd heq.1 (hne x)
  | cons y t1 =>
    cases t1 with
    | nil =>
      simp only [List.cons_append, List.nil_append, List.cons.injEq, Event.put.injEq] at heq
      obtain ⟨h1, h2, -⟩ := heq
      subst h1 h2; exact h
    | cons z t1 =>
      simp only [List.cons_append, List.cons.injEq] at heq
      obtain ⟨-, -, h3⟩ := heq
      cases t1 <;> simp at h3

theorem requeue_noPut {fuel : Nat} {s s' : Sender} {first last : Ptr}
    (h : sender.requeue fuel s first last = .ok s') : NoPutExt s s' := by
  unfold sender.requeue at h
  split at h
  · cases h
  · injection h with h
    subst h
    exact NoPutExt.of_eq (by simp)

theorem run_body_noPut (o : Oracle) (s : Sender) : NoPutExt s (sender.run_body o s) := by
  unfold sender.run_body
  dsimp only
  split
  · split
    · have hc := connect_noPut o.connect_ok
        { s with mem := (buffers.pop_timed s.mem).1 }
      split
      · exact (NoPutExt.of_eq rfl).trans' (hc.trans' (NoPutExt.of_eq rfl))
      · exact (NoPutExt.of_eq rfl).trans' (hc.trans' (NoPutExt.of_eq rfl))
    · split
      · exact (NoPutExt.of_eq rfl).trans'
          ((disconnect_noPut _).trans' (end_iteration_noPut _))
      · exact (NoPutExt.of_eq rfl).trans' (end_iteration_noPut _)
  · exact (send_files_noPut o s).trans'
      ((NoPutExt.of_eq rfl).trans' (end_iteration_noPut _))

/-- The trace extension of one `save_buffer` call: a single `save` event of
the buffer. -/
theorem save_buffer_trace {lt : Int → Tm} {o : SaveOracle} {s s' : Sender} {buf : Ptr}
    {count cnt : Nat} {ok : Bool}
    (h : sender.save_buffer lt o s buf count = .ok (s', cnt, ok)) :
    ∃ path, s'.trace = s.trace ++ [Event.save buf path ok] ∧ s'.mem = s.mem := by
  unfold sender.save_buffer at h
  simp only [bind, Except.bind, pure, Except.pure] at h
  split at h
  · cases h
  · split at h
    · cases h
    · injection h with h
      injection h with h1 h2
      injection h2 with h2 h3
      subst h1 h3
      exact ⟨_, rfl, rfl⟩

theorem save_loop_ext {f : List Event → List Ptr} (hadd : ∀ a b, f (a ++ b) = f a ++ f b)
    (hsave : ∀ b path ok, b ∈ f [Event.save b path ok]) (lt : Int → Tm) :
    ∀ (os : List SaveOracle) (s : Sender) (first last : Ptr) (count : Nat) (ret : Bool)
      (s' : Sender) (r : Bool),
      sender.save_loop lt os s first last count ret = .ok (s', r) → TraceExt f s s'
  | [], _, _, _, _, _, _, _, h => by simp [sender.save_loop] at h
  | o :: os, s, first, last, count, ret, s', r, h => by
    unfold sender.save_loop at h
    split at h
    · cases h
    · rename_i s1 cnt ok hsb
      obtain ⟨path, ht, -⟩ := save_buffer_trace hsb
      have hround : TraceExt f s (sender.put s1 first) :=
        ⟨[Event.save first path ok, Event.put first], by simp [ht],
          putOnlyAfter_pair (hsave first path ok) (by intro x; simp)⟩
      split at h
      · split at h
        · exact hround.comp hadd (save_loop_ext hadd hsave lt os _ _ _ _ _ _ _ h)
        · injection h with h
          injection h with h1 h2
          subst h1
          exact hround
      · exact hround.comp hadd (save_loop_ext hadd hsave lt os _ _ _ _ _ _ _ h)

theorem save_buffers_ext {f : List Event → List Ptr} (hadd : ∀ a b, f (a ++ b) = f a ++ f b)
    (hsave : ∀ b path ok, b ∈ f [Event.save b path ok]) {lt : Int → Tm}
    {os : List SaveOracle} {s s' : Sender} {r : Bool}
    (h : sender.save_buffers lt os s = .ok (s', r)) : TraceExt f s s' := by
  unfold sender.save_buffers at h
  dsimp only at h
  have h0 : NoPutExt s { s with mem := (buffers.pop s.mem).1 } := NoPutExt.of_eq rfl
  split at h
  · exact (NoPutExt.traceExt f h0).comp hadd
      (save_loop_ext hadd hsave lt os _ _ _ _ _ _ _ h)
  · injection h with h
    injection h with h1 h2
    subst h1
    exact NoPutExt.traceExt f h0

theorem client_put_ext {f : List Event → List Ptr}
    (hsend : ∀ b pl, b ∈ f [Event.transport_send (Src.buffer b) pl true])
    (hadd : ∀ a b, f (a ++ b) = f a ++ f b) {s : Sender} {first : Ptr} {pc so : Bool}
    (h : (sender.send_bytes pc so (Src.buffer first) (s.mem.data first) s).2 = true) :
    TraceExt f s
      (sender.put (sender.send_bytes pc so (Src.buffer first) (s.mem.data first) s).1 first)
      := by
  cases pc <;> cases so <;> simp [sender.send_bytes, sender.disconnect] at h
  refine ⟨[Event.peer_check false] ++
    [Event.transport_send (Src.buffer first) (s.mem.data first) true, Event.put first],
    by simp [sender.send_bytes], ?_⟩
  exact putOnlyAfter_append hadd (putOnlyAfter_of_no_put f rfl)
    (putOnlyAfter_pair (hsend first _) (by intro x; simp))

/-- A worker step inside the loop extends the trace by events in which every
`put` follows the successful transport send of the same buffer. -/
theorem run_step_in_loop_ext {f : List Event → List Ptr}
    (hsend : ∀ b pl, b ∈ f [Event.transport_send (Src.buffer b) pl true])
    (hadd : ∀ a b, f (a ++ b) = f a ++ f b) {fuel : Nat} {o : Oracle} {s s' : Sender}
    (hloop : InLoop s.pc) (h : sender.run_step fuel o s = .ok s') : TraceExt f s s' := by
  cases hpc : s.pc with
  | top =>
    rw [run_step_top hpc] at h
    have h0 : NoPutExt s { s with current_time := o.now } := NoPutExt.of_eq rfl
    have hc := connect_noPut o.connect_ok { s with current_time := o.now }
    have h1 : NoPutExt (sender.connect o.connect_ok { s with current_time := o.now }).1
        { (sender.connect o.connect_ok { s with current_time := o.now }).1 with
          error_sending := !(sender.connect o.connect_ok { s with current_time := o.now }).2 } :=
      NoPutExt.of_eq rfl
    apply NoPutExt.traceExt
    split at h
    · split at h
      · split at h
        · injection h with h; subst h
          exact h0.trans' (hc.trans' (h1.trans' (end_iteration_noPut _)))
        · injection h with h; subst h
          exact h0.trans' (hc.trans' (h1.trans' (run_body_noPut _ _)))
      · injection h with h; subst h
        exact h0.trans' (end_iteration_noPut _)
    · injection h with h; subst h
      exact h0.trans' (run_body_noPut _ _)
  | sending first last =>
    unfold sender.run_step at h
    rw [hpc] at h
    dsimp only at h
    split at h
    · rename_i hok
      have hx := client_put_ext hsend hadd hok
      split at h
      · injection h with h; subst h
        exact hx.comp hadd (NoPutExt.traceExt f (NoPutExt.of_eq rfl))
      · injection h with h; subst h
        exact hx.comp hadd (NoPutExt.traceExt f (end_iteration_noPut _))
    · exact NoPutExt.traceExt f ((send_bytes_noPut _ _ _ _ _).trans' (requeue_noPut h))
  | requeue first last =>
    unfold sender.run_step at h
    rw [hpc] at h
    exact NoPutExt.traceExt f (requeue_noPut h)
  | exiting => rw [hpc] at hloop; exact absurd hloop (by simp [InLoop])
  | done => rw [hpc] at hloop; exact absurd hloop (by simp [InLoop])

theorem attempted_send (b : Ptr) (pl : List Nat) :
    b ∈ attempted [Event.transport_send (Src.buffer b) pl true] := by
  simp [attempted]

theorem attempted_save (b : Ptr) (path : String) (ok : Bool) :
    b ∈ attempted [Event.save b path ok] := by
  simp [attempted]

theorem delivered_send (b : Ptr) (pl : List Nat) :
    b ∈ delivered [Event.transport_send (Src.buffer b) pl true] := by
  simp [delivered]

theorem run_step_ext {fuel : Nat} {o : Oracle} {s s' : Sender}
    (h : sender.run_step fuel o s = .ok s') : TraceExt attempted s s' := by
  by_cases hloop : InLoop s.pc
  · exact run_step_in_loop_ext attempted_send attempted_append hloop h
  · cases hpc : s.pc with
    | top => rw [hpc] at hloop; exact absurd trivial hloop
    | sending _ _ => rw [hpc] at hloop; exact absurd trivial hloop
    | requeue _ _ => rw [hpc] at hloop; exact absurd trivial hloop
    | exiting =>
      unfold sender.run_step at h
      rw [hpc] at h
      dsimp only at h
      split at h
      · rename_i s1 r hsb
        injection h with h; subst h
        exact (save_buffers_ext attempted_append attempted_save hsb).comp attempted_append
          (NoPutExt.traceExt _ (NoPutExt.of_eq rfl))
      · cases h
    | done =>
      unfold sender.run_step at h
      rw [hpc] at h
      injection h with h; subst h
      exact NoPutExt.traceExt _ (NoPutExt.rfl' _)

theorem step_ext {fuel : Nat} {a : Action} {s s' : Sender}
    (h : step fuel s a = .ok s') : TraceExt attempted s s' := by
  cases a with
  | worker o => exact run_step_ext h
  | push p =>
    unfold step at h
    dsimp only at h
    split at h
    · injection h with h; subst h
      exact NoPutExt.traceExt _ (NoPutExt.of_eq rfl)
    · cases h

theorem exec_ext (fuel : Nat) : ∀ (acts : List Action) (s s' : Sender),
    exec fuel s acts = .ok s' → TraceExt attempted s s'
  | [], s, s', h => by
    injection h with h; subst h
    exact NoPutExt.traceExt _ (NoPutExt.rfl' _)
  | a :: acts, s, s', h => by
    unfold exec at h
    split at h
    · rename_i s1 hs
      exact (step_ext hs).comp attempted_append (exec_ext fuel acts s1 s' h)
    · cases h

theorem send_ext {lt : Int → Tm} {os : List SaveOracle} {s s' : Sender} {buf : Ptr}
    (h : sender.send lt os s buf = .ok s') : TraceExt attempted s s' := by
  unfold sender.send at h
  dsimp only at h
  have h0 : NoPutExt s { s with mem := (buffers.push_back s.mem buf).1 } := NoPutExt.of_eq rfl
  split at h
  · split at h
    · rename_i s1 r hsb
      injection h with h; subst h
      exact ((NoPutExt.traceExt _ h0).comp attempted_append
        (save_buffers_ext attempted_append attempted_save hsb)).comp attempted_append
          (NoPutExt.traceExt _ (NoPutExt.of_eq rfl))
    · cases h
  · injection h with h; subst h
    exact NoPutExt.traceExt _ h0

/-- C6 (a buffer is returned to the pool only after a send or a save), as the
code has it. Along every run of worker steps and producer pushes, in every
call of `save_buffers` and in every call of `send(buf)`, each buffer passed to
`allocator.put` has before that either had its payload sent with a successful
transport send or been passed to `buffer.save`, whose outcome may be a
failure. Inside the worker loop every `put` follows a successful transport
send of the same buffer. -/
theorem C6_put_after_send_or_save_attempt :
    (∀ (fuel : Nat) (acts : List Action) (s s' : Sender), exec fuel s acts = .ok s' →
      PutOnlyAfter attempted s.trace → PutOnlyAfter attempted s'.trace) ∧
    (∀ (lt : Int → Tm) (os : List SaveOracle) (s s' : Sender) (r : Bool),
      sender.save_buffers lt os s = .ok (s', r) →
      PutOnlyAfter attempted s.trace → PutOnlyAfter attempted s'.trace) ∧
    (∀ (lt : Int → Tm) (os : List SaveOracle) (s s' : Sender) (buf : Ptr),
      sender.send lt os s buf = .ok s' →
      PutOnlyAfter attempted s.trace → PutOnlyAfter attempted s'.trace) ∧
    (∀ (fuel : Nat) (o : Oracle) (s s' : Sender), InLoop s.pc →
      sender.run_step fuel o s = .ok s' →
      PutOnlyAfter delivered s.trace → PutOnlyAfter delivered s'.trace) :=
  ⟨fun fuel acts s s' h h1 => (exec_ext fuel acts s s' h).preserve attempted_append h1,
    fun _ _ _ _ _ h h1 =>
      (save_buffers_ext attempted_append attempted_save h).preserve attempted_append h1,
    fun _ _ _ _ _ h h1 => (send_ext h).preserve attempted_append h1,
    fun _ _ _ _ hl h h1 =>
      (run_step_in_loop_ext delivered_send delivered_append hl h).preserve delivered_append h1⟩

/-- C6 as stated fails: with the queue holding the single buffer 1 and a first
save that fails, `save_buffers` puts buffer 1 into the pool right after the
failed save, before any successful send or save of it. -/
theorem C6_counterexample :
    ∃ s' r, sender.save_buffers sample_oracle.localtime [save_fails, save_works] sample_sender1
        = .ok (s', r) ∧ PutOnlyAfter delivered sample_sender1.trace ∧
      ¬ PutOnlyAfter delivered s'.trace := by
  refine ⟨_, _, rfl, putOnlyAfter_nil _, ?_⟩
  change ¬ PutOnlyAfter delivered (final_trace
    (sender.save_buffers sample_oracle.localtime [save_fails, save_works] sample_sender1))
  intro h
  have h1 := h
    (List.take 1 (final_trace
      (sender.save_buffers sample_oracle.localtime [save_fails, save_works] sample_sender1)))
    (List.drop 2 (final_trace
      (sender.save_buffers sample_oracle.localtime [save_fails, save_works] sample_sender1)))
    (.buf 1) rfl
  exact absurd h1 (by decide)

theorem C6_put_after_send_or_save_attempt_witness :
    ∃ s' r, sender.save_buffers sample_oracle.localtime [save_fails, save_works] sample_sender1
        = .ok (s', r) ∧ PutOnlyAfter attempted s'.trace :=
  ⟨_, _, rfl, C6_put_after_send_or_save_attempt.2.1 sample_oracle.localtime
    [save_fails, save_works] sample_sender1 _ _ rfl (putOnlyAfter_nil _)⟩

/-- C7 (spill-file removal), the code at failing inputs. A regular file of
length zero (its `mmap` fails) and a file whose `open` fails are not sent:
`send_file` returns true for them ("ignore file"), and `send_files` then
unlinks them although no transport send was invoked. -/
theorem C7_send_files_unlinks_unsent_file :
    ((sender.send_files sample_oracle sample_sender_empty_file).2 = true ∧
      (sender.send_files sample_oracle sample_sender_empty_file).1.files = [] ∧
      unlinked (sender.send_files sample_oracle sample_sender_empty_file).1.trace
        = ["spool/a"] ∧
      send_attempts (sender.send_files sample_oracle sample_sender_empty_file).1.trace = 0) ∧
    ((sender.send_files open_fails_oracle sample_sender_file).2 = true ∧
      (sender.send_files open_fails_oracle sample_sender_file).1.files = [] ∧
      unlinked (sender.send_files open_fails_oracle sample_sender_file).1.trace
        = ["spool/b"] ∧
      send_attempts (sender.send_files open_fails_oracle sample_sender_file).1.trace = 0) := by
  decide

theorem queue_of_succ (n : Nat) :
    queue_of (n + 1) = (buffers.push_back (queue_of n) (.buf n)).1 := by
  simp [queue_of, List.range_succ, List.foldl_append]

theorem queue_of_rep : ∀ n, n < SIZE_MOD →
    QueueRep (queue_of n) (List.range n) ∧ (queue_of n).count = n
  | 0, _ => ⟨by simpa [queue_of] using queueRep_init sample_raw, rfl⟩
  | n + 1, h => by
    obtain ⟨h1, h2⟩ := queue_of_rep n (by omega)
    rw [queue_of_succ, List.range_succ]
    refine ⟨h1.push_back (by simp), ?_⟩
    simp only [buffers.push_back, Mem.setPrev_count, Mem.setNext_count, h2]
    exact Nat.mod_eq_of_lt h

theorem probe_empty (dir : String) (tm : Tm) (cnt : Nat) :
    sender.probe dir [] tm UINT_MOD cnt
      = .ok (spill_path dir tm cnt, (cnt + 1) % UINT_MOD) := by
  have h : UINT_MOD = 4294967295 + 1 := by norm_num [UINT_MOD]
  have key : ∀ fuel, sender.probe dir [] tm (fuel + 1) cnt
      = .ok (spill_path dir tm cnt, (cnt + 1) % UINT_MOD) := by
    intro fuel
    simp [sender.probe, fs_exists]
  nth_rewrite 1 [h]
  exact key _

theorem save_buffer_open_fails (lt : Int → Tm) {o : SaveOracle} (s : Sender) {buf : Ptr}
    (count : Nat) (ho : o.open_ok = false) (hf : s.files = []) (hb : buf ≠ .null) :
    ∃ s' cnt, sender.save_buffer lt o s buf count = .ok (s', cnt, false) ∧ s'.files = [] := by
  apply Exists.intro
  apply Exists.intro
  constructor
  · simp only [sender.save_buffer, hf, probe_empty, bind,
      Except.bind, buffer.save, hb, if_false, ho, pure, Except.pure]
    rfl
  · rfl

theorem save_loop_all_fail (lt : Int → Tm) : ∀ (os : List SaveOracle) (s : Sender)
    (first last : Ptr) (count : Nat) (ret : Bool),
    (∀ o ∈ os, o.open_ok = false) → s.files = [] → first ≠ .null →
    sender.save_loop lt os s first last count ret = .error Fault.out_of_fuel
  | [], _, _, _, _, _, _, _, _ => rfl
  | o :: os, s, first, last, count, ret, ho, hf, hb => by
    obtain ⟨s1, cnt, e, hf1⟩ := save_buffer_open_fails lt s count
      (ho o (by simp)) hf hb
    unfold sender.save_loop
    rw [e]
    simp only [Bool.false_eq_true, if_false]
    exact save_loop_all_fail lt os (sender.put s1 first) first last cnt false
      (fun o' ho' => ho o' (List.mem_cons_of_mem _ ho')) (by simpa using hf1) hb

/-- With a queue of at least `max_queued_buffers` buffers, an empty spill
directory and saves that keep failing, `send(buf)` never returns: whatever
number of save outcomes is supplied, the loop of `save_buffers` uses them up
on the first buffer. -/
theorem send_never_returns (lt : Int → Tm) {s : Sender} {q : List Nat} {b : Nat}
    (hq : QueueRep s.mem q) (hc : s.mem.count = q.length) (hlen : 10000 ≤ q.length)
    (hsmall : q.length + 1 < SIZE_MOD) (hb : b ∉ q) (hf : s.files = [])
    (os : List SaveOracle) (ho : ∀ o ∈ os, o.open_ok = false) :
    sender.send lt os s (.buf b) = .error Fault.out_of_fuel := by
  have hq1 := hq.push_back hb
  have hcnt : (buffers.push_back s.mem (.buf b)).2 = q.length + 1 := by
    simp only [buffers.push_back, Mem.setPrev_count, Mem.setNext_count, hc]
    exact Nat.mod_eq_of_lt hsmall
  have hcnt1 : (buffers.push_back s.mem (.buf b)).1.count = q.length + 1 := hcnt
  cases hq' : q ++ [b] with
  | nil => simp at hq'
  | cons x xs =>
    rw [hq'] at hq1
    obtain ⟨m', first, last, hpop, -, hch, -, -, -, -⟩ := hq1.pop_cons
    have hfirst : first ≠ .null := by rw [hch.head_eq]; simp
    unfold sender.send
    dsimp only
    rw [if_pos (by rw [hcnt]; simp only [sender.max_queued_buffers]; omega)]
    have hsb : sender.save_buffers lt os
        { s with mem := (buffers.push_back s.mem (.buf b)).1 } = .error Fault.out_of_fuel := by
      unfold sender.save_buffers
      dsimp only
      rw [hpop]
      dsimp only
      rw [if_pos (by rw [hcnt1]; omega)]
      exact save_loop_all_fail lt os _ first last 0 true ho hf hfirst
    rw [hsb]

/-- Below the threshold `send(buf)` only appends to the queue: the state, the
spill directory and the trace stay as they are and the queue keeps all its
buffers. -/
theorem send_below_threshold (lt : Int → Tm) (os : List SaveOracle) {s : Sender} {q : List Nat}
    {b : Nat} (hq : QueueRep s.mem q) (hc : s.mem.count = q.length)
    (hlen : q.length + 1 ≤ 10000) (hb : b ∉ q) :
    ∃ s', sender.send lt os s (.buf b) = .ok s' ∧ QueueRep s'.mem (q ++ [b]) ∧
      s'.mem.count = q.length + 1 ∧ s'.state = s.state ∧ s'.files = s.files ∧
      s'.trace = s.trace := by
  have hcnt : (buffers.push_back s.mem (.buf b)).2 = q.length + 1 := by
    simp only [buffers.push_back, Mem.setPrev_count, Mem.setNext_count, hc]
    exact Nat.mod_eq_of_lt (by simp only [SIZE_MOD]; omega)
  refine ⟨{ s with mem := (buffers.push_back s.mem (.buf b)).1 }, ?_, hq.push_back hb, hcnt,
    rfl, rfl, rfl⟩
  unfold sender.send
  dsimp only
  rw [if_neg (by rw [hcnt]; simp only [sender.max_queued_buffers]; omega)]

/-- C8 (producer-side spill threshold), the code at a failing input. The queue
holds 10000 buffers (the buffers 0 to 9999), the spill directory is empty and
every `open` of a spill file fails. `send(buf)` with a further buffer pushes
it (count 10001 > 10000) and enters `save_buffers`, whose loop retries the
first buffer for ever: for every number `n` of supplied save outcomes the
call is still inside the loop when they are used up, so it never returns, and
the state is never set to `sending_files`. -/
theorem C8_send_spill_never_returns :
    QueueRep full_sender.mem (List.range 10000) ∧ full_sender.mem.count = 10000 ∧
    full_sender.files = [] ∧
    ∀ n : Nat, sender.send sample_oracle.localtime (List.replicate n save_fails) full_sender
      (.buf 10000) = .error Fault.out_of_fuel := by
  have hlt : 10000 < SIZE_MOD := by unfold SIZE_MOD; omega
  obtain ⟨h1, h2⟩ := queue_of_rep 10000 hlt
  have hmem : full_sender.mem = queue_of 10000 := by simp only [full_sender]
  have hfiles : full_sender.files = [] := by simp only [full_sender, sample_sender]
  have hlen : (List.range 10000).length = 10000 := List.length_range 10000
  have hnot : 10000 ∉ List.range 10000 := by
    rw [List.mem_range]; omega
  refine ⟨hmem ▸ h1, hmem ▸ h2, hfiles, fun n => ?_⟩
  refine send_never_returns sample_oracle.localtime (hmem ▸ h1) ?_ ?_ ?_ hnot hfiles _
    (fun o ho => by rw [List.eq_of_mem_replicate ho]; rfl)
  · rw [hmem, h2, hlen]
  · rw [hlen]
  · rw [hlen]; unfold SIZE_MOD; omega

theorem push_back_count (m : Mem) (b : Ptr) :
    (buffers.push_back m b).2 = (m.count + 1) % SIZE_MOD ∧
    (buffers.push_back m b).1.count = (m.count + 1) % SIZE_MOD := ⟨rfl, rfl⟩

theorem push_front_count (m : Mem) (b : Ptr) :
    (buffers.push_front m b).2 = (m.count + 1) % SIZE_MOD ∧
    (buffers.push_front m b).1.count = (m.count + 1) % SIZE_MOD := ⟨rfl, rfl⟩

/-- C11: on a well-formed queue `xs` whose count field is `xs.length`, and
while the sum fits a `size_t`: `push_back(buf)` and `push_front(buf)` return
the count plus one, `push_back(first, last)` and `push_front(first, last)` on
a well-formed chain of `n` buffers return the count plus `n`; the returned
value is the count field of the queue afterwards, it is at least `n`, and the
queue is again well formed with the buffers added at the tail (`push_back`) or
at the front (`push_front`). -/
theorem C11_push_returns_post_insert_count (m : Mem) (xs chain : List Nat) (b : Nat)
    (first last : Ptr) (fuel : Nat)
    (hq : QueueRep m xs) (hcount : m.count = xs.length)
    (hb : b ∉ xs) (hc : ChainRep m first last chain) (hd : xs.Disjoint chain)
    (hfuel : chain.length ≤ fuel) (hfit : xs.length + chain.length < SIZE_MOD) :
    ((buffers.push_back m (.buf b)).2 = m.count + 1 ∧
      (buffers.push_back m (.buf b)).1.count = (buffers.push_back m (.buf b)).2 ∧
      QueueRep (buffers.push_back m (.buf b)).1 (xs ++ [b])) ∧
    ((buffers.push_front m (.buf b)).2 = m.count + 1 ∧
      (buffers.push_front m (.buf b)).1.count = (buffers.push_front m (.buf b)).2 ∧
      QueueRep (buffers.push_front m (.buf b)).1 (b :: xs)) ∧
    (∃ m' k, buffers.push_back_range m fuel first last = .ok (m', k) ∧
      k = m.count + chain.length ∧ m'.count = k ∧ k ≥ chain.length ∧
      QueueRep m' (xs ++ chain)) ∧
    (∃ m' k, buffers.push_front_range m fuel first last = .ok (m', k) ∧
      k = m.count + chain.length ∧ m'.count = k ∧ k ≥ chain.length ∧
      QueueRep m' (chain ++ xs)) := by
  have hn : 1 ≤ chain.length := by
    have := hc.nonempty
    cases chain with
    | nil => exact absurd rfl this
    | cons a l => simp
  have h1 : (m.count + 1) % SIZE_MOD = m.count + 1 := Nat.mod_eq_of_lt (by omega)
  have hk : (m.count + chain.length) % SIZE_MOD = m.count + chain.length :=
    Nat.mod_eq_of_lt (by omega)
  refine ⟨⟨?_, ?_, hq.push_back hb⟩, ⟨?_, ?_, hq.push_front hb⟩, ?_, ?_⟩
  · rw [(push_back_count m _).1, h1]
  · rw [(push_back_count m _).1, (push_back_count m _).2]
  · rw [(push_front_count m _).1, h1]
  · rw [(push_front_count m _).1, (push_front_count m _).2]
  · obtain ⟨m', e, hq', hc', -⟩ := hq.push_back_range hc hd hfuel
    rw [hk] at e hc'
    exact ⟨m', _, e, rfl, hc', by omega, hq'⟩
  · obtain ⟨m', e, hq', hc', -⟩ := hq.push_front_range hc hd hfuel
    rw [hk] at e hc'
    exact ⟨m', _, e, rfl, hc', by omega, hq'⟩

theorem C11_push_returns_post_insert_count_witness :
    (buffers.push_back sample_mem (.buf 1)).2 = 1 ∧
    (∃ m' k, buffers.push_back_range sample_mem 2 (.buf 2) (.buf 3) = .ok (m', k) ∧
      k = sample_mem.count + 2 ∧ m'.count = k ∧ k ≥ 2 ∧ QueueRep m' [2, 3]) := by
  have h := C11_push_returns_post_insert_count sample_mem [] [2, 3] 1 (.buf 2) (.buf 3) 2
    (by decide) rfl (by decide) ⟨by decide, by decide, by decide, rfl, rfl⟩ (by simp)
    (by decide) (by unfold SIZE_MOD; simp)
  exact ⟨h.1.1, h.2.2.1⟩

theorem follow_next_of_slinked {m : Mem} : ∀ (ps : List Ptr) (p : Ptr),
    Slinked m ps → ps.head? = some p → follow_next m ps.length p = ps
  | [], _, _, h => by simp at h
  | [a], p, _, h => by
    simp only [List.head?_cons, Option.some.injEq] at h
    subst h
    rfl
  | a :: b :: l, p, hs, h => by
    simp only [List.head?_cons, Option.some.injEq] at h
    subst h
    unfold Slinked at hs
    rw [List.chain'_cons] at hs
    have ih := follow_next_of_slinked (b :: l) b hs.2 rfl
    simp only [List.length_cons, follow_next] at ih ⊢
    rw [hs.1]
    simpa using ih

theorem ChainRep.follow {m : Mem} {f l : Ptr} {c : List Nat} (h : ChainRep m f l c) :
    follow_next m c.length f = bufs c := by
  have := follow_next_of_slinked (bufs c) f h.links.slinked h.first_eq
  simpa using this

/-- C12: on a well-formed queue holding `x :: xs` (so `n = xs.length + 1`
buffers, count field `n`), `pop(first, last)` returns `n`, `first` is the
first and `last` the last buffer of the queue, following `next()` from `first`
visits exactly the buffers of the queue in order, the `n`-th object visited
(after `n - 1` steps) being `last`, and the queue is empty afterwards: the
header is linked to itself and the count is 0. On an empty queue `pop` returns
0 with `first = last = nullptr` and the memory unchanged. The overload with a
timeout gives the same result as `pop(first, last)` on a non-empty queue. -/
theorem C12_bulk_drain (m : Mem) (x : Nat) (xs : List Nat)
    (hq : QueueRep m (x :: xs)) (hcount : m.count = (x :: xs).length) :
    (∃ m' last, buffers.pop m = (m', Ptr.buf x, Ptr.buf last, (x :: xs).length) ∧
      (x :: xs).getLast? = some last ∧
      follow_next m' (x :: xs).length (Ptr.buf x) = bufs (x :: xs) ∧
      (follow_next m' (x :: xs).length (Ptr.buf x)).get? ((x :: xs).length - 1)
        = some (Ptr.buf last) ∧
      QueueRep m' [] ∧ m'.next .header = .header ∧ m'.prev .header = .header ∧
      m'.count = 0 ∧
      buffers.pop_timed m = buffers.pop m) ∧
    (∀ m0 : Mem, QueueRep m0 [] → buffers.pop m0 = (m0, Ptr.null, Ptr.null, 0)) := by
  constructor
  · obtain ⟨m', first, last, e, hq', hc, hz, -, -, -⟩ := hq.pop_cons
    have hf : first = Ptr.buf x := by
      have := hc.first_eq
      simpa using this.symm
    subst hf
    have hl := hc.last_eq
    rw [bufs_getLast?] at hl
    obtain ⟨lb, hlb, hlast⟩ := Option.map_eq_some'.1 hl
    subst hlast
    have hw := hc.follow
    have hlinks := hq'.links
    simp [Dlinked] at hlinks
    refine ⟨m', lb, ?_, hlb, hw, ?_, hq', hlinks.1, hlinks.2, hz, rfl⟩
    · rw [e, hcount]
    · rw [hw, List.get?_eq_getElem?, ← bufs_length (x :: xs), ← List.getLast?_eq_getElem?,
        bufs_getLast?, hlb]
      rfl
  · intro m0 h0
    exact h0.pop_nil

theorem C12_bulk_drain_witness :
    ∃ m' last, buffers.pop sample_queue3 = (m', Ptr.buf 1, Ptr.buf last, 3) ∧
      [1, 2, 3].getLast? = some last ∧
      follow_next m' 3 (Ptr.buf 1) = [Ptr.buf 1, Ptr.buf 2, Ptr.buf 3] ∧ m'.count = 0 := by
  obtain ⟨⟨m', last, e, hl, hw, -, -, -, -, hz, -⟩, -⟩ :=
    C12_bulk_drain sample_queue3 1 [2, 3] (by decide) rfl
  exact ⟨m', last, e, hl, hw, hz⟩

/-- C20: `sender::send(buf, len)` sets `_M_last_socket_operation` to
`_M_current_time`; it returns true exactly when the peer-closed check reports
"not closed" and the transport send succeeds; the events it adds to the trace
are the peer check, then the transport send with the given payload unless the
check reported "closed", then one `disconnect` exactly when it returns false;
in particular no transport send is attempted after a "closed" report, and the
socket is disconnected after a false return and untouched after a true one. -/
theorem C20_send_with_peer_check (peer_closed send_ok : Bool) (src : Src) (payload : List Nat)
    (s : Sender) :
    (sender.send_bytes peer_closed send_ok src payload s).1.last_socket_operation
      = s.current_time ∧
    ((sender.send_bytes peer_closed send_ok src payload s).2 = true ↔
      (peer_closed = false ∧ send_ok = true)) ∧
    (∃ ev, (sender.send_bytes peer_closed send_ok src payload s).1.trace = s.trace ++ ev ∧
      ev = [Event.peer_check peer_closed] ++
        (if peer_closed then [] else [Event.transport_send src payload send_ok]) ++
        (if (sender.send_bytes peer_closed send_ok src payload s).2 then []
          else [Event.disconnect]) ∧
      (peer_closed = true → send_attempts ev = 0) ∧
      (ev.count Event.disconnect = 1 ↔
        (sender.send_bytes peer_closed send_ok src payload s).2 = false) ∧
      (ev.count Event.disconnect = 0 ↔
        (sender.send_bytes peer_closed send_ok src payload s).2 = true)) ∧
    ((sender.send_bytes peer_closed send_ok src payload s).2 = false →
      (sender.send_bytes peer_closed send_ok src payload s).1.connected = false) ∧
    ((sender.send_bytes peer_closed send_ok src payload s).2 = true →
      (sender.send_bytes peer_closed send_ok src payload s).1.connected = s.connected) := by
  cases peer_closed <;> cases send_ok <;>
    simp [sender.send_bytes, sender.disconnect, send_attempts]

/-- C19: a round of the worker that starts with `error_sending` set. While
`current_time - last_socket_operation < 30` the round ends at once: no event
happens (no connect, no transport send, no unlink), the memory (queue, pool),
the directory, the state, the connection and the time of the last socket
operation are unchanged and `error_sending` stays set. When the difference is
at least 30 the worker calls `connect()`: if it fails the round ends with
`error_sending` still set, the memory and the state unchanged and the connect
as the only event; if it succeeds the round goes on with the state-dependent
work (`run_body`) with `error_sending` cleared. -/
theorem C19_reconnect_holdoff (fuel : Nat) (o : Oracle) (s : Sender)
    (hpc : s.pc = Pc.top) (herr : s.error_sending = true) :
    (o.now - s.last_socket_operation < 30 →
      sender.run_step fuel o s = .ok (sender.end_iteration { s with current_time := o.now }) ∧
      ∃ s', sender.run_step fuel o s = .ok s' ∧ s'.trace = s.trace ∧ s'.mem = s.mem ∧
        s'.files = s.files ∧ s'.state = s.state ∧ s'.error_sending = true ∧
        s'.connected = s.connected ∧ s'.last_socket_operation = s.last_socket_operation ∧
        s'.current_time = o.now) ∧
    (o.now - s.last_socket_operation ≥ 30 →
      ((sender.connect o.connect_ok { s with current_time := o.now }).2 = false →
        ∃ s', sender.run_step fuel o s = .ok s' ∧
          s' = sender.end_iteration
            { (sender.connect o.connect_ok { s with current_time := o.now }).1 with
              error_sending := true } ∧
          s'.error_sending = true ∧ s'.mem = s.mem ∧ s'.files = s.files ∧
          s'.state = s.state ∧ s'.trace = s.trace ++ [Event.connect false] ∧
          s'.last_socket_operation = o.now) ∧
      ((sender.connect o.connect_ok { s with current_time := o.now }).2 = true →
        sender.run_step fuel o s = .ok (sender.run_body o
          { (sender.connect o.connect_ok { s with current_time := o.now }).1 with
            error_sending := false }))) := by
  have e := run_step_top hpc fuel o
  rw [if_pos herr] at e
  constructor
  · intro hlt
    have hn : ¬ (o.now - s.last_socket_operation ≥ sender.reconnection_time) := by
      unfold sender.reconnection_time; omega
    rw [if_neg hn] at e
    refine ⟨e, _, e, ?_⟩
    simp [herr]
  · intro hge
    have hp : o.now - s.last_socket_operation ≥ sender.reconnection_time := by
      unfold sender.reconnection_time; omega
    rw [if_pos hp] at e
    constructor
    · intro hc
      rw [hc] at e
      simp only [Bool.not_false, if_true] at e
      refine ⟨_, e, rfl, ?_⟩
      have hr := (connect_result o.connect_ok { s with current_time := o.now }).1
      rw [hc] at hr
      have hb : s.connected = false ∧ o.connect_ok = false := by
        simpa using hr.symm
      obtain ⟨hcon, hok⟩ := hb
      simp [sender.connect, sender.connected, hcon, hok]
    · intro hc
      rw [hc] at e
      simpa using e

theorem C19_reconnect_holdoff_witness :
    sample_sender_error.pc = Pc.top ∧ sample_sender_error.error_sending = true ∧
    sample_oracle.now - sample_sender_error.last_socket_operation < 30 ∧
    ∃ s', sender.run_step 0 sample_oracle sample_sender_error = .ok s' ∧ s'.trace = [] ∧
      s'.error_sending = true :=
  ⟨rfl, rfl, by decide,
    let ⟨s', h1, h2, _, _, _, h3, _⟩ :=
      ((C19_reconnect_holdoff 0 sample_oracle sample_sender_error rfl rfl).1 (by decide)).2
    ⟨s', h1, h2, h3⟩⟩

theorem FileOnly.frefl (s : Sender) : FileOnly s s := ⟨rfl, rfl, rfl, rfl, rfl, rfl, rfl⟩

theorem FileOnly.ftrans {a b c : Sender} (h1 : FileOnly a b) (h2 : FileOnly b c) :
    FileOnly a c :=
  ⟨h2.1.trans h1.1, h2.2.1.trans h1.2.1, h2.2.2.1.trans h1.2.2.1,
    h2.2.2.2.1.trans h1.2.2.2.1, h2.2.2.2.2.1.trans h1.2.2.2.2.1,
    h2.2.2.2.2.2.1.trans h1.2.2.2.2.2.1, h2.2.2.2.2.2.2.trans h1.2.2.2.2.2.2⟩

theorem connect_fileOnly (ok : Bool) (s : Sender) : FileOnly s (sender.connect ok s).1 := by
  unfold sender.connect
  split
  · exact FileOnly.frefl s
  · exact ⟨rfl, rfl, rfl, rfl, rfl, by simp [sent_buffers_append, sent_buffers],
      by simp [put_buffers_append, put_buffers]⟩

theorem send_bytes_file_fileOnly (pc so : Bool) (path : String) (pl : List Nat) (s : Sender) :
    FileOnly s (sender.send_bytes pc so (Src.file path) pl s).1 := by
  refine ⟨by simp, by simp, by simp, by simp, by simp, ?_, ?_⟩ <;>
  cases pc <;> cases so <;>
    simp [sender.send_bytes, sender.disconnect, sent_buffers_append, sent_buffers,
      put_buffers_append, put_buffers]

theorem send_file_fileOnly (o : FileOracle) (s : Sender) (path : String) (n : Nat)
    (content : List Nat) : FileOnly s (sender.send_file o s path n content).1 := by
  unfold sender.send_file
  split
  · split
    · exact send_bytes_file_fileOnly _ _ _ _ _
    · exact FileOnly.frefl s
  · exact FileOnly.frefl s

theorem unlink_fileOnly (s : Sender) (path : String) : FileOnly s (sender.unlink s path) :=
  ⟨rfl, rfl, rfl, rfl, rfl, by simp [sender.unlink, sent_buffers_append, sent_buffers],
    by simp [sender.unlink, put_buffers_append, put_buffers]⟩

theorem send_files_loop_fileOnly (fo : Nat → FileOracle) :
    ∀ (es : List File) (k : Nat) (s : Sender), FileOnly s (sender.send_files_loop fo es k s).1
  | [], _, s => FileOnly.frefl s
  | e :: es, k, s => by
    unfold sender.send_files_loop
    dsimp only
    split
    · split
      · split
        · exact ((send_file_fileOnly _ _ _ _ _).ftrans (unlink_fileOnly _ _)).ftrans
            (send_files_loop_fileOnly fo es (k + 1) _)
        · exact send_file_fileOnly _ _ _ _ _
      · exact send_files_loop_fileOnly fo es (k + 1) s
    · exact send_files_loop_fileOnly fo es (k + 1) s

/-- `send_files` sets the state to `sending_queued_buffers` when it returns
true and leaves it alone when it returns false; it never touches the memory
and sends no queued buffer. -/
theorem send_files_state (o : Oracle) (s : Sender) :
    ((sender.send_files o s).2 = true →
      (sender.send_files o s).1.state = State.sending_queued_buffers) ∧
    ((sender.send_files o s).2 = false → (sender.send_files o s).1.state = s.state) ∧
    (sender.send_files o s).1.mem = s.mem ∧ (sender.send_files o s).1.pc = s.pc ∧
    (sender.send_files o s).1.running = s.running ∧
    sent_buffers (sender.send_files o s).1.trace = sent_buffers s.trace ∧
    put_buffers (sender.send_files o s).1.trace = put_buffers s.trace := by
  have hc := connect_fileOnly o.connect_ok s
  have hl := hc.ftrans
    (send_files_loop_fileOnly o.file (sender.connect o.connect_ok s).1.files 0
      (sender.connect o.connect_ok s).1)
  unfold sender.send_files
  dsimp only
  split
  · split
    · split
      · rename_i h
        exact ⟨fun _ => rfl, fun h' => by simp at h', hl.1, hl.2.2.2.1, hl.2.2.2.2.1,
          hl.2.2.2.2.2.1, hl.2.2.2.2.2.2⟩
      · rename_i h
        exact ⟨fun h' => by simp at h', fun _ => hl.2.1, hl.1, hl.2.2.2.1, hl.2.2.2.2.1,
          hl.2.2.2.2.2.1, hl.2.2.2.2.2.2⟩
    · exact ⟨fun h' => by simp at h', fun _ => hc.2.1, hc.1, hc.2.2.2.1, hc.2.2.2.2.1,
        hc.2.2.2.2.2.1, hc.2.2.2.2.2.2⟩
  · exact ⟨fun h' => by simp at h', fun _ => hc.2.1, hc.1, hc.2.2.2.1, hc.2.2.2.2.1,
      hc.2.2.2.2.2.1, hc.2.2.2.2.2.2⟩

theorem save_buffer_shape {lt : Int → Tm} {o : SaveOracle} {s s' : Sender} {buf : Ptr}
    {count cnt : Nat} {ok : Bool}
    (h : sender.save_buffer lt o s buf count = .ok (s', cnt, ok)) :
    ∃ path fs, s' = { s with files := fs, trace := s.trace ++ [Event.save buf path ok] } := by
  unfold sender.save_buffer at h
  simp only [bind, Except.bind, pure, Except.pure] at h
  split at h
  · cases h
  · split at h
    · cases h
    · injection h with h
      injection h with h1 h2
      injection h2 with h2 h3
      subst h1 h3
      exact ⟨_, _, rfl⟩

theorem save_loop_state (lt : Int → Tm) :
    ∀ (os : List SaveOracle) (s : Sender) (first last : Ptr) (count : Nat) (ret : Bool)
      (s' : Sender) (r : Bool),
      sender.save_loop lt os s first last count ret = .ok (s', r) → s'.state = s.state
  | [], _, _, _, _, _, _, _, h => by simp [sender.save_loop] at h
  | o :: os, s, first, last, count, ret, s', r, h => by
    unfold sender.save_loop at h
    split at h
    · cases h
    · rename_i s1 cnt ok hsb
      obtain ⟨path, fs, e⟩ := save_buffer_shape hsb
      have h1 : (sender.put s1 first).state = s.state := by rw [e]; rfl
      split at h
      · split at h
        · exact (save_loop_state lt os _ _ _ _ _ _ _ h).trans h1
        · injection h with h
          injection h with h2 h3
          subst h2
          exact h1
      · exact (save_loop_state lt os _ _ _ _ _ _ _ h).trans h1

theorem save_buffers_state {lt : Int → Tm} {os : List SaveOracle} {s s' : Sender} {r : Bool}
    (h : sender.save_buffers lt os s = .ok (s', r)) : s'.state = s.state := by
  unfold sender.save_buffers at h
  dsimp only at h
  split at h
  · have := save_loop_state lt os _ _ _ _ _ _ _ h
    exact this
  · injection h with h
    injection h with h1 h2
    subst h1
    rfl

theorem requeue_state {fuel : Nat} {s s' : Sender} {first last : Ptr}
    (h : sender.requeue fuel s first last = .ok s') : s'.state = s.state := by
  unfold sender.requeue at h
  split at h
  · cases h
  · injection h with h
    subst h
    simp

theorem run_body_files (o : Oracle) (s : Sender) (h : s.state = State.sending_files) :
    sender.run_body o s = sender.end_iteration
      { (sender.send_files o s).1 with error_sending := !(sender.send_files o s).2 } := by
  unfold sender.run_body
  rw [if_neg (by rw [h]; decide)]

theorem run_body_queued_state (o : Oracle) (s : Sender)
    (h : s.state = State.sending_queued_buffers) : (sender.run_body o s).state = s.state := by
  unfold sender.run_body
  rw [if_pos h]
  dsimp only
  split
  · split <;> simp
  · split <;> simp

/-- The worker changes `_M_state` in one place only: a round that is at the
head of the loop in state `sending_files` may end in state
`sending_queued_buffers`. -/
theorem run_step_state {fuel : Nat} {o : Oracle} {s s' : Sender}
    (h : sender.run_step fuel o s = .ok s') :
    s'.state = s.state ∨
      (s.pc = Pc.top ∧ s.state = State.sending_files ∧
        s'.state = State.sending_queued_buffers) := by
  have hbody : ∀ s1 : Sender, s1.state = s.state →
      (sender.run_body o s1).state = s.state ∨
        (s.state = State.sending_files ∧
          (sender.run_body o s1).state = State.sending_queued_buffers) := by
    intro s1 hs1
    cases hst : s1.state with
    | sending_queued_buffers =>
      left
      rw [run_body_queued_state o s1 hst, hs1]
    | sending_files =>
      rw [run_body_files o s1 hst]
      cases hr : (sender.send_files o s1).2 with
      | true =>
        right
        refine ⟨by rw [← hs1, hst], ?_⟩
        simpa using (send_files_state o s1).1 hr
      | false =>
        left
        have := (send_files_state o s1).2.1 hr
        simpa [hs1] using this
  cases hpc : s.pc with
  | top =>
    rw [run_step_top hpc] at h
    split at h
    · split at h
      · split at h
        · injection h with h
          subst h
          left
          simp
        · injection h with h
          subst h
          rcases hbody
            { (sender.connect o.connect_ok { s with current_time := o.now }).1 with
              error_sending := !(sender.connect o.connect_ok
                { s with current_time := o.now }).2 }
            (connect_state o.connect_ok { s with current_time := o.now }) with h | h
          · left; exact h
          · right; exact ⟨rfl, h⟩
      · injection h with h
        subst h
        left
        simp
    · injection h with h
      subst h
      rcases hbody { s with current_time := o.now } rfl with h | h
      · left; exact h
      · right; exact ⟨rfl, h⟩
  | sending f l =>
    left
    unfold sender.run_step at h
    rw [hpc] at h
    dsimp only at h
    split at h
    · split at h
      · injection h with h
        subst h
        simp
      · injection h with h
        subst h
        simp
    · have := requeue_state h
      simpa using this
  | requeue f l =>
    left
    unfold sender.run_step at h
    rw [hpc] at h
    exact requeue_state h
  | exiting =>
    left
    unfold sender.run_step at h
    rw [hpc] at h
    dsimp only at h
    split at h
    · rename_i s1 r hsb
      injection h with h
      subst h
      have := save_buffers_state hsb
      exact this
    · cases h
  | done =>
    left
    unfold sender.run_step at h
    rw [hpc] at h
    injection h with h
    subst h
    rfl

/-- C18: the constructor leaves the sender in state `sending_files` and
`start` does not change the state. A round of the worker that begins in state
`sending_files` is a single step that leaves the memory (queue and pool)
untouched, sends no queued buffer and ends at the head of the loop or at its
exit; it ends in state `sending_queued_buffers` exactly when it called
`send_files` and the call returned true, and when it ends in state
`sending_files` then `error_sending` is set. The state-dependent work in
state `sending_files` is the call of `send_files`, with `error_sending` set to
the negated result. No step of the worker changes the state from
`sending_queued_buffers` to `sending_files`. -/
theorem C18_worker_state_machine (fuel : Nat) (o : Oracle) (s s' : Sender)
    (h : sender.run_step fuel o s = .ok s') :
    (∀ m t, (sender.init m t).state = State.sending_files ∧
      (sender.init m t).pc = Pc.top ∧ (sender.init m t).error_sending = false) ∧
    (∀ s0 dir fs d th, (sender.start s0 dir fs d th).1.state = s0.state) ∧
    (s.pc = Pc.top → s.state = State.sending_files →
      s'.mem = s.mem ∧ sent_buffers s'.trace = sent_buffers s.trace ∧
      put_buffers s'.trace = put_buffers s.trace ∧
      (s'.pc = Pc.top ∨ s'.pc = Pc.exiting) ∧
      (s'.state = State.sending_queued_buffers ↔
        ∃ s1, s1.state = State.sending_files ∧ s1.mem = s.mem ∧
          s' = sender.run_body o s1 ∧ (sender.send_files o s1).2 = true) ∧
      (s'.state = State.sending_files → s'.error_sending = true)) ∧
    (∀ s1 : Sender, s1.state = State.sending_files →
      sender.run_body o s1 = sender.end_iteration
        { (sender.send_files o s1).1 with error_sending := !(sender.send_files o s1).2 } ∧
      ((sender.send_files o s1).2 = true →
        (sender.run_body o s1).state = State.sending_queued_buffers ∧
        (sender.run_body o s1).error_sending = false) ∧
      ((sender.send_files o s1).2 = false →
        (sender.run_body o s1).state = State.sending_files ∧
        (sender.run_body o s1).error_sending = true)) ∧
    (s.state = State.sending_queued_buffers → s'.state = State.sending_queued_buffers) := by
  have hP : ∀ s1 : Sender, s1.state = State.sending_files →
      sender.run_body o s1 = sender.end_iteration
        { (sender.send_files o s1).1 with error_sending := !(sender.send_files o s1).2 } ∧
      ((sender.send_files o s1).2 = true →
        (sender.run_body o s1).state = State.sending_queued_buffers ∧
        (sender.run_body o s1).error_sending = false) ∧
      ((sender.send_files o s1).2 = false →
        (sender.run_body o s1).state = State.sending_files ∧
        (sender.run_body o s1).error_sending = true) := by
    intro s1 hs1
    refine ⟨run_body_files o s1 hs1, ?_, ?_⟩
    · intro hr
      rw [run_body_files o s1 hs1]
      have := (send_files_state o s1).1 hr
      simp [this, hr]
    · intro hr
      rw [run_body_files o s1 hs1]
      have := (send_files_state o s1).2.1 hr
      simp [this, hr, hs1]
  have hend : ∀ x : Sender, (sender.end_iteration x).pc = Pc.top ∨
      (sender.end_iteration x).pc = Pc.exiting := by
    intro x
    unfold sender.end_iteration
    split
    · left; rfl
    · right; rfl
  have hbody : ∀ s1 : Sender, s1.state = State.sending_files → s1.mem = s.mem →
      sent_buffers s1.trace = sent_buffers s.trace →
      put_buffers s1.trace = put_buffers s.trace →
      s' = sender.run_body o s1 →
      s'.mem = s.mem ∧ sent_buffers s'.trace = sent_buffers s.trace ∧
      put_buffers s'.trace = put_buffers s.trace ∧
      (s'.pc = Pc.top ∨ s'.pc = Pc.exiting) ∧
      (s'.state = State.sending_queued_buffers ↔
        ∃ s1, s1.state = State.sending_files ∧ s1.mem = s.mem ∧
          s' = sender.run_body o s1 ∧ (sender.send_files o s1).2 = true) ∧
      (s'.state = State.sending_files → s'.error_sending = true) := by
    intro s1 hs1 hm ht hp e
    obtain ⟨e1, e2, e3⟩ := hP s1 hs1
    have hf := send_files_state o s1
    refine ⟨?_, ?_, ?_, ?_, ?_, ?_⟩
    · rw [e, e1]; simp [hf.2.2.1, hm]
    · rw [e, e1]; simp [hf.2.2.2.2.2.1, ht]
    · rw [e, e1]; simp [hf.2.2.2.2.2.2, hp]
    · rw [e, e1]; exact hend _
    · constructor
      · intro hq
        refine ⟨s1, hs1, hm, e, ?_⟩
        cases hr : (sender.send_files o s1).2 with
        | true => rfl
        | false =>
          have := (e3 hr).1
          rw [← e, hq] at this
          cases this
      · rintro ⟨s2, hs2, -, e', hr⟩
        rw [e']
        exact ((hP s2 hs2).2.1 hr).1
    · intro hq
      cases hr : (sender.send_files o s1).2 with
      | true =>
        have := (e2 hr).1
        rw [← e, hq] at this
        cases this
      | false =>
        rw [e]
        exact (e3 hr).2
  refine ⟨fun m t => ⟨rfl, rfl, rfl⟩, ?_, ?_, hP, ?_⟩
  · intro s0 dir fs d th
    unfold sender.start
    split
    · split
      · split <;> rfl
      · rfl
    · rfl
  · intro hpc hst
    have hidle : ∀ x : Sender, x.state = State.sending_files → x.mem = s.mem →
        sent_buffers x.trace = sent_buffers s.trace →
        put_buffers x.trace = put_buffers s.trace → x.error_sending = true →
        s' = sender.end_iteration x →
        s'.mem = s.mem ∧ sent_buffers s'.trace = sent_buffers s.trace ∧
        put_buffers s'.trace = put_buffers s.trace ∧
        (s'.pc = Pc.top ∨ s'.pc = Pc.exiting) ∧
        (s'.state = State.sending_queued_buffers ↔
          ∃ s1, s1.state = State.sending_files ∧ s1.mem = s.mem ∧
            s' = sender.run_body o s1 ∧ (sender.send_files o s1).2 = true) ∧
        (s'.state = State.sending_files → s'.error_sending = true) := by
      intro x hx hm ht hp he e
      refine ⟨by rw [e]; simp [hm], by rw [e]; simp [ht], by rw [e]; simp [hp],
        by rw [e]; exact hend _, ?_, fun _ => by rw [e]; simp [he]⟩
      constructor
      · intro hq
        rw [e] at hq
        simp [hx] at hq
      · rintro ⟨s2, hs2, -, e', hr⟩
        rw [e']
        exact ((hP s2 hs2).2.1 hr).1
    have hcf := connect_fileOnly o.connect_ok { s with current_time := o.now }
    rw [run_step_top hpc] at h
    split at h
    · split at h
      · split at h
        · rename_i hc
          injection h with h
          refine hidle _ ?_ ?_ ?_ ?_ ?_ h.symm
          · exact hcf.2.1.trans hst
          · exact hcf.1
          · exact hcf.2.2.2.2.2.1
          · exact hcf.2.2.2.2.2.2
          · exact hc
        · injection h with h
          refine hbody _ ?_ ?_ ?_ ?_ h.symm
          · exact hcf.2.1.trans hst
          · exact hcf.1
          · exact hcf.2.2.2.2.2.1
          · exact hcf.2.2.2.2.2.2
      · rename_i he _
        injection h with h
        exact hidle { s with current_time := o.now } hst rfl rfl rfl he h.symm
    · injection h with h
      exact hbody { s with current_time := o.now } hst rfl rfl rfl h.symm
  · intro hq
    rcases run_step_state h with h1 | ⟨-, h2, -⟩
    · rw [h1, hq]
    · rw [hq] at h2
      cases h2

theorem C18_worker_state_machine_witness :
    sender.run_step 0 sample_oracle sample_sender_file
      = .ok (sender.run_body sample_oracle sample_sender_file) ∧
    (sender.run_body sample_oracle sample_sender_file).mem = sample_sender_file.mem ∧
    sent_buffers (sender.run_body sample_oracle sample_sender_file).trace = [] :=
  ⟨rfl,
    ((C18_worker_state_machine 0 sample_oracle sample_sender_file
      (sender.run_body sample_oracle sample_sender_file) rfl).2.2.1 rfl rfl).1,
    ((C18_worker_state_machine 0 sample_oracle sample_sender_file
      (sender.run_body sample_oracle sample_sender_file) rfl).2.2.1 rfl rfl).2.1⟩

theorem send_files_loop_cons (fo : Nat → FileOracle) (e : File) (es : List File) (k : Nat)
    (s : Sender) :
    sender.send_files_loop fo (e :: es) k s =
      if e.name ≠ "." ∧ e.name ≠ ".." then
        if ((fo k).stat_ok && e.regular) = true then
          if (sender.send_file (fo k) s (entry_path s.directory e.name) e.content.length
              e.content).2 = true then
            sender.send_files_loop fo es (k + 1)
              (sender.unlink (sender.send_file (fo k) s (entry_path s.directory e.name)
                e.content.length e.content).1 (entry_path s.directory e.name))
          else ((sender.send_file (fo k) s (entry_path s.directory e.name) e.content.length
              e.content).1, false)
        else sender.send_files_loop fo es (k + 1) s
      else sender.send_files_loop fo es (k + 1) s := by
  rw [sender.send_files_loop]

theorem send_files_loop_append (fo : Nat → FileOracle) :
    ∀ (pre rest : List File) (k : Nat) (s : Sender),
      sender.send_files_loop fo (pre ++ rest) k s =
        if (sender.send_files_loop fo pre k s).2 = true then
          sender.send_files_loop fo rest (k + pre.length) (sender.send_files_loop fo pre k s).1
        else sender.send_files_loop fo pre k s
  | [], rest, k, s => by simp [sender.send_files_loop]
  | e :: pre, rest, k, s => by
    have e1 : k + (e :: pre).length = k + 1 + pre.length := by simp; omega
    rw [e1, List.cons_append, send_files_loop_cons fo e (pre ++ rest),
      send_files_loop_cons fo e pre]
    split
    · split
      · split
        · exact send_files_loop_append fo pre rest (k + 1) _
        · simp
      · exact send_files_loop_append fo pre rest (k + 1) s
    · exact send_files_loop_append fo pre rest (k + 1) s

theorem send_bytes_trace_files (pc so : Bool) (src : Src) (pl : List Nat) (s : Sender) :
    ∃ ev, (sender.send_bytes pc so src pl s).1.trace = s.trace ++ ev ∧ unlinked ev = [] ∧
      send_attempts ev ≤ 1 := by
  cases pc <;> cases so
  · exact ⟨[Event.peer_check false, Event.transport_send src pl false, Event.disconnect],
      by simp [sender.send_bytes, sender.disconnect], rfl, by simp [send_attempts]⟩
  · exact ⟨[Event.peer_check false, Event.transport_send src pl true],
      by simp [sender.send_bytes], rfl, by simp [send_attempts]⟩
  · exact ⟨[Event.peer_check true, Event.disconnect],
      by simp [sender.send_bytes, sender.disconnect], rfl, by simp [send_attempts]⟩
  · exact ⟨[Event.peer_check true, Event.disconnect],
      by simp [sender.send_bytes, sender.disconnect], rfl, by simp [send_attempts]⟩

theorem send_file_files (o : FileOracle) (s : Sender) (path : String) (n : Nat)
    (content : List Nat) : (sender.send_file o s path n content).1.files = s.files := by
  unfold sender.send_file
  split
  · split
    · simp
    · rfl
  · rfl

/-- The directory after the `readdir` loop is a sublist of the directory
before it, and an entry whose path differs from the paths of all entries the
loop went through is still there. -/
theorem send_files_loop_files (fo : Nat → FileOracle) :
    ∀ (es : List File) (k : Nat) (s : Sender),
      (sender.send_files_loop fo es k s).1.files.Sublist s.files ∧
      ∀ f ∈ s.files, (∀ g ∈ es, entry_path s.directory g.name ≠ entry_path s.directory f.name) →
        f ∈ (sender.send_files_loop fo es k s).1.files
  | [], _, s => ⟨List.Sublist.refl _, fun f hf _ => hf⟩
  | e :: es, k, s => by
    rw [send_files_loop_cons]
    have hrec : ∀ s1 : Sender, s1.directory = s.directory → s1.files.Sublist s.files →
        (∀ f ∈ s.files, entry_path s.directory e.name ≠ entry_path s.directory f.name →
          f ∈ s1.files) →
        (sender.send_files_loop fo es (k + 1) s1).1.files.Sublist s.files ∧
        ∀ f ∈ s.files,
          (∀ g ∈ e :: es, entry_path s.directory g.name ≠ entry_path s.directory f.name) →
          f ∈ (sender.send_files_loop fo es (k + 1) s1).1.files := by
      intro s1 hd hsub hkeep
      obtain ⟨h1, h2⟩ := send_files_loop_files fo es (k + 1) s1
      refine ⟨h1.trans hsub, fun f hf hne => ?_⟩
      refine h2 f (hkeep f hf (hne e (List.mem_cons_self _ _))) ?_
      intro g hg
      rw [hd]
      exact hne g (List.mem_cons_of_mem _ hg)
    have hsame : ∀ f ∈ s.files,
        (∀ g ∈ e :: es, entry_path s.directory g.name ≠ entry_path s.directory f.name) →
        f ∈ s.files := fun f hf _ => hf
    split
    · split
      · split
        · refine hrec _ ?_ ?_ ?_
          · simp [(send_file_fileOnly _ _ _ _ _).2.2.1]
          · simp only [sender.unlink, send_file_files, fs_unlink]
            exact List.filter_sublist _
          · intro f hf hne
            simp only [sender.unlink, send_file_files, fs_unlink, List.mem_filter]
            have hd := (send_file_fileOnly (fo k) s (entry_path s.directory e.name)
              e.content.length e.content).2.2.1
            rw [hd]
            exact ⟨hf, by simpa using fun h => hne h.symm⟩
        · rw [send_file_files]
          exact ⟨List.Sublist.refl _, hsame⟩
      · exact hrec s rfl (List.Sublist.refl _) (fun f hf _ => hf)
    · exact hrec s rfl (List.Sublist.refl _) (fun f hf _ => hf)

theorem send_files_no_scan (o : Oracle) (s : Sender)
    (h : (sender.connect o.connect_ok s).2 = false ∨ o.opendir_ok = false) :
    sender.send_files o s = ((sender.connect o.connect_ok s).1, false) := by
  unfold sender.send_files
  dsimp only
  rcases h with h | h
  · rw [h]; simp
  · rw [h]; simp

theorem connect_trace_counts (ok : Bool) (s : Sender) :
    send_attempts (sender.connect ok s).1.trace = send_attempts s.trace ∧
    unlinked (sender.connect ok s).1.trace = unlinked s.trace := by
  unfold sender.connect
  split
  · exact ⟨rfl, rfl⟩
  · constructor
    · simp [send_attempts_append, send_attempts]
    · have : ∀ t : List Event, unlinked (t ++ [Event.connect ok]) = unlinked t := by
        intro t
        induction t with
        | nil => rfl
        | cons a t ih => cases a <;> simp [unlinked, ih]
      exact this _

/-- C17: let the listing of the directory be `pre ++ e :: post`, with
distinct paths, let connect and `opendir` succeed and let the loop of
`send_files` get through the entries `pre` without a failed send. If `e` is a
regular file with a name other than `.` and `..` whose `stat`, `open` and
`mmap` succeed and whose send fails (the peer has closed, or the transport
send fails), then `send_files` returns false in the state right after that
failed send: `e` and all entries of `post` are still in the directory, the
directory is a sublist of the one before, after the events of the entries
`pre` there is no unlink and at most one transport send, and the state is
unchanged. If connect fails or `opendir` fails, `send_files` returns false
right after the connect: the directory and the state are unchanged and the
trace gains no transport send and no unlink. -/
theorem C17_send_files_aborts_on_failed_send (o : Oracle) (s : Sender) (pre post : List File)
    (e : File)
    (hfiles : s.files = pre ++ e :: post)
    (hnd : (s.files.map (fun f => entry_path s.directory f.name)).Nodup)
    (hconn : (sender.connect o.connect_ok s).2 = true) (hdir : o.opendir_ok = true)
    (hpre : (sender.send_files_loop o.file pre 0 (sender.connect o.connect_ok s).1).2 = true)
    (hname : e.name ≠ "." ∧ e.name ≠ "..")
    (hstat : (o.file pre.length).stat_ok = true) (hreg : e.regular = true)
    (hopen : (o.file pre.length).open_ok = true) (hmmap : (o.file pre.length).mmap_ok = true)
    (hlen : e.content ≠ [])
    (hfail : (o.file pre.length).peer_closed = true ∨ (o.file pre.length).send_ok = false) :
    (sender.send_files o s).2 = false ∧
    (sender.send_files o s).1 =
      (sender.send_bytes (o.file pre.length).peer_closed (o.file pre.length).send_ok
        (Src.file (entry_path s.directory e.name)) e.content
        (sender.send_files_loop o.file pre 0 (sender.connect o.connect_ok s).1).1).1 ∧
    e ∈ (sender.send_files o s).1.files ∧
    (∀ f ∈ post, f ∈ (sender.send_files o s).1.files) ∧
    (sender.send_files o s).1.files.Sublist s.files ∧
    (sender.send_files o s).1.state = s.state ∧
    (∃ ev, (sender.send_files o s).1.trace =
        (sender.send_files_loop o.file pre 0 (sender.connect o.connect_ok s).1).1.trace ++ ev ∧
      unlinked ev = [] ∧ send_attempts ev ≤ 1) ∧
    (∀ (o2 : Oracle) (s2 : Sender),
      ((sender.connect o2.connect_ok s2).2 = false ∨ o2.opendir_ok = false) →
      sender.send_files o2 s2 = ((sender.connect o2.connect_ok s2).1, false) ∧
      (sender.send_files o2 s2).1.files = s2.files ∧
      (sender.send_files o2 s2).1.state = s2.state ∧
      send_attempts (sender.send_files o2 s2).1.trace = send_attempts s2.trace ∧
      unlinked (sender.send_files o2 s2).1.trace = unlinked s2.trace) := by
  have hs0f : (sender.connect o.connect_ok s).1.files = s.files := connect_files _ _
  have hs0d : (sender.connect o.connect_ok s).1.directory = s.directory := connect_directory _ _
  have hpd : (sender.send_files_loop o.file pre 0 (sender.connect o.connect_ok s).1).1.directory
      = s.directory :=
    (send_files_loop_fileOnly o.file pre 0 _).2.2.1.trans hs0d
  have hpst : (sender.send_files_loop o.file pre 0 (sender.connect o.connect_ok s).1).1.state
      = s.state :=
    (send_files_loop_fileOnly o.file pre 0 _).2.1.trans (connect_state _ _)
  have hsf : ∀ sp : Sender, sp.directory = s.directory →
      sender.send_file (o.file pre.length) sp (entry_path sp.directory e.name) e.content.length
        e.content
      = sender.send_bytes (o.file pre.length).peer_closed (o.file pre.length).send_ok
        (Src.file (entry_path s.directory e.name)) e.content sp := by
    intro sp hd
    unfold sender.send_file
    have hl : e.content.length ≠ 0 := by
      intro h0
      exact hlen (List.length_eq_zero.1 h0)
    rw [if_pos hopen, if_pos (by simp [hmmap, hl]), List.take_length, hd]
  have hloop : sender.send_files_loop o.file (sender.connect o.connect_ok s).1.files 0
      (sender.connect o.connect_ok s).1 =
      ((sender.send_bytes (o.file pre.length).peer_closed (o.file pre.length).send_ok
        (Src.file (entry_path s.directory e.name)) e.content
        (sender.send_files_loop o.file pre 0 (sender.connect o.connect_ok s).1).1).1,
        false) := by
    rw [hs0f, hfiles, send_files_loop_append, if_pos hpre, send_files_loop_cons,
      if_pos hname, if_pos (by simp [hstat, hreg]), Nat.zero_add, hsf _ hpd,
      if_neg (by rw [(send_bytes_fail hfail _ _ _).1]; simp)]
  have hres : sender.send_files o s =
      ((sender.send_bytes (o.file pre.length).peer_closed (o.file pre.length).send_ok
        (Src.file (entry_path s.directory e.name)) e.content
        (sender.send_files_loop o.file pre 0 (sender.connect o.connect_ok s).1).1).1,
        false) := by
    unfold sender.send_files
    dsimp only
    rw [if_pos hconn, if_pos hdir, hloop]
    simp
  have hkeep := send_files_loop_files o.file pre 0 (sender.connect o.connect_ok s).1
  rw [hs0f, hs0d] at hkeep
  have hndp : (pre.map (fun f => entry_path s.directory f.name) ++
      (e :: post).map (fun f => entry_path s.directory f.name)).Nodup := by
    rw [hfiles, List.map_append] at hnd
    exact hnd
  have hdisj := (List.nodup_append.1 hndp).2.2
  have hstay : ∀ f ∈ e :: post,
      f ∈ (sender.send_files_loop o.file pre 0 (sender.connect o.connect_ok s).1).1.files := by
    intro f hf
    refine hkeep.2 f (by rw [hfiles]; exact List.mem_append_right _ hf) ?_
    intro g hg heq
    exact hdisj (List.mem_map_of_mem _ hg) (by rw [heq]; exact List.mem_map_of_mem _ hf)
  refine ⟨by rw [hres], by rw [hres], ?_, ?_, ?_, ?_, ?_, ?_⟩
  · rw [hres]
    simp only [send_bytes_files]
    exact hstay e (List.mem_cons_self _ _)
  · intro f hf
    rw [hres]
    simp only [send_bytes_files]
    exact hstay f (List.mem_cons_of_mem _ hf)
  · rw [hres]
    simp only [send_bytes_files]
    exact hkeep.1
  · rw [hres]
    simp only [send_bytes_state]
    exact hpst
  · rw [hres]
    exact send_bytes_trace_files _ _ _ _ _
  · intro o2 s2 h2
    have e2 := send_files_no_scan o2 s2 h2
    rw [e2]
    exact ⟨rfl, connect_files _ _, connect_state _ _, (connect_trace_counts _ _).1,
      (connect_trace_counts _ _).2⟩

theorem C17_send_files_aborts_on_failed_send_witness :
    (sender.send_files second_send_fails_oracle sample_sender_three_files).2 = false ∧
    ({ name := "b", regular := true, content := [2] } : File) ∈
      (sender.send_files second_send_fails_oracle sample_sender_three_files).1.files ∧
    (∀ f ∈ [({ name := "c", regular := true, content := [3] } : File)],
      f ∈ (sender.send_files second_send_fails_oracle sample_sender_three_files).1.files) ∧
    (sender.send_files second_send_fails_oracle sample_sender_three_files).1.state
      = State.sending_files := by
  have h := C17_send_files_aborts_on_failed_send second_send_fails_oracle
    sample_sender_three_files [{ name := "a", regular := true, content := [1] }]
    [{ name := "c", regular := true, content := [3] }]
    { name := "b", regular := true, content := [2] } rfl (by decide) rfl rfl rfl
    (by decide) rfl rfl rfl rfl (by decide) (Or.inr rfl)
  exact ⟨h.1, h.2.2.1, h.2.2.2.1, h.2.2.2.2.2.1⟩

theorem sent_files_append (a b : List Event) :
    sent_files (a ++ b) = sent_files a ++ sent_files b := by
  induction a with
  | nil => rfl
  | cons e a ih =>
    cases e with
    | transport_send src pl ok =>
      cases src <;> simp [sent_files, ih]
    | _ => simp [sent_files, ih]

/-- The events of one `send_file` call: at most one transport send, of the
given path, and exactly one when every call succeeds on a file that is not
empty. -/
theorem send_file_sent (o : FileOracle) (s : Sender) (path : String) (n : Nat)
    (content : List Nat) :
    ∃ ev, (sender.send_file o s path n content).1.trace = s.trace ++ ev ∧
      (sent_files ev = [] ∨ sent_files ev = [path]) ∧
      (o.open_ok = true → o.mmap_ok = true → o.peer_closed = false → o.send_ok = true →
        (sender.send_file o s path n content).2 = true ∧
        sent_files ev = if n ≠ 0 then [path] else []) := by
  unfold sender.send_file
  by_cases ho : o.open_ok = true
  · rw [if_pos ho]
    by_cases hm : (o.mmap_ok && decide (n ≠ 0)) = true
    · rw [if_pos hm]
      have hn : n ≠ 0 := by
        have := hm
        simp only [Bool.and_eq_true, decide_eq_true_eq] at this
        exact this.2
      cases hp : o.peer_closed <;> cases hs : o.send_ok
      · exact ⟨[Event.peer_check false, Event.transport_send (Src.file path) (content.take n) false,
          Event.disconnect], by simp [sender.send_bytes, sender.disconnect],
          Or.inr rfl, by simp⟩
      · exact ⟨[Event.peer_check false, Event.transport_send (Src.file path) (content.take n) true],
          by simp [sender.send_bytes], Or.inr rfl, by simp [sender.send_bytes, hn, sent_files]⟩
      · exact ⟨[Event.peer_check true, Event.disconnect],
          by simp [sender.send_bytes, sender.disconnect], Or.inl rfl, by simp⟩
      · exact ⟨[Event.peer_check true, Event.disconnect],
          by simp [sender.send_bytes, sender.disconnect], Or.inl rfl, by simp⟩
    · rw [if_neg hm]
      refine ⟨[], by simp, Or.inl rfl, ?_⟩
      intro _ hmm _ _
      have hn : n = 0 := by
        by_contra hne
        exact hm (by simp [hmm, hne])
      simp [hn, sent_files]
  · rw [if_neg ho]
    exact ⟨[], by simp, Or.inl rfl, fun h => absurd h ho⟩

theorem send_files_loop_sent (fo : Nat → FileOracle) (dir : String) :
    ∀ (es : List File) (k : Nat) (s : Sender), s.directory = dir →
      ∃ ev, (sender.send_files_loop fo es k s).1.trace = s.trace ++ ev ∧
        (sent_files ev).Sublist (es.map (fun f => entry_path dir f.name)) ∧
        ((∀ j, (fo j).all_ok) →
          (sender.send_files_loop fo es k s).2 = true ∧
          sent_files ev = (es.filter sendable).map (fun f => entry_path dir f.name))
  | [], _, s, _ => ⟨[], by simp [sender.send_files_loop], by simp [sent_files],
      fun _ => ⟨rfl, rfl⟩⟩
  | e :: es, k, s, hd => by
    subst hd
    rw [send_files_loop_cons]
    have hskip : sendable e = false →
        ∃ ev, (sender.send_files_loop fo es (k + 1) s).1.trace = s.trace ++ ev ∧
        (sent_files ev).Sublist ((e :: es).map (fun f => entry_path s.directory f.name)) ∧
        ((∀ j, (fo j).all_ok) →
          (sender.send_files_loop fo es (k + 1) s).2 = true ∧
          sent_files ev = ((e :: es).filter sendable).map (fun f => entry_path s.directory f.name)) := by
      intro hns
      obtain ⟨ev, h1, h2, h3⟩ := send_files_loop_sent fo s.directory es (k + 1) s rfl
      refine ⟨ev, h1, ?_, fun hall => ⟨(h3 hall).1, ?_⟩⟩
      · rw [List.map_cons]
        exact List.Sublist.cons _ h2
      · rw [List.filter_cons_of_neg (by simp [hns])]
        exact (h3 hall).2
    by_cases hname : e.name ≠ "." ∧ e.name ≠ ".."
    · rw [if_pos hname]
      by_cases hsr : ((fo k).stat_ok && e.regular) = true
      · rw [if_pos hsr]
        have hreg : e.regular = true := by
          simp only [Bool.and_eq_true] at hsr
          exact hsr.2
        obtain ⟨ev1, ht1, hs1, hall1⟩ :=
          send_file_sent (fo k) s (entry_path s.directory e.name) e.content.length e.content
        have hsub1 : ∀ l : List String,
            (sent_files ev1 ++ l).Sublist (entry_path s.directory e.name :: l) := by
          intro l
          rcases hs1 with h | h
          · rw [h]; exact List.Sublist.cons _ (List.Sublist.refl _)
          · rw [h]; exact List.Sublist.refl _
        by_cases hok : (sender.send_file (fo k) s (entry_path s.directory e.name)
            e.content.length e.content).2 = true
        · rw [if_pos hok]
          obtain ⟨ev2, ht2, hs2, hall2⟩ := send_files_loop_sent fo s.directory es (k + 1)
            (sender.unlink (sender.send_file (fo k) s (entry_path s.directory e.name)
              e.content.length e.content).1 (entry_path s.directory e.name))
            (by simp [(send_file_fileOnly _ _ _ _ _).2.2.1])
          refine ⟨ev1 ++ [Event.unlink (entry_path s.directory e.name)] ++ ev2, ?_, ?_, ?_⟩
          · rw [ht2]
            simp [sender.unlink, ht1]
          · simp only [sent_files_append, List.map_cons]
            have : sent_files [Event.unlink (entry_path s.directory e.name)] = [] := rfl
            rw [this, List.append_nil]
            exact (List.Sublist.append_left hs2 _).trans (hsub1 _)
          · intro hall
            refine ⟨(hall2 hall).1, ?_⟩
            obtain ⟨-, ho, hm, hp, hs⟩ := hall k
            have h1 := (hall1 ho hm hp hs).2
            simp only [sent_files_append]
            have : sent_files [Event.unlink (entry_path s.directory e.name)] = [] := rfl
            rw [this, List.append_nil, (hall2 hall).2, h1]
            by_cases hl : e.content.length ≠ 0
            · rw [if_pos hl, List.filter_cons_of_pos (by simp [sendable, hname, hreg, hl])]
              rfl
            · rw [if_neg hl, List.filter_cons_of_neg (by simp [sendable, hl])]
              rfl
        · rw [if_neg hok]
          refine ⟨ev1, ht1, ?_, ?_⟩
          · have := hsub1 []
            rw [List.append_nil] at this
            exact this.trans (List.sublist_append_left _ _)
          · intro hall
            obtain ⟨-, ho, hm, hp, hs⟩ := hall k
            exact absurd (hall1 ho hm hp hs).1 hok
      · rw [if_neg hsr]
        by_cases hreg : e.regular = true
        · obtain ⟨ev, h1, h2, h3⟩ := send_files_loop_sent fo s.directory es (k + 1) s rfl
          refine ⟨ev, h1, ?_, fun hall => ?_⟩
          · rw [List.map_cons]
            exact List.Sublist.cons _ h2
          · exact absurd (by simp [(hall k).1, hreg]) hsr
        · exact hskip (by simp [sendable, hreg])
    · rw [if_neg hname]
      exact hskip (by simp only [sendable, hname, decide_False, Bool.false_and])

theorem connect_sent_files (ok : Bool) (s : Sender) :
    ∃ ev, (sender.connect ok s).1.trace = s.trace ++ ev ∧ sent_files ev = [] := by
  unfold sender.connect
  split
  · exact ⟨[], by simp, rfl⟩
  · exact ⟨[Event.connect ok], rfl, rfl⟩

/-- C16 (amended): `send_files` passes files to the transport in the order in
which the directory listing returns them: the paths of the transport sends of
one call form a sublist of the paths of the listing, and when connect,
`opendir` and every call made for an entry succeed, they are exactly the
paths of the regular, non-empty entries other than `.` and `..`, in listing
order. -/
theorem C16_replay_in_listing_order (o : Oracle) (s : Sender) :
    ∃ ev, (sender.send_files o s).1.trace = s.trace ++ ev ∧
      (sent_files ev).Sublist (s.files.map (fun f => entry_path s.directory f.name)) ∧
      ((sender.connect o.connect_ok s).2 = true → o.opendir_ok = true →
        (∀ j, (o.file j).all_ok) →
        (sender.send_files o s).2 = true ∧
        sent_files ev = (s.files.filter sendable).map (fun f => entry_path s.directory f.name)) := by
  obtain ⟨evc, hc, hcs⟩ := connect_sent_files o.connect_ok s
  obtain ⟨ev, h1, h2, h3⟩ := send_files_loop_sent o.file s.directory
    (sender.connect o.connect_ok s).1.files 0 (sender.connect o.connect_ok s).1
    (connect_directory _ _)
  rw [connect_files] at h1 h2 h3
  unfold sender.send_files
  dsimp only
  by_cases hco : (sender.connect o.connect_ok s).2 = true
  · rw [if_pos hco]
    by_cases hd : o.opendir_ok = true
    · rw [if_pos hd, connect_files]
      have ht : ∀ b : Bool,
          (if (sender.send_files_loop o.file s.files 0 (sender.connect o.connect_ok s).1).2
              = true then
            ({ (sender.send_files_loop o.file s.files 0 (sender.connect o.connect_ok s).1).1
                with state := State.sending_queued_buffers }, true)
          else ((sender.send_files_loop o.file s.files 0
            (sender.connect o.connect_ok s).1).1, b)).1.trace
          = s.trace ++ (evc ++ ev) := by
        intro b
        split
        · rw [← List.append_assoc, ← hc]; exact h1
        · rw [← List.append_assoc, ← hc]; exact h1
      refine ⟨evc ++ ev, ht false, ?_, ?_⟩
      · rw [sent_files_append, hcs]
        exact h2
      · intro _ _ hall
        rw [sent_files_append, hcs, if_pos (h3 hall).1]
        exact ⟨rfl, (h3 hall).2⟩
    · rw [if_neg hd]
      exact ⟨evc, hc, by rw [hcs]; exact List.nil_sublist _, fun _ h => absurd h hd⟩
  · rw [if_neg hco]
    exact ⟨evc, hc, by rw [hcs]; exact List.nil_sublist _, fun h => absurd h hco⟩

theorem C16_replay_in_listing_order_witness :
    ∃ ev, (sender.send_files sample_oracle sample_sender_b_a).1.trace
        = sample_sender_b_a.trace ++ ev ∧
      sent_files ev = ["spool/b", "spool/a"] := by
  obtain ⟨ev, h1, -, h3⟩ := C16_replay_in_listing_order sample_oracle sample_sender_b_a
  refine ⟨ev, h1, ?_⟩
  have := (h3 rfl rfl (fun _ => ⟨rfl, rfl, rfl, rfl, rfl⟩)).2
  rw [this]
  decide

/-- The listing returns `b` before `a`: the files go to the transport in this
order, which is not the lexicographic order of their names. -/
theorem C16_counterexample :
    sent_files (sender.send_files sample_oracle sample_sender_b_a).1.trace
      = ["spool/b", "spool/a"] ∧
    ¬ List.Sorted (· ≤ ·)
      (sent_files (sender.send_files sample_oracle sample_sender_b_a).1.trace) := by
  have h : sent_files (sender.send_files sample_oracle sample_sender_b_a).1.trace
      = ["spool/b", "spool/a"] := by decide
  refine ⟨h, ?_⟩
  rw [h]
  simp only [List.Sorted, List.pairwise_cons, List.mem_singleton, forall_eq, List.not_mem_nil,
    false_implies, implies_true, List.Pairwise.nil, and_true, not_le]
  rw [String.lt_iff_toList_lt]
  decide

theorem digitChar_lt_ten (d : Nat) (h : d < 10) :
    (Nat.digitChar d).isDigit = true ∧ (Nat.digitChar d).toNat - 48 = d := by
  interval_cases d <;> exact ⟨by decide, by decide⟩

theorem toDigitsCore_append (b : Nat) : ∀ (f n : Nat) (acc : List Char),
    Nat.toDigitsCore b f n acc = Nat.toDigitsCore b f n [] ++ acc
  | 0, _, acc => by simp [Nat.toDigitsCore]
  | f + 1, n, acc => by
    simp only [Nat.toDigitsCore]
    split
    · simp
    · rw [toDigitsCore_append b f (n / b) (Nat.digitChar (n % b) :: acc),
        toDigitsCore_append b f (n / b) [Nat.digitChar (n % b)]]
      simp

theorem toDigitsCore_isDigit : ∀ (f n : Nat) (c : Char),
    c ∈ Nat.toDigitsCore 10 f n [] → c.isDigit = true
  | 0, _, c, h => by simp [Nat.toDigitsCore] at h
  | f + 1, n, c, h => by
    simp only [Nat.toDigitsCore] at h
    have hd := (digitChar_lt_ten (n % 10) (Nat.mod_lt _ (by decide))).1
    split at h
    · simp only [List.mem_singleton] at h
      rw [h]; exact hd
    · rw [toDigitsCore_append] at h
      rcases List.mem_append.1 h with h | h
      · exact toDigitsCore_isDigit f (n / 10) c h
      · simp only [List.mem_singleton] at h
        rw [h]; exact hd

theorem read_dec_append_singleton (l : List Char) (c : Char) :
    read_dec (l ++ [c]) = 10 * read_dec l + (c.toNat - 48) := by
  simp [read_dec, List.foldl_append]

theorem read_dec_toDigitsCore : ∀ (f n : Nat), n < f →
    read_dec (Nat.toDigitsCore 10 f n []) = n
  | 0, _, h => by omega
  | f + 1, n, h => by
    simp only [Nat.toDigitsCore]
    have hd := (digitChar_lt_ten (n % 10) (Nat.mod_lt _ (by decide))).2
    split
    · rename_i h0
      have : read_dec [Nat.digitChar (n % 10)] = (Nat.digitChar (n % 10)).toNat - 48 := by
        simp [read_dec]
      rw [this, hd]
      omega
    · rename_i h0
      rw [toDigitsCore_append, read_dec_append_singleton, hd,
        read_dec_toDigitsCore f (n / 10) (by omega)]
      omega

theorem read_dec_toDigits (n : Nat) : read_dec (Nat.toDigits 10 n) = n :=
  read_dec_toDigitsCore (n + 1) n (Nat.lt_succ_self n)

theorem read_dec_zeros (k : Nat) (l : List Char) :
    read_dec (List.replicate k '0' ++ l) = read_dec l := by
  induction k with
  | zero => simp
  | succ k ih =>
    rw [List.replicate_succ, List.cons_append]
    have : ∀ l' : List Char, read_dec ('0' :: l') = read_dec l' := by
      intro l'
      simp [read_dec]
    rw [this, ih]

theorem read_dec_fmt_u (w n : Nat) : read_dec (fmt_u w n) = n := by
  unfold fmt_u
  exact (read_dec_zeros _ _).trans (read_dec_toDigits n)

theorem fmt_u_injective (w : Nat) {a b : Nat} (h : fmt_u w a = fmt_u w b) : a = b := by
  rw [← read_dec_fmt_u w a, h, read_dec_fmt_u]

theorem fmt_u_isDigit (w n : Nat) (c : Char) (h : c ∈ fmt_u w n) : c.isDigit = true := by
  unfold fmt_u at h
  rcases List.mem_append.1 h with h | h
  · rw [(List.mem_replicate.1 h).2]; decide
  · exact toDigitsCore_isDigit _ _ c h

theorem toDigits_length_le (n e : Nat) (he : 0 < e) (h : n < 10 ^ e) :
    (Nat.toDigits 10 n).length ≤ e :=
  Nat.toDigitsCore_length 10 (by decide) (n + 1) n e h he

theorem fmt_u_length (w n : Nat) (hw : 0 < w) (h : n < 10 ^ w) : (fmt_u w n).length = w := by
  have := toDigits_length_le n w hw h
  unfold fmt_u
  simp only [List.length_append, List.length_replicate]
  omega

theorem fmt_u_length_ge (w n : Nat) : w ≤ (fmt_u w n).length := by
  unfold fmt_u
  simp only [List.length_append, List.length_replicate]
  omega

theorem to_unsigned_of_nonneg {x : Int} (h0 : 0 ≤ x) (h1 : x < 4294967296) :
    to_unsigned x = x.toNat := by
  unfold to_unsigned UINT_MOD
  rw [Int.emod_eq_of_lt h0 (by norm_num; exact h1)]

theorem to_unsigned_lt {x : Int} {b : Nat} (h0 : 0 ≤ x) (h1 : x < b) (hb : b ≤ 4294967296) :
    to_unsigned x < b := by
  rw [to_unsigned_of_nonneg h0 (by omega)]
  omega

/-- The path composed by `save_buffer` is not truncated when it has at most
`PATH_MAX + 22` characters. -/
theorem spill_path_data {dir : String} {tm : Tm} {cnt : Nat}
    (h : dir.data.length + 1 + (spill_name tm cnt).length ≤ PATH_MAX + 22) :
    (spill_path dir tm cnt).data = dir.data ++ ['/'] ++ spill_name tm cnt := by
  unfold spill_path
  simp only
  rw [List.take_of_length_le]
  simp only [List.length_append, List.length_singleton]
  omega

theorem spill_name_length {tm : Tm} {cnt : Nat} (htm : tm.in_range) (hcnt : cnt < 1000000) :
    (spill_name tm cnt).length = 22 := by
  obtain ⟨y0, y1, m0, m1, d0, d1, h0, h1, mi0, mi1, s0, s1⟩ := htm
  unfold spill_name
  simp only [List.length_append, List.length_singleton]
  rw [fmt_u_length 4 _ (by decide) (to_unsigned_lt y0 (by omega) (by norm_num)),
    fmt_u_length 2 _ (by decide) (to_unsigned_lt (by omega) (by omega) (by norm_num)),
    fmt_u_length 2 _ (by decide) (to_unsigned_lt (by omega) (by omega) (by norm_num)),
    fmt_u_length 2 _ (by decide) (to_unsigned_lt h0 (by omega) (by norm_num)),
    fmt_u_length 2 _ (by decide) (to_unsigned_lt mi0 (by omega) (by norm_num)),
    fmt_u_length 2 _ (by decide) (to_unsigned_lt s0 (by omega) (by norm_num)),
    fmt_u_length 6 _ (by decide) (by norm_num; exact hcnt)]

theorem read_dec_to_unsigned {x : Int} (w : Nat) (h0 : 0 ≤ x) (h1 : x < 4294967296) :
    (read_dec (fmt_u w (to_unsigned x)) : Int) = x := by
  rw [read_dec_fmt_u, to_unsigned_of_nonneg h0 h1]
  exact Int.toNat_of_nonneg h0

/-- C15 (amended): for a local time whose fields are in the calendar ranges
with a year from 0 to 9999, and a probe counter below 1 000 000, the base name
produced by `save_buffer` has exactly 22 characters: four digits of the year,
two of the month, two of the day, `-`, two digits each of hour, minute and
second, `_`, and the counter in six zero-padded decimal digits; and for a
directory shorter than `PATH_MAX` the path `directory/name` is written
without truncation and fits, with its terminating zero byte, the buffer of
`PATH_MAX + 23` bytes. `start` accepts only directories shorter than
`PATH_MAX`. -/
theorem C15_spill_name_format (tm : Tm) (cnt : Nat) (dir : String)
    (htm : tm.in_range) (hcnt : cnt < 1000000) (hdir : dir.data.length < PATH_MAX) :
    (spill_name tm cnt).length = 22 ∧
    (∃ yyyy mm dd hh mi ss num : List Char,
      spill_name tm cnt = yyyy ++ mm ++ dd ++ ['-'] ++ hh ++ mi ++ ss ++ ['_'] ++ num ∧
      yyyy.length = 4 ∧ mm.length = 2 ∧ dd.length = 2 ∧ hh.length = 2 ∧ mi.length = 2 ∧
      ss.length = 2 ∧ num.length = 6 ∧
      (∀ c ∈ yyyy ++ mm ++ dd ++ hh ++ mi ++ ss ++ num, c.isDigit = true) ∧
      (read_dec yyyy : Int) = 1900 + tm.tm_year ∧ (read_dec mm : Int) = 1 + tm.tm_mon ∧
      (read_dec dd : Int) = tm.tm_mday ∧ (read_dec hh : Int) = tm.tm_hour ∧
      (read_dec mi : Int) = tm.tm_min ∧ (read_dec ss : Int) = tm.tm_sec ∧
      read_dec num = cnt) ∧
    (spill_path dir tm cnt).data = dir.data ++ ['/'] ++ spill_name tm cnt ∧
    (spill_path dir tm cnt).data.length + 1 ≤ PATH_MAX + 23 ∧
    (∀ (s : Sender) (d : String) (fs : List File) (is_dir thread_ok : Bool),
      (sender.start s d fs is_dir thread_ok).2 = true →
      d.data.length < PATH_MAX ∧ (sender.start s d fs is_dir thread_ok).1.directory = d) := by
  have hlen := spill_name_length htm hcnt
  have hdata : (spill_path dir tm cnt).data = dir.data ++ ['/'] ++ spill_name tm cnt :=
    spill_path_data (by rw [hlen]; omega)
  obtain ⟨y0, y1, m0, m1, d0, d1, h0, h1, mi0, mi1, s0, s1⟩ := htm
  refine ⟨hlen, ?_, hdata, ?_, ?_⟩
  · refine ⟨_, _, _, _, _, _, _, rfl,
      fmt_u_length 4 _ (by decide) (to_unsigned_lt y0 (by omega) (by norm_num)),
      fmt_u_length 2 _ (by decide) (to_unsigned_lt (by omega) (by omega) (by norm_num)),
      fmt_u_length 2 _ (by decide) (to_unsigned_lt (by omega) (by omega) (by norm_num)),
      fmt_u_length 2 _ (by decide) (to_unsigned_lt h0 (by omega) (by norm_num)),
      fmt_u_length 2 _ (by decide) (to_unsigned_lt mi0 (by omega) (by norm_num)),
      fmt_u_length 2 _ (by decide) (to_unsigned_lt s0 (by omega) (by norm_num)),
      fmt_u_length 6 _ (by decide) (by norm_num; exact hcnt), ?_,
      read_dec_to_unsigned 4 y0 (by omega), read_dec_to_unsigned 2 (by omega) (by omega),
      read_dec_to_unsigned 2 (by omega) (by omega), read_dec_to_unsigned 2 h0 (by omega),
      read_dec_to_unsigned 2 mi0 (by omega), read_dec_to_unsigned 2 s0 (by omega),
      read_dec_fmt_u 6 cnt⟩
    intro c hc
    simp only [List.mem_append] at hc
    rcases hc with (((((hc | hc) | hc) | hc) | hc) | hc) | hc <;>
      exact fmt_u_isDigit _ _ c hc
  · rw [hdata]
    simp only [List.length_append, List.length_singleton, hlen]
    omega
  · intro s d fs is_dir thread_ok h
    unfold sender.start at h ⊢
    by_cases hd : d.data.length < PATH_MAX
    · refine ⟨hd, ?_⟩
      rw [if_pos hd] at h ⊢
      cases is_dir
      · simp at h
      · cases thread_ok
        · simp at h
        · rfl
    · rw [if_neg hd] at h
      simp at h

theorem C15_spill_name_format_witness :
    (sample_oracle.localtime 0).in_range ∧
    (spill_name (sample_oracle.localtime 0) 0).length = 22 ∧
    (spill_path "spool" (sample_oracle.localtime 0) 0).data
      = "spool".data ++ ['/'] ++ spill_name (sample_oracle.localtime 0) 0 ∧
    spill_path "spool" (sample_oracle.localtime 0) 0 = "spool/20261031-120000_000000" :=
  ⟨by decide,
    (C15_spill_name_format (sample_oracle.localtime 0) 0 "spool" (by decide) (by decide)
      (by decide)).1,
    (C15_spill_name_format (sample_oracle.localtime 0) 0 "spool" (by decide) (by decide)
      (by decide)).2.2.1,
    by decide⟩

/-- With the counter 1 000 000 the name has 23 characters, and after a
directory of 4095 characters the path is cut; the year 10000 gives 23
characters as well. -/
theorem C15_counterexample :
    (String.mk (List.replicate 4095 'd')).data.length < PATH_MAX ∧
    (spill_name (sample_oracle.localtime 0) 1000000).length = 23 ∧
    (spill_path (String.mk (List.replicate 4095 'd')) (sample_oracle.localtime 0) 1000000).data
      ≠ List.replicate 4095 'd' ++ ['/'] ++ spill_name (sample_oracle.localtime 0) 1000000 ∧
    (spill_name { sample_oracle.localtime 0 with tm_year := 8100 } 0).length = 23 := by
  have h23 : (spill_name (sample_oracle.localtime 0) 1000000).length = 23 := by decide
  have hd : (String.mk (List.replicate 4095 'd')).data.length < PATH_MAX := by
    show (List.replicate 4095 'd').length < PATH_MAX
    rw [List.length_replicate]
    decide
  refine ⟨hd, h23, ?_, by decide⟩
  intro h
  have hl := congrArg List.length h
  have hle : (spill_path (String.mk (List.replicate 4095 'd')) (sample_oracle.localtime 0)
      1000000).data.length ≤ PATH_MAX + 22 := by
    unfold spill_path
    exact List.length_take_le _ _
  rw [hl] at hle
  simp only [List.length_append, List.length_replicate, List.length_singleton, h23,
    PATH_MAX] at hle
  omega

theorem spill_path_injective {dir : String} {tm : Tm} {c1 c2 : Nat}
    (h1 : Fits dir tm c1) (h2 : Fits dir tm c2)
    (h : spill_path dir tm c1 = spill_path dir tm c2) : c1 = c2 := by
  have e := congrArg String.data h
  rw [spill_path_data h1, spill_path_data h2] at e
  have e2 := List.append_cancel_left e
  unfold spill_name at e2
  exact fmt_u_injective 6 (List.append_cancel_left e2)

/-- The entry that a save to the spill name of counter `c` creates has
exactly that path. -/
theorem entry_path_spill {dir : String} {tm : Tm} {c : Nat} (h : Fits dir tm c) :
    entry_path dir (String.mk (spill_name tm c)) = spill_path dir tm c := by
  unfold Fits at h
  unfold entry_path spill_path
  congr 1
  rw [List.take_of_length_le, List.take_of_length_le]
  · simp only [List.length_append, List.length_singleton]
    omega
  · simp only [List.length_append, List.length_singleton]
    unfold PATH_MAX at h ⊢
    omega

theorem spill_path_basename {dir : String} {tm : Tm} {c : Nat} (h : Fits dir tm c) :
    String.mk ((spill_path dir tm c).data.drop (dir.data.length + 1))
      = String.mk (spill_name tm c) := by
  rw [spill_path_data h]
  congr 1
  rw [List.drop_append_of_le_length (by simp)]
  simp

theorem fs_unlink_of_not_exists {dir : String} {fs : List File} {path : String}
    (h : fs_exists dir fs path = false) : fs_unlink dir fs path = fs := by
  unfold fs_unlink
  rw [List.filter_eq_self]
  intro f hf
  unfold fs_exists at h
  rw [List.any_eq_false] at h
  have := h f hf
  simpa using this

theorem fs_write_free {dir : String} {fs : List File} {tm : Tm} {c : Nat}
    (hfit : Fits dir tm c) (h : fs_exists dir fs (spill_path dir tm c) = false)
    (bytes : List Nat) :
    fs_write dir fs (spill_path dir tm c) bytes = fs ++ [spill_file tm c bytes] := by
  unfold fs_write
  rw [fs_unlink_of_not_exists h, spill_path_basename hfit]
  rfl

theorem fs_exists_append (dir : String) (fs gs : List File) (path : String) :
    fs_exists dir (fs ++ gs) path = (fs_exists dir fs path || fs_exists dir gs path) := by
  unfold fs_exists
  rw [List.any_append]

theorem fs_exists_spill_file {dir : String} {tm : Tm} {c c' : Nat} (bytes : List Nat)
    (h : Fits dir tm c) (h' : Fits dir tm c') :
    fs_exists dir [spill_file tm c bytes] (spill_path dir tm c') = decide (c = c') := by
  unfold fs_exists spill_file
  simp only [List.any_cons, List.any_nil, Bool.or_false]
  rw [entry_path_spill h]
  by_cases hc : c = c'
  · subst hc; simp
  · have : spill_path dir tm c ≠ spill_path dir tm c' := fun e => hc (spill_path_injective h h' e)
    simp [hc, this]

/-- The filename search returns the smallest counter from `cnt` on whose path
does not exist, when that counter is `c`. -/
theorem probe_finds (dir : String) (fs : List File) (tm : Tm) :
    ∀ (fuel cnt c : Nat), cnt ≤ c → c - cnt < fuel → c + 1 < UINT_MOD →
      (∀ j, cnt ≤ j → j < c → fs_exists dir fs (spill_path dir tm j) = true) →
      fs_exists dir fs (spill_path dir tm c) = false →
      sender.probe dir fs tm fuel cnt = .ok (spill_path dir tm c, c + 1)
  | 0, _, _, _, hf, _, _, _ => by omega
  | fuel + 1, cnt, c, hle, hf, hw, htaken, hfree => by
    unfold sender.probe
    dsimp only
    by_cases hc : cnt = c
    · subst hc
      rw [hfree]
      simp only [Bool.false_eq_true, if_false]
      rw [Nat.mod_eq_of_lt hw]
    · have hlt : cnt < c := by omega
      rw [htaken cnt (Nat.le_refl _) hlt, if_pos rfl, Nat.mod_eq_of_lt (by omega)]
      exact probe_finds dir fs tm fuel (cnt + 1) c (by omega) (by omega) hw
        (fun j hj1 hj2 => htaken j (by omega) hj2) hfree

/-- When the write loop of `buffer::save` ends normally, the bytes written
are the payload. -/
theorem buffer_save_loop_out (data : List Nat) :
    ∀ (ws : List WriteRes) (written : Nat) (out out' : List Nat),
      out = data.take written → buffer.save_loop data ws written out = .ok (some out') →
      out' = data
  | [], written, out, out', ho, h => by
    unfold buffer.save_loop at h
    split at h
    · cases h
    · rename_i hlt
      injection h with h
      injection h with h
      rw [← h, ho, List.take_of_length_le (by omega)]
  | w :: ws, written, out, out', ho, h => by
    unfold buffer.save_loop at h
    split at h
    · split at h
      · refine buffer_save_loop_out data ws _ _ out' ?_ h
        rw [ho, List.take_add]
      · split at h
        · split at h
          · cases h
          · exact buffer_save_loop_out data ws _ _ out' ho h
        · exact buffer_save_loop_out data ws _ _ out' ho h
    · rename_i hlt
      injection h with h
      injection h with h
      rw [← h, ho, List.take_of_length_le (by omega)]

/-- A save whose `open` succeeds and whose writes go through: the file is
created with the payload of the buffer. -/
theorem buffer_save_ok {m : Mem} {p : Ptr} {dir : String} {fs : List File} {path : String}
    {o : SaveOracle} {out : List Nat} (hp : p ≠ .null) (ho : o.open_ok = true)
    (hw : buffer.save_loop (m.data p) o.writes 0 [] = .ok (some out)) :
    buffer.save m p dir fs path o = .ok (fs_write dir fs path (m.data p), true) := by
  have := buffer_save_loop_out (m.data p) o.writes 0 [] out (by simp) hw
  subst this
  unfold buffer.save
  rw [if_neg hp, if_pos ho, hw]

/-- `save_buffer` with the counter `c` the smallest from `count` on whose
path does not exist: the save goes to the path of `c` and the new count is
`c + 1`. -/
theorem save_buffer_probe (lt : Int → Tm) (o : SaveOracle) (s : Sender) (buf : Ptr)
    {count c : Nat} (hle : count ≤ c) (hw : c + 1 < UINT_MOD)
    (htaken : ∀ j, count ≤ j → j < c →
      fs_exists s.directory s.files (spill_path s.directory (lt s.current_time) j) = true)
    (hfree : fs_exists s.directory s.files (spill_path s.directory (lt s.current_time) c)
      = false) :
    sender.save_buffer lt o s buf count =
      match buffer.save s.mem buf s.directory s.files
          (spill_path s.directory (lt s.current_time) c) o with
      | .ok (fs, ok) =>
        .ok ({ s with files := fs,
                      trace := s.trace ++ [Event.save buf
                        (spill_path s.directory (lt s.current_time) c) ok] }, c + 1, ok)
      | .error e => .error e := by
  unfold sender.save_buffer
  simp only [bind, Except.bind, pure, Except.pure]
  rw [probe_finds s.directory s.files (lt s.current_time) UINT_MOD count c hle (by omega) hw
    htaken hfree]
  dsimp only
  cases buffer.save s.mem buf s.directory s.files
    (spill_path s.directory (lt s.current_time) c) o with
  | error e => rfl
  | ok r => rfl

theorem save_loop_cons_ok {lt : Int → Tm} {o : SaveOracle} {os : List SaveOracle} {s s1 : Sender}
    {first last : Ptr} {count count1 : Nat} {ret : Bool}
    (h : sender.save_buffer lt o s first count = .ok (s1, count1, true)) :
    sender.save_loop lt (o :: os) s first last count ret =
      if first ≠ last then
        sender.save_loop lt os (sender.put s1 first) (s1.mem.next first) last count1 ret
      else .ok (sender.put s1 first, ret) := by
  rw [sender.save_loop, h]
  simp

/-- One successful `save_buffer` on a free counter `c` that fits. -/
theorem save_buffer_ok (lt : Int → Tm) {o : SaveOracle} {s : Sender} {b : Nat}
    {count c : Nat} (hle : count ≤ c) (hw : c + 1 < UINT_MOD)
    (hfit : Fits s.directory (lt s.current_time) c)
    (htaken : ∀ j, count ≤ j → j < c →
      fs_exists s.directory s.files (spill_path s.directory (lt s.current_time) j) = true)
    (hfree : fs_exists s.directory s.files (spill_path s.directory (lt s.current_time) c)
      = false)
    (hok : SaveOk s.mem.data b o) :
    sender.save_buffer lt o s (.buf b) count =
      .ok ({ s with files := s.files ++ [spill_file (lt s.current_time) c (s.mem.data (.buf b))],
                    trace := s.trace ++ [Event.save (.buf b)
                      (spill_path s.directory (lt s.current_time) c) true] }, c + 1, true) := by
  obtain ⟨ho, out, hout⟩ := hok
  rw [save_buffer_probe lt o s (.buf b) hle hw htaken hfree,
    buffer_save_ok (by simp) ho hout, fs_write_free hfit hfree]

theorem nodup_move_head {b : Nat} {p rest q : List Nat} (h : (p ++ (b :: rest) ++ q).Nodup) :
    ((b :: p) ++ rest ++ q).Nodup := by
  have hp : (p ++ (b :: rest) ++ q).Perm ((b :: p) ++ rest ++ q) := by
    simp only [List.append_assoc, List.cons_append]
    exact List.perm_middle
  exact hp.nodup_iff.1 h

/-- The loop of `save_buffers` when every save succeeds. The counters `cs`
are, in increasing order, the counters from `cnt` on (below `N`) whose path
does not exist; the buffers of the chain are saved under the first of them,
one after the other, and go to the pool. -/
theorem save_loop_all_ok (lt : Int → Tm) (dir : String) (tm : Tm) (N : Nat) (hN : N < UINT_MOD)
    (hfit : ∀ c < N, Fits dir tm c) (extra : List SaveOracle) :
    ∀ (chain : List Nat) (os : List SaveOracle) (s : Sender) (first last : Ptr) (cnt : Nat)
      (ret : Bool) (cs p q : List Nat),
      s.directory = dir → lt s.current_time = tm →
      ChainRep s.mem first last chain → PoolRep s.mem p → QueueRep s.mem q →
      (p ++ chain ++ q).Nodup →
      List.Forall₂ (SaveOk s.mem.data) chain os →
      cs.Sorted (· < ·) → (∀ c ∈ cs, cnt ≤ c ∧ c < N) →
      (∀ c, cnt ≤ c → c < N → (c ∈ cs ↔ fs_exists dir s.files (spill_path dir tm c) = false)) →
      chain.length ≤ cs.length →
      ∃ s', sender.save_loop lt (os ++ extra) s first last cnt ret = .ok (s', ret) ∧
        s'.files = s.files ++ spill_files s.mem.data tm chain cs ∧
        s'.trace = s.trace ++ spill_events dir tm chain cs ∧
        PoolRep s'.mem (chain.reverse ++ p) ∧ QueueRep s'.mem q ∧
        s'.mem.count = s.mem.count ∧ s'.mem.data = s.mem.data ∧
        s'.state = s.state ∧ s'.directory = s.directory ∧
        s'.current_time = s.current_time ∧ s'.connected = s.connected ∧
        s'.running = s.running ∧ s'.pc = s.pc
  | [], _, s, first, last, _, _, _, _, _, _, _, hch, _, _, _, _, _, _, _, _ =>
    absurd rfl hch.nonempty
  | b :: rest, os, s, first, last, cnt, ret, cs, p, q, hdir, htm, hch, hpool, hq, hnd, hos,
      hsorted, hrange, hfree, hlen => by
    subst hdir htm
    have hf := hch.head_eq
    subst hf
    obtain ⟨hdpc, hdpq, hdcq, hndp, hndc, hndq⟩ := disjoint_of_nodup3 hnd
    have hbp : b ∉ p := fun hb => hdpc hb (by simp)
    have hbq : b ∉ q := fun hb => hdcq (by simp) hb
    have hbc : b ∉ rest := (List.nodup_cons.1 hndc).1
    cases os with
    | nil => cases hos
    | cons o os' =>
    rw [List.forall₂_cons] at hos
    cases cs with
    | nil => simp at hlen
    | cons c1 cs' =>
    have hc1 := hrange c1 (List.mem_cons_self _ _)
    have hsort' := List.sorted_cons.1 hsorted
    have hfree1 : fs_exists s.directory s.files
        (spill_path s.directory (lt s.current_time) c1) = false :=
      (hfree c1 hc1.1 hc1.2).1 (List.mem_cons_self _ _)
    have htaken : ∀ j, cnt ≤ j → j < c1 →
        fs_exists s.directory s.files (spill_path s.directory (lt s.current_time) j) = true := by
      intro j hj1 hj2
      have hn : j ∉ c1 :: cs' := by
        intro hmem
        rcases List.mem_cons.1 hmem with e | e
        · omega
        · have := hsort'.1 j e
          omega
      have := (hfree j hj1 (by omega)).not.1 hn
      simpa using this
    have hsb := save_buffer_ok lt (o := o) (b := b) hc1.1 (by omega) (hfit c1 hc1.2) htaken hfree1
      hos.1
    rw [List.cons_append, save_loop_cons_ok hsb]
    have hfr : ∀ a, a ≠ Ptr.buf b → (allocator.put s.mem (.buf b)).next a = s.mem.next a ∧
        (allocator.put s.mem (.buf b)).prev a = s.mem.prev a := by
      intro a ha; simp [allocator.put, ha]
    have hpool' : PoolRep (allocator.put s.mem (.buf b)) (b :: p) := hpool.put_rep hbp
    have hqueue : QueueRep (allocator.put s.mem (.buf b)) q := by
      refine hq.qframe ?_
      intro a ha
      refine hfr a ?_
      rcases ha with e | e
      · subst e; simp
      · intro e'; subst e'; exact hbq (buf_mem_bufs.1 e)
    cases rest with
    | nil =>
      have hl := hch.single_last
      subst hl
      rw [if_neg (by simp)]
      refine ⟨_, rfl, ?_, ?_, ?_, ?_, rfl, rfl, rfl, rfl, rfl, rfl, rfl, rfl⟩
      · simp [spill_files]
      · simp [spill_events]
      · simpa using hpool'
      · simpa using hqueue
    | cons x rest' =>
      obtain ⟨hnx, htail, hne⟩ := hch.tail_chain
      rw [if_pos hne]
      have hchain' : ChainRep (allocator.put s.mem (.buf b)) (.buf x) last (x :: rest') := by
        refine htail.cframe ?_
        intro a ha
        refine hfr a ?_
        intro e; subst e; exact hbc (buf_mem_bufs.1 ha)
      obtain ⟨s', e, hfiles, htrace, hp', hq', hcount, hdata, hstate, hdir', htime, hconn,
          hrun, hpc⟩ :=
        save_loop_all_ok lt s.directory (lt s.current_time) N hN hfit extra (x :: rest') os'
          (sender.put
            { s with
              files := s.files ++ [spill_file (lt s.current_time) c1 (s.mem.data (.buf b))],
              trace := s.trace ++
                [Event.save (.buf b) (spill_path s.directory (lt s.current_time) c1) true] }
            (.buf b))
          (.buf x) last (c1 + 1) ret cs' (b :: p) q rfl rfl
          (by simpa using hchain') (by simpa using hpool') (by simpa using hqueue)
          (nodup_move_head hnd) (by simpa using hos.2) hsort'.2
          (fun c hc => ⟨by have := hsort'.1 c hc; omega,
            (hrange c (List.mem_cons_of_mem _ hc)).2⟩)
          (by
            intro c hc1' hcN
            have hne1 : c1 ≠ c := by omega
            have h0 := hfree c (by omega) hcN
            simp only [put_files]
            rw [fs_exists_append, fs_exists_spill_file _ (hfit c1 hc1.2) (hfit c hcN)]
            simp only [hne1, decide_False, Bool.or_false]
            rw [← h0]
            simp [Ne.symm hne1])
          (by simpa using hlen)
      refine ⟨s', ?_, ?_, ?_, ?_, hq', ?_, ?_, ?_, ?_, ?_, ?_, ?_, ?_⟩
      · rw [← e]
        simp only [hnx]
      · rw [hfiles]
        simp [spill_files]
      · rw [htrace]
        simp [spill_events]
      · have : (b :: x :: rest').reverse ++ p = (x :: rest').reverse ++ (b :: p) := by
          simp
        rw [this]
        exact hp'
      · rw [hcount]; rfl
      · rw [hdata]; rfl
      · rw [hstate]; rfl
      · rw [hdir']; rfl
      · rw [htime]; rfl
      · rw [hconn]; rfl
      · rw [hrun]; rfl
      · rw [hpc]; rfl

theorem mem_free_counters {dir : String} {fs : List File} {tm : Tm} {n c : Nat} :
    c ∈ free_counters dir fs tm n ↔ c < n ∧ fs_exists dir fs (spill_path dir tm c) = false := by
  simp [free_counters]

theorem free_counters_sorted (dir : String) (fs : List File) (tm : Tm) (n : Nat) :
    (free_counters dir fs tm n).Sorted (· < ·) :=
  (List.sorted_lt_range n).sublist (List.filter_sublist _)

theorem free_counters_empty (dir : String) (tm : Tm) (n : Nat) :
    free_counters dir [] tm n = List.range n := by
  unfold free_counters
  rw [List.filter_eq_self]
  intro c _
  simp [fs_exists]

/-- At most as many counters are taken as the directory has entries. -/
theorem free_counters_length {dir : String} {fs : List File} {tm : Tm} {n : Nat}
    (hfit : ∀ c < n, Fits dir tm c) :
    n ≤ (free_counters dir fs tm n).length + fs.length := by
  have hcount := List.length_eq_countP_add_countP
    (fun c => !fs_exists dir fs (spill_path dir tm c)) (List.range n)
  rw [List.length_range, List.countP_eq_length_filter, List.countP_eq_length_filter] at hcount
  have htaken : ((List.range n).filter
      (fun c => decide ¬(!fs_exists dir fs (spill_path dir tm c)) = true)).length ≤ fs.length := by
    have hnd : (((List.range n).filter
        (fun c => decide ¬(!fs_exists dir fs (spill_path dir tm c)) = true)).map
          (spill_path dir tm)).Nodup := by
      refine List.Nodup.map_on ?_ ((List.nodup_range n).sublist (List.filter_sublist _))
      intro a ha b hb hab
      have ha' := (List.mem_filter.1 ha).1
      have hb' := (List.mem_filter.1 hb).1
      rw [List.mem_range] at ha' hb'
      exact spill_path_injective (hfit a ha') (hfit b hb') hab
    have hsub : ((List.range n).filter
        (fun c => decide ¬(!fs_exists dir fs (spill_path dir tm c)) = true)).map
          (spill_path dir tm) ⊆ fs.map (fun f => entry_path dir f.name) := by
      intro x hx
      obtain ⟨c, hc, rfl⟩ := List.mem_map.1 hx
      have := (List.mem_filter.1 hc).2
      simp only [Bool.not_eq_true, Bool.not_eq_false', decide_not, Bool.not_not,
        decide_eq_true_eq] at this
      unfold fs_exists at this
      rw [List.any_eq_true] at this
      obtain ⟨f, hf, hfe⟩ := this
      exact List.mem_map.2 ⟨f, hf, by simpa using hfe⟩
    have := (List.subperm_of_subset hnd hsub).length_le
    simpa using this
  unfold free_counters
  omega

theorem spill_files_take (data : Ptr → List Nat) (tm : Tm) :
    ∀ (bs cs : List Nat), spill_files data tm bs cs = spill_files data tm bs (cs.take bs.length)
  | [], cs => by cases cs <;> simp [spill_files]
  | b :: bs, [] => by simp [spill_files]
  | b :: bs, c :: cs => by
    simp only [spill_files, List.length_cons, List.take_succ_cons]
    rw [← spill_files_take data tm bs cs]

theorem spill_events_take (dir : String) (tm : Tm) :
    ∀ (bs cs : List Nat), spill_events dir tm bs cs = spill_events dir tm bs (cs.take bs.length)
  | [], cs => by cases cs <;> simp [spill_events]
  | b :: bs, [] => by simp [spill_events]
  | b :: bs, c :: cs => by
    simp only [spill_events, List.length_cons, List.take_succ_cons]
    rw [← spill_events_take dir tm bs cs]

/-- `save_buffers` on a queue `q` when every save succeeds: the buffers are
saved, in queue order, under the first `q.length` counters whose path does not
exist, and go to the pool; the queue is left empty. -/
theorem save_buffers_all_ok (lt : Int → Tm) {s : Sender} {q p : List Nat}
    {os : List SaveOracle} (extra : List SaveOracle)
    (hq : QueueRep s.mem q) (hcount : s.mem.count = q.length) (hpool : PoolRep s.mem p)
    (hnd : (p ++ q).Nodup) (hok : List.Forall₂ (SaveOk s.mem.data) q os)
    (hfit : ∀ c < s.files.length + q.length, Fits s.directory (lt s.current_time) c)
    (hwrap : s.files.length + q.length < UINT_MOD) :
    ∃ s', sender.save_buffers lt (os ++ extra) s = .ok (s', true) ∧
      s'.files = s.files ++ spill_files s.mem.data (lt s.current_time) q
        ((free_counters s.directory s.files (lt s.current_time)
          (s.files.length + q.length)).take q.length) ∧
      s'.trace = s.trace ++ spill_events s.directory (lt s.current_time) q
        ((free_counters s.directory s.files (lt s.current_time)
          (s.files.length + q.length)).take q.length) ∧
      PoolRep s'.mem (q.reverse ++ p) ∧ QueueRep s'.mem [] ∧
      s'.mem.count = 0 ∧ s'.mem.data = s.mem.data ∧
      s'.state = s.state ∧ s'.directory = s.directory ∧
      s'.current_time = s.current_time ∧ s'.connected = s.connected ∧
      s'.running = s.running ∧ s'.pc = s.pc := by
  cases q with
  | nil =>
    refine ⟨s, ?_, ?_, ?_, by simpa using hpool, hq, by simpa using hcount, rfl, rfl, rfl,
      rfl, rfl, rfl, rfl⟩
    · unfold sender.save_buffers
      rw [hq.pop_nil]
      simp
    · simp [spill_files]
    · simp [spill_events]
  | cons x xs =>
    obtain ⟨m', first, last, epop, hq', hch, hz, hfirst, hdata, hfr⟩ := hq.pop_cons
    have hpool' : PoolRep m' p := by
      refine hpool.pframe hfirst ?_
      intro a ha
      exact (hfr a (by intro e; subst e; simp at ha)).1
    have hlenfree := @free_counters_length s.directory s.files (lt s.current_time) _ hfit
    have hok' : List.Forall₂ (SaveOk m'.data) (x :: xs) os := by rw [hdata]; exact hok
    obtain ⟨s', e, hfiles, htrace, hp', hq'', hcount', hdata', hstate, hdir, htime, hconn,
        hrun, hpc⟩ :=
      save_loop_all_ok lt s.directory (lt s.current_time) (s.files.length + (x :: xs).length)
        hwrap hfit extra (x :: xs) os { s with mem := m' } first last 0 true
        (free_counters s.directory s.files (lt s.current_time)
          (s.files.length + (x :: xs).length)) p [] rfl rfl hch hpool' hq'
        (by simpa using hnd) hok'
        (free_counters_sorted _ _ _ _)
        (fun c hc => ⟨Nat.zero_le _, (mem_free_counters.1 hc).1⟩)
        (fun c _ hc => by
          rw [mem_free_counters]
          exact ⟨fun h => h.2, fun h => ⟨hc, h⟩⟩)
        (by omega)
    refine ⟨s', ?_, ?_, ?_, hp', hq'', ?_, ?_, hstate, hdir, htime, hconn, hrun, hpc⟩
    · unfold sender.save_buffers
      dsimp only
      rw [epop]
      have hpos : s.mem.count > 0 := by rw [hcount]; simp
      simp only [hpos, if_true]
      exact e
    · rw [hfiles, spill_files_take]
      show s.files ++ spill_files m'.data _ _ _ = _
      rw [hdata]
    · rw [htrace, spill_events_take]
    · rw [hcount']; exact hz
    · rw [hdata']; exact hdata

theorem spill_name_injective {tm : Tm} {c1 c2 : Nat} (h : spill_name tm c1 = spill_name tm c2) :
    c1 = c2 := by
  unfold spill_name at h
  exact fmt_u_injective 6 (List.append_cancel_left h)

theorem spill_files_name (data : Ptr → List Nat) (tm : Tm) :
    ∀ (bs cs : List Nat), bs.length = cs.length →
      (spill_files data tm bs cs).map File.name = cs.map (fun c => String.mk (spill_name tm c))
  | [], [], _ => rfl
  | [], _ :: _, h => by simp at h
  | _ :: _, [], h => by simp at h
  | b :: bs, c :: cs, h => by
    simp only [spill_files, List.map_cons, spill_file]
    rw [spill_files_name data tm bs cs (by simpa using h)]

theorem spill_files_content (data : Ptr → List Nat) (tm : Tm) :
    ∀ (bs cs : List Nat), bs.length = cs.length →
      (spill_files data tm bs cs).map File.content = bs.map (fun b => data (.buf b))
  | [], [], _ => rfl
  | [], _ :: _, h => by simp at h
  | _ :: _, [], h => by simp at h
  | b :: bs, c :: cs, h => by
    simp only [spill_files, List.map_cons, spill_file]
    rw [spill_files_content data tm bs cs (by simpa using h)]

theorem spill_files_length (data : Ptr → List Nat) (tm : Tm) :
    ∀ (bs cs : List Nat), bs.length = cs.length → (spill_files data tm bs cs).length = bs.length
  | [], [], _ => rfl
  | [], _ :: _, h => by simp at h
  | _ :: _, [], h => by simp at h
  | b :: bs, c :: cs, h => by
    simp only [spill_files, List.length_cons]
    rw [spill_files_length data tm bs cs (by simpa using h)]

theorem spill_events_put (dir : String) (tm : Tm) :
    ∀ (bs cs : List Nat), bs.length = cs.length →
      put_buffers (spill_events dir tm bs cs) = bufs bs
  | [], [], _ => rfl
  | [], _ :: _, h => by simp at h
  | _ :: _, [], h => by simp at h
  | b :: bs, c :: cs, h => by
    simp only [spill_events, put_buffers, bufs_cons]
    rw [spill_events_put dir tm bs cs (by simpa using h)]

theorem spill_names_nodup (tm : Tm) {cs : List Nat} (h : cs.Nodup) :
    (cs.map (fun c => String.mk (spill_name tm c))).Nodup := by
  refine List.Nodup.map ?_ h
  intro a b hab
  exact spill_name_injective (congrArg String.data hab)

theorem sorted_lt_nodup {cs : List Nat} (h : cs.Sorted (· < ·)) : cs.Nodup :=
  h.imp (fun hab => Nat.ne_of_lt hab)

theorem free_take_length {dir : String} {fs : List File} {tm : Tm} {n : Nat}
    (hfit : ∀ c < fs.length + n, Fits dir tm c) :
    ((free_counters dir fs tm (fs.length + n)).take n).length = n := by
  have := @free_counters_length dir fs tm (fs.length + n) hfit
  rw [List.length_take]
  omega

theorem spill_files_mem (data : Ptr → List Nat) (tm : Tm) :
    ∀ (bs cs : List Nat) (f : File), f ∈ spill_files data tm bs cs →
      ∃ b c, c ∈ cs ∧ f = spill_file tm c (data (.buf b))
  | [], _, f, h => by simp [spill_files] at h
  | _ :: _, [], f, h => by simp [spill_files] at h
  | b :: bs, c :: cs, f, h => by
    simp only [spill_files, List.mem_cons] at h
    rcases h with h | h
    · exact ⟨b, c, List.mem_cons_self _ _, h⟩
    · obtain ⟨b', c', hc', e⟩ := spill_files_mem data tm bs cs f h
      exact ⟨b', c', List.mem_cons_of_mem _ hc', e⟩

/-- C13: let the worker have left its loop (it is about to call
`save_buffers`) with the buffers `q` queued, the pool holding `p`, let every
save succeed, and let the paths of the counters below the number of directory
entries plus `q.length` be written without truncation, that number being
below 2^32. Then the step returns; the directory afterwards is the directory
before followed by `q.length` new regular files with pairwise distinct names,
none of which existed before, the i-th of them holding the payload of the
i-th buffer; exactly the buffers of `q` are put into the pool, in queue
order, so that the pool holds `q` reversed on top of `p`; and the queue is
empty with count 0. -/
theorem C13_shutdown_with_backlog (fuel : Nat) (o : Oracle) (s : Sender) (q p : List Nat)
    (os extra : List SaveOracle)
    (hinv : Inv s q [] p) (hpc : s.pc = Pc.exiting)
    (hsaves : o.saves = os ++ extra)
    (hok : List.Forall₂ (SaveOk s.mem.data) q os)
    (hfit : ∀ c < s.files.length + q.length, Fits s.directory (o.localtime s.current_time) c)
    (hwrap : s.files.length + q.length < UINT_MOD) :
    ∃ s' new, sender.run_step fuel o s = .ok s' ∧ s'.pc = Pc.done ∧
      s'.files = s.files ++ new ∧ new.length = q.length ∧
      (new.map File.name).Nodup ∧
      new.map File.content = q.map (fun b => s.mem.data (.buf b)) ∧
      (∀ f ∈ new, f.regular = true ∧
        fs_exists s.directory s.files (entry_path s.directory f.name) = false) ∧
      put_buffers s'.trace = put_buffers s.trace ++ bufs q ∧
      PoolRep s'.mem (q.reverse ++ p) ∧ QueueRep s'.mem [] ∧ s'.mem.count = 0 ∧
      s'.mem.data = s.mem.data := by
  obtain ⟨s1, e, hfiles, htrace, hp', hq', hcount, hdata, -⟩ :=
    save_buffers_all_ok o.localtime extra hinv.queue hinv.count hinv.pool
      (by simpa using hinv.nodup) hok hfit hwrap
  have hlen := @free_take_length s.directory s.files (o.localtime s.current_time) q.length hfit
  have hsorted : ((free_counters s.directory s.files (o.localtime s.current_time)
      (s.files.length + q.length)).take q.length).Sorted (· < ·) :=
    (free_counters_sorted _ _ _ _).sublist (List.take_sublist _ _)
  refine ⟨{ s1 with pc := Pc.done }, _, ?_, rfl, hfiles, ?_, ?_, ?_, ?_, ?_, hp', hq', hcount,
    hdata⟩
  · unfold sender.run_step
    rw [hpc]
    dsimp only
    rw [hsaves, e]
  · exact spill_files_length _ _ _ _ hlen.symm
  · rw [spill_files_name _ _ _ _ hlen.symm]
    exact spill_names_nodup _ (sorted_lt_nodup hsorted)
  · exact spill_files_content _ _ _ _ hlen.symm
  · intro f hf
    obtain ⟨b, c, hc, rfl⟩ := spill_files_mem _ _ _ _ f hf
    have hc' := mem_free_counters.1 (List.mem_of_mem_take hc)
    refine ⟨rfl, ?_⟩
    show fs_exists s.directory s.files (entry_path s.directory (String.mk (spill_name _ c)))
      = false
    rw [entry_path_spill (hfit c hc'.1)]
    exact hc'.2
  · show put_buffers s1.trace = _
    rw [htrace, put_buffers_append, spill_events_put _ _ _ _ hlen.symm]

theorem C13_shutdown_with_backlog_witness :
    ∃ s' new, sender.run_step 0 saving_oracle sample_sender_exiting = .ok s' ∧
      s'.pc = Pc.done ∧ s'.files = new ∧ new.length = 3 ∧
      new.map File.content = [[1], [2], [3]] ∧
      PoolRep s'.mem [3, 2, 1] ∧ QueueRep s'.mem [] ∧ s'.mem.count = 0 := by
  obtain ⟨s', new, h1, h2, h3, h4, -, h6, -, -, h9, h10, h11, -⟩ :=
    C13_shutdown_with_backlog 0 saving_oracle sample_sender_exiting [1, 2, 3] []
      [save_works, save_works, save_works] []
      ⟨by decide, rfl, by decide, by decide, by decide, rfl⟩ rfl rfl
      (List.Forall₂.cons ⟨rfl, [1], rfl⟩ (List.Forall₂.cons ⟨rfl, [2], rfl⟩
        (List.Forall₂.cons ⟨rfl, [3], rfl⟩ List.Forall₂.nil)))
      (by decide) (by decide)
  exact ⟨s', new, h1, h2, by simpa using h3, h4, h6, h9, h10, h11⟩

/-- A `buffer::save` to a path that does not exist leaves every entry of the
directory in place: the directory is unchanged, or one regular file is added
at the end. -/
theorem buffer_save_files {m : Mem} {p : Ptr} {dir : String} {fs fs' : List File}
    {path : String} {o : SaveOracle} {ok : Bool}
    (hfree : fs_exists dir fs path = false)
    (h : buffer.save m p dir fs path o = .ok (fs', ok)) :
    (ok = false ∧ fs' = fs) ∨
    (ok = true ∧ fs' = fs ++ [{ name := String.mk (path.data.drop (dir.data.length + 1)),
                                regular := true, content := m.data p }]) := by
  unfold buffer.save at h
  split at h
  · cases h
  · split at h
    · split at h
      · rename_i out hout
        have := buffer_save_loop_out (m.data p) o.writes 0 [] out (by simp) hout
        subst this
        injection h with h
        injection h with h1 h2
        right
        refine ⟨h2.symm, ?_⟩
        rw [← h1]
        unfold fs_write
        rw [fs_unlink_of_not_exists hfree]
      · injection h with h
        injection h with h1 h2
        left
        exact ⟨h2.symm, by rw [← h1, fs_unlink_of_not_exists hfree]⟩
      · cases h
    · injection h with h
      injection h with h1 h2
      left
      exact ⟨h2.symm, h1.symm⟩

theorem spill_paths_nodup {dir : String} {tm : Tm} {cs : List Nat} (h : cs.Nodup)
    (hfit : ∀ c ∈ cs, Fits dir tm c) : (cs.map (spill_path dir tm)).Nodup := by
  refine List.Nodup.map_on ?_ h
  intro a ha b hb hab
  exact spill_path_injective (hfit a ha) (hfit b hb) hab

theorem take_range_of_le {n k : Nat} (h : n ≤ k) : (List.range k).take n = List.range n := by
  rw [List.take_range, Nat.min_eq_left h]

theorem mem_take_of_sorted {l : List Nat} (hs : l.Sorted (· < ·)) {n c j : Nat}
    (hc : c ∈ l.take n) (hj : j ∈ l) (hlt : j < c) : j ∈ l.take n := by
  have hsplit : l.take n ++ l.drop n = l := List.take_append_drop n l
  rw [← hsplit] at hj hs
  rcases List.mem_append.1 hj with h | h
  · exact h
  · have := (List.pairwise_append.1 hs).2.2 c hc j h
    omega

/-- C14: let `c` be the smallest counter from `count` on whose path does not
exist in the directory (it is below 2^32 - 1). Then `save_buffer(buf, count)`
saves the buffer to the path of `c` and sets the count to `c + 1`, whatever
the outcome of the save; no entry of the directory is removed or replaced (the
directory is unchanged, or one regular file holding the payload is added).
Within one `save_buffers` call in which every save succeeds, the counter
starts at 0 and the buffers of the queue are saved, in queue order, under the
counters `cs`: these are strictly increasing, their paths and names are
pairwise distinct, none of their paths existed before, every smaller counter
that is not used has a path that existed before, the directory afterwards is
the directory before followed by the new files, and on an empty directory the
counters are `0, 1, ..., n - 1`. -/
theorem C14_filename_probe (lt : Int → Tm) (o : SaveOracle) (s : Sender) (buf : Ptr)
    (count c : Nat) (hle : count ≤ c) (hw : c + 1 < UINT_MOD)
    (htaken : ∀ j, count ≤ j → j < c →
      fs_exists s.directory s.files (spill_path s.directory (lt s.current_time) j) = true)
    (hfree : fs_exists s.directory s.files (spill_path s.directory (lt s.current_time) c)
      = false) :
    (sender.save_buffer lt o s buf count =
      match buffer.save s.mem buf s.directory s.files
          (spill_path s.directory (lt s.current_time) c) o with
      | .ok (fs, ok) =>
        .ok ({ s with files := fs,
                      trace := s.trace ++ [Event.save buf
                        (spill_path s.directory (lt s.current_time) c) ok] }, c + 1, ok)
      | .error e => .error e) ∧
    (∀ s' cnt ok, sender.save_buffer lt o s buf count = .ok (s', cnt, ok) →
      cnt = c + 1 ∧
      s'.trace = s.trace ++
        [Event.save buf (spill_path s.directory (lt s.current_time) c) ok] ∧
      ((ok = false ∧ s'.files = s.files) ∨
        (ok = true ∧ ∃ f, s'.files = s.files ++ [f] ∧ f.content = s.mem.data buf ∧
          f.regular = true))) ∧
    (∀ (s2 : Sender) (q p : List Nat) (os extra : List SaveOracle),
      QueueRep s2.mem q → s2.mem.count = q.length → PoolRep s2.mem p → (p ++ q).Nodup →
      List.Forall₂ (SaveOk s2.mem.data) q os →
      (∀ k < s2.files.length + q.length, Fits s2.directory (lt s2.current_time) k) →
      s2.files.length + q.length < UINT_MOD →
      ∃ s' cs, sender.save_buffers lt (os ++ extra) s2 = .ok (s', true) ∧
        cs.length = q.length ∧ cs.Sorted (· < ·) ∧
        s'.trace = s2.trace ++ spill_events s2.directory (lt s2.current_time) q cs ∧
        s'.files = s2.files ++ spill_files s2.mem.data (lt s2.current_time) q cs ∧
        (cs.map (spill_path s2.directory (lt s2.current_time))).Nodup ∧
        (cs.map (fun k => String.mk (spill_name (lt s2.current_time) k))).Nodup ∧
        (∀ k ∈ cs, fs_exists s2.directory s2.files
          (spill_path s2.directory (lt s2.current_time) k) = false) ∧
        (∀ k ∈ cs, ∀ j < k, j ∉ cs → fs_exists s2.directory s2.files
          (spill_path s2.directory (lt s2.current_time) j) = true) ∧
        (s2.files = [] → cs = List.range q.length)) := by
  have hA := save_buffer_probe lt o s buf hle hw htaken hfree
  refine ⟨hA, ?_, ?_⟩
  · intro s' cnt ok h
    rw [hA] at h
    cases hsave : buffer.save s.mem buf s.directory s.files
        (spill_path s.directory (lt s.current_time) c) o with
    | error e =>
      rw [hsave] at h
      cases h
    | ok r =>
      obtain ⟨fs', ok'⟩ := r
      rw [hsave] at h
      injection h with h
      injection h with h1 h2
      injection h2 with h2 h3
      subst h1 h2 h3
      refine ⟨rfl, rfl, ?_⟩
      rcases buffer_save_files hfree hsave with ⟨e1, e2⟩ | ⟨e1, e2⟩
      · left; exact ⟨e1, e2⟩
      · right; exact ⟨e1, _, e2, rfl, rfl⟩
  · intro s2 q p os extra hq hcount hpool hnd hok hfit hwrap
    obtain ⟨s1, e, hfiles, htrace, -⟩ :=
      save_buffers_all_ok lt extra hq hcount hpool hnd hok hfit hwrap
    have hlen := @free_take_length s2.directory s2.files (lt s2.current_time) q.length hfit
    have hsortedF := free_counters_sorted s2.directory s2.files (lt s2.current_time)
      (s2.files.length + q.length)
    have hsorted : ((free_counters s2.directory s2.files (lt s2.current_time)
        (s2.files.length + q.length)).take q.length).Sorted (· < ·) :=
      hsortedF.sublist (List.take_sublist _ _)
    refine ⟨s1, _, e, hlen, hsorted, htrace, hfiles, ?_, ?_, ?_, ?_, ?_⟩
    · refine spill_paths_nodup (sorted_lt_nodup hsorted) ?_
      intro k hk
      exact hfit k (mem_free_counters.1 (List.mem_of_mem_take hk)).1
    · exact spill_names_nodup _ (sorted_lt_nodup hsorted)
    · intro k hk
      exact (mem_free_counters.1 (List.mem_of_mem_take hk)).2
    · intro k hk j hj hnot
      have hkN := (mem_free_counters.1 (List.mem_of_mem_take hk)).1
      cases hex : fs_exists s2.directory s2.files
          (spill_path s2.directory (lt s2.current_time) j) with
      | true => rfl
      | false =>
        exact absurd (mem_take_of_sorted hsortedF hk
          (mem_free_counters.2 ⟨by omega, hex⟩) hj) hnot
    · intro hempty
      rw [hempty, free_counters_empty]
      exact take_range_of_le (by simp)

theorem C14_filename_probe_witness :
    ∃ s', sender.save_buffer sample_oracle.localtime save_works sample_sender_spilled
        (.buf 1) 0 = .ok (s', 2, true) ∧
      s'.files = [spill_file (sample_oracle.localtime 0) 0 [9],
        spill_file (sample_oracle.localtime 0) 1 [1]] := by
  have h := (C14_filename_probe sample_oracle.localtime save_works sample_sender_spilled
    (.buf 1) 0 1 (by decide) (by decide)
    (by
      intro j _ hj
      have : j = 0 := by omega
      subst this
      decide)
    (by decide)).1
  rw [h]
  exact ⟨_, rfl, by decide⟩

/-- C21: `sender::connect()` when the transport reports connected returns
true and changes nothing: the variant's connect is not invoked (no event) and
`_M_last_socket_operation` keeps its value. When the transport is not
connected it sets `_M_last_socket_operation` to `_M_current_time`, invokes the
variant's connect exactly once (one `connect` event) and returns its result,
which is also whether the transport is connected afterwards. A second call
after a successful one returns true and changes nothing. -/
theorem C21_connect_idempotent_lazy (connect_ok : Bool) (s : Sender) :
    (s.connected = true → sender.connect connect_ok s = (s, true)) ∧
    (s.connected = false →
      (sender.connect connect_ok s).2 = connect_ok ∧
      (sender.connect connect_ok s).1.last_socket_operation = s.current_time ∧
      (sender.connect connect_ok s).1.trace = s.trace ++ [Event.connect connect_ok] ∧
      (sender.connect connect_ok s).1.connected = connect_ok ∧
      (sender.connect connect_ok s).1.mem = s.mem ∧
      (sender.connect connect_ok s).1.state = s.state ∧
      (sender.connect connect_ok s).1.files = s.files ∧
      (sender.connect connect_ok s).1.current_time = s.current_time) ∧
    (∀ ok2 : Bool, (sender.connect connect_ok s).2 = true →
      sender.connect ok2 (sender.connect connect_ok s).1
        = ((sender.connect connect_ok s).1, true)) := by
  refine ⟨?_, ?_, ?_⟩
  · intro h
    simp [sender.connect, sender.connected, h]
  · intro h
    simp [sender.connect, sender.connected, h]
  · intro ok2 h
    have hc := (connect_result connect_ok s).2
    rw [← (connect_result connect_ok s).1, h] at hc
    generalize sender.connect connect_ok s = r at hc
    unfold sender.connect sender.connected
    rw [if_pos hc]

theorem run_body_empty (o : Oracle) (s : Sender)
    (hst : s.state = State.sending_queued_buffers) (hq : QueueRep s.mem []) :
    sender.run_body o s =
      if (s.connected && decide (s.current_time - s.last_socket_operation ≥ 60)) = true then
        sender.end_iteration (sender.disconnect s)
      else sender.end_iteration s := by
  unfold sender.run_body
  rw [if_pos hst, pop_timed_eq, hq.pop_nil]
  simp only [gt_iff_lt, Nat.lt_irrefl, if_false, sender.connected, sender.idle_timeout]

/-- C22: a round of the worker in state `sending_queued_buffers` (at the
head of the loop, `error_sending` false) on an empty queue: the timed drain
returns no buffers and the round ends in this step. The worker disconnects,
the `disconnect` being the only event, exactly when the transport is connected
and `current_time - last_socket_operation >= 60`; otherwise no event happens
at all and the connection is as before. In both cases the memory (queue and
pool), the directory, the state and the time of the last socket operation are
unchanged and `error_sending` stays false. -/
theorem C22_idle_close (fuel : Nat) (o : Oracle) (s : Sender)
    (hpc : s.pc = Pc.top) (herr : s.error_sending = false)
    (hst : s.state = State.sending_queued_buffers) (hq : QueueRep s.mem []) :
    ∃ s' ev, sender.run_step fuel o s = .ok s' ∧ s'.trace = s.trace ++ ev ∧
      (Event.disconnect ∈ ev ↔ (s.connected = true ∧ o.now - s.last_socket_operation ≥ 60)) ∧
      ((s.connected = true ∧ o.now - s.last_socket_operation ≥ 60) →
        ev = [Event.disconnect] ∧ s'.connected = false) ∧
      (¬ (s.connected = true ∧ o.now - s.last_socket_operation ≥ 60) →
        ev = [] ∧ s'.connected = s.connected) ∧
      s'.mem = s.mem ∧ s'.files = s.files ∧ s'.state = s.state ∧
      s'.last_socket_operation = s.last_socket_operation ∧ s'.error_sending = false ∧
      s'.current_time = o.now ∧ (s'.pc = Pc.top ∨ s'.pc = Pc.exiting) := by
  have e := run_step_top hpc fuel o
  rw [if_neg (by simp [herr])] at e
  rw [run_body_empty o { s with current_time := o.now } hst hq] at e
  have hend : ∀ x : Sender, (sender.end_iteration x).pc = Pc.top ∨
      (sender.end_iteration x).pc = Pc.exiting := by
    intro x
    unfold sender.end_iteration
    split
    · left; rfl
    · right; rfl
  by_cases hidle : s.connected = true ∧ o.now - s.last_socket_operation ≥ 60
  · rw [if_pos (by simp [hidle.1, hidle.2])] at e
    refine ⟨_, [Event.disconnect], e, by simp, by simp [hidle], fun _ => ⟨rfl, by simp⟩,
      fun h => absurd hidle h, by simp, by simp, by simp, by simp, by simp [herr], by simp,
      hend _⟩
  · rw [if_neg (by simpa using hidle)] at e
    refine ⟨_, [], e, by simp, by simp [hidle], fun h => absurd h hidle,
      fun _ => ⟨rfl, by simp⟩, by simp, by simp, by simp, by simp, by simp [herr], by simp,
      hend _⟩

theorem C22_idle_close_witness :
    ∃ s' ev, sender.run_step 0 { sample_oracle with now := 100 }
        { sample_sender with connected := true } = .ok s' ∧
      s'.trace = ev ∧ ev = [Event.disconnect] ∧ s'.connected = false := by
  obtain ⟨s', ev, h1, h2, -, h4, -⟩ :=
    C22_idle_close 0 { sample_oracle with now := 100 } { sample_sender with connected := true }
      rfl rfl rfl (by decide)
  have h := h4 ⟨rfl, by decide⟩
  exact ⟨s', ev, h1, by simpa using h2, h.1, h.2⟩

open socket

theorem digit_iff (c : Char) : ('0' ≤ c ∧ c ≤ '9') ↔ c.isDigit = true := by
  simp only [Char.isDigit, Bool.and_eq_true, decide_eq_true_eq]
  constructor
  · rintro ⟨h1, h2⟩
    exact ⟨h1, h2⟩
  · rintro ⟨h1, h2⟩
    exact ⟨h1, h2⟩

theorem read_dec_foldl_ge (s : List Char) : ∀ a : Nat,
    a ≤ s.foldl (fun a c => 10 * a + (c.toNat - 48)) a := by
  induction s with
  | nil => intro a; exact Nat.le_refl _
  | cons c cs ih =>
    intro a
    simp only [List.foldl_cons]
    exact Nat.le_trans (by omega) (ih _)

theorem zero_toNat : '0'.toNat = 48 := by decide

/-- The loop of `parse_port` from an accumulator of at most 65535: it ends
normally exactly on a string of digits whose value, read on top of the
accumulator, is at most 65535, and then gives that value. -/
theorem parse_port_loop_eq : ∀ (s : List Char) (n : Nat), n ≤ 65535 →
    parse_port_loop s n =
      if (∀ c ∈ s, c.isDigit = true) ∧
          s.foldl (fun a c => 10 * a + (c.toNat - 48)) n ≤ 65535 then
        some (s.foldl (fun a c => 10 * a + (c.toNat - 48)) n)
      else none
  | [], n, hn => by simp [parse_port_loop, hn]
  | c :: cs, n, hn => by
    unfold parse_port_loop
    by_cases hd : '0' ≤ c ∧ c ≤ '9'
    · have hdig : c.isDigit = true := (digit_iff c).1 hd
      have hc9 : c.toNat - 48 ≤ 9 := by
        have h2 : c.toNat ≤ '9'.toNat := hd.2
        have : '9'.toNat = 57 := by decide
        omega
      have hmod : (n * 10 + (c.toNat - '0'.toNat)) % UINT_MOD = 10 * n + (c.toNat - 48) := by
        rw [zero_toNat, Nat.mod_eq_of_lt (by unfold UINT_MOD; omega)]
        omega
      rw [if_pos hd]
      simp only [hmod, List.foldl_cons]
      by_cases hle : 10 * n + (c.toNat - 48) ≤ 65535
      · rw [if_pos hle, parse_port_loop_eq cs _ hle]
        simp only [List.mem_cons, forall_eq_or_imp, hdig, true_and]
      · rw [if_neg hle, if_neg]
        rintro ⟨-, h⟩
        exact hle (Nat.le_trans (read_dec_foldl_ge cs _) h)
    · rw [if_neg hd, if_neg]
      rintro ⟨h, -⟩
      exact hd ((digit_iff c).2 (h c (List.mem_cons_self _ _)))

/-- `parse_port` succeeds exactly on a string of digits whose value is in
1..65535, with that value. -/
theorem parse_port_some_iff (s : List Char) (p : Nat) :
    parse_port s = some p ↔
      (s ≠ [] ∧ (∀ c ∈ s, c.isDigit = true) ∧ 1 ≤ read_dec s ∧ read_dec s ≤ 65535 ∧
        p = read_dec s) := by
  have hloop := parse_port_loop_eq s 0 (by omega)
  have hrd : s.foldl (fun a c => 10 * a + (c.toNat - 48)) 0 = read_dec s := rfl
  rw [hrd] at hloop
  have hne : 1 ≤ read_dec s → s ≠ [] := by
    intro h e
    subst e
    simp [read_dec] at h
  unfold parse_port
  rw [hloop]
  by_cases hc : (∀ c ∈ s, c.isDigit = true) ∧ read_dec s ≤ 65535
  · rw [if_pos hc]
    dsimp only
    by_cases hpos : read_dec s > 0
    · rw [if_pos hpos, Nat.mod_eq_of_lt (by omega)]
      constructor
      · intro h
        injection h with h
        exact ⟨hne hpos, hc.1, hpos, hc.2, h.symm⟩
      · rintro ⟨-, -, -, -, h⟩
        rw [h]
    · rw [if_neg hpos]
      constructor
      · intro h; cases h
      · rintro ⟨-, -, h, -, -⟩
        omega
  · rw [if_neg hc]
    dsimp only
    constructor
    · intro h; cases h
    · rintro ⟨-, h1, -, h2, -⟩
      exact absurd ⟨h1, h2⟩ hc

/-- C24: `parse_port(s, port)` returns true exactly when `s` is a non-empty
string of the decimal digits `0` to `9` whose value is in 1..65535 (leading
zeros allowed), and `port` is then that value; otherwise it returns false and
does not write `port`. At every head of the loop (after any number of
characters) the accumulator is at most 65535, so the next value
`n * 10 + digit` is at most 655359 and the `unsigned` arithmetic does not
wrap. -/
theorem C24_parse_port (s : List Char) :
    (∀ p, parse_port s = some p ↔
      (s ≠ [] ∧ (∀ c ∈ s, c.isDigit = true) ∧ 1 ≤ read_dec s ∧ read_dec s ≤ 65535 ∧
        p = read_dec s)) ∧
    (parse_port s = none ↔
      ¬ (s ≠ [] ∧ (∀ c ∈ s, c.isDigit = true) ∧ 1 ≤ read_dec s ∧ read_dec s ≤ 65535)) ∧
    (∀ k n, parse_port_loop (s.take k) 0 = some n →
      n ≤ 65535 ∧ ∀ c : Char, ('0' ≤ c ∧ c ≤ '9') →
        n * 10 + (c.toNat - '0'.toNat) ≤ 655359 ∧
        n * 10 + (c.toNat - '0'.toNat) < UINT_MOD) := by
  have hmain := parse_port_some_iff s
  refine ⟨hmain, ?_, ?_⟩
  · constructor
    · intro h hc
      have := (hmain (read_dec s)).2 ⟨hc.1, hc.2.1, hc.2.2.1, hc.2.2.2, rfl⟩
      rw [h] at this
      cases this
    · intro h
      cases hp : parse_port s with
      | none => rfl
      | some p =>
        have := (hmain p).1 hp
        exact absurd ⟨this.1, this.2.1, this.2.2.1, this.2.2.2.1⟩ h
  · intro k n h
    rw [parse_port_loop_eq _ 0 (by omega)] at h
    split at h
    · rename_i hc
      injection h with h
      rw [h] at hc
      refine ⟨hc.2, ?_⟩
      intro c hd
      have h2 : c.toNat ≤ '9'.toNat := hd.2
      have h9 : '9'.toNat = 57 := by decide
      rw [zero_toNat]
      unfold UINT_MOD
      omega
    · cases h

open socket

theorem last_colon_loop_none : ∀ (s : List Char) (i : Nat) (colon : Option Nat),
    ':' ∉ s → last_colon_loop s i colon = colon
  | [], _, _, _ => rfl
  | c :: cs, i, colon, h => by
    simp only [List.mem_cons, not_or] at h
    unfold last_colon_loop
    rw [if_neg (fun e => h.1 e.symm)]
    exact last_colon_loop_none cs (i + 1) colon h.2

theorem last_colon_loop_split : ∀ (pre post : List Char) (i : Nat) (colon : Option Nat),
    ':' ∉ post → last_colon_loop (pre ++ ':' :: post) i colon = some (i + pre.length)
  | [], post, i, colon, h => by
    simp only [List.nil_append, List.length_nil, Nat.add_zero]
    unfold last_colon_loop
    rw [if_pos rfl]
    exact last_colon_loop_none post (i + 1) _ h
  | c :: pre, post, i, colon, h => by
    simp only [List.cons_append, List.length_cons]
    unfold last_colon_loop
    rw [last_colon_loop_split pre post (i + 1) _ h]
    congr 1
    omega

theorem exists_last_colon : ∀ s : List Char,
    ':' ∉ s ∨ ∃ pre post, s = pre ++ ':' :: post ∧ ':' ∉ post
  | [] => Or.inl (by simp)
  | c :: cs => by
    rcases exists_last_colon cs with h | ⟨pre, post, e, h⟩
    · by_cases hc : c = ':'
      · right
        exact ⟨[], cs, by simp [hc], h⟩
      · left
        simp only [List.mem_cons, not_or]
        exact ⟨fun e => hc e.symm, h⟩
    · right
      exact ⟨c :: pre, post, by simp [e], h⟩

theorem drop_one_take_eq (pre rest : List Char) (h : 2 ≤ pre.length) :
    ((pre ++ rest).drop 1).take (pre.length - 2) = (pre.drop 1).dropLast := by
  cases pre with
  | nil => simp at h
  | cons a t =>
    simp only [List.cons_append, List.drop_succ_cons, List.drop_zero, List.length_cons]
    rw [List.dropLast_eq_take, List.take_append_of_le_length (by omega)]
    congr 1

/-- `extract_ip_port` on an input split at its last colon. -/
theorem extract_ip_port_split (pre post : List Char) (h : ':' ∉ post) :
    extract_ip_port (pre ++ ':' :: post) =
      if pre.length > 0 then
        if pre.head? = some '[' then
          if pre.length > 2 ∧ pre.getLast? = some ']' then
            if pre.length - 2 < INET6_ADDRSTRLEN then
              (parse_port post).map (fun port => ((pre.drop 1).dropLast, port))
            else none
          else none
        else
          if pre.length < INET6_ADDRSTRLEN then (parse_port post).map (fun port => (pre, port))
          else none
      else none := by
  unfold extract_ip_port
  rw [last_colon_loop_split pre post 0 none h, Nat.zero_add]
  dsimp only
  by_cases hpos : pre.length > 0
  · rw [if_pos hpos, if_pos hpos]
    have hne : pre ≠ [] := by
      intro e; subst e; simp at hpos
    have hhead : (pre ++ ':' :: post).head? = pre.head? := by
      cases pre with
      | nil => exact absurd rfl hne
      | cons a t => rfl
    have hlast : (pre ++ ':' :: post).get? (pre.length - 1) = pre.getLast? := by
      rw [List.get?_eq_getElem?, List.getElem?_append_left (by omega),
        List.getLast?_eq_getElem?]
    have hdrop : (pre ++ ':' :: post).drop (pre.length + 1) = post := by
      rw [List.drop_append_eq_append_drop]
      simp
    rw [hhead, hlast, hdrop]
    by_cases hb : pre.head? = some '['
    · rw [if_pos hb, if_pos hb]
      by_cases hc : pre.length > 2 ∧ pre.getLast? = some ']'
      · rw [if_pos hc, if_pos hc]
        dsimp only
        by_cases hl : pre.length - 2 < INET6_ADDRSTRLEN
        · rw [if_pos hl, if_pos hl, drop_one_take_eq pre _ (by omega)]
          cases parse_port post <;> rfl
        · rw [if_neg hl, if_neg hl]
      · rw [if_neg hc, if_neg hc]
    · rw [if_neg hb, if_neg hb]
      dsimp only
      by_cases hl : pre.length < INET6_ADDRSTRLEN
      · rw [if_pos hl, if_pos hl, List.take_left' rfl]
        cases parse_port post <;> rfl
      · rw [if_neg hl, if_neg hl]
  · rw [if_neg hpos, if_neg hpos]

theorem extract_ip_port_no_colon (address : List Char) (h : ':' ∉ address) :
    extract_ip_port address = none := by
  unfold extract_ip_port
  rw [last_colon_loop_none address 0 none h]

open socket

/-- C28: `extract_ip_port(address, ip, port)` succeeds exactly when the input
has a last colon at an index greater than 0 (it is `pre ++ ":" ++ post` with
no colon in `post` and `pre` not empty), `post` is a valid port, and `pre`
either does not start with `[`, the host being `pre`, or is longer than 2
characters and ends with `]`, the host being `pre` without its first and last
character; and the host is shorter than `INET6_ADDRSTRLEN` = 46. On success
`ip` is the host and `port` the value of `post`, so with the terminating zero
at most 46 bytes are written to `ip` and the port is in 1..65535; otherwise
nothing is written. An input without a colon fails. The samples:
`[::1]:443`, `127.0.0.1:80`, `/var/run/x.sock`. -/
theorem C28_extract_ip_port (address : List Char) :
    (∀ ip port, extract_ip_port address = some (ip, port) ↔
      ∃ pre post, address = pre ++ ':' :: post ∧ ':' ∉ post ∧ pre.length > 0 ∧
        parse_port post = some port ∧
        ((pre.head? ≠ some '[' ∧ ip = pre) ∨
          (pre.head? = some '[' ∧ pre.length > 2 ∧ pre.getLast? = some ']' ∧
            ip = (pre.drop 1).dropLast)) ∧
        ip.length < 46) ∧
    (∀ ip port, extract_ip_port address = some (ip, port) →
      ip.length + 1 ≤ INET6_ADDRSTRLEN ∧ 1 ≤ port ∧ port ≤ 65535) ∧
    (':' ∉ address → extract_ip_port address = none) ∧
    extract_ip_port "[::1]:443".data = some ("::1".data, 443) ∧
    extract_ip_port "127.0.0.1:80".data = some ("127.0.0.1".data, 80) ∧
    extract_ip_port "/var/run/x.sock".data = none := by
  have hkey : ∀ (pre post : List Char), ':' ∉ post → ∀ ip port,
      (extract_ip_port (pre ++ ':' :: post) = some (ip, port) ↔
        (pre.length > 0 ∧ parse_port post = some port ∧
          ((pre.head? ≠ some '[' ∧ ip = pre) ∨
            (pre.head? = some '[' ∧ pre.length > 2 ∧ pre.getLast? = some ']' ∧
              ip = (pre.drop 1).dropLast)) ∧
          ip.length < 46)) := by
    intro pre post hpost ip port
    rw [extract_ip_port_split pre post hpost]
    have hdl : pre.length > 2 → ((pre.drop 1).dropLast).length = pre.length - 2 := by
      intro h
      simp only [List.length_dropLast, List.length_drop]
      omega
    by_cases hpos : pre.length > 0
    · rw [if_pos hpos]
      by_cases hb : pre.head? = some '['
      · rw [if_pos hb]
        by_cases hc : pre.length > 2 ∧ pre.getLast? = some ']'
        · rw [if_pos hc]
          by_cases hl : pre.length - 2 < INET6_ADDRSTRLEN
          · rw [if_pos hl]
            cases hp : parse_port post with
            | none =>
              simp only [Option.map_none']
              constructor
              · intro h; cases h
              · rintro ⟨-, h, -⟩; cases h
            | some p =>
              simp only [Option.map_some', Option.some.injEq, Prod.mk.injEq]
              constructor
              · rintro ⟨h1, h2⟩
                subst h1 h2
                exact ⟨hpos, rfl, Or.inr ⟨hb, hc.1, hc.2, rfl⟩, by
                  rw [hdl hc.1]; exact hl⟩
              · rintro ⟨-, h2, h3, -⟩
                rcases h3 with ⟨h3, -⟩ | ⟨-, -, -, h3⟩
                · exact absurd hb h3
                · exact ⟨h3.symm, h2⟩
          · rw [if_neg hl]
            constructor
            · intro h; cases h
            · rintro ⟨-, -, h3, h4⟩
              rcases h3 with ⟨h3, -⟩ | ⟨-, -, -, h3⟩
              · exact absurd hb h3
              · rw [h3, hdl hc.1] at h4
                exact absurd h4 hl
        · rw [if_neg hc]
          constructor
          · intro h; cases h
          · rintro ⟨-, -, h3, -⟩
            rcases h3 with ⟨h3, -⟩ | ⟨-, h4, h5, -⟩
            · exact absurd hb h3
            · exact absurd ⟨h4, h5⟩ hc
      · rw [if_neg hb]
        by_cases hl : pre.length < INET6_ADDRSTRLEN
        · rw [if_pos hl]
          cases hp : parse_port post with
          | none =>
            simp only [Option.map_none']
            constructor
            · intro h; cases h
            · rintro ⟨-, h, -⟩; cases h
          | some p =>
            simp only [Option.map_some', Option.some.injEq, Prod.mk.injEq]
            constructor
            · rintro ⟨h1, h2⟩
              subst h1 h2
              exact ⟨hpos, rfl, Or.inl ⟨hb, rfl⟩, hl⟩
            · rintro ⟨-, h2, h3, -⟩
              rcases h3 with ⟨-, h3⟩ | ⟨h3, -⟩
              · exact ⟨h3.symm, h2⟩
              · exact absurd h3 hb
        · rw [if_neg hl]
          constructor
          · intro h; cases h
          · rintro ⟨-, -, h3, h4⟩
            rcases h3 with ⟨-, h3⟩ | ⟨h3, -⟩
            · rw [h3] at h4
              exact absurd h4 hl
            · exact absurd h3 hb
    · rw [if_neg hpos]
      constructor
      · intro h; cases h
      · rintro ⟨h, -⟩
        exact absurd h hpos
  have hiff : ∀ ip port, extract_ip_port address = some (ip, port) ↔
      ∃ pre post, address = pre ++ ':' :: post ∧ ':' ∉ post ∧ pre.length > 0 ∧
        parse_port post = some port ∧
        ((pre.head? ≠ some '[' ∧ ip = pre) ∨
          (pre.head? = some '[' ∧ pre.length > 2 ∧ pre.getLast? = some ']' ∧
            ip = (pre.drop 1).dropLast)) ∧
        ip.length < 46 := by
    intro ip port
    constructor
    · intro h
      rcases exists_last_colon address with hno | ⟨pre, post, e, hpost⟩
      · rw [extract_ip_port_no_colon address hno] at h
        cases h
      · rw [e] at h
        obtain ⟨h1, h2, h3, h4⟩ := (hkey pre post hpost ip port).1 h
        exact ⟨pre, post, e, hpost, h1, h2, h3, h4⟩
    · rintro ⟨pre, post, e, hpost, h1, h2, h3, h4⟩
      rw [e]
      exact (hkey pre post hpost ip port).2 ⟨h1, h2, h3, h4⟩
  refine ⟨hiff, ?_, extract_ip_port_no_colon address, by decide, by decide, by decide⟩
  intro ip port h
  obtain ⟨pre, post, -, -, -, hp, -, hlen⟩ := (hiff ip port).1 h
  obtain ⟨-, -, h1, h2, h3⟩ := (parse_port_some_iff post port).1 hp
  unfold INET6_ADDRSTRLEN
  omega

open socket

theorem parse_port_none_iff (s : List Char) :
    parse_port s = none ↔
      ¬ (s ≠ [] ∧ (∀ c ∈ s, c.isDigit = true) ∧ 1 ≤ read_dec s ∧ read_dec s ≤ 65535) := by
  constructor
  · intro h hc
    have := (parse_port_some_iff s (read_dec s)).2 ⟨hc.1, hc.2.1, hc.2.2.1, hc.2.2.2, rfl⟩
    rw [h] at this
    cases this
  · intro h
    cases hp : parse_port s with
    | none => rfl
    | some p =>
      have := (parse_port_some_iff s p).1 hp
      exact absurd ⟨this.1, this.2.1, this.2.2.1, this.2.2.2.1⟩ h

theorem extract_ip_port_bad_port (pre post : List Char) (hlast : ':' ∉ post)
    (hport : parse_port post = none) : extract_ip_port (pre ++ ':' :: post) = none := by
  rw [extract_ip_port_split pre post hlast, hport]
  simp

/-- `build(const char*)` when the splitting into host and port fails: the
input is taken as a local path. -/
theorem build_of_extract_none (pton4 pton6 : List Char → Bool) (input : List Char)
    (h : extract_ip_port input = none) :
    address.build pton4 pton6 input =
      if input.length > 0 ∧ input.length < SUN_PATH_SIZE then
        some (Addr.unix (input ++
          List.replicate (SUN_PATH_SIZE - input.length) (Char.ofNat 0)))
      else none := by
  unfold address.build
  rw [h]

/-- C23 (amended): when the text after the last colon of the input is not a
decimal port in 1..65535, the splitting `extract_ip_port` fails, and so do
`ipv4::build(const char*)` and `ipv6::build(const char*)`; but
`socket::address::build(const char*)` then takes the whole input as a local
(`AF_UNIX`) path: it returns true, storing the input followed by zero bytes,
exactly when the input has at most 107 characters. -/
theorem C23_bad_port_is_local_path (pton4 pton6 : List Char → Bool)
    (input pre post : List Char)
    (hsplit : input = pre ++ ':' :: post) (hlast : ':' ∉ post)
    (hport : ¬ (post ≠ [] ∧ (∀ c ∈ post, c.isDigit = true) ∧ 1 ≤ read_dec post ∧
      read_dec post ≤ 65535)) :
    extract_ip_port input = none ∧
    address.ipv4_build pton4 input = none ∧
    address.ipv6_build pton6 input = none ∧
    (input.length ≤ 107 →
      address.build pton4 pton6 input =
        some (Addr.unix (input ++ List.replicate (108 - input.length) (Char.ofNat 0)))) ∧
    (107 < input.length → address.build pton4 pton6 input = none) ∧
    ((address.build pton4 pton6 input).isSome = true ↔ input.length ≤ 107) := by
  have hp := (parse_port_none_iff post).2 hport
  have he : extract_ip_port input = none := by
    rw [hsplit]; exact extract_ip_port_bad_port pre post hlast hp
  have hlen : input.length > 0 := by rw [hsplit]; simp
  have hb := build_of_extract_none pton4 pton6 input he
  refine ⟨he, ?_, ?_, ?_, ?_, ?_⟩
  · unfold address.ipv4_build; rw [he]
  · unfold address.ipv6_build; rw [he]
  · intro h
    rw [hb, if_pos ⟨hlen, by unfold SUN_PATH_SIZE; omega⟩]
    rfl
  · intro h
    rw [hb, if_neg (by unfold SUN_PATH_SIZE; omega)]
  · rw [hb]
    by_cases h : input.length ≤ 107
    · rw [if_pos ⟨hlen, by unfold SUN_PATH_SIZE; omega⟩]
      simp [h]
    · rw [if_neg (by unfold SUN_PATH_SIZE; omega)]
      simp [h]

theorem C23_bad_port_is_local_path_witness :
    extract_ip_port "host:0".data = none ∧
    address.build sample_pton4 sample_pton6 "host:0".data =
      some (Addr.unix ("host:0".data ++ List.replicate 102 (Char.ofNat 0))) := by
  have h := C23_bad_port_is_local_path sample_pton4 sample_pton6 "host:0".data "host".data
    "0".data rfl (by decide) (by decide)
  exact ⟨h.1, h.2.2.2.1 (by decide)⟩

/-- The inputs `[::1]:99999` and `host:0` are not rejected by
`socket::address::build(const char*)`: it returns true and stores them as local
paths. -/
theorem C23_counterexample :
    address.build sample_pton4 sample_pton6 "[::1]:99999".data =
      some (Addr.unix ("[::1]:99999".data ++ List.replicate 97 (Char.ofNat 0))) ∧
    address.build sample_pton4 sample_pton6 "host:0".data =
      some (Addr.unix ("host:0".data ++ List.replicate 102 (Char.ofNat 0))) := by
  constructor <;> decide

/-- C25 (amended): `socket::address::build(const char*)` falls back to a
local path exactly when the splitting `extract_ip_port` fails: it then accepts
the input if and only if its length is between 1 and 107, storing in the 108
bytes of `sun_path` the input followed by zero bytes. When the splitting
succeeds, the result is that of `build(ip, port)`: an input whose host is not
an IPv4 or IPv6 literal is rejected, there is no fallback. -/
theorem C25_local_path_fallback (pton4 pton6 : List Char → Bool) (input : List Char) :
    (extract_ip_port input = none →
      ((address.build pton4 pton6 input).isSome = true ↔
        (1 ≤ input.length ∧ input.length ≤ SUN_PATH_SIZE - 1)) ∧
      ((1 ≤ input.length ∧ input.length ≤ SUN_PATH_SIZE - 1) →
        ∃ sun_path, address.build pton4 pton6 input = some (Addr.unix sun_path) ∧
          sun_path.length = SUN_PATH_SIZE ∧ sun_path.take input.length = input ∧
          ∀ c ∈ sun_path.drop input.length, c = Char.ofNat 0)) ∧
    (∀ ip port, extract_ip_port input = some (ip, port) →
      address.build pton4 pton6 input = address.build_ip_port pton4 pton6 ip port ∧
      (pton4 ip = false → pton6 ip = false → address.build pton4 pton6 input = none) ∧
      (pton4 ip = true → address.build pton4 pton6 input = some (Addr.inet ip port)) ∧
      (pton4 ip = false → pton6 ip = true →
        address.build pton4 pton6 input = some (Addr.inet6 ip port))) := by
  constructor
  · intro he
    have hb := build_of_extract_none pton4 pton6 input he
    constructor
    · rw [hb]
      by_cases h : input.length > 0 ∧ input.length < SUN_PATH_SIZE
      · rw [if_pos h]
        simp only [Option.isSome_some, true_iff]
        unfold SUN_PATH_SIZE at h ⊢
        omega
      · rw [if_neg h]
        simp only [Option.isSome_none, Bool.false_eq_true, false_iff]
        unfold SUN_PATH_SIZE at h ⊢
        omega
    · intro h
      have h' : input.length > 0 ∧ input.length < SUN_PATH_SIZE := by
        unfold SUN_PATH_SIZE at h ⊢
        omega
      rw [hb, if_pos h']
      refine ⟨_, rfl, ?_, ?_, ?_⟩
      · simp only [List.length_append, List.length_replicate]
        omega
      · exact List.take_left' rfl
      · intro c hc
        rw [List.drop_left' rfl] at hc
        exact (List.mem_replicate.1 hc).2
  · intro ip port he
    have hb : address.build pton4 pton6 input = address.build_ip_port pton4 pton6 ip port := by
      unfold address.build
      rw [he]
    refine ⟨hb, ?_, ?_, ?_⟩
    · intro h4 h6
      rw [hb]
      simp [address.build_ip_port, h4, h6]
    · intro h4
      rw [hb]
      simp [address.build_ip_port, h4]
    · intro h4 h6
      rw [hb]
      simp [address.build_ip_port, h4, h6]

theorem C25_local_path_fallback_witness :
    extract_ip_port "/var/run/x.sock".data = none ∧
    (address.build sample_pton4 sample_pton6 "/var/run/x.sock".data).isSome = true :=
  ⟨by decide,
    ((C25_local_path_fallback sample_pton4 sample_pton6 "/var/run/x.sock".data).1
      (by decide)).1.2 (by decide)⟩

/-- The inputs `host:80` and `/run/x:1` split into a host and a port, the
host is not an IP literal, and `build` returns false although their lengths
are between 1 and 107. -/
theorem C25_counterexample :
    sample_pton4 "host".data = false ∧ sample_pton6 "host".data = false ∧
    1 ≤ "host:80".data.length ∧ "host:80".data.length ≤ SUN_PATH_SIZE - 1 ∧
    address.build sample_pton4 sample_pton6 "host:80".data = none ∧
    sample_pton4 "/run/x".data = false ∧ sample_pton6 "/run/x".data = false ∧
    address.build sample_pton4 sample_pton6 "/run/x:1".data = none := by
  refine ⟨by decide, by decide, by decide, by decide, by decide, by decide, by decide,
    by decide⟩

theorem to_long_of_fits {x : Int} (h0 : -9223372036854775808 ≤ x)
    (h1 : x < 9223372036854775808) : to_long x = x := by
  unfold to_long
  omega

theorem deadline_nsec_eq {now : Timeval} {timeout : Nat}
    (h0 : 0 ≤ now.tv_usec) (h1 : now.tv_usec ≤ 999999) :
    buffers.deadline_nsec now timeout
      = now.tv_usec * 1000 + ((timeout % 1000 : Nat) : Int) * 1000000 := by
  unfold buffers.deadline_nsec
  have hm : (timeout % 1000) * 1000000 % UINT_MOD = (timeout % 1000) * 1000000 := by
    apply Nat.mod_eq_of_lt
    unfold UINT_MOD
    omega
  have hin : to_long (now.tv_usec * 1000) = now.tv_usec * 1000 :=
    to_long_of_fits (by omega) (by omega)
  have hmod : timeout % 1000 < 1000 := Nat.mod_lt _ (by decide)
  rw [hm, hin]
  push_cast
  exact to_long_of_fits (by omega) (by omega)

/-- C29: for a time `now` of `gettimeofday` with `0 <= tv_usec <= 999999`
whose seconds, with the seconds of the timeout and one more, fit a `time_t`,
and every `unsigned` timeout in milliseconds: the value of `tv_nsec` before
the carry test is below 2 000 000 000, so one carry step is enough; the
`timespec` computed by `pop_front(timeout)` and by `pop(first, last, timeout)`
is the same, it satisfies `0 <= tv_nsec < 1000000000`, and
`tv_sec * 10^9 + tv_nsec = now.tv_sec * 10^9 + now.tv_usec * 1000 +
timeout * 10^6`. -/
theorem C29_timed_pop_deadline (now : Timeval) (timeout : Nat)
    (husec0 : 0 ≤ now.tv_usec) (husec1 : now.tv_usec ≤ 999999)
    (htimeout : timeout < UINT_MOD)
    (hsec0 : -9223372036854775808 ≤ now.tv_sec)
    (hsec1 : now.tv_sec + 4294968 < 9223372036854775808) :
    0 ≤ buffers.deadline_nsec now timeout ∧ buffers.deadline_nsec now timeout < 2000000000 ∧
    buffers.pop_deadline now timeout = buffers.pop_front_deadline now timeout ∧
    0 ≤ (buffers.pop_front_deadline now timeout).tv_nsec ∧
    (buffers.pop_front_deadline now timeout).tv_nsec < 1000000000 ∧
    (buffers.pop_front_deadline now timeout).tv_sec * 1000000000 +
        (buffers.pop_front_deadline now timeout).tv_nsec
      = (now.tv_sec * 1000000000 + now.tv_usec * 1000) + (timeout : Int) * 1000000 ∧
    0 ≤ (buffers.pop_deadline now timeout).tv_nsec ∧
    (buffers.pop_deadline now timeout).tv_nsec < 1000000000 ∧
    (buffers.pop_deadline now timeout).tv_sec * 1000000000 +
        (buffers.pop_deadline now timeout).tv_nsec
      = (now.tv_sec * 1000000000 + now.tv_usec * 1000) + (timeout : Int) * 1000000 := by
  have hn := @deadline_nsec_eq now timeout husec0 husec1
  have hdiv : timeout / 1000 ≤ 4294967 := by
    unfold UINT_MOD at htimeout
    omega
  have hsplit : (timeout : Int) = ((timeout / 1000 : Nat) : Int) * 1000 +
      ((timeout % 1000 : Nat) : Int) := by
    have := Nat.div_add_mod timeout 1000
    omega
  have hmod : timeout % 1000 < 1000 := Nat.mod_lt _ (by decide)
  have hsec : to_long (now.tv_sec + ((timeout / 1000 : Nat) : Int))
      = now.tv_sec + ((timeout / 1000 : Nat) : Int) :=
    to_long_of_fits (by omega) (by omega)
  have hfront : 0 ≤ (buffers.pop_front_deadline now timeout).tv_nsec ∧
      (buffers.pop_front_deadline now timeout).tv_nsec < 1000000000 ∧
      (buffers.pop_front_deadline now timeout).tv_sec * 1000000000 +
          (buffers.pop_front_deadline now timeout).tv_nsec
        = (now.tv_sec * 1000000000 + now.tv_usec * 1000) + (timeout : Int) * 1000000 := by
    unfold buffers.pop_front_deadline
    dsimp only
    rw [hsec, hn]
    split
    · rename_i hge
      dsimp only
      rw [to_long_of_fits (by omega) (by omega), to_long_of_fits (by omega) (by omega)]
      refine ⟨by omega, by omega, ?_⟩
      rw [hsplit]
      ring
    · rename_i hlt
      dsimp only
      refine ⟨by omega, by omega, ?_⟩
      rw [hsplit]
      ring
  have heq : buffers.pop_deadline now timeout = buffers.pop_front_deadline now timeout := rfl
  refine ⟨by rw [hn]; omega, by rw [hn]; omega, heq, hfront.1, hfront.2.1, hfront.2.2, ?_, ?_, ?_⟩
  · rw [heq]; exact hfront.1
  · rw [heq]; exact hfront.2.1
  · rw [heq]; exact hfront.2.2

theorem C29_timed_pop_deadline_witness :
    buffers.pop_deadline { tv_sec := 100, tv_usec := 999999 } 250 = { tv_sec := 101, tv_nsec := 249999000 } ∧
    (buffers.pop_deadline { tv_sec := 100, tv_usec := 999999 } 250).tv_sec * 1000000000 +
        (buffers.pop_deadline { tv_sec := 100, tv_usec := 999999 } 250).tv_nsec
      = (100 * 1000000000 + 999999 * 1000) + 250 * 1000000 :=
  ⟨by decide,
    (C29_timed_pop_deadline { tv_sec := 100, tv_usec := 999999 } 250 (by decide) (by decide)
      (by decide) (by decide) (by decide)).2.2.2.2.2.2.2.2⟩

/-- On a queue that is not empty and an empty spill directory in which every
save fails at `open`, `save_buffers` is still inside its loop when the
supplied save outcomes are used up, however many they are. -/
theorem save_buffers_all_fail (lt : Int → Tm) {s : Sender} {x : Nat} {xs : List Nat}
    (hq : QueueRep s.mem (x :: xs)) (hc : s.mem.count = (x :: xs).length) (hf : s.files = [])
    (os : List SaveOracle) (ho : ∀ o ∈ os, o.open_ok = false) :
    sender.save_buffers lt os s = .error Fault.out_of_fuel := by
  obtain ⟨m', first, last, hpop, -, hch, -, -, -, -⟩ := hq.pop_cons
  have hfirst : first ≠ .null := by rw [hch.head_eq]; simp
  unfold sender.save_buffers
  dsimp only
  rw [hpop]
  dsimp only
  rw [if_pos (by rw [hc]; simp)]
  exact save_loop_all_fail lt os _ first last 0 true ho hf hfirst

/-- C30 (save_buffers terminates), the code at a failing input. The queue
holds the single buffer 1, the spill directory is empty and every `open` of a
spill file fails (an unwritable directory). The loop of `save_buffers` puts
the buffer into the pool after the failed save and tries the same buffer
again: for every number `n` of supplied save outcomes the call is still inside
its loop when they are used up, in `save_buffers` itself and in the step of
the worker that calls it after leaving its loop. The same holds for every
queue that is not empty. -/
theorem C30_save_buffers_never_finishes :
    Inv sample_sender1 [1] [] [] ∧ sample_sender1.files = [] ∧
    (∀ n : Nat, sender.save_buffers sample_oracle.localtime (List.replicate n save_fails)
      sample_sender1 = .error Fault.out_of_fuel) ∧
    (∀ n : Nat, sender.run_step 0 { sample_oracle with saves := List.replicate n save_fails }
      { sample_sender1 with pc := Pc.exiting } = .error Fault.out_of_fuel) ∧
    (∀ (lt : Int → Tm) (s : Sender) (x : Nat) (xs : List Nat) (n : Nat),
      QueueRep s.mem (x :: xs) → s.mem.count = (x :: xs).length → s.files = [] →
      sender.save_buffers lt (List.replicate n save_fails) s = .error Fault.out_of_fuel) := by
  have hfail : ∀ n : Nat, ∀ o ∈ List.replicate n save_fails, o.open_ok = false := by
    intro n o ho
    rw [List.eq_of_mem_replicate ho]
    rfl
  have h1 : ∀ n : Nat, sender.save_buffers sample_oracle.localtime
      (List.replicate n save_fails) sample_sender1 = .error Fault.out_of_fuel := fun n =>
    save_buffers_all_fail sample_oracle.localtime sample_sender1_inv.queue
      sample_sender1_inv.count rfl _ (hfail n)
  refine ⟨sample_sender1_inv, rfl, h1, ?_, ?_⟩
  · intro n
    have h2 : sender.save_buffers sample_oracle.localtime (List.replicate n save_fails)
        { sample_sender1 with pc := Pc.exiting } = .error Fault.out_of_fuel :=
      save_buffers_all_fail sample_oracle.localtime
        (s := { sample_sender1 with pc := Pc.exiting }) sample_sender1_inv.queue
        sample_sender1_inv.count rfl _ (hfail n)
    unfold sender.run_step
    simp only
    rw [h2]
  · intro lt s x xs n hq hc hf
    exact save_buffers_all_fail lt hq hc hf _ (hfail n)

theorem bytes_written_cons (w : WriteRes) (ws : List WriteRes) :
    bytes_written (w :: ws) = (if w.ret > 0 then w.ret.toNat else 0) + bytes_written ws := by
  simp [bytes_written]

/-- The write loop of `buffer::save` gives up exactly when some `write` fails
with an error other than `EINTR` while bytes are still missing, no earlier
call having failed that way. -/
theorem buffer_save_loop_none_iff (data : List Nat) :
    ∀ (ws : List WriteRes) (written : Nat) (out : List Nat),
      buffer.save_loop data ws written out = .ok none ↔
        ∃ pre w post, ws = pre ++ w :: post ∧ w.fails ∧ (∀ v ∈ pre, ¬ v.fails) ∧
          written + bytes_written pre < data.length
  | [], written, out => by
    unfold buffer.save_loop
    constructor
    · intro h
      split at h <;> cases h
    · rintro ⟨pre, w, post, e, -⟩
      simp at e
  | w :: ws, written, out => by
    unfold buffer.save_loop
    have ih := buffer_save_loop_none_iff data ws
    by_cases hlt : written < data.length
    · rw [if_pos hlt]
      by_cases hpos : w.ret > 0
      · rw [if_pos hpos, ih]
        have hnf : ¬ w.fails := by
          intro h
          have := h.1
          omega
        constructor
        · rintro ⟨pre, v, post, e, hv, hpre, hb⟩
          refine ⟨w :: pre, v, post, by rw [e]; rfl, hv, ?_, ?_⟩
          · intro u hu
            rcases List.mem_cons.1 hu with hu | hu
            · rw [hu]; exact hnf
            · exact hpre u hu
          · rw [bytes_written_cons, if_pos hpos]
            omega
        · rintro ⟨pre, v, post, e, hv, hpre, hb⟩
          cases pre with
          | nil =>
            simp only [List.nil_append, List.cons.injEq] at e
            rw [← e.1] at hv
            exact absurd hv hnf
          | cons u pre' =>
            simp only [List.cons_append, List.cons.injEq] at e
            rw [bytes_written_cons, ← e.1, if_pos hpos] at hb
            exact ⟨pre', v, post, e.2, hv, fun x hx => hpre x (List.mem_cons_of_mem _ hx),
              by omega⟩
      · rw [if_neg hpos]
        by_cases hneg : w.ret < 0
        · rw [if_pos hneg]
          by_cases he : w.eintr = true
          · rw [if_neg (by simp [he]), ih]
            have hnf : ¬ w.fails := by
              intro h
              rw [h.2] at he
              cases he
            constructor
            · rintro ⟨pre, v, post, e, hv, hpre, hb⟩
              refine ⟨w :: pre, v, post, by rw [e]; rfl, hv, ?_, ?_⟩
              · intro u hu
                rcases List.mem_cons.1 hu with hu | hu
                · rw [hu]; exact hnf
                · exact hpre u hu
              · rw [bytes_written_cons, if_neg hpos]
                omega
            · rintro ⟨pre, v, post, e, hv, hpre, hb⟩
              cases pre with
              | nil =>
                simp only [List.nil_append, List.cons.injEq] at e
                rw [← e.1] at hv
                exact absurd hv hnf
              | cons u pre' =>
                simp only [List.cons_append, List.cons.injEq] at e
                rw [bytes_written_cons, ← e.1, if_neg hpos] at hb
                exact ⟨pre', v, post, e.2, hv, fun x hx => hpre x (List.mem_cons_of_mem _ hx),
                  by omega⟩
          · rw [if_pos (by simpa using he)]
            simp only [true_iff]
            exact ⟨[], w, ws, rfl, ⟨hneg, by simpa using he⟩, by simp,
              by simpa [bytes_written] using hlt⟩
        · rw [if_neg hneg, ih]
          have hnf : ¬ w.fails := fun h => hneg h.1
          constructor
          · rintro ⟨pre, v, post, e, hv, hpre, hb⟩
            refine ⟨w :: pre, v, post, by rw [e]; rfl, hv, ?_, ?_⟩
            · intro u hu
              rcases List.mem_cons.1 hu with hu | hu
              · rw [hu]; exact hnf
              · exact hpre u hu
            · rw [bytes_written_cons, if_neg hpos]
              omega
          · rintro ⟨pre, v, post, e, hv, hpre, hb⟩
            cases pre with
            | nil =>
              simp only [List.nil_append, List.cons.injEq] at e
              rw [← e.1] at hv
              exact absurd hv hnf
            | cons u pre' =>
              simp only [List.cons_append, List.cons.injEq] at e
              rw [bytes_written_cons, ← e.1, if_neg hpos] at hb
              exact ⟨pre', v, post, e.2, hv, fun x hx => hpre x (List.mem_cons_of_mem _ hx),
                by omega⟩
    · rw [if_neg hlt]
      constructor
      · intro h; cases h
      · rintro ⟨pre, v, post, -, -, -, hb⟩
        omega

/-- C26: a successful `buf.init(src, n)` (with `n` bytes available in `src`)
returns true and leaves the buffer with length `n` and data the first `n`
bytes of `src`, every other buffer and all links unchanged; a failed one
changes nothing. For every outcome of `open` and every sequence of `write`
results, `buf.save(f)` on that buffer: if it returns true, the bytes written
to the file, concatenated in order, are exactly those `n` bytes; it returns
false exactly when `open` fails, the directory being unchanged, or `open`
succeeds and some `write` fails with an error other than `EINTR` while bytes
are still missing, and then the file is unlinked. -/
theorem C26_init_save_round_trip (m : Mem) (p : Ptr) (src : List Nat) (n : Nat)
    (hn : n ≤ src.length) (hp : p ≠ Ptr.null) :
    (buffer.init m p src n true).2 = true ∧
    (buffer.init m p src n true).1.data p = src.take n ∧
    ((buffer.init m p src n true).1.data p).length = n ∧
    (∀ q, q ≠ p → (buffer.init m p src n true).1.data q = m.data q) ∧
    (buffer.init m p src n true).1.next = m.next ∧
    (buffer.init m p src n true).1.prev = m.prev ∧
    (buffer.init m p src n true).1.count = m.count ∧
    (buffer.init m p src n true).1.first = m.first ∧
    buffer.init m p src n false = (m, false) ∧
    (∀ (dir : String) (fs fs' : List File) (path : String) (o : SaveOracle),
      (buffer.save (buffer.init m p src n true).1 p dir fs path o = .ok (fs', true) →
        o.open_ok = true ∧
        buffer.save_loop (src.take n) o.writes 0 [] = .ok (some (src.take n)) ∧
        fs' = fs_write dir fs path (src.take n) ∧
        ∃ f ∈ fs', f.content = src.take n ∧ f.regular = true) ∧
      (buffer.save (buffer.init m p src n true).1 p dir fs path o = .ok (fs', false) ↔
        ((o.open_ok = false ∧ fs' = fs) ∨
          (o.open_ok = true ∧ fs' = fs_unlink dir fs path ∧
            ∃ pre w post, o.writes = pre ++ w :: post ∧ w.fails ∧ (∀ v ∈ pre, ¬ v.fails) ∧
              bytes_written pre < n)))) := by
  have hdata : (buffer.init m p src n true).1.data p = src.take n := by
    simp [buffer.init]
  have hlen : (src.take n).length = n := by
    rw [List.length_take]
    omega
  refine ⟨rfl, hdata, by rw [hdata, hlen], ?_, rfl, rfl, rfl, rfl, rfl, ?_⟩
  · intro q hq
    simp [buffer.init, hq]
  · intro dir fs fs' path o
    have hnone := buffer_save_loop_none_iff (src.take n) o.writes 0 []
    rw [hlen] at hnone
    simp only [Nat.zero_add] at hnone
    constructor
    · intro h
      unfold buffer.save at h
      rw [if_neg hp, hdata] at h
      split at h
      · rename_i ho
        split at h
        · rename_i out hout
          have he := buffer_save_loop_out (src.take n) o.writes 0 [] out (by simp) hout
          subst he
          injection h with h
          injection h with h1 h2
          refine ⟨ho, hout, h1.symm, ?_⟩
          rw [← h1]
          unfold fs_write
          exact ⟨_, List.mem_append_right _ (List.mem_singleton_self _), rfl, rfl⟩
        · injection h with h
          injection h with h1 h2
          cases h2
        · cases h
      · injection h with h
        injection h with h1 h2
        cases h2
    · unfold buffer.save
      rw [if_neg hp, hdata]
      by_cases ho : o.open_ok = true
      · rw [if_pos ho]
        cases hsl : buffer.save_loop (src.take n) o.writes 0 [] with
        | error e =>
          simp only
          constructor
          · intro h; cases h
          · rintro (⟨h, -⟩ | ⟨-, -, h⟩)
            · rw [ho] at h; cases h
            · have := hnone.2 h
              rw [hsl] at this
              cases this
        | ok r =>
          cases r with
          | none =>
            simp only
            constructor
            · intro h
              injection h with h
              injection h with h1 h2
              exact Or.inr ⟨ho, h1.symm, hnone.1 hsl⟩
            · rintro (⟨h, -⟩ | ⟨-, h, -⟩)
              · rw [ho] at h; cases h
              · rw [h]
          | some out =>
            simp only
            constructor
            · intro h
              injection h with h
              injection h with h1 h2
              cases h2
            · rintro (⟨h, -⟩ | ⟨-, -, h⟩)
              · rw [ho] at h; cases h
              · have := hnone.2 h
                rw [hsl] at this
                cases this
      · rw [if_neg ho]
        have ho' : o.open_ok = false := by simpa using ho
        constructor
        · intro h
          injection h with h
          injection h with h1 h2
          exact Or.inl ⟨ho', h1.symm⟩
        · rintro (⟨-, h⟩ | ⟨h, -⟩)
          · rw [h]
          · exact absurd h ho

theorem C26_init_save_round_trip_witness :
    (buffer.init sample_mem (.buf 1) [7, 8, 9] 2 true).1.data (.buf 1) = [7, 8] ∧
    buffer.save (buffer.init sample_mem (.buf 1) [7, 8, 9] 2 true).1 (.buf 1) "spool" [] "spool/f"
        { open_ok := true, writes := [{ ret := 1, eintr := false }, { ret := -1, eintr := true },
          { ret := 1, eintr := false }] }
      = .ok ([{ name := "f", regular := true, content := [7, 8] }], true) :=
  ⟨(C26_init_save_round_trip sample_mem (.buf 1) [7, 8, 9] 2 (by decide) (by decide)).2.1,
    rfl⟩

theorem follow_next_length (m : Mem) : ∀ (k : Nat) (p : Ptr), (follow_next m k p).length = k
  | 0, _ => rfl
  | k + 1, p => by simp [follow_next, follow_next_length m k]

theorem follow_next_slinked (m : Mem) : ∀ (k : Nat) (p : Ptr), Slinked m (follow_next m k p)
  | 0, _ => by simp [follow_next, Slinked]
  | 1, p => by simp [follow_next, Slinked]
  | k + 2, p => by
    have ih := follow_next_slinked m (k + 1) (m.next p)
    unfold Slinked at ih ⊢
    rw [follow_next]
    rw [follow_next] at ih ⊢
    exact List.chain'_cons.2 ⟨rfl, ih⟩

theorem follow_next_dropLast (m : Mem) : ∀ (k : Nat) (p : Ptr),
    follow_next m k p = (follow_next m (k + 1) p).dropLast
  | 0, p => by simp [follow_next]
  | k + 1, p => by
    have ih := follow_next_dropLast m k (m.next p)
    have hne : follow_next m (k + 1) (m.next p) ≠ [] := by
      intro e
      have := follow_next_length m (k + 1) (m.next p)
      rw [e] at this
      simp at this
    rw [follow_next, follow_next, List.dropLast_cons_of_ne_nil hne, ← ih]

theorem chain'_getElem? {α : Type} {R : α → α → Prop} : ∀ (l : List α) (k : Nat) (a b : α),
    List.Chain' R l → l[k]? = some a → l[k + 1]? = some b → R a b
  | [], _, _, _, _, h, _ => by simp at h
  | [_], _, _, _, _, _, h => by simp at h
  | x :: y :: l, 0, a, b, hc, h1, h2 => by
    simp only [List.getElem?_cons_zero, Option.some.injEq, List.getElem?_cons_succ] at h1 h2
    subst h1 h2
    exact (List.chain'_cons.1 hc).1
  | x :: y :: l, k + 1, a, b, hc, h1, h2 => by
    simp only [List.getElem?_cons_succ] at h1 h2
    exact chain'_getElem? (y :: l) k a b (List.chain'_cons.1 hc).2 h1 (by simpa using h2)

/-- A doubly linked chain that starts at the header and goes on through
buffers has no repetition. -/
theorem nodup_of_dlinked_header {m : Mem} {xs : List Nat}
    (h : Dlinked m (Ptr.header :: bufs xs)) : (Ptr.header :: bufs xs).Nodup := by
  rw [List.nodup_iff_getElem?_ne_getElem?]
  intro i
  induction i with
  | zero =>
    intro j hj hlen e
    simp only [List.getElem?_cons_zero] at e
    obtain ⟨j', rfl⟩ : ∃ j', j = j' + 1 := ⟨j - 1, by omega⟩
    simp only [List.getElem?_cons_succ] at e
    have : Ptr.header ∈ bufs xs := by
      rw [List.mem_iff_getElem?]
      exact ⟨j', e.symm⟩
    simp at this
  | succ i ih =>
    intro j hj hlen e
    obtain ⟨j', rfl⟩ : ∃ j', j = j' + 1 := ⟨j - 1, by omega⟩
    have hi : i + 1 < (Ptr.header :: bufs xs).length := by omega
    obtain ⟨a, ha⟩ : ∃ a, (Ptr.header :: bufs xs)[i]? = some a :=
      ⟨_, List.getElem?_eq_getElem (by omega)⟩
    obtain ⟨a', ha'⟩ : ∃ a', (Ptr.header :: bufs xs)[j']? = some a' :=
      ⟨_, List.getElem?_eq_getElem (by omega)⟩
    obtain ⟨b, hb⟩ : ∃ b, (Ptr.header :: bufs xs)[i + 1]? = some b :=
      ⟨_, List.getElem?_eq_getElem hi⟩
    have hb' : (Ptr.header :: bufs xs)[j' + 1]? = some b := by rw [← e, hb]
    have h1 := (chain'_getElem? _ i a b h ha hb).2
    have h2 := (chain'_getElem? _ j' a' b h ha' hb').2
    exact ih j' (by omega) (by omega) (by rw [ha, ha', ← h1, ← h2])

theorem dlinked_of_slinked {m : Mem} : ∀ (l : List Ptr), Slinked m l →
    (∀ a ∈ l.dropLast, m.prev (m.next a) = a) → Dlinked m l
  | [], _, _ => by simp [Dlinked]
  | [_], _, _ => by simp [Dlinked]
  | a :: b :: l, hs, hp => by
    unfold Slinked at hs
    unfold Dlinked
    rw [List.chain'_cons] at hs ⊢
    refine ⟨⟨hs.1, ?_⟩, ?_⟩
    · have := hp a (by simp [List.dropLast])
      rw [hs.1] at this
      exact this
    · exact dlinked_of_slinked (b :: l) hs.2 (fun x hx => hp x (by
        rw [List.dropLast_cons_of_ne_nil (by simp)]
        exact List.mem_cons_of_mem _ hx))

theorem prev_next_of_dlinked {m : Mem} : ∀ (l : List Ptr), Dlinked m l →
    ∀ a ∈ l.dropLast, m.prev (m.next a) = a
  | [], _, a, h => by simp at h
  | [_], _, a, h => by simp at h
  | x :: y :: l, hd, a, h => by
    unfold Dlinked at hd
    rw [List.chain'_cons] at hd
    rw [List.dropLast_cons_of_ne_nil (by simp)] at h
    rcases List.mem_cons.1 h with e | e
    · rw [e, hd.1.1]; exact hd.1.2
    · exact prev_next_of_dlinked (y :: l) hd.2 a e

/-- The invariant stated with `follow_next` is the representation invariant
`QueueRep` together with the count. -/
theorem queue_inv_iff (m : Mem) :
    queue_inv m ↔ m.count < SIZE_MOD ∧ ∃ xs, QueueRep m xs ∧ m.count = xs.length := by
  constructor
  · rintro ⟨hlt, xs, hc, hf, hp, -⟩
    refine ⟨hlt, xs, ?_, hc⟩
    have hs : Slinked m (bufs xs ++ [Ptr.header]) := by
      rw [← hf]; exact follow_next_slinked m _ _
    have hhead : (bufs xs ++ [Ptr.header]).head? = some (m.next .header) := by
      rw [← hf, follow_next]; rfl
    have hs' : Slinked m (Ptr.header :: (bufs xs ++ [Ptr.header])) := by
      unfold Slinked at hs ⊢
      cases hl : bufs xs ++ [Ptr.header] with
      | nil => simp
      | cons y l =>
        rw [hl] at hs hhead
        simp only [List.head?_cons, Option.some.injEq] at hhead
        exact List.chain'_cons.2 ⟨hhead.symm, hs⟩
    have hd : Dlinked m (Ptr.header :: bufs xs ++ [Ptr.header]) := by
      refine dlinked_of_slinked _ hs' ?_
      intro a ha
      refine hp a ?_
      have e : (Ptr.header :: (bufs xs ++ [Ptr.header])).dropLast = Ptr.header :: bufs xs := by
        rw [← List.cons_append, List.dropLast_concat]
      rw [List.cons_append, e] at ha
      exact ha
    have hd1 : Dlinked m (Ptr.header :: bufs xs) := by
      unfold Dlinked at hd ⊢
      exact (List.chain'_append.1 hd).1
    have hnd := nodup_of_dlinked_header hd1
    exact ⟨List.Nodup.of_map _ (List.nodup_cons.1 hnd).2, hd⟩
  · rintro ⟨hlt, xs, hq, hc⟩
    obtain ⟨n, hn, hnn, hpn, hL⟩ := hq.head_facts
    refine ⟨hlt, xs, hc, ?_, ?_, ?_⟩
    · have := follow_next_of_slinked (bufs xs ++ [Ptr.header]) (m.next .header)
        hL.slinked (by rw [hn, hnn])
      rw [hc]
      simpa using this
    · intro a ha
      refine prev_next_of_dlinked _ hq.links a ?_
      rw [List.dropLast_concat]
      exact ha
    · cases xs with
      | nil =>
        have hl := hq.links
        simp [Dlinked] at hl
        simp [hc, hl.1, hl.2]
      | cons x xs =>
        simp only [bufs_cons, List.cons_append, List.head?_cons, Option.some.injEq] at hn
        constructor
        · rintro ⟨h1, -⟩
          rw [hnn, ← hn] at h1
          cases h1
        · intro h0
          rw [hc] at h0
          simp at h0

theorem queue_buffers_eq {m : Mem} {xs : List Nat} (hq : QueueRep m xs)
    (hc : m.count = xs.length) : queue_buffers m = bufs xs := by
  obtain ⟨n, hn, hnn, hpn, hL⟩ := hq.head_facts
  have h1 := follow_next_of_slinked (bufs xs ++ [Ptr.header]) (m.next .header)
    hL.slinked (by rw [hn, hnn])
  unfold queue_buffers
  rw [follow_next_dropLast, hc]
  simp only [List.length_append, bufs_length, List.length_singleton] at h1
  rw [h1, List.dropLast_concat]

theorem pop_front_count_cons {m : Mem} {x : Nat} {xs : List Nat} (h : QueueRep m (x :: xs)) :
    (buffers.pop_front m).1.count = (m.count + SIZE_MOD - 1) % SIZE_MOD := by
  obtain ⟨n, hn, hnn, -, -⟩ := h.head_facts
  simp only [bufs_cons, List.cons_append, List.head?_cons, Option.some.injEq] at hn
  have hx : m.next .header ≠ .header := by rw [hnn, ← hn]; simp
  simp [buffers.pop_front, hx]

/-- C27: the structural invariant of the queue (following `next()` from the
header visits exactly `count` buffers and comes back to the header, `prev()`
is the inverse of `next()` along the cycle, the header is linked to itself
exactly when the count is 0) holds for a freshly constructed queue, and from a
queue that satisfies it, it holds again after `push_back(buf)` and
`push_front(buf)` of a buffer that is not in the queue, after
`push_back(first, last)` and `push_front(first, last)` of a well-formed chain
none of whose buffers is in the queue (the calls return), the new count
fitting a `size_t`, and after `pop_front()`, `pop(first, last)` and the timed
`pop`. -/
theorem C27_queue_invariant (m : Mem) (h : queue_inv m) :
    (∀ m0 : Mem, queue_inv (buffers.init m0)) ∧
    (∀ b : Nat, Ptr.buf b ∉ queue_buffers m → m.count + 1 < SIZE_MOD →
      queue_inv (buffers.push_back m (.buf b)).1 ∧
      queue_inv (buffers.push_front m (.buf b)).1) ∧
    (∀ (first last : Ptr) (chain : List Nat) (fuel : Nat),
      ChainRep m first last chain → (∀ c ∈ chain, Ptr.buf c ∉ queue_buffers m) →
      chain.length ≤ fuel → m.count + chain.length < SIZE_MOD →
      (∃ m' k, buffers.push_back_range m fuel first last = .ok (m', k) ∧ queue_inv m') ∧
      (∃ m' k, buffers.push_front_range m fuel first last = .ok (m', k) ∧ queue_inv m')) ∧
    queue_inv (buffers.pop_front m).1 ∧ queue_inv (buffers.pop m).1 ∧
    queue_inv (buffers.pop_timed m).1 := by
  obtain ⟨hlt, xs, hq, hc⟩ := (queue_inv_iff m).1 h
  have hqb := queue_buffers_eq hq hc
  have hzero : (0 : Nat) < SIZE_MOD := by unfold SIZE_MOD; omega
  have hpop : queue_inv (buffers.pop m).1 := by
    rw [queue_inv_iff]
    cases xs with
    | nil =>
      rw [hq.pop_nil]
      exact ⟨hlt, [], hq, hc⟩
    | cons x xs =>
      obtain ⟨m', first, last, e, hq', -, hz, -⟩ := hq.pop_cons
      rw [e]
      exact ⟨by rw [hz]; exact hzero, [], hq', hz⟩
  refine ⟨?_, ?_, ?_, ?_, hpop, hpop⟩
  · intro m0
    rw [queue_inv_iff]
    exact ⟨hzero, [], queueRep_init m0, rfl⟩
  · intro b hb hfit
    rw [hqb] at hb
    have hb' : b ∉ xs := fun hx => hb (buf_mem_bufs.2 hx)
    have h1 : (m.count + 1) % SIZE_MOD = m.count + 1 := Nat.mod_eq_of_lt hfit
    constructor
    · rw [queue_inv_iff]
      refine ⟨?_, xs ++ [b], hq.push_back hb', ?_⟩
      · rw [(push_back_count m _).2, h1]; exact hfit
      · rw [(push_back_count m _).2, h1, hc]; simp
    · rw [queue_inv_iff]
      refine ⟨?_, b :: xs, hq.push_front hb', ?_⟩
      · rw [(push_front_count m _).2, h1]; exact hfit
      · rw [(push_front_count m _).2, h1, hc]; simp
  · intro first last chain fuel hch hdisj hfuel hfit
    have hd : xs.Disjoint chain := by
      intro a ha1 ha2
      have := hdisj a ha2
      rw [hqb] at this
      exact this (buf_mem_bufs.2 ha1)
    have hk : (m.count + chain.length) % SIZE_MOD = m.count + chain.length :=
      Nat.mod_eq_of_lt hfit
    constructor
    · obtain ⟨m', e, hq', hc', -⟩ := hq.push_back_range hch hd hfuel
      refine ⟨m', _, e, ?_⟩
      rw [queue_inv_iff]
      refine ⟨by rw [hc', hk]; exact hfit, xs ++ chain, hq', ?_⟩
      rw [hc', hk, hc]; simp
    · obtain ⟨m', e, hq', hc', -⟩ := hq.push_front_range hch hd hfuel
      refine ⟨m', _, e, ?_⟩
      rw [queue_inv_iff]
      refine ⟨by rw [hc', hk]; exact hfit, chain ++ xs, hq', ?_⟩
      rw [hc', hk, hc]; simp; omega
  · rw [queue_inv_iff]
    cases xs with
    | nil =>
      rw [hq.pop_front_nil]
      exact ⟨hlt, [], hq, hc⟩
    | cons x xs =>
      have hcnt := pop_front_count_cons hq
      have hm : (m.count + SIZE_MOD - 1) % SIZE_MOD = m.count - 1 := by
        have hpos : 1 ≤ m.count := by rw [hc]; simp
        have e : m.count + SIZE_MOD - 1 = (m.count - 1) + SIZE_MOD := by omega
        rw [e, Nat.add_mod_right, Nat.mod_eq_of_lt (by omega)]
      refine ⟨by rw [hcnt, hm]; omega, xs, hq.pop_front_cons.2, ?_⟩
      rw [hcnt, hm, hc]
      simp

theorem C27_queue_invariant_witness :
    queue_inv sample_queue3 ∧ queue_inv (buffers.pop_front sample_queue3).1 ∧
    queue_inv (buffers.push_back sample_queue3 (.buf 7)).1 ∧
    queue_inv (buffers.pop sample_queue3).1 := by
  have h0 : queue_inv sample_queue3 :=
    (queue_inv_iff sample_queue3).2 ⟨by unfold SIZE_MOD; decide, [1, 2, 3], by decide, rfl⟩
  have h := C27_queue_invariant sample_queue3 h0
  exact ⟨h0, h.2.2.2.1, (h.2.1 7 (by decide) (by unfold SIZE_MOD; decide)).1, h.2.2.2.2.1⟩

end net
